import Mathlib

/-!
# MallocLab V3 (`V3/build4.c`): segregated explicit free lists

Shallow embedding of the allocator of `V3/build4.c`.

* The arena (`Mem`) is a map from byte addresses to 8-byte words.  Every object the
  allocator touches (a header, a footer, a `next` or `prev` pointer) is one
  8-byte word, and the allocator only forms addresses `base + 8 * k`, so a word
  is addressed by the address of its first byte.
* A tag word holds `allocated` in bit 0 and `block_size` in bits 1..31; the
  upper 32 bits (the field `_`) are never written by the allocator.
* Pointers are natural numbers, `NULL = 0`, `(void *)-1 = 2^64 - 1`.
* `mem_sbrk` lives in `memlib`, which is not part of the sources: whether a
  grow request is granted is an input (`grant`) of the operations that call
  it, and the arena has no size limit of its own.
-/

namespace MallocV3

/-- Arena contents: the 8-byte word stored at each byte address. -/
structure Mem where
  /-- Load one word. -/
  rd : Nat → Nat

/-- Macro `LISTMAX`. -/
abbrev LISTMAX : Nat := 5
/-- Macro `MINSIZE`. -/
abbrev MINSIZE : Nat := 4000
/-- Macro `CHUNKSIZE`, `1 << 13`. -/
abbrev CHUNKSIZE : Nat := 8192
/-- Value of `sizeof(header_t)` and of `sizeof(footer_t)`. -/
abbrev HSIZE : Nat := 8
/-- Macro `OVERHEAD`, `sizeof(header_t) + sizeof(footer_t)`. -/
abbrev OVERHEAD : Nat := 16
/-- Macro `MIN_BLOCK_SIZE`. -/
abbrev MIN_BLOCK_SIZE : Nat := 32
/-- Enumerator `FREE`. -/
abbrev FREE : Nat := 0
/-- Enumerator `ALLOC`. -/
abbrev ALLOC : Nat := 1
/-- Null pointer. -/
abbrev NULL : Nat := 0
/-- Value of `(void *)-1`, the failure value of `mem_sbrk`. -/
abbrev SBRK_FAIL : Nat := 2 ^ 64 - 1

/-- Store one word. -/
def wr (m : Mem) (a v : Nat) : Mem := ⟨fun x => if x = a then v else m.rd x⟩

/-- Macro `GET_SIZE`: the 31-bit field `block_size` (bits 1..31). -/
def GET_SIZE (m : Mem) (p : Nat) : Nat := m.rd p % 2 ^ 32 / 2

/-- Macro `GET_ALLOC`: the 1-bit field `allocated` (bit 0). -/
def GET_ALLOC (m : Mem) (p : Nat) : Nat := m.rd p % 2

/-- Assignment `p->block_size = size`: bits 1..31 are replaced by the low 31
bits of `size`, every other bit of the word is kept. -/
def set_block_size (m : Mem) (p size : Nat) : Mem :=
  wr m p (m.rd p / 2 ^ 32 * 2 ^ 32 + size % 2 ^ 31 * 2 + m.rd p % 2)

/-- Assignment `p->allocated = alloc`: bit 0 is replaced by the low bit of
`alloc`, every other bit of the word is kept. -/
def set_allocated (m : Mem) (p alloc : Nat) : Mem :=
  wr m p (m.rd p / 2 * 2 + alloc % 2)

/-- Macro `PACK(p, size, alloc)`:
`((p)->block_size = size, (p)->allocated = alloc)`. -/
def PACK (m : Mem) (p size alloc : Nat) : Mem :=
  set_allocated (set_block_size m p size) p alloc

/-- Field read `p->body.next` (the word after the header). -/
def getNext (m : Mem) (p : Nat) : Nat := m.rd (p + HSIZE)

/-- Field read `p->body.prev`. -/
def getPrev (m : Mem) (p : Nat) : Nat := m.rd (p + HSIZE + 8)

/-- Macro `NEXT(p, nxt)`: `p->body.next = nxt`. -/
def NEXT (m : Mem) (p nxt : Nat) : Mem := wr m (p + HSIZE) nxt

/-- Macro `PREV(p, prv)`: `p->body.prev = prv`. -/
def PREV (m : Mem) (p prv : Nat) : Mem := wr m (p + HSIZE + 8) prv

/-- Macro `HDRP`. -/
def HDRP (bp : Nat) : Nat := bp

/-- Macro `FTRP`: `bp + GET_SIZE(HDRP(bp)) - sizeof(header_t)`. -/
def FTRP (m : Mem) (bp : Nat) : Nat := bp + GET_SIZE m (HDRP bp) - HSIZE

/-- Macro `PACK` applied to the argument `FTRP(bp)`.  The macro repeats its
first argument in both assignments, so `FTRP(bp)` is evaluated once for
`block_size` and once more, on the updated contents, for `allocated`. -/
def PACK_FTRP (m : Mem) (bp size alloc : Nat) : Mem :=
  let m1 := set_block_size m (FTRP m bp) size
  set_allocated m1 (FTRP m1 bp) alloc

/-- Function `get_footer`: `block + block->block_size - sizeof(footer_t)`. -/
def get_footer (m : Mem) (block : Nat) : Nat := block + GET_SIZE m block - HSIZE

/-- Macro `PLDP`. -/
def PLDP (bp : Nat) : Nat := bp + HSIZE

/-- Macro `PREV_FTRP`. -/
def PREV_FTRP (bp : Nat) : Nat := bp - HSIZE

/-- Macro `NEXT_BLKP`. -/
def NEXT_BLKP (m : Mem) (bp : Nat) : Nat := bp + GET_SIZE m bp

/-- Macro `PREV_BLKP`. -/
def PREV_BLKP (m : Mem) (bp : Nat) : Nat := bp - GET_SIZE m (PREV_FTRP bp)

/-- Loop of `calcList`: `c` is `segListCounter`, the first argument counts the
iterations that remain. -/
def calcListLoop (blockSize : Nat) : Nat → Nat → Nat → Nat
  | 0, _, _ => LISTMAX
  | n + 1, c, x => if blockSize ≤ x then c else calcListLoop blockSize n (c + 1) (x * 2)

/-- Function `calcList`. -/
def calcList (blockSize : Nat) : Nat := calcListLoop blockSize (LISTMAX + 1) 0 MINSIZE

/-- The allocator state: the arena with its two bounds (kept by `memlib`) and
the three globals of `build4.c`. -/
structure Heap where
  /-- Arena contents. -/
  mem : Mem
  /-- First byte of the arena (`mem_heap_lo()`). -/
  mem_start_brk : Nat
  /-- One past the last byte of the arena (`mem_heap_hi() + 1`). -/
  mem_brk : Nat
  /-- Global `prologue`. -/
  prologue : Nat
  /-- Global `segList`. -/
  segList : Nat
  /-- Global `epilogue`. -/
  epilogue : Nat

/-- Modelled from the spec: `mem_sbrk` of `memlib`, which is not part of the sources:
"`heap_sbrk(n) → base | ERR`: extends the single arena by n bytes".  A granted
request returns the old break and moves the break up by `incr`; a refused
request returns `(void *)-1` and changes nothing.  The environment decides
(`grant`), and no arena reaches past the end of the 64-bit address space. -/
def mem_sbrk (grant : Bool) (h : Heap) (incr : Nat) : Nat × Heap :=
  if grant = true ∧ h.mem_brk + incr < 2 ^ 64 then
    (h.mem_brk, { h with mem_brk := h.mem_brk + incr })
  else (SBRK_FAIL, h)

/-- Function `mem_heapsize` of `memlib`: the arena size in bytes. -/
def mem_heapsize (h : Heap) : Nat := h.mem_brk - h.mem_start_brk

/-- Function `endFree`. -/
def endFree (h : Heap) : Bool :=
  let lastBlock := PREV_BLKP h.mem h.epilogue
  GET_ALLOC h.mem lastBlock = 0

/-- Function `lastSize`. -/
def lastSize (h : Heap) : Nat :=
  let lastBlock := PREV_BLKP h.mem h.epilogue
  GET_SIZE h.mem lastBlock

/-- Function `insertBlock`. -/
def insertBlock (segList : Nat) (m : Mem) (block : Nat) : Mem :=
  let blockSize := GET_SIZE m block
  let targetNumber := calcList blockSize
  let targetNode := segList + MIN_BLOCK_SIZE * targetNumber
  let m_root := getNext m targetNode
  let m_tail := getPrev m targetNode
  if m_root = NULL then
    if m_tail ≠ NULL then m
    else
      let m1 := PREV m block NULL
      let m2 := NEXT m1 block NULL
      let m3 := NEXT m2 targetNode block
      PREV m3 targetNode block
  else
    let m1 := PREV m m_root block
    let m2 := NEXT m1 block m_root
    let m3 := PREV m2 block NULL
    let m4 := NEXT m3 targetNode block
    NEXT m4 m_tail NULL

/-- Function `removeBlock`. -/
def removeBlock (segList : Nat) (m : Mem) (block : Nat) : Mem :=
  if block = NULL then m
  else
    let blockSize := GET_SIZE m block
    let targetNumber := calcList blockSize
    let targetNode := segList + MIN_BLOCK_SIZE * targetNumber
    let m_root := getNext m targetNode
    let m_tail := getPrev m targetNode
    if m_root = NULL then m
    else if m_root = m_tail then
      if block ≠ m_root ∨ block ≠ m_tail then m
      else
        let m1 := NEXT m targetNode NULL
        let m2 := PREV m1 targetNode NULL
        let m3 := PREV m2 block NULL
        NEXT m3 block NULL
    else if block = m_root then
      let succptr := getNext m block
      let m1 := NEXT m targetNode succptr
      let m2 := PREV m1 succptr NULL
      let m3 := PREV m2 block NULL
      NEXT m3 block NULL
    else if block = m_tail then
      let predptr := getPrev m m_tail
      let m1 := PREV m targetNode predptr
      let m2 := NEXT m1 predptr NULL
      let m3 := PREV m2 block NULL
      NEXT m3 block NULL
    else
      let predptr := getPrev m block
      let succptr := getNext m block
      let m1 := NEXT m predptr succptr
      let m2 := PREV m1 succptr predptr
      let m3 := NEXT m2 block NULL
      PREV m3 block NULL

/-- Function `place`.  `split_size` is a `uint32_t`: the difference is taken
modulo `2^32`. -/
def place (segList : Nat) (m : Mem) (block asize : Nat) : Mem :=
  let split_size := (GET_SIZE m block + 2 ^ 32 - asize % 2 ^ 32) % 2 ^ 32
  if split_size < MIN_BLOCK_SIZE then
    let m1 := PACK m (HDRP block) (GET_SIZE m block) ALLOC
    let m2 := PACK_FTRP m1 block (GET_SIZE m1 block) ALLOC
    removeBlock segList m2 block
  else
    let m1 := removeBlock segList m block
    let m2 := set_block_size m1 block asize
    let m3 := set_allocated m2 block ALLOC
    let m_footer := get_footer m3 block
    let m4 := set_block_size m3 m_footer asize
    let m5 := set_allocated m4 m_footer ALLOC
    let splitBlock := NEXT_BLKP m5 block
    let m6 := set_block_size m5 splitBlock split_size
    let m7 := set_allocated m6 splitBlock FREE
    let splitBlock_footer := get_footer m7 splitBlock
    let m8 := set_block_size m7 splitBlock_footer split_size
    let m9 := set_allocated m8 splitBlock_footer FREE
    insertBlock segList m9 splitBlock

/-- Inner `while` loop of `find_fit`: at most `n` more probes of one list,
starting at `m_root`. -/
def find_fit_scan (m : Mem) (asize : Nat) : Nat → Nat → Nat
  | 0, _ => NULL
  | n + 1, m_root =>
    if m_root = NULL then NULL
    else if GET_SIZE m m_root ≥ asize then m_root
    else find_fit_scan m asize n (getNext m m_root)

/-- Outer `for` loop of `find_fit`: lists `i`, `i + 1`, ... for `n` more
lists (`i <= LISTMAX`). -/
def find_fit_lists (segList : Nat) (m : Mem) (asize : Nat) : Nat → Nat → Nat
  | 0, _ => NULL
  | n + 1, i =>
    let targetNode := segList + MIN_BLOCK_SIZE * i
    let m_root := getNext m targetNode
    let r := find_fit_scan m asize 12 m_root
    if r ≠ NULL then r else find_fit_lists segList m asize n (i + 1)

/-- Function `find_fit`.  `blockSize` is a `uint32_t`. -/
def find_fit (segList : Nat) (m : Mem) (asize : Nat) : Nat :=
  let blockSize := asize % 2 ^ 32
  let targetNumber := calcList blockSize
  find_fit_lists segList m asize (LISTMAX + 1 - targetNumber) targetNumber

/-- Function `coalesce`: the new contents and the returned block. -/
def coalesce (segList : Nat) (m : Mem) (block : Nat) : Mem × Nat :=
  if block = NULL then (m, NULL)
  else
    let prev_alloc := GET_ALLOC m (FTRP m (PREV_BLKP m block)) ≠ 0
    let next_alloc := GET_ALLOC m (HDRP (NEXT_BLKP m block)) ≠ 0
    let size := GET_SIZE m block
    if prev_alloc ∧ next_alloc then
      (insertBlock segList m block, block)
    else if prev_alloc ∧ ¬ next_alloc then
      let nextBlk := NEXT_BLKP m block
      let m1 := removeBlock segList m nextBlk
      let size := size + GET_SIZE m1 nextBlk
      let m2 := PACK m1 (HDRP block) size FREE
      let m3 := PACK_FTRP m2 block size FREE
      (insertBlock segList m3 block, block)
    else if ¬ prev_alloc ∧ next_alloc then
      let prevblk := PREV_BLKP m block
      let m1 := removeBlock segList m prevblk
      let size := size + GET_SIZE m1 prevblk
      let m2 := PACK_FTRP m1 block size FREE
      let m3 := PACK m2 prevblk size FREE
      (insertBlock segList m3 prevblk, prevblk)
    else
      let prevblk := PREV_BLKP m block
      let nextblk := NEXT_BLKP m block
      let m1 := removeBlock segList m nextblk
      let m2 := removeBlock segList m1 prevblk
      let size := size + (GET_SIZE m2 prevblk + GET_SIZE m2 nextblk)
      let m3 := PACK_FTRP m2 nextblk size FREE
      let m4 := PACK m3 prevblk size FREE
      (insertBlock segList m4 prevblk, prevblk)

/-- Function `extend_heap`: the returned block (`NULL` on failure) and the
new state.  `size` is a `uint32_t`. -/
def extend_heap (grant : Bool) (h : Heap) (words : Nat) : Nat × Heap :=
  let size := words * 8 % 2 ^ 32
  if size = 0 then (NULL, h)
  else
    let r := mem_sbrk grant h size
    if r.1 = SBRK_FAIL then (NULL, r.2)
    else
      let h1 := r.2
      let newChunkSpace := r.1 - HSIZE
      let m1 := PACK h1.mem (HDRP newChunkSpace) size FREE
      let m2 := PACK_FTRP m1 newChunkSpace size FREE
      let new_epilogue := NEXT_BLKP m2 newChunkSpace
      let m3 := PACK m2 new_epilogue 0 ALLOC
      let c := coalesce h1.segList m3 newChunkSpace
      (c.2, { h1 with mem := c.1, epilogue := new_epilogue })

/-- Loop of `mm_init` that writes the list heads: `tp` is the running block
pointer, the first argument counts the iterations that remain. -/
def init_heads (m : Mem) : Nat → Nat → Mem × Nat
  | 0, tp => (m, tp)
  | n + 1, tp =>
    let m1 := PACK m tp MIN_BLOCK_SIZE ALLOC
    let m2 := NEXT m1 tp NULL
    let m3 := PREV m2 tp NULL
    let m4 := PACK_FTRP m3 tp MIN_BLOCK_SIZE ALLOC
    init_heads m4 n (NEXT_BLKP m4 tp)

/-- Function `mm_init`: the returned status (`0`, or `-1` as an `Int`) and the
new state. -/
def mm_init (grant : Bool) (h : Heap) : Int × Heap :=
  let r := mem_sbrk grant h CHUNKSIZE
  let h1 := { r.2 with prologue := r.1 }
  if r.1 = SBRK_FAIL then (-1, h1)
  else
    let prologue := r.1
    let m1 := PACK h1.mem prologue HSIZE ALLOC
    let segList := NEXT_BLKP m1 prologue
    let r2 := init_heads m1 (LISTMAX + 1) segList
    let init_block := r2.2
    let m2 := PACK r2.1 (HDRP init_block)
      (CHUNKSIZE - OVERHEAD - MIN_BLOCK_SIZE * (LISTMAX + 1)) FREE
    let m3 := PACK_FTRP m2 init_block
      (CHUNKSIZE - OVERHEAD - MIN_BLOCK_SIZE * (LISTMAX + 1)) FREE
    let m4 := insertBlock segList m3 init_block
    let epilogue := NEXT_BLKP m4 init_block
    let m5 := PACK m4 (HDRP epilogue) 0 ALLOC
    (0, { h1 with mem := m5, segList := segList, epilogue := epilogue })

/-- Adjusted block size of `mm_malloc`: `size += OVERHEAD` in `size_t`, then
`asize = ((size + 7) >> 3) << 3` stored in a `uint32_t`, raised to
`MIN_BLOCK_SIZE`. -/
def adjust_size (size : Nat) : Nat :=
  let size1 := (size + OVERHEAD) % 2 ^ 64
  let asize := (size1 + 7) % 2 ^ 64 / 8 * 8 % 2 ^ 64 % 2 ^ 32
  if asize < MIN_BLOCK_SIZE then MIN_BLOCK_SIZE else asize

/-- Function `mm_malloc`: the returned pointer (`NULL` on failure) and the new
state.  `extendsize` and `extendwords` are `uint32_t`. -/
def mm_malloc (grant : Bool) (h : Heap) (size : Nat) : Nat × Heap :=
  if size = 0 then (NULL, h)
  else
    let asize := adjust_size size
    let block := find_fit h.segList h.mem asize
    if block ≠ NULL then
      (PLDP block, { h with mem := place h.segList h.mem block asize })
    else
      let extendsize :=
        if endFree h then (asize + 2 ^ 64 - lastSize h) % 2 ^ 64 % 2 ^ 32 else asize
      let extendwords := extendsize / 8
      let r := extend_heap grant h extendwords
      if r.1 ≠ NULL then
        (r.1 + HSIZE, { r.2 with mem := place r.2.segList r.2.mem r.1 asize })
      else (NULL, r.2)

/-- Function `mm_free`. -/
def mm_free (h : Heap) (payload : Nat) : Heap :=
  let bp := payload - HSIZE
  let m1 := PACK h.mem (HDRP bp) (GET_SIZE h.mem bp) FREE
  let m2 := PACK_FTRP m1 bp (GET_SIZE m1 bp) FREE
  { h with mem := (coalesce h.segList m2 bp).1 }

/-- Loop of the C library function `memcpy`, for word-aligned `dst` and
`src`: the first `k` words are copied, lowest address first. -/
def memcpy_words (m : Mem) (dst src : Nat) : Nat → Mem
  | 0 => m
  | k + 1 =>
    let m1 := memcpy_words m dst src k
    wr m1 (dst + 8 * k) (m1.rd (src + 8 * k))

/-- C library function `memcpy(dst, src, n)` on the word-addressed arena,
for word-aligned `dst` and `src`: the `n / 8` full words are copied, then the
`n % 8` low-order bytes of the next word (the bytes at the lower addresses on
a little-endian machine), the other bytes of that word are kept. -/
def memcpy (m : Mem) (dst src n : Nat) : Mem :=
  let m1 := memcpy_words m dst src (n / 8)
  if n % 8 = 0 then m1
  else
    wr m1 (dst + 8 * (n / 8))
      (m1.rd (dst + 8 * (n / 8)) / 256 ^ (n % 8) * 256 ^ (n % 8) +
        m1.rd (src + 8 * (n / 8)) % 256 ^ (n % 8))

/-- The copy length of `mm_realloc`: `copySize = block->block_size;
if (size < copySize) copySize = size;`, read from the arena `m` in which the
new block has already been allocated. -/
def copySize (m : Mem) (ptr size : Nat) : Nat :=
  let block := ptr - HSIZE
  let c := GET_SIZE m block
  if size < c then size else c

/-- Function `mm_realloc`: `none` stands for `exit(1)` after a failed
`mm_malloc`, otherwise the returned pointer and the new state. -/
def mm_realloc (grant : Bool) (h : Heap) (ptr size : Nat) : Option (Nat × Heap) :=
  let r := mm_malloc grant h size
  if r.1 = NULL then none
  else
    let newp := r.1
    let m1 := memcpy r.2.mem newp ptr (copySize r.2.mem ptr size)
    some (newp, mm_free { r.2 with mem := m1 } ptr)

/-! ## Representation predicates -/

/-- A doubly linked run of free-list nodes `l` in the arena: the node before
the run is `p`, the node after it is `n` (`NULL` when there is none). -/
def Seg (m : Mem) : Nat → List Nat → Nat → Prop
  | _, [], _ => True
  | p, a :: l, n => getPrev m a = p ∧ getNext m a = l.headD n ∧ Seg m a l n

/-- The list-head block `node` stores the free list `l`: its `next` field is
the first node, its `prev` field the last one, and the nodes are doubly
linked with `NULL` at both ends. -/
def ListOK (m : Mem) (node : Nat) (l : List Nat) : Prop :=
  getNext m node = l.headD NULL ∧ getPrev m node = l.getLastD NULL ∧ Seg m NULL l NULL

/-- The six segregated lists hold exactly the blocks in `L`, each in the list
of its size class, and the members of `L` are blocks of at least 32 bytes
that lie after the list heads and do not overlap. -/
def Lists (segList : Nat) (m : Mem) (L : Nat → Prop) : Prop :=
  ∃ fl : Nat → List Nat,
    (∀ i, i < 6 → ListOK m (segList + 32 * i) (fl i)) ∧
    (∀ i, i < 6 → (fl i).Nodup) ∧
    (∀ i, i < 6 → ∀ x, x ∈ fl i ↔ (L x ∧ calcList (GET_SIZE m x) = i)) ∧
    (∀ x, L x → segList + 192 ≤ x) ∧
    (∀ x y, L x → L y → x = y ∨ x + 32 ≤ y ∨ y + 32 ≤ x)

/-- The six segregated lists are the sequences `fl 0`, ..., `fl 5` and hold
exactly the blocks in `L`. -/
def ListsAt (segList : Nat) (m : Mem) (fl : Nat → List Nat) (L : Nat → Prop) : Prop :=
  (∀ i, i < 6 → ListOK m (segList + 32 * i) (fl i)) ∧
  (∀ i, i < 6 → (fl i).Nodup) ∧
  (∀ i, i < 6 → ∀ x, x ∈ fl i ↔ (L x ∧ calcList (GET_SIZE m x) = i)) ∧
  (∀ x, L x → segList + 192 ≤ x) ∧
  (∀ x y, L x → L y → x = y ∨ x + 32 ≤ y ∨ y + 32 ≤ x)

/-- The words a free-list operation does not write: every word that is not a
link field (`next`, `prev`) of a list head or of a block in `A`. -/
def LinkFree (seg : Nat) (A : Nat → Prop) (x : Nat) : Prop :=
  (∀ y, A y → x ≠ y + 8 ∧ x ≠ y + 16) ∧
  (∀ i, i < 6 → x ≠ seg + 32 * i + 8 ∧ x ≠ seg + 32 * i + 16)

/-- Abstract view of one block of the heap walk: where it starts, its size
field and its allocated bit. -/
structure Blk where
  /-- Address of the block header. -/
  addr : Nat
  /-- Block size in bytes, header and footer included. -/
  size : Nat
  /-- Allocated bit, `0` or `1`. -/
  alloc : Nat

/-- The arena holds block `b`: header and footer both carry its size and its
allocated bit, and the size is a multiple of 8 of at least 32 bytes. -/
def BlockOK (m : Mem) (b : Blk) : Prop :=
  GET_SIZE m b.addr = b.size ∧ GET_ALLOC m b.addr = b.alloc ∧
  GET_SIZE m (b.addr + b.size - 8) = b.size ∧ GET_ALLOC m (b.addr + b.size - 8) = b.alloc ∧
  32 ≤ b.size ∧ b.size % 8 = 0

/-- The blocks `bs` tile the arena from `a` to `e` without gap or overlap. -/
def Tiled (m : Mem) : Nat → List Blk → Nat → Prop
  | a, [], e => a = e
  | a, b :: bs, e => b.addr = a ∧ BlockOK m b ∧ Tiled m (a + b.size) bs e

/-- No two neighbours in the block sequence are both free. -/
def NoAdj : List Blk → Prop
  | [] => True
  | [_] => True
  | b :: c :: bs => (b.alloc = 1 ∨ c.alloc = 1) ∧ NoAdj (c :: bs)

/-- Address `x` is the start of a free block of `bs`. -/
def FreeIn (bs : List Blk) (x : Nat) : Prop := ∃ b, b ∈ bs ∧ b.addr = x ∧ b.alloc = 0

/-- Prologue, list heads and epilogue are in place: the prologue header
(size 8, allocated) sits just before `seg`, the six list heads (size 32,
allocated, header and footer) follow, and `e` holds the epilogue header
(size 0, allocated). -/
def Sentinels (seg : Nat) (m : Mem) (e : Nat) : Prop :=
  (GET_SIZE m (seg - 8) = 8 ∧ GET_ALLOC m (seg - 8) = 1) ∧
  (∀ i, i < 6 → GET_SIZE m (seg + 32 * i) = 32 ∧ GET_ALLOC m (seg + 32 * i) = 1 ∧
    GET_SIZE m (seg + 32 * i + 24) = 32 ∧ GET_ALLOC m (seg + 32 * i + 24) = 1) ∧
  (GET_SIZE m e = 0 ∧ GET_ALLOC m e = 1) ∧ 8 ≤ seg

/-- The state `coalesce` starts from: the blocks `l1` before `B` and `l2`
after it tile the arena, the `s` bytes at `B` are tagged free (header and
footer) and are in no list, and the lists hold the blocks in `L`, all of them
free blocks of `l1` or `l2`. -/
structure CoalIn (seg : Nat) (m : Mem) (l1 : List Blk) (B s : Nat) (l2 : List Blk) (e : Nat)
    (L : Nat → Prop) : Prop where
  /-- Blocks before `B`. -/
  t1 : Tiled m (seg + 192) l1 B
  /-- Header size of `B`. -/
  s1 : GET_SIZE m B = s
  /-- Header allocated bit of `B`. -/
  a1 : GET_ALLOC m B = 0
  /-- Footer size of `B`. -/
  s2 : GET_SIZE m (B + s - 8) = s
  /-- Footer allocated bit of `B`. -/
  a2 : GET_ALLOC m (B + s - 8) = 0
  /-- The block is at least one word long. -/
  h8 : 8 ≤ s
  /-- The block size is a multiple of 8. -/
  m8 : s % 8 = 0
  /-- Blocks after `B`. -/
  t2 : Tiled m (B + s) l2 e
  /-- Prologue, list heads, epilogue. -/
  sent : Sentinels seg m e
  /-- The segregated lists. -/
  lists : Lists seg m L
  /-- Listed blocks are free blocks around `B`. -/
  sub : ∀ y, L y → FreeIn l1 y ∨ FreeIn l2 y
  /-- The user area is smaller than `2^31` bytes. -/
  big : e < seg + 192 + 2 ^ 31

/-- The representation invariant: the heap `h`, with the payloads `live`
handed out and not yet freed, is described by the block sequence `bs`. -/
structure Inv (h : Heap) (live : List Nat) (bs : List Blk) : Prop where
  /-- The prologue is the first word of the arena. -/
  pro : h.prologue = h.mem_start_brk
  /-- The list heads start right after the prologue. -/
  seg : h.segList = h.prologue + 8
  /-- Prologue, list heads and epilogue carry their tags. -/
  sent : Sentinels h.segList h.mem h.epilogue
  /-- The user blocks tile the arena between the last list head and the
  epilogue. -/
  tiled : Tiled h.mem (h.segList + 192) bs h.epilogue
  /-- The epilogue header is the last word of the arena. -/
  brk : h.mem_brk = h.epilogue + 8
  /-- No two neighbours are both free. -/
  noadj : NoAdj bs
  /-- The segregated lists hold exactly the free blocks. -/
  lists : Lists h.segList h.mem (FreeIn bs)
  /-- The live payloads are exactly the payloads of the allocated blocks. -/
  live_iff : ∀ p, p ∈ live ↔ ∃ b, b ∈ bs ∧ b.alloc = 1 ∧ p = b.addr + 8
  /-- No payload is live twice. -/
  nodup : live.Nodup

/-! ## Runs of the allocator -/

/-- A client-visible state: the heap and the payload pointers that
`mm_malloc` has returned and that have not been freed since. -/
structure St where
  /-- The allocator state. -/
  heap : Heap
  /-- Live payload pointers, most recent first. -/
  live : List Nat

/-- The state before `mm_init`: an empty arena at `base` over arbitrary
memory contents `m0`, the three globals still `NULL`. -/
def fresh_heap (m0 : Mem) (base : Nat) : Heap :=
  { mem := m0, mem_start_brk := base, mem_brk := base,
    prologue := NULL, segList := NULL, epilogue := NULL }

/-- A call `mm_malloc(size)`; a non-null result becomes live. -/
def malloc_step (grant : Bool) (s : St) (size : Nat) : St :=
  let r := mm_malloc grant s.heap size
  { heap := r.2, live := if r.1 = NULL then s.live else r.1 :: s.live }

/-- A call `mm_free(p)` on a live payload. -/
def free_step (s : St) (p : Nat) : St :=
  { heap := mm_free s.heap p, live := s.live.erase p }

/-- Word `a` lies in the payload of a live block: between the header and the
footer of the block of some live pointer `p`, at a multiple of 8 from `p`. -/
def InPayload (s : St) (a : Nat) : Prop :=
  ∃ p, p ∈ s.live ∧ p ≤ a ∧ a + 8 ≤ p + (GET_SIZE s.heap.mem (p - 8) - 16) ∧ (a - p) % 8 = 0

/-- The client stores `v` into a payload word. -/
def write_step (s : St) (a v : Nat) : St :=
  { heap := { s.heap with mem := wr s.heap.mem a v }, live := s.live }

/-- States reachable from a successful `mm_init` by calls of `mm_malloc`
(with any `size_t` argument, the arena granting or refusing to grow), calls of
`mm_free` on live payloads, and client stores into live payloads. -/
inductive Reachable : St → Prop
  | init (grant : Bool) (m0 : Mem) (base : Nat)
      (h : (mm_init grant (fresh_heap m0 base)).1 = 0) :
      Reachable { heap := (mm_init grant (fresh_heap m0 base)).2, live := [] }
  | malloc (grant : Bool) (s : St) (size : Nat) (hs : Reachable s) (hsz : size < 2 ^ 64) :
      Reachable (malloc_step grant s size)
  | free (s : St) (p : Nat) (hs : Reachable s) (hp : p ∈ s.live) :
      Reachable (free_step s p)
  | write (s : St) (a v : Nat) (hs : Reachable s) (ha : InPayload s a) :
      Reachable (write_step s a v)

/-! ## The properties of the specification -/

/-- A traversal: starting at `a` and moving with `next`, the nodes `l` are
visited in this order, none of them a stopping node, and the traversal then
stands at `e`. -/
def Trace (next : Nat → Nat) (stop : Nat → Prop) : Nat → List Nat → Nat → Prop
  | a, [], e => a = e
  | a, x :: l, e => x = a ∧ ¬ stop a ∧ Trace next stop (next a) l e

/-- Traversals with decidable stopping test can be checked. -/
instance Trace.dec (next : Nat → Nat) (stop : Nat → Prop) [DecidablePred stop] :
    ∀ (a : Nat) (l : List Nat) (e : Nat), Decidable (Trace next stop a l e)
  | a, [], e => inferInstanceAs (Decidable (a = e))
  | a, x :: l, e =>
    have := Trace.dec next stop (next a) l e
    inferInstanceAs (Decidable (x = a ∧ ¬ stop a ∧ Trace next stop (next a) l e))

/-- The heap walk of `mm_checkheap`: from block `a` the blocks `bs` are
visited with `NEXT_BLKP`, each with a size field greater than 0, and the walk
then stands at `e`. -/
@[reducible] def IsWalk (m : Mem) (a : Nat) (bs : List Nat) (e : Nat) : Prop :=
  Trace (NEXT_BLKP m) (fun b => GET_SIZE m b = 0) a bs e

/-- Block `b` is visited by the heap walk that starts at `a`. -/
def Visited (m : Mem) (a b : Nat) : Prop := ∃ bs e, IsWalk m a bs e ∧ b ∈ bs

/-- Forward traversal of a free list: from node `a` the nodes `l` are visited
with the `next` link, none of them `NULL`, arriving at `e`. -/
@[reducible] def IsPath (m : Mem) (a : Nat) (l : List Nat) (e : Nat) : Prop :=
  Trace (getNext m) (fun x => x = NULL) a l e

/-- Backward traversal of a free list, with the `prev` link. -/
@[reducible] def IsPathBack (m : Mem) (a : Nat) (l : List Nat) (e : Nat) : Prop :=
  Trace (getPrev m) (fun x => x = NULL) a l e

/-- Addresses of the list-head blocks, `segList + MIN_BLOCK_SIZE * i`. -/
def headBlocks (segList : Nat) : List Nat :=
  (List.range (LISTMAX + 1)).map (fun i => segList + MIN_BLOCK_SIZE * i)

/-- Head pointer of list `i`: the `next` field of list head `i`. -/
def listHead (h : Heap) (i : Nat) : Nat := getNext h.mem (h.segList + MIN_BLOCK_SIZE * i)

/-- Tail pointer of list `i`: the `prev` field of list head `i`. -/
def listTail (h : Heap) (i : Nat) : Nat := getPrev h.mem (h.segList + MIN_BLOCK_SIZE * i)

/-- Header and footer of the block at `b` agree on size and allocated bit. -/
def TagsAgree (m : Mem) (b : Nat) : Prop :=
  GET_SIZE m (FTRP m b) = GET_SIZE m (HDRP b) ∧ GET_ALLOC m (FTRP m b) = GET_ALLOC m (HDRP b)

/-- Coverage: the heap walk from the prologue visits the prologue (size 8,
allocated), the six list heads, then user blocks `us`, and arrives at the
epilogue header (size 0, allocated) in the last 8 bytes of the arena; the
sizes of the visited blocks sum to the arena size minus 8. -/
def Coverage (h : Heap) : Prop :=
  ∃ us : List Nat,
    IsWalk h.mem h.prologue (h.prologue :: (headBlocks h.segList ++ us)) h.epilogue ∧
    GET_SIZE h.mem h.prologue = 8 ∧ GET_ALLOC h.mem h.prologue = 1 ∧
    GET_SIZE h.mem h.epilogue = 0 ∧ GET_ALLOC h.mem h.epilogue = 1 ∧
    h.epilogue + 8 = h.mem_brk ∧
    ((h.prologue :: (headBlocks h.segList ++ us)).map (GET_SIZE h.mem)).sum =
      mem_heapsize h - 8

/-- Tag consistency: every block visited by the heap walk has a footer that
agrees with its header. -/
def TagConsistency (h : Heap) : Prop :=
  ∀ b, Visited h.mem h.prologue b → TagsAgree h.mem b

/-- Coalescing completeness, the test of `checkblock`: no visited block is
free together with the block that follows it. -/
def NoAdjacentFree (h : Heap) : Prop :=
  ∀ b, Visited h.mem h.prologue b →
    ¬ (GET_ALLOC h.mem b = 0 ∧ GET_ALLOC h.mem (NEXT_BLKP h.mem b) = 0)

/-- List membership: the six lists, traversed from their heads to `NULL`,
hold exactly the blocks that the heap walk finds free, each once over all
lists; members are marked free; the list heads sit at `segList + 32 * i`,
right after the first word of the arena, tagged (32, allocated) in header and
footer. -/
def ListMembership (h : Heap) : Prop :=
  (∃ fl : Nat → List Nat,
    (∀ i, i < 6 → IsPath h.mem (listHead h i) (fl i) NULL) ∧
    (∀ x, (∃ i, i < 6 ∧ x ∈ fl i) ↔ (Visited h.mem h.prologue x ∧ GET_ALLOC h.mem x = 0)) ∧
    (∀ i, i < 6 → (fl i).Nodup) ∧
    (∀ i j, i < 6 → j < 6 → i ≠ j → ∀ x, x ∈ fl i → x ∉ fl j) ∧
    (∀ i, i < 6 → ∀ x, x ∈ fl i → GET_ALLOC h.mem x = 0)) ∧
  h.segList = h.mem_start_brk + 8 ∧
  (∀ b, b ∈ headBlocks h.segList →
    GET_SIZE h.mem b = 32 ∧ GET_ALLOC h.mem b = 1 ∧
    GET_SIZE h.mem (b + 24) = 32 ∧ GET_ALLOC h.mem (b + 24) = 1)

/-- Class placement: every block met on the traversal of list `i` has a size
of class `i`. -/
def ClassPlacement (h : Heap) : Prop :=
  ∀ i, i < 6 → ∀ l e, IsPath h.mem (listHead h i) l e →
    ∀ x, x ∈ l → calcList (GET_SIZE h.mem x) = i

/-- Link integrity of list `i`: head and tail pointer are null together;
otherwise the head has no predecessor, the tail no successor, following `next`
from the head gives a sequence `l` that ends with the tail, and following
`prev` from the tail gives the reverse of `l`. -/
def LinkIntegrityAt (h : Heap) (i : Nat) : Prop :=
  (listHead h i = NULL ↔ listTail h i = NULL) ∧
  (listHead h i ≠ NULL →
    getPrev h.mem (listHead h i) = NULL ∧ getNext h.mem (listTail h i) = NULL ∧
    ∃ l, IsPath h.mem (listHead h i) l NULL ∧ l.getLast? = some (listTail h i) ∧
      IsPathBack h.mem (listTail h i) l.reverse NULL)

/-- Link integrity of the six lists. -/
def LinkIntegrity (h : Heap) : Prop := ∀ i, i < 6 → LinkIntegrityAt h i

/-- Block sizes: every visited block after the last list head has a size
that is a multiple of 8 and at least 32. -/
def BlockSizes (h : Heap) : Prop :=
  ∀ b, Visited h.mem h.prologue b → h.segList + MIN_BLOCK_SIZE * LISTMAX < b →
    GET_SIZE h.mem b % 8 = 0 ∧ MIN_BLOCK_SIZE ≤ GET_SIZE h.mem b

/-- Modelled from the spec: `mem_heap_lo` of the arena module, which is not
part of the sources; the address of the first byte of the arena. -/
def mem_heap_lo (h : Heap) : Nat := h.mem_start_brk

/-- Modelled from the spec: `mem_heap_hi` of the arena module, which is not
part of the sources; the address of the last byte of the arena. -/
def mem_heap_hi (h : Heap) : Nat := h.mem_brk - 1

/-- What a returned payload pointer `p` satisfies in the heap `h` after the
call: aligned, the payload of a visited block that is marked allocated, and
strictly between the arena bounds. -/
def PayloadOK (h : Heap) (p : Nat) : Prop :=
  p % 8 = 0 ∧
  (∃ B, p = B + 8 ∧ Visited h.mem h.prologue B ∧ GET_ALLOC h.mem B = 1) ∧
  mem_heap_lo h < p ∧ p < mem_heap_hi h

/-- Byte `x` lies in the payload range `[p, p + size(block(p)) - 16)` of the
block with payload `p`. -/
def InRange (m : Mem) (p x : Nat) : Prop := p ≤ x ∧ x + 16 < p + GET_SIZE m (p - HSIZE)

/-- Byte `x` belongs to the prologue, to a list-head block or to the
epilogue. -/
def InSentinel (h : Heap) (x : Nat) : Prop :=
  (h.prologue ≤ x ∧ x < h.prologue + 8) ∨
  (h.segList ≤ x ∧ x < h.segList + MIN_BLOCK_SIZE * (LISTMAX + 1)) ∨
  (h.epilogue ≤ x ∧ x < h.epilogue + 8)

/-- Non-overlap: the payload ranges of two distinct live pointers share no
byte, and no payload range holds a byte of a sentinel. -/
def NonOverlap (s : St) : Prop :=
  (∀ p q, p ∈ s.live → q ∈ s.live → p ≠ q →
    ∀ x, ¬ (InRange s.heap.mem p x ∧ InRange s.heap.mem q x)) ∧
  (∀ p, p ∈ s.live → ∀ x, ¬ (InRange s.heap.mem p x ∧ InSentinel s.heap x))

/-- What `mm_init` leaves in the arena that starts at `b`. -/
def InitLayout (m : Mem) (b : Nat) : Prop :=
  (GET_SIZE m b = 8 ∧ GET_ALLOC m b = 1) ∧
  (∀ i, i < 6 →
    GET_SIZE m (b + 8 + 32 * i) = 32 ∧ GET_ALLOC m (b + 8 + 32 * i) = 1 ∧
    GET_SIZE m (b + 8 + 32 * i + 24) = 32 ∧ GET_ALLOC m (b + 8 + 32 * i + 24) = 1) ∧
  (GET_SIZE m (b + 200) = 7984 ∧ GET_ALLOC m (b + 200) = 0 ∧
    GET_SIZE m (b + 200 + 7984 - 8) = 7984 ∧ GET_ALLOC m (b + 200 + 7984 - 8) = 0) ∧
  (GET_SIZE m (b + 8184) = 0 ∧ GET_ALLOC m (b + 8184) = 1) ∧
  (getNext m (b + 8 + 32 * calcList 7984) = b + 200 ∧
    getPrev m (b + 8 + 32 * calcList 7984) = b + 200 ∧
    getNext m (b + 200) = NULL ∧ getPrev m (b + 200) = NULL) ∧
  (∀ i, i < 6 → i ≠ calcList 7984 →
    getNext m (b + 8 + 32 * i) = NULL ∧ getPrev m (b + 8 + 32 * i) = NULL)

/-! ## Concrete runs -/

/-- Arena contents before `mm_init` in the concrete runs: all zero. -/
def zeroMem : Mem := ⟨fun _ => 0⟩

/-- Right after `mm_init` on an empty arena at address `4296015872`; the first
user block is at `4296016072`. -/
def stInit : St := { heap := (mm_init true (fresh_heap zeroMem 4296015872)).2, live := [] }

/-- A run in a small arena: two allocations, the second one extends the
arena, then the first block is freed. -/
def stRun : St :=
  free_step (malloc_step true (malloc_step true stInit 100) 9000) 4296016080

/-- One request of `2^31 - 16` bytes: the arena reaches `2^31 + 208` bytes. -/
def stBig : St := malloc_step true stInit (2 ^ 31 - 16)

/-- One request of `2^31` bytes. -/
def stHuge : St := malloc_step true stInit (2 ^ 31)

/-- Two small blocks allocated and freed, then two blocks of `2^30` and
`2^30 + 32` bytes allocated and freed. -/
def stMerge : St :=
  free_step (free_step (malloc_step true (malloc_step true
    (free_step (free_step (malloc_step true (malloc_step true stInit 16) 16) 4296016112) 4296016080)
    (2 ^ 30 - 16)) (2 ^ 30 + 16)) 4296016080) 5369757904

/-- One request of `2^31 - 8` bytes, freed again. -/
def stFreed : St := free_step (malloc_step true stInit (2 ^ 31 - 8)) 4296016080

/-- The run `stFreed` followed by a request of 16 bytes. -/
def stRelinked : St := malloc_step true stFreed 16

/-- Requests of `2^31`, `2^30 - 16` and 16 bytes. -/
def stOverlap : St := malloc_step true (malloc_step true stHuge (2 ^ 30 - 16)) 16

/-! ## Further properties of the specification -/

/-- A sequence of calls of `mm_init`, `mm_malloc`, `mm_free` and `mm_realloc`,
with any arguments, leads from the heap `h` to the heap in the second place. -/
inductive Calls (h : Heap) : Heap → Prop
  | refl : Calls h h
  | init (grant : Bool) (h2 : Heap) (c : Calls h h2) : Calls h (mm_init grant h2).2
  | malloc (grant : Bool) (size : Nat) (h2 : Heap) (c : Calls h h2) :
      Calls h (mm_malloc grant h2 size).2
  | free (p : Nat) (h2 : Heap) (c : Calls h h2) : Calls h (mm_free h2 p)
  | realloc (grant : Bool) (ptr size q : Nat) (h2 h3 : Heap) (c : Calls h h2)
      (hr : mm_realloc grant h2 ptr size = some (q, h3)) : Calls h h3

/-- The user area is one free block: the block after the last list head is
free, has `arena size - 8 - 192 - 8` bytes, agreeing header and footer, and is
followed by the epilogue; the list of its class holds it alone and the other
lists are empty. -/
def SingleFreeBlock (h : Heap) : Prop :=
  GET_SIZE h.mem (h.segList + 192) = mem_heapsize h - 8 - 192 - 8 ∧
  GET_ALLOC h.mem (h.segList + 192) = 0 ∧
  TagsAgree h.mem (h.segList + 192) ∧
  NEXT_BLKP h.mem (h.segList + 192) = h.epilogue ∧
  ∀ i, i < 6 →
    IsPath h.mem (listHead h i)
      (if i = calcList (mem_heapsize h - 8 - 192 - 8) then [h.segList + 192] else []) NULL

/-- The run of the specification's example: allocate 24, allocate 24, free
the first, free the second. -/
def stTwoFreed : St :=
  free_step (free_step (malloc_step true (malloc_step true stInit 24) 24) 4296016080)
    4296016120

/-- After `mm_init`, one block for a request of 100 bytes. -/
def stOne : St := malloc_step true stInit 100

/-! ## Block sequences around a freed block -/

/-- Size of the last block of `l` if that block is free, else `0`. -/
def absorbPrev (l : List Blk) : Nat :=
  match l.getLast? with
  | some p => if p.alloc = 0 then p.size else 0
  | none => 0

/-- The blocks of `l` without its last block if that block is free. -/
def keepPrev (l : List Blk) : List Blk :=
  match l.getLast? with
  | some p => if p.alloc = 0 then l.dropLast else l
  | none => l

/-- Size of the first block of `l` if that block is free, else `0`. -/
def absorbNext : List Blk → Nat
  | [] => 0
  | n :: _ => if n.alloc = 0 then n.size else 0

/-- The blocks of `l` without its first block if that block is free. -/
def keepNext : List Blk → List Blk
  | [] => []
  | n :: l => if n.alloc = 0 then l else n :: l

/-- The block sequence after the block `b` between `l1` and `l2` has been
freed and merged with its free neighbours. -/
def mergedSeq (l1 : List Blk) (b : Blk) (l2 : List Blk) : List Blk :=
  keepPrev l1 ++
    ⟨b.addr - absorbPrev l1, b.size + (absorbPrev l1 + absorbNext l2), 0⟩ :: keepNext l2

/-- The list sequences after a block of `s` bytes at `B` has been merged with
`a` free bytes before it and `c` free bytes after it: the neighbours leave
their lists and the merged block becomes the head of the list of its class. -/
def mergedLists (fl : Nat → List Nat) (B s a c : Nat) (i : Nat) : List Nat :=
  if i = calcList (s + (a + c)) then (B - a) :: ((fl i).erase (B + s)).erase (B - a)
  else ((fl i).erase (B + s)).erase (B - a)

/-- The block that `coalesce` returns inside `mm_free(payload)`; `mm_free`
itself drops the value. -/
def mm_free_block (h : Heap) (payload : Nat) : Nat :=
  let bp := payload - HSIZE
  let m1 := PACK h.mem (HDRP bp) (GET_SIZE h.mem bp) FREE
  let m2 := PACK_FTRP m1 bp (GET_SIZE m1 bp) FREE
  (coalesce h.segList m2 bp).2

/-- Size of the block before `bp` if `coalesce` finds it free, else `0`. -/
def prevFree (m : Mem) (bp : Nat) : Nat :=
  if GET_ALLOC m (FTRP m (PREV_BLKP m bp)) = 0 then GET_SIZE m (PREV_BLKP m bp) else 0

/-- Size of the block after `bp` if `coalesce` finds it free, else `0`. -/
def nextFree (m : Mem) (bp : Nat) : Nat :=
  if GET_ALLOC m (HDRP (NEXT_BLKP m bp)) = 0 then GET_SIZE m (NEXT_BLKP m bp) else 0

/-- Word `x` lies in no free block of the sequence `bs` and is no link field
of a list head. -/
def Protected (seg : Nat) (bs : List Blk) (x : Nat) : Prop :=
  (∀ f, f ∈ bs → f.alloc = 0 → x < f.addr ∨ f.addr + f.size ≤ x) ∧
  (∀ i, i < 6 → x ≠ seg + 32 * i + 8 ∧ x ≠ seg + 32 * i + 16)

/-! ## Frame, capacity -/

/-- Word `x` belongs to the block with payload `p`: header, payload or
footer. -/
def InBlock (m : Mem) (p x : Nat) : Prop :=
  p - HSIZE ≤ x ∧ x < p - HSIZE + GET_SIZE m (p - HSIZE)

/-- Word `x` belongs to a block that the heap walk finds free. -/
def InFreeBlock (h : Heap) (x : Nat) : Prop :=
  ∃ b, Visited h.mem h.prologue b ∧ GET_ALLOC h.mem b = 0 ∧ b ≤ x ∧ x < b + GET_SIZE h.mem b

/-- Word `x` is a link field (`next` or `prev`) of a list head. -/
def InHeadLinks (h : Heap) (x : Nat) : Prop :=
  ∃ i, i < 6 ∧ (x = h.segList + MIN_BLOCK_SIZE * i + 8 ∨ x = h.segList + MIN_BLOCK_SIZE * i + 16)

/-- The blocks of the live payloads of the state `s`, those in `freed`
excepted, hold the same words in `h2` as in `s`: header, footer and payload. -/
def Kept (s : St) (h2 : Heap) (freed : List Nat) : Prop :=
  ∀ p, p ∈ s.live → p ∉ freed → ∀ x, InBlock s.heap.mem p x → h2.mem.rd x = s.heap.mem.rd x

/-- If the call that leads from `h` to `h2` has changed word `x`, the word
lies in a block that was free, in the block `T` being allocated or freed, in
a link field of a list head, or between the old epilogue and the new end of
the arena. -/
def WriteOK (h h2 : Heap) (T : Nat → Prop) (x : Nat) : Prop :=
  h2.mem.rd x ≠ h.mem.rd x →
    InFreeBlock h x ∨ T x ∨ InHeadLinks h x ∨ (h.epilogue ≤ x ∧ x < h2.mem_brk)

/-- Arena contents before `mm_init` in which every word is 1. -/
def onesMem : Mem := ⟨fun _ => 1⟩

/-- Right after `mm_init` on an empty arena at address `4296015872` over
`onesMem`. -/
def stOnes : St := { heap := (mm_init true (fresh_heap onesMem 4296015872)).2, live := [] }

/-- Requests of `2^31` and `2^30 - 16` bytes after `mm_init`. -/
def stPair : St := malloc_step true stHuge (2 ^ 30 - 16)

/-- The returned block has room for `size` bytes: its size field is at least
`size + 16`, so the `size` bytes from `p` on end before the footer. -/
def Capacity (m : Mem) (p size : Nat) : Prop :=
  size + OVERHEAD ≤ GET_SIZE m (p - HSIZE) ∧ p + size ≤ FTRP m (p - HSIZE)

/-! ## Failure of `mm_malloc` -/

/-- The number of bytes `mm_malloc(size)` asks `extend_heap`, and through it
`mem_sbrk`, for when `find_fit` has found no block: `extendsize` rounded down
to whole words, in a `uint32_t`. -/
def extend_request (h : Heap) (size : Nat) : Nat :=
  let asize := adjust_size size
  let extendsize :=
    if endFree h then (asize + 2 ^ 64 - lastSize h) % 2 ^ 64 % 2 ^ 32 else asize
  extendsize / 8 * 8 % 2 ^ 32

/-- The call `mm_malloc(size)` reaches `mem_sbrk`: the size is not 0,
`find_fit` finds no block, and the number of bytes to extend by is not 0. -/
def GrowCalled (h : Heap) (size : Nat) : Prop :=
  size ≠ 0 ∧ find_fit h.segList h.mem (adjust_size size) = NULL ∧ extend_request h size ≠ 0

/-- The call `mm_malloc(size)` reaches `mem_sbrk`, and `mem_sbrk` fails. -/
def GrowFails (grant : Bool) (h : Heap) (size : Nat) : Prop :=
  GrowCalled h size ∧ (mem_sbrk grant h (extend_request h size)).1 = SBRK_FAIL

/-- The call `mm_malloc(size)` finds no block and has 0 bytes to extend by:
`extend_heap` returns `NULL` before it calls `mem_sbrk`. -/
def GrowSkipped (h : Heap) (size : Nat) : Prop :=
  size ≠ 0 ∧ find_fit h.segList h.mem (adjust_size size) = NULL ∧ extend_request h size = 0

/-- The state `s` after `k` more calls `mm_malloc(296)`. -/
def mallocs (s : St) : Nat → St
  | 0 => s
  | k + 1 => malloc_step true (mallocs s k) 296

/-- The state `s` after `mm_free` of the payloads `4296016080 + 624 * j` for
`j < k`, lowest first. -/
def frees (s : St) : Nat → St
  | 0 => s
  | k + 1 => free_step (frees s k) (4296016080 + 624 * k)

/-- A fragmented small arena: after `mm_init`, 24 blocks of 312 bytes are
allocated, which leaves a free block of 496 bytes at the end, and every other
one of the 24 blocks is freed, starting with the first. -/
def stFrag : St := frees (mallocs stInit 24) 12

/-! ## The result of `mm_free` -/

/-- What the specification says of `mm_free(p)` in the heap `h`, with `B` the
block of `p`, `s` its size, `a` and `c` the sizes of the free neighbours (0
for a neighbour that is not free): the block at `B - a` has header and footer
`(a + s + c, free)`; it is the head of the list of its class; each list is
what it was, without the neighbours, and with the merged block in front if
the list is that of its class; the heap walk visits the merged block and the
blocks it visited before, but for `B` and the absorbed next block; the tag
words of the other visited blocks are unchanged; `coalesce` returns
`B - a`. -/
def FreeResult (h : Heap) (p : Nat) : Prop :=
  let B := p - HSIZE
  let s := GET_SIZE h.mem B
  let a := prevFree h.mem B
  let c := nextFree h.mem B
  let h2 := mm_free h p
  (GET_SIZE h2.mem (B - a) = a + s + c ∧ GET_ALLOC h2.mem (B - a) = FREE ∧
    GET_SIZE h2.mem (FTRP h2.mem (B - a)) = a + s + c ∧
    GET_ALLOC h2.mem (FTRP h2.mem (B - a)) = FREE) ∧
  listHead h2 (calcList (a + s + c)) = B - a ∧
  (∀ i, i < 6 → ∀ l, IsPath h.mem (listHead h i) l NULL →
    IsPath h2.mem (listHead h2 i) (mergedLists (fun _ => l) B s a c i) NULL) ∧
  (∀ x, Visited h2.mem h2.prologue x ↔
    (x = B - a ∨ (Visited h.mem h.prologue x ∧ x ≠ B ∧ (c ≠ 0 → x ≠ B + s)))) ∧
  (∀ x, Visited h2.mem h2.prologue x → x ≠ B - a →
    h2.mem.rd x = h.mem.rd x ∧ h2.mem.rd (FTRP h.mem x) = h.mem.rd (FTRP h.mem x)) ∧
  mm_free_block h p = B - a

/-- A well-formed heap: the representation invariant holds for some block
sequence. -/
def WellFormed (s : St) : Prop := ∃ bs, Inv s.heap s.live bs

/-- Two requests of `2^30 - 16` bytes after `mm_init`, the first block freed
again: a free block of `2^30` bytes at `4296016072` is followed by an
allocated block of `2^30` bytes at `5369757896`, in an arena of `2^31 + 208`
bytes. -/
def stHalves : St :=
  free_step (malloc_step true (malloc_step true stInit (2 ^ 30 - 16)) (2 ^ 30 - 16)) 4296016080

/-- The run of the specification's example: blocks for requests of 16, 64,
512 and 16 bytes, the second and the fourth freed again.  The third block has
the payload `4296016192`. -/
def stSeq : St :=
  free_step (free_step (malloc_step true (malloc_step true (malloc_step true
    (malloc_step true stInit 16) 64) 512) 16) 4296016112) 4296016720

/-! ## Allocate, free, allocate again -/

/-- The probes of `find_fit` in one list, on the sequence of its nodes: the
first of the first `n` nodes with a size of at least `asize`, or `NULL`. -/
def scanList (sz : Nat → Nat) (asize : Nat) : Nat → List Nat → Nat
  | 0, _ => NULL
  | _ + 1, [] => NULL
  | n + 1, x :: l => if sz x ≥ asize then x else scanList sz asize n l

/-- The search of `find_fit` over the lists `i`, `i + 1`, ... (`n` lists), on
the sequences of their nodes. -/
def scanLists (sz : Nat → Nat) (fl : Nat → List Nat) (asize : Nat) : Nat → Nat → Nat
  | 0, _ => NULL
  | n + 1, i =>
    if scanList sz asize 12 (fl i) ≠ NULL then scanList sz asize 12 (fl i)
    else scanLists sz fl asize n (i + 1)

/-- The round trip `p = mm_malloc(n); mm_free(p)` from the heap `h`: the arena
has the size it had, the heap walk from the prologue to the epilogue visits
the same blocks with the same sizes and allocated bits, and a following
`mm_malloc(n)` returns `p` again. -/
def RoundTrip (grant : Bool) (h : Heap) (n : Nat) : Prop :=
  let r := mm_malloc grant h n
  let h2 := mm_free r.2 r.1
  mem_heapsize h2 = mem_heapsize h ∧
  (∃ us, IsWalk h.mem h.prologue us h.epilogue ∧ IsWalk h2.mem h2.prologue us h2.epilogue ∧
    ∀ x, x ∈ us →
      GET_SIZE h2.mem x = GET_SIZE h.mem x ∧ GET_ALLOC h2.mem x = GET_ALLOC h.mem x) ∧
  ∀ grant2, (mm_malloc grant2 h2 n).1 = r.1

/-! ## `mm_realloc` -/

/-- Byte `i` of the object at the word-aligned address `p`, on a
little-endian machine. -/
def byteAt (m : Mem) (p i : Nat) : Nat := m.rd (p + i / 8 * 8) / 256 ^ (i % 8) % 256

/-- What `mm_realloc(ptr, size)` returns and leaves when the inner
`mm_malloc` has succeeded: the new payload, and the state after the copy and
`mm_free(ptr)`. -/
def realloc_result (grant : Bool) (h : Heap) (ptr size : Nat) : Nat × Heap :=
  let r := mm_malloc grant h size
  (r.1, mm_free { r.2 with mem := memcpy r.2.mem r.1 ptr (copySize r.2.mem ptr size) } ptr)

/-- The payload `p` has been returned by a call `mm_malloc(old)` in a
reachable state and has not been freed since: the state is the one right
after that call, or follows it by calls of `mm_malloc`, calls of `mm_free` on
other live payloads and client stores into live payloads. -/
inductive Obtained (p old : Nat) : St → Prop
  | malloc (grant : Bool) (s : St) (hs : Reachable s) (hsz : old < 2 ^ 64)
      (hp : (mm_malloc grant s.heap old).1 = p) (hnn : p ≠ NULL) :
      Obtained p old (malloc_step grant s old)
  | later (grant : Bool) (s : St) (size : Nat) (h : Obtained p old s) (hsz : size < 2 ^ 64) :
      Obtained p old (malloc_step grant s size)
  | free (s : St) (q : Nat) (h : Obtained p old s) (hq : q ∈ s.live) (hne : q ≠ p) :
      Obtained p old (free_step s q)
  | write (s : St) (a v : Nat) (h : Obtained p old s) (ha : InPayload s a) :
      Obtained p old (write_step s a v)

/-- What the specification says of `mm_realloc(ptr, new_size)` from the heap
`h`, for a payload `ptr` obtained by `mm_malloc(old)`, with `q` the returned
pointer and `h2` the heap afterwards: `q` is the payload of a visited
allocated block, is not `ptr`, the two payload ranges share no byte, the first
`min old new_size` bytes at `q` are those that were at `ptr`, and the old block
lies in a free block. -/
def ReallocOK (h : Heap) (ptr old new_size q : Nat) (h2 : Heap) : Prop :=
  (Visited h2.mem h2.prologue (q - HSIZE) ∧ GET_ALLOC h2.mem (q - HSIZE) = 1) ∧
  q ≠ ptr ∧
  (∀ x, ¬ (InRange h2.mem q x ∧ InRange h.mem ptr x)) ∧
  (∀ i, i < min old new_size → byteAt h2.mem q i = byteAt h.mem ptr i) ∧
  InFreeBlock h2 (ptr - HSIZE)

/-- A block for 100 bytes is allocated and freed after `mm_init`, then a
block is requested for `2^31` bytes. -/
def stStale : St := malloc_step true (free_step stOne 4296016080) (2 ^ 31)

/-- One request of `2^32 - 16` bytes after `mm_init`. -/
def stWrapped : St := malloc_step true stInit (2 ^ 32 - 16)

/-- Blocks for requests of 100, 16, 16, 16, 16 and 16 bytes after `mm_init`,
the fifth and then the third freed again: the block `4296016072` of 120 bytes
is followed by an allocated block of 32 bytes, the free block `4296016224`,
an allocated block, the free block `4296016288` and an allocated block. -/
def stGaps : St :=
  free_step (free_step (malloc_step true (malloc_step true (malloc_step true (malloc_step true
    (malloc_step true (malloc_step true stInit 100) 16) 16) 16) 16) 16) 4296016296) 4296016232

/-! ## Failure of `mm_realloc` -/

/-- The state in which `mm_realloc(ptr, size)` calls `exit(1)`: the state
that the failed inner `mm_malloc(size)` leaves; no statement runs between the
two. -/
def realloc_exit_state (grant : Bool) (h : Heap) (size : Nat) : Heap :=
  (mm_malloc grant h size).2

/-! ## The consistency checker -/

/-- A line printed by `mm_checkheap` and the functions it calls, with the
values of its arguments. -/
inductive Line
  /-- Line `Heap (%p):` of `mm_checkheap`. -/
  | heap (p : Nat)
  /-- Line `%p: header: [%d:%c] footer: [%d:%c]` of `printblock`. -/
  | block (b hsize halloc fsize falloc : Nat)
  /-- Line `%p: EOL` of `printblock`. -/
  | eol (b : Nat)
  /-- Line `Bad prologue header`. -/
  | badPrologue
  /-- Line `Error: payload for block at %p is not aligned`. -/
  | unaligned (b : Nat)
  /-- Line `Error: header size does not match footer`. -/
  | sizeMismatch
  /-- Line `Error: header alloc does not match footer`. -/
  | allocMismatch
  /-- Line `Error: free blocks at %p, %p escaped coalescing`. -/
  | escaped (b n : Nat)
  /-- Line `Bad epilogue header, epilogue size = %d, epilogue Allocation
  status = %d`. -/
  | badEpilogue (size alloc : Nat)
  deriving DecidableEq

/-- The line reports an error: every line but those that `mm_checkheap`
prints when `verbose` is set. -/
def Line.isError : Line → Bool
  | .heap _ => false
  | .block _ _ _ _ _ => false
  | .eol _ => false
  | _ => true

/-- Macro `CHK_ALN`: `((uint64_t)PLDP(bp)) % 8`. -/
def CHK_ALN (bp : Nat) : Nat := PLDP bp % 2 ^ 64 % 8

/-- Function `printblock`. -/
def printblock (m : Mem) (block : Nat) : List Line :=
  let hsize := GET_SIZE m block
  let halloc := GET_ALLOC m block
  let footer := get_footer m block
  let fsize := GET_SIZE m footer
  let falloc := GET_ALLOC m footer
  if hsize = 0 then [Line.eol block]
  else [Line.block block hsize halloc fsize falloc]

/-- Function `checkblock`. -/
def checkblock (m : Mem) (block : Nat) : List Line :=
  (if CHK_ALN block ≠ 0 then [Line.unaligned block] else []) ++
  (if GET_SIZE m (HDRP block) ≠ GET_SIZE m (FTRP m block) then [Line.sizeMismatch] else []) ++
  (if GET_ALLOC m (HDRP block) ≠ GET_ALLOC m (FTRP m block) then [Line.allocMismatch] else []) ++
  (if GET_ALLOC m block = 0 ∧ GET_ALLOC m (NEXT_BLKP m block) = 0 then
    [Line.escaped block (NEXT_BLKP m block)] else [])

/-- Function `checklist`: every statement of its body is commented out in the
source, so it prints nothing. -/
def checklist : List Line := []

/-- The `for` loop of `mm_checkheap`: from block `bp` on, while the size
field is greater than 0; the lines printed and the block at which the loop
stops.  The first argument bounds the number of iterations: `none` when the
loop has not stopped within it. -/
def checkheap_walk (m : Mem) (verbose : Nat) : Nat → Nat → Option (List Line × Nat)
  | 0, _ => none
  | n + 1, bp =>
    if GET_SIZE m bp > 0 then
      match checkheap_walk m verbose n (NEXT_BLKP m bp) with
      | none => none
      | some (out, e) =>
        some ((if verbose ≠ 0 then printblock m bp else []) ++ checkblock m bp ++ out, e)
    else some ([], bp)

/-- Function `mm_checkheap`: the lines printed and the state afterwards (the
function has no store, so it is the state before), or `none` when the loop
over the blocks has not stopped within `fuel` iterations. -/
def mm_checkheap (fuel : Nat) (h : Heap) (verbose : Nat) : Option (List Line × Heap) :=
  let bp := h.prologue
  let o1 := if verbose ≠ 0 then [Line.heap h.prologue] else []
  let o2 := if GET_SIZE h.mem bp ≠ HSIZE ∨ GET_ALLOC h.mem bp = 0 then [Line.badPrologue] else []
  let o3 := checkblock h.mem h.prologue
  match checkheap_walk h.mem verbose fuel (NEXT_BLKP h.mem h.prologue) with
  | none => none
  | some (o4, bp) =>
    let o5 := if verbose ≠ 0 then printblock h.mem bp else []
    let o6 :=
      if GET_SIZE h.mem bp ≠ 0 ∨ GET_ALLOC h.mem bp = 0 then
        [Line.badEpilogue (GET_SIZE h.mem bp) (GET_ALLOC h.mem bp)]
      else []
    some (o1 ++ o2 ++ o3 ++ o4 ++ o5 ++ o6 ++ checklist, h)

/-- The checker passes on the heap `h`: `mm_checkheap(0)` returns, prints
nothing and leaves the state as it is. -/
def Passes (h : Heap) : Prop :=
  ∃ n, ∀ fuel, n ≤ fuel → mm_checkheap fuel h 0 = some ([], h)

/-- Every block of the heap walk has a payload address divisible by 8. -/
def AlignedWalk (h : Heap) : Prop :=
  ∀ b, Visited h.mem h.prologue b → (b + 8) % 8 = 0

/-- Right after `mm_init` on an empty arena at the odd address
`4296015873`. -/
def stOdd : St := { heap := (mm_init true (fresh_heap zeroMem 4296015873)).2, live := [] }

/-- What the block walk of `mm_checkheap` is to detect on the walk `bs` that
ends at the block `e`: a prologue header other than (8, allocated), a last
block that is not marked allocated, or a walked block with a payload address
not divisible by 8, with a footer that differs from the header in size or
allocated bit, or free and followed by a free block. -/
def WalkFault (h : Heap) (bs : List Nat) (e : Nat) : Prop :=
  ¬ (GET_SIZE h.mem h.prologue = 8 ∧ GET_ALLOC h.mem h.prologue = 1) ∨
  ¬ (GET_SIZE h.mem e = 0 ∧ GET_ALLOC h.mem e = 1) ∨
  ∃ b, b ∈ bs ∧ ((b + 8) % 8 ≠ 0 ∨ ¬ TagsAgree h.mem b ∨
    (GET_ALLOC h.mem b = 0 ∧ GET_ALLOC h.mem (NEXT_BLKP h.mem b) = 0))

/-- The heap after `mm_init` with the link fields of list head 1 cleared:
the free block `4296016072` of 7984 bytes is in no list. -/
def stUnlisted : St :=
  { heap := { stInit.heap with
      mem := PREV (NEXT stInit.heap.mem (stInit.heap.segList + MIN_BLOCK_SIZE * 1) NULL)
        (stInit.heap.segList + MIN_BLOCK_SIZE * 1) NULL },
    live := [] }

/-! ## Size classes and adjusted size -/

/-- The rounding of the specification: `n` rounded up to a multiple of 8,
over the naturals. -/
def roundUp8 (n : Nat) : Nat := (n + 7) / 8 * 8

/-! ## First fit -/

/-- The scan order of the specification for `find_fit(asize)`, on the list
sequences `fl`: the first 12 entries of the list of class `calcList asize`,
then those of the next class, up to class 5. -/
def scanOrder (fl : Nat → List Nat) (asize : Nat) : List Nat :=
  ((List.range' (calcList asize) (LISTMAX + 1 - calcList asize)).map
    (fun i => (fl i).take 12)).flatten

/-- The result of the specification for `find_fit(asize)`: the first block
in scan order with a size of at least `asize`, or `NULL`. -/
def firstFit (m : Mem) (fl : Nat → List Nat) (asize : Nat) : Nat :=
  ((scanOrder fl asize).find? (fun x => decide (asize ≤ GET_SIZE m x))).getD NULL

/-- The lists of the heap `h` are well formed, with the sequences `fl`: each
list is traversed from its head to `NULL` over the nodes `fl i`, and every
node is marked free. -/
def ListsWF (h : Heap) (fl : Nat → List Nat) : Prop :=
  (∀ i, i < 6 → IsPath h.mem (listHead h i) (fl i) NULL) ∧
  (∀ i, i < 6 → ∀ x, x ∈ fl i → GET_ALLOC h.mem x = 0)

/-- The list sequences of the state `stFrag`: list 0 holds the twelve freed
blocks of 312 bytes, last freed first, and then the free block of 496 bytes
at the end of the arena; the other lists are empty. -/
def flFrag (i : Nat) : List Nat :=
  if i = 0 then
    [4296022936, 4296022312, 4296021688, 4296021064, 4296020440, 4296019816, 4296019192,
      4296018568, 4296017944, 4296017320, 4296016696, 4296016072, 4296023560]
  else []

/-! ## Extension of the arena -/

/-- Arena contents before `mm_init` that are zero but for the word at
`6443499720`, which holds 72 (size field 36, allocated bit 0). -/
def strayMem : Mem := ⟨fun x => if x = 6443499720 then 72 else 0⟩

/-- One request of `2^31` bytes after `mm_init` over `strayMem`: the arena
has `2^31 + 224` bytes, and `PREV_BLKP(epilogue)` is the word at
`6443499720`, which the allocator has not written. -/
def stStray : St :=
  malloc_step true { heap := (mm_init true (fresh_heap strayMem 4296015872)).2, live := [] }
    (2 ^ 31)

/-- One request of 7968 bytes after `mm_init`: the block of 7984 bytes is
allocated whole, so the last block before the epilogue is allocated. -/
def stFull : St := malloc_step true stInit 7968

/-! ## The result of `place` -/

/-- Block `B` is a member of one of the six lists of the heap `h`. -/
def Listed (h : Heap) (B : Nat) : Prop :=
  ∃ i, i < 6 ∧ ∃ l, IsPath h.mem (listHead h i) l NULL ∧ B ∈ l

/-- What the specification says of `place(B, asize)` in the heap `h`, with
`s` the size of `B` and `r = s - asize`.  If `r < 32`: header and footer of
`B` read `(s, allocated)`, every list is what it was without `B`, and the
heap walk visits the blocks it visited before.  If `r >= 32`: header and
footer of `B` read `(asize, allocated)`, the block at `B + asize` has header
and footer `(r, free)`, ends where `B` ended and is the head of the list of
class `calcList r`, every list is what it was without `B` (the new block
apart), and the heap walk visits the new block and the blocks it visited
before.  In both cases the tag words of the other visited blocks are
unchanged. -/
def PlaceResult (h : Heap) (B asize : Nat) : Prop :=
  let s := GET_SIZE h.mem B
  let r := s - asize
  let h2 : Heap := { h with mem := place h.segList h.mem B asize }
  (r < 32 →
    (GET_SIZE h2.mem B = s ∧ GET_ALLOC h2.mem B = ALLOC ∧
      GET_SIZE h2.mem (FTRP h2.mem B) = s ∧ GET_ALLOC h2.mem (FTRP h2.mem B) = ALLOC) ∧
    (∀ i, i < 6 → ∀ l, IsPath h.mem (listHead h i) l NULL →
      IsPath h2.mem (listHead h2 i) (l.erase B) NULL) ∧
    (∀ x, Visited h2.mem h2.prologue x ↔ Visited h.mem h.prologue x)) ∧
  (32 ≤ r →
    (GET_SIZE h2.mem B = asize ∧ GET_ALLOC h2.mem B = ALLOC ∧
      GET_SIZE h2.mem (FTRP h2.mem B) = asize ∧ GET_ALLOC h2.mem (FTRP h2.mem B) = ALLOC) ∧
    (GET_SIZE h2.mem (B + asize) = r ∧ GET_ALLOC h2.mem (B + asize) = FREE ∧
      GET_SIZE h2.mem (FTRP h2.mem (B + asize)) = r ∧
      GET_ALLOC h2.mem (FTRP h2.mem (B + asize)) = FREE) ∧
    NEXT_BLKP h2.mem (B + asize) = NEXT_BLKP h.mem B ∧
    listHead h2 (calcList r) = B + asize ∧
    (∀ i, i < 6 → ∀ l, IsPath h.mem (listHead h i) l NULL →
      IsPath h2.mem (listHead h2 i)
        (if i = calcList r then (B + asize) :: l.erase B else l.erase B) NULL) ∧
    (∀ x, Visited h2.mem h2.prologue x ↔ (Visited h.mem h.prologue x ∨ x = B + asize))) ∧
  (∀ x, Visited h.mem h.prologue x → x ≠ B →
    h2.mem.rd x = h.mem.rd x ∧ h2.mem.rd (FTRP h.mem x) = h.mem.rd (FTRP h.mem x))

/-! ## The result of `extend_heap` -/

/-- The arena contents in `extend_heap` right before the call of `coalesce`,
when `mem_sbrk` has granted the request: header and footer of the new free
block and the new epilogue header are written. -/
def extend_heap_written (grant : Bool) (h : Heap) (words : Nat) : Mem :=
  let size := words * 8 % 2 ^ 32
  let r := mem_sbrk grant h size
  let h1 := r.2
  let newChunkSpace := r.1 - HSIZE
  let m1 := PACK h1.mem (HDRP newChunkSpace) size FREE
  let m2 := PACK_FTRP m1 newChunkSpace size FREE
  let new_epilogue := NEXT_BLKP m2 newChunkSpace
  PACK m2 new_epilogue 0 ALLOC

/-- What the specification says of `extend_heap(words)` from the heap `h`
when `mem_sbrk` grants the bytes, with `t` the size of the last block if
that block is free and 0 otherwise.  Before coalescing, the `8 * words` bytes
from the old epilogue header on carry header and footer
`(8 * words, free)` and the word after them is the new epilogue header
(0, allocated); the arena break and the global `epilogue` have moved up by
`8 * words`, and the new epilogue header is the last word of the arena; the
result is that of `coalesce` on the new block; the returned block starts `t`
bytes before the old epilogue, has header and footer `(8 * words + t, free)`,
ends at the new epilogue and is the head of the list of its class. -/
def ExtendResult (grant : Bool) (h : Heap) (words : Nat) : Prop :=
  let t := if endFree h = true then lastSize h else 0
  let w := extend_heap_written grant h words
  let r := (extend_heap grant h words).1
  let h2 := (extend_heap grant h words).2
  (GET_SIZE w h.epilogue = 8 * words ∧ GET_ALLOC w h.epilogue = FREE ∧
    GET_SIZE w (h.epilogue + 8 * words - 8) = 8 * words ∧
    GET_ALLOC w (h.epilogue + 8 * words - 8) = FREE ∧
    GET_SIZE w (h.epilogue + 8 * words) = 0 ∧ GET_ALLOC w (h.epilogue + 8 * words) = ALLOC) ∧
  (h2.mem_brk = h.mem_brk + 8 * words ∧ h2.epilogue = h.epilogue + 8 * words ∧
    h2.epilogue + 8 = h2.mem_brk ∧
    GET_SIZE h2.mem h2.epilogue = 0 ∧ GET_ALLOC h2.mem h2.epilogue = ALLOC) ∧
  (h2.mem = (coalesce h.segList w h.epilogue).1 ∧ r = (coalesce h.segList w h.epilogue).2) ∧
  (r = h.epilogue - t ∧
    GET_SIZE h2.mem r = 8 * words + t ∧ GET_ALLOC h2.mem r = FREE ∧
    GET_SIZE h2.mem (FTRP h2.mem r) = 8 * words + t ∧ GET_ALLOC h2.mem (FTRP h2.mem r) = FREE ∧
    NEXT_BLKP h2.mem r = h2.epilogue ∧
    listHead h2 (calcList (8 * words + t)) = r)

/-- What the specification says of `mm_malloc(size)` when it extends the
arena over a free last block of `t` bytes, `t` smaller than the adjusted
size: the returned payload is that of the block that starts at the old last
block, the block has header and footer `(adjust_size size, allocated)` and
ends at the new epilogue, which lies `adjust_size size - t` bytes after the
old one. -/
def ExtendOverTail (grant : Bool) (h : Heap) (size : Nat) : Prop :=
  let t := lastSize h
  let asize := adjust_size size
  let B := h.epilogue - t
  let res := mm_malloc grant h size
  res.1 = B + HSIZE ∧
  GET_SIZE res.2.mem B = asize ∧ GET_ALLOC res.2.mem B = ALLOC ∧
  GET_SIZE res.2.mem (FTRP res.2.mem B) = asize ∧ GET_ALLOC res.2.mem (FTRP res.2.mem B) = ALLOC ∧
  NEXT_BLKP res.2.mem B = res.2.epilogue ∧
  res.2.epilogue = h.epilogue + (asize - t) ∧
  GET_SIZE res.2.mem res.2.epilogue = 0 ∧ GET_ALLOC res.2.mem res.2.epilogue = ALLOC

/-! ## The calls of the list operations inside the allocator -/

/-- The diagnostic prints before the early returns of `removeBlock`,
`insertBlock` and `coalesce`. -/
inductive ErrMsg
  /-- Print `Error: removing a NULL block`. -/
  | removeNull
  /-- Print `FORGOT TO CLEANUP tailptr`. -/
  | forgotTail
  /-- Print `Error: removing block in an empty list`. -/
  | removeEmpty
  /-- Print `Error: block not in one-element list`. -/
  | notInList
  /-- Print `Error: coalescing a NULLPTR`. -/
  | coalesceNull
  deriving DecidableEq

/-- The early return of `insertBlock(block)` in the arena `m`, if one is
taken: the branch `m_root == NULL`, `m_tail != NULL`. -/
def insertBlock_error (segList : Nat) (m : Mem) (block : Nat) : Option ErrMsg :=
  let blockSize := GET_SIZE m block
  let targetNumber := calcList blockSize
  let targetNode := segList + MIN_BLOCK_SIZE * targetNumber
  let m_root := getNext m targetNode
  let m_tail := getPrev m targetNode
  if m_root = NULL then
    if m_tail ≠ NULL then some ErrMsg.forgotTail else none
  else none

/-- The early return of `removeBlock(block)` in the arena `m`, if one is
taken. -/
def removeBlock_error (segList : Nat) (m : Mem) (block : Nat) : Option ErrMsg :=
  if block = NULL then some ErrMsg.removeNull
  else
    let blockSize := GET_SIZE m block
    let targetNumber := calcList blockSize
    let targetNode := segList + MIN_BLOCK_SIZE * targetNumber
    let m_root := getNext m targetNode
    let m_tail := getPrev m targetNode
    if m_root = NULL then
      if m_tail ≠ NULL then some ErrMsg.forgotTail else some ErrMsg.removeEmpty
    else if m_root = m_tail then
      if block ≠ m_root ∨ block ≠ m_tail then some ErrMsg.notInList else none
    else none

/-- The early return of `coalesce(block)`, if it is taken. -/
def coalesce_error (block : Nat) : Option ErrMsg :=
  if block = NULL then some ErrMsg.coalesceNull else none

/-- One call of `removeBlock`, `insertBlock` or `coalesce`: the value of the
global `segList` and the arena contents at the moment of the call, and the
block passed. -/
inductive Call
  /-- A call `removeBlock(block)`. -/
  | removeBlock (segList : Nat) (m : Mem) (block : Nat)
  /-- A call `insertBlock(block)`. -/
  | insertBlock (segList : Nat) (m : Mem) (block : Nat)
  /-- A call `coalesce(block)`. -/
  | coalesce (segList : Nat) (m : Mem) (block : Nat)

/-- The early return that the call takes, if any. -/
def Call.error : Call → Option ErrMsg
  | Call.removeBlock segList m block => removeBlock_error segList m block
  | Call.insertBlock segList m block => insertBlock_error segList m block
  | Call.coalesce _ _ block => coalesce_error block

/-- The calls made by `coalesce(block)`, itself included, in the order in
which they are made. -/
def coalesce_calls (segList : Nat) (m : Mem) (block : Nat) : List Call :=
  Call.coalesce segList m block ::
    (if block = NULL then []
    else
      let prev_alloc := GET_ALLOC m (FTRP m (PREV_BLKP m block)) ≠ 0
      let next_alloc := GET_ALLOC m (HDRP (NEXT_BLKP m block)) ≠ 0
      let size := GET_SIZE m block
      if prev_alloc ∧ next_alloc then
        [Call.insertBlock segList m block]
      else if prev_alloc ∧ ¬ next_alloc then
        let nextBlk := NEXT_BLKP m block
        let m1 := removeBlock segList m nextBlk
        let size := size + GET_SIZE m1 nextBlk
        let m2 := PACK m1 (HDRP block) size FREE
        let m3 := PACK_FTRP m2 block size FREE
        [Call.removeBlock segList m nextBlk, Call.insertBlock segList m3 block]
      else if ¬ prev_alloc ∧ next_alloc then
        let prevblk := PREV_BLKP m block
        let m1 := removeBlock segList m prevblk
        let size := size + GET_SIZE m1 prevblk
        let m2 := PACK_FTRP m1 block size FREE
        let m3 := PACK m2 prevblk size FREE
        [Call.removeBlock segList m prevblk, Call.insertBlock segList m3 prevblk]
      else
        let prevblk := PREV_BLKP m block
        let nextblk := NEXT_BLKP m block
        let m1 := removeBlock segList m nextblk
        let m2 := removeBlock segList m1 prevblk
        let size := size + (GET_SIZE m2 prevblk + GET_SIZE m2 nextblk)
        let m3 := PACK_FTRP m2 nextblk size FREE
        let m4 := PACK m3 prevblk size FREE
        [Call.removeBlock segList m nextblk, Call.removeBlock segList m1 prevblk,
          Call.insertBlock segList m4 prevblk])

/-- The calls made by `place(block, asize)`. -/
def place_calls (segList : Nat) (m : Mem) (block asize : Nat) : List Call :=
  let split_size := (GET_SIZE m block + 2 ^ 32 - asize % 2 ^ 32) % 2 ^ 32
  if split_size < MIN_BLOCK_SIZE then
    let m1 := PACK m (HDRP block) (GET_SIZE m block) ALLOC
    let m2 := PACK_FTRP m1 block (GET_SIZE m1 block) ALLOC
    [Call.removeBlock segList m2 block]
  else
    let m1 := removeBlock segList m block
    let m2 := set_block_size m1 block asize
    let m3 := set_allocated m2 block ALLOC
    let m_footer := get_footer m3 block
    let m4 := set_block_size m3 m_footer asize
    let m5 := set_allocated m4 m_footer ALLOC
    let splitBlock := NEXT_BLKP m5 block
    let m6 := set_block_size m5 splitBlock split_size
    let m7 := set_allocated m6 splitBlock FREE
    let splitBlock_footer := get_footer m7 splitBlock
    let m8 := set_block_size m7 splitBlock_footer split_size
    let m9 := set_allocated m8 splitBlock_footer FREE
    [Call.removeBlock segList m block, Call.insertBlock segList m9 splitBlock]

/-- The calls made by `extend_heap(words)`. -/
def extend_heap_calls (grant : Bool) (h : Heap) (words : Nat) : List Call :=
  let size := words * 8 % 2 ^ 32
  if size = 0 then []
  else
    let r := mem_sbrk grant h size
    if r.1 = SBRK_FAIL then []
    else
      let h1 := r.2
      let newChunkSpace := r.1 - HSIZE
      let m1 := PACK h1.mem (HDRP newChunkSpace) size FREE
      let m2 := PACK_FTRP m1 newChunkSpace size FREE
      let new_epilogue := NEXT_BLKP m2 newChunkSpace
      let m3 := PACK m2 new_epilogue 0 ALLOC
      coalesce_calls h1.segList m3 newChunkSpace

/-- The calls made by `mm_init()`. -/
def mm_init_calls (grant : Bool) (h : Heap) : List Call :=
  let r := mem_sbrk grant h CHUNKSIZE
  let h1 := { r.2 with prologue := r.1 }
  if r.1 = SBRK_FAIL then []
  else
    let prologue := r.1
    let m1 := PACK h1.mem prologue HSIZE ALLOC
    let segList := NEXT_BLKP m1 prologue
    let r2 := init_heads m1 (LISTMAX + 1) segList
    let init_block := r2.2
    let m2 := PACK r2.1 (HDRP init_block)
      (CHUNKSIZE - OVERHEAD - MIN_BLOCK_SIZE * (LISTMAX + 1)) FREE
    let m3 := PACK_FTRP m2 init_block
      (CHUNKSIZE - OVERHEAD - MIN_BLOCK_SIZE * (LISTMAX + 1)) FREE
    [Call.insertBlock segList m3 init_block]

/-- The calls made by `mm_malloc(size)`. -/
def mm_malloc_calls (grant : Bool) (h : Heap) (size : Nat) : List Call :=
  if size = 0 then []
  else
    let asize := adjust_size size
    let block := find_fit h.segList h.mem asize
    if block ≠ NULL then place_calls h.segList h.mem block asize
    else
      let extendsize :=
        if endFree h then (asize + 2 ^ 64 - lastSize h) % 2 ^ 64 % 2 ^ 32 else asize
      let extendwords := extendsize / 8
      let r := extend_heap grant h extendwords
      extend_heap_calls grant h extendwords ++
        (if r.1 ≠ NULL then place_calls r.2.segList r.2.mem r.1 asize else [])

/-- The calls made by `mm_free(payload)`. -/
def mm_free_calls (h : Heap) (payload : Nat) : List Call :=
  let bp := payload - HSIZE
  let m1 := PACK h.mem (HDRP bp) (GET_SIZE h.mem bp) FREE
  let m2 := PACK_FTRP m1 bp (GET_SIZE m1 bp) FREE
  coalesce_calls h.segList m2 bp

/-- What the specification says of the argument of a call: the block passed
to `removeBlock` is not null and is met on the traversal, from the head to
`NULL`, of the list of class `calcList` of its current size; the list that
`insertBlock` is about to change has a null head exactly when it has a null
tail; the block passed to `coalesce` is not null. -/
def Call.ok : Call → Prop
  | Call.removeBlock segList m block =>
    block ≠ NULL ∧
    ∃ l, IsPath m (getNext m (segList + MIN_BLOCK_SIZE * calcList (GET_SIZE m block))) l NULL ∧
      block ∈ l
  | Call.insertBlock segList m block =>
    (getNext m (segList + MIN_BLOCK_SIZE * calcList (GET_SIZE m block)) = NULL ↔
      getPrev m (segList + MIN_BLOCK_SIZE * calcList (GET_SIZE m block)) = NULL)
  | Call.coalesce _ _ block => block ≠ NULL

/-- Doubly linked runs can be checked. -/
instance Seg.dec (m : Mem) : ∀ (p : Nat) (l : List Nat) (n : Nat), Decidable (Seg m p l n)
  | _, [], _ => isTrue trivial
  | p, a :: l, n =>
    have := Seg.dec m a l n
    inferInstanceAs (Decidable (getPrev m a = p ∧ getNext m a = l.headD n ∧ Seg m a l n))

/-- One request of `2^31 - 8` bytes after `mm_init`: the arena has
`2^31 + 216` bytes. -/
def stLarge : St := malloc_step true stInit (2 ^ 31 - 8)

/-! ## The probes of `find_fit` -/

/-- Inner `while` loop of `find_fit`, run for at most as many iterations as
the first argument says (`none` when they are used up): `count` is the loop
counter.  The result is the block that `find_fit` returns from inside the
loop, or `NULL` when the loop ends, and the blocks whose size field was read,
in the order of the reads. -/
def find_fit_while (m : Mem) (asize : Nat) : Nat → Nat → Nat → Option (Nat × List Nat)
  | 0, _, _ => none
  | fuel + 1, m_root, count =>
    if m_root ≠ NULL ∧ count ≤ 11 then
      if GET_SIZE m m_root ≥ asize then some (m_root, [m_root])
      else
        (find_fit_while m asize fuel (getNext m m_root) (count + 1)).map
          (fun r => (r.1, m_root :: r.2))
    else some (NULL, [])

/-- Outer `for` loop of `find_fit`, run for at most as many iterations as the
first argument says: `i` is the loop variable.  The result is the value that
`find_fit` returns and the size reads, each with the class in which it was
made. -/
def find_fit_for (segList : Nat) (m : Mem) (asize : Nat) :
    Nat → Nat → Option (Nat × List (Nat × Nat))
  | 0, _ => none
  | fuel + 1, i =>
    if i ≤ LISTMAX then
      let targetNode := segList + MIN_BLOCK_SIZE * i
      let m_root := getNext m targetNode
      match find_fit_while m asize fuel m_root 0 with
      | none => none
      | some r =>
        if r.1 ≠ NULL then some (r.1, r.2.map (fun x => (i, x)))
        else
          (find_fit_for segList m asize fuel (i + 1)).map
            (fun q => (q.1, r.2.map (fun x => (i, x)) ++ q.2))
    else some (NULL, [])

/-- Function `find_fit` with its size reads recorded, each loop run for at
most `fuel` iterations. -/
def find_fit_probes (fuel : Nat) (segList : Nat) (m : Mem) (asize : Nat) :
    Option (Nat × List (Nat × Nat)) :=
  let blockSize := asize % 2 ^ 32
  let targetNumber := calcList blockSize
  find_fit_for segList m asize fuel targetNumber

/-- The heap after `mm_init` with the `next` link of the free block
`4296016072` set to the block itself: list 1 is cyclic. -/
def heapCyclic : Heap :=
  { stInit.heap with mem := wr stInit.heap.mem (4296016072 + 8) 4296016072 }

/-! ## `V3/updatedPlace.c` -/

namespace UpdatedPlace

/-- Function `place` of `V3/updatedPlace.c`.  `split_size` is a `uint32_t`.
In the split case the footer of the passed block is found first, the header of
the block marked allocated is computed from it
(`splitBlock_footer - asize + sizeof(footer_t)`, no wrap-around as long as
`asize` is at most the block size), and the passed block keeps the
remainder. -/
def place (segList : Nat) (m : Mem) (block asize : Nat) : Mem :=
  let split_size := (GET_SIZE m block + 2 ^ 32 - asize % 2 ^ 32) % 2 ^ 32
  if split_size < MIN_BLOCK_SIZE then
    let m1 := PACK m (HDRP block) (GET_SIZE m block) ALLOC
    let m2 := PACK_FTRP m1 block (GET_SIZE m1 block) ALLOC
    removeBlock segList m2 block
  else
    let m1 := removeBlock segList m block
    let splitBlock_footer := FTRP m1 block
    let m2 := set_block_size m1 splitBlock_footer asize
    let m3 := set_allocated m2 splitBlock_footer ALLOC
    let splitBlock := splitBlock_footer - asize + HSIZE
    let m4 := set_block_size m3 splitBlock asize
    let m5 := set_allocated m4 splitBlock ALLOC
    let m6 := set_block_size m5 block split_size
    let m7 := set_allocated m6 block FREE
    let m_footer := get_footer m7 block
    let m8 := set_block_size m7 m_footer split_size
    let m9 := set_allocated m8 m_footer FREE
    insertBlock segList m9 block

end UpdatedPlace

/-! ## `V2/mallocTester.c` -/

namespace MallocTester

/-- The memory in which the blocks of `mallocTester.c` live and its two
globals.  A `block_t` has 24 bytes: the tag in the first word, `next` in the
second and `prev` in the third. -/
structure State where
  /-- Memory contents. -/
  mem : Mem
  /-- Global `m_root`. -/
  m_root : Nat
  /-- Global `m_tail`. -/
  m_tail : Nat

/-- Function `insertBlock` of `mallocTester.c`. -/
def insertBlock (s : State) (block : Nat) : State :=
  if s.m_root = NULL then
    if s.m_tail ≠ NULL then s
    else
      let m1 := PREV s.mem block NULL
      let m2 := NEXT m1 block NULL
      { mem := m2, m_root := block, m_tail := block }
  else
    let m1 := PREV s.mem s.m_root block
    let m2 := NEXT m1 block s.m_root
    let m3 := PREV m2 block NULL
    { mem := m3, m_root := block, m_tail := s.m_tail }

/-- Function `removeBlock` of `mallocTester.c`. -/
def removeBlock (s : State) (block : Nat) : State :=
  if block = NULL then s
  else if s.m_root = NULL then s
  else if s.m_root = s.m_tail then
    if block ≠ s.m_root ∨ block ≠ s.m_tail then s
    else
      let m1 := PREV s.mem block NULL
      let m2 := NEXT m1 block NULL
      { mem := m2, m_root := NULL, m_tail := NULL }
  else if block = s.m_root then
    let root := getNext s.mem s.m_root
    let m1 := PREV s.mem root NULL
    let m2 := PREV m1 block NULL
    let m3 := NEXT m2 block NULL
    { mem := m3, m_root := root, m_tail := s.m_tail }
  else if block = s.m_tail then
    let tail := getPrev s.mem s.m_tail
    let m1 := NEXT s.mem tail NULL
    let m2 := PREV m1 block NULL
    let m3 := NEXT m2 block NULL
    { mem := m3, m_root := s.m_root, m_tail := tail }
  else
    let predptr := getPrev s.mem block
    let succptr := getNext s.mem block
    let m1 := NEXT s.mem predptr succptr
    let m2 := PREV m1 succptr predptr
    let m3 := NEXT m2 block NULL
    let m4 := PREV m3 block NULL
    { mem := m4, m_root := s.m_root, m_tail := s.m_tail }

/-- A line printed by `checklist` of `mallocTester.c`; `size` and `alloc` are
the two fields of the block printed. -/
inductive Out
  /-- Print `Error: m_root and m_tail is not synchronized.` -/
  | unsynchronized
  /-- Print `Error: root has non-NULL PREVptr`. -/
  | rootPrev
  /-- Print `ROOT: size | state`. -/
  | root (size alloc : Nat)
  /-- Print `size | state`. -/
  | node (size alloc : Nat)
  /-- Print `Error: tail has non-NULL NEXTptr`. -/
  | tailNext
  /-- Print `TAIL: size | state`. -/
  | tail (size alloc : Nat)
  deriving DecidableEq

/-- Loop `while ((void *)block != m_tail)` of `checklist`, run for at most as
many iterations as the first argument says: the lines printed and the block
at which the loop ends. -/
def checklist_loop (s : State) : Nat → Nat → Option (List Out × Nat)
  | 0, _ => none
  | fuel + 1, block =>
    if block ≠ s.m_tail then
      (checklist_loop s fuel (getNext s.mem block)).map
        (fun r => (Out.node (GET_SIZE s.mem block) (GET_ALLOC s.mem block) :: r.1, r.2))
    else some ([], block)

/-- Function `checklist` of `mallocTester.c`: the lines printed. -/
def checklist (fuel : Nat) (s : State) : Option (List Out) :=
  if (s.m_root = NULL ∧ s.m_tail ≠ NULL) ∨ (s.m_root ≠ NULL ∧ s.m_tail = NULL) then
    some [Out.unsynchronized]
  else if s.m_root = NULL then some []
  else
    let block := s.m_root
    let prv := getPrev s.mem block
    let o1 := if prv ≠ NULL then [Out.rootPrev] else []
    let o2 := [Out.root (GET_SIZE s.mem s.m_root) (GET_ALLOC s.mem s.m_root)]
    match checklist_loop s fuel block with
    | none => none
    | some r =>
      let nxt := getNext s.mem r.2
      let o3 := if nxt ≠ NULL then [Out.tailNext] else []
      some (o1 ++ o2 ++ r.1 ++ o3 ++
        [Out.node (GET_SIZE s.mem r.2) (GET_ALLOC s.mem r.2),
          Out.tail (GET_SIZE s.mem s.m_tail) (GET_ALLOC s.mem s.m_tail)])

/-- The state of `main` of `mallocTester.c` before its last statement, the
call of `checklist`: `first`, `m_branch` and `second` are the results of the
three calls of the C library function `malloc`, `m0` is the memory at the
start, and both globals start as `NULL`. -/
def main_state (m0 : Mem) (first m_branch second : Nat) : State :=
  let s0 : State := { mem := m0, m_root := NULL, m_tail := NULL }
  let m1 := set_block_size (set_allocated s0.mem first 0) first 1
  let s1 := insertBlock { s0 with mem := m1 } first
  let m2 := set_block_size (set_allocated s1.mem m_branch 0) m_branch 2
  let s2 := insertBlock { s1 with mem := m2 } m_branch
  let m3 := set_block_size (set_allocated s2.mem second 0) second 3
  let s3 := insertBlock { s2 with mem := m3 } second
  let s4 := removeBlock s3 second
  removeBlock s4 first

/-- Function `main` of `mallocTester.c`: the final state and the lines printed
by `checklist`. -/
def main (fuel : Nat) (m0 : Mem) (first m_branch second : Nat) : Option (State × List Out) :=
  let s := main_state m0 first m_branch second
  (checklist fuel s).map (fun o => (s, o))

/-- The list of `mallocTester.c` holds the blocks `l`: `m_root` is the first
and `m_tail` the last of them (both `NULL` when there is none), the blocks
are doubly linked with `NULL` at both ends, and they are distinct objects of
24 bytes, none at address `NULL`. -/
def ListOK (s : State) (l : List Nat) : Prop :=
  s.m_root = l.headD NULL ∧ s.m_tail = l.getLastD NULL ∧ Seg s.mem NULL l NULL ∧
  l.Nodup ∧ (∀ x, x ∈ l → x ≠ NULL) ∧
  (∀ x y, x ∈ l → y ∈ l → x = y ∨ x + 24 ≤ y ∨ y + 24 ≤ x)

end MallocTester

/-! ## `version1/mm.c` -/

namespace Version1

/-- Macro `CHUNKSIZE` of `version1/mm.c`, `1 << 16`. -/
abbrev CHUNKSIZE : Nat := 65536

/-- The allocator state of `version1/mm.c`: the arena with its two bounds and
the global `prologue`. -/
structure Heap where
  /-- Arena contents. -/
  mem : Mem
  /-- First byte of the arena. -/
  mem_start_brk : Nat
  /-- One past the last byte of the arena. -/
  mem_brk : Nat
  /-- Global `prologue`. -/
  prologue : Nat

/-- Modelled from the spec: `mem_sbrk` of `memlib`, which is not part of the sources;
a granted request returns the old break and moves the break up by `incr`, a
refused request returns `(void *)-1` and changes nothing. -/
def mem_sbrk (grant : Bool) (h : Heap) (incr : Nat) : Nat × Heap :=
  if grant = true ∧ h.mem_brk + incr < 2 ^ 64 then
    (h.mem_brk, { h with mem_brk := h.mem_brk + incr })
  else (SBRK_FAIL, h)

/-- Function `coalesce` of `version1/mm.c`. -/
def coalesce (m : Mem) (block : Nat) : Mem × Nat :=
  let prev_alloc := GET_ALLOC m (PREV_BLKP m block) ≠ 0
  let next_alloc := GET_ALLOC m (NEXT_BLKP m block) ≠ 0
  let size := GET_SIZE m block
  if prev_alloc ∧ next_alloc then (m, block)
  else if prev_alloc ∧ ¬ next_alloc then
    let size := size + GET_SIZE m (NEXT_BLKP m block)
    let m1 := PACK m (HDRP block) size FREE
    let m2 := PACK_FTRP m1 block size FREE
    (m2, block)
  else if ¬ prev_alloc ∧ next_alloc then
    let size := size + GET_SIZE m (PREV_BLKP m block)
    let block1 := PREV_BLKP m block
    let m1 := PACK m (HDRP block1) size FREE
    let m2 := PACK_FTRP m1 block1 size FREE
    (m2, block1)
  else
    let size := size + (GET_SIZE m (PREV_BLKP m block) + GET_SIZE m (NEXT_BLKP m block))
    let block1 := PREV_BLKP m block
    let m1 := PACK m (HDRP block1) size FREE
    let m2 := PACK_FTRP m1 block1 size FREE
    (m2, block1)

/-- Function `extend_heap` of `version1/mm.c`: the returned block (`NULL` on
failure) and the new state.  `size` is a `uint32_t`, assigned
`words << 4`. -/
def extend_heap (grant : Bool) (h : Heap) (words : Nat) : Nat × Heap :=
  let size := words * 2 ^ 4 % 2 ^ 64 % 2 ^ 32
  if size = 0 then (NULL, h)
  else
    let r := mem_sbrk grant h size
    if r.1 = SBRK_FAIL then (NULL, r.2)
    else
      let h1 := r.2
      let newChunkSpace := r.1 - HSIZE
      let m1 := PACK h1.mem (HDRP newChunkSpace) size FREE
      let m2 := PACK_FTRP m1 newChunkSpace size FREE
      let new_epilogue := NEXT_BLKP m2 newChunkSpace
      let m3 := PACK m2 new_epilogue 0 ALLOC
      let c := coalesce m3 newChunkSpace
      (c.2, { h1 with mem := c.1 })

/-- Loop of `find_fit` of `version1/mm.c`, the walk over all blocks, run for
at most as many iterations as the first argument says (`none` when they are
used up). -/
def find_fit (m : Mem) (asize : Nat) : Nat → Nat → Option Nat
  | 0, _ => none
  | fuel + 1, bp =>
    if GET_SIZE m bp > 0 then
      if GET_ALLOC m bp = 0 ∧ asize ≤ GET_SIZE m bp then some bp
      else find_fit m asize fuel (NEXT_BLKP m bp)
    else some NULL

/-- Loop of `mm_checkheap` of `version1/mm.c`, run for at most as many
iterations as the first argument says: the block at which the walk ends.  The
function only reads the arena and prints. -/
def checkheap_walk (m : Mem) : Nat → Nat → Option Nat
  | 0, _ => none
  | fuel + 1, bp =>
    if GET_SIZE m bp > 0 then checkheap_walk m fuel (NEXT_BLKP m bp) else some bp

/-- Function `mm_checkheap` of `version1/mm.c`, without the lines it prints:
the block at which its walk ends. -/
def mm_checkheap (fuel : Nat) (h : Heap) : Option Nat :=
  checkheap_walk h.mem fuel (NEXT_BLKP h.mem h.prologue)

/-- Function `place` of `version1/mm.c`, before its last statement, the call
of `mm_checkheap`.  `split_size` is a `size_t`. -/
def place (m : Mem) (block asize : Nat) : Mem :=
  let split_size := (GET_SIZE m block + 2 ^ 64 - asize % 2 ^ 64) % 2 ^ 64
  if split_size < MIN_BLOCK_SIZE then
    let m1 := PACK m (HDRP block) (GET_SIZE m block) ALLOC
    PACK_FTRP m1 block (GET_SIZE m1 block) ALLOC
  else
    let m1 := PACK m (HDRP block) asize ALLOC
    let m2 := PACK_FTRP m1 block asize ALLOC
    let block1 := NEXT_BLKP m2 block
    let m3 := PACK m2 (HDRP block1) split_size FREE
    PACK_FTRP m3 block1 split_size FREE

/-- Function `mm_init` of `version1/mm.c`. -/
def mm_init (grant : Bool) (h : Heap) : Int × Heap :=
  let r := mem_sbrk grant h CHUNKSIZE
  let h1 := { r.2 with prologue := r.1 }
  if r.1 = SBRK_FAIL then (-1, h1)
  else
    let prologue := r.1
    let m1 := PACK h1.mem prologue HSIZE ALLOC
    let init_block := NEXT_BLKP m1 prologue
    let m2 := PACK m1 (HDRP init_block) (CHUNKSIZE - OVERHEAD) FREE
    let m3 := PACK_FTRP m2 init_block (CHUNKSIZE - OVERHEAD) FREE
    let epilogue := NEXT_BLKP m3 init_block
    let m4 := PACK m3 (HDRP epilogue) 0 ALLOC
    (0, { h1 with mem := m4 })

/-- The amount `extendsize` of `mm_malloc` of `version1/mm.c`,
`MAX(asize, CHUNKSIZE)`. -/
def extendsize (asize : Nat) : Nat := if asize > CHUNKSIZE then asize else CHUNKSIZE

/-- Function `mm_malloc` of `version1/mm.c`: the returned pointer and the new
state, `none` when a loop does not end within `fuel` iterations.  The
adjusted size is computed as in `V3/build4.c`; `extendsize` and `extendwords`
are `uint32_t`. -/
def mm_malloc (fuel : Nat) (grant : Bool) (h : Heap) (size : Nat) : Option (Nat × Heap) :=
  if size = 0 then some (NULL, h)
  else
    let asize := adjust_size size
    match find_fit h.mem asize fuel (NEXT_BLKP h.mem h.prologue) with
    | none => none
    | some block =>
      if block ≠ NULL then
        let h2 := { h with mem := place h.mem block asize }
        (mm_checkheap fuel h2).map (fun _ => (PLDP block, h2))
      else
        let extendwords := extendsize asize / 2 ^ 3
        let r := extend_heap grant h extendwords
        if r.1 ≠ NULL then
          let h2 := { r.2 with mem := place r.2.mem r.1 asize }
          (mm_checkheap fuel h2).map (fun _ => (r.1 + HSIZE, h2))
        else some (NULL, r.2)

/-- The state before `mm_init`: an empty arena at `base`. -/
def fresh_heap (m0 : Mem) (base : Nat) : Heap :=
  { mem := m0, mem_start_brk := base, mem_brk := base, prologue := NULL }

/-- Right after `mm_init` on an empty arena at address `4296015872`: one free
block of 65520 bytes at `4296015880`. -/
def heapInit : Heap := (mm_init true (fresh_heap zeroMem 4296015872)).2

/-- The state after `mm_init` and `mm_malloc(65504)`, which takes the whole
free block: the last block before the epilogue is allocated. -/
def heapFull : Heap := ((mm_malloc 2 true heapInit 65504).map (fun r => r.2)).getD heapInit

end Version1

/-! ## Lemmas on words and tags -/

/-! ## Words and tags -/

@[simp] theorem rd_wr (m : Mem) (a v x : Nat) :
    (wr m a v).rd x = if x = a then v else m.rd x := rfl

theorem tagword_size (w s : Nat) :
    (w / 2 ^ 32 * 2 ^ 32 + s % 2 ^ 31 * 2 + w % 2) % 2 ^ 32 / 2 = s % 2 ^ 31 := by
  omega

theorem tagword_alloc (w s : Nat) :
    (w / 2 ^ 32 * 2 ^ 32 + s % 2 ^ 31 * 2 + w % 2) % 2 = w % 2 := by
  omega

theorem allocword_size (w a : Nat) : (w / 2 * 2 + a % 2) % 2 ^ 32 / 2 = w % 2 ^ 32 / 2 := by
  omega

theorem allocword_alloc (w a : Nat) : (w / 2 * 2 + a % 2) % 2 = a % 2 := by
  omega

theorem GET_SIZE_lt (m : Mem) (p : Nat) : GET_SIZE m p < 2 ^ 31 := by
  unfold GET_SIZE; omega

theorem GET_ALLOC_lt (m : Mem) (p : Nat) : GET_ALLOC m p < 2 := by
  unfold GET_ALLOC; omega

@[simp] theorem GET_SIZE_wr (m : Mem) (a v x : Nat) :
    GET_SIZE (wr m a v) x = if x = a then v % 2 ^ 32 / 2 else GET_SIZE m x := by
  unfold GET_SIZE; simp only [rd_wr]; split <;> rfl

@[simp] theorem GET_ALLOC_wr (m : Mem) (a v x : Nat) :
    GET_ALLOC (wr m a v) x = if x = a then v % 2 else GET_ALLOC m x := by
  unfold GET_ALLOC; simp only [rd_wr]; split <;> rfl

@[simp] theorem GET_SIZE_set_block_size (m : Mem) (p s x : Nat) :
    GET_SIZE (set_block_size m p s) x = if x = p then s % 2 ^ 31 else GET_SIZE m x := by
  unfold set_block_size
  rw [GET_SIZE_wr, tagword_size]

@[simp] theorem GET_ALLOC_set_block_size (m : Mem) (p s x : Nat) :
    GET_ALLOC (set_block_size m p s) x = GET_ALLOC m x := by
  unfold set_block_size
  rw [GET_ALLOC_wr, tagword_alloc]
  split
  · next h => subst h; rfl
  · rfl

@[simp] theorem GET_SIZE_set_allocated (m : Mem) (p a x : Nat) :
    GET_SIZE (set_allocated m p a) x = GET_SIZE m x := by
  unfold set_allocated
  rw [GET_SIZE_wr, allocword_size]
  split
  · next h => subst h; rfl
  · rfl

@[simp] theorem GET_ALLOC_set_allocated (m : Mem) (p a x : Nat) :
    GET_ALLOC (set_allocated m p a) x = if x = p then a % 2 else GET_ALLOC m x := by
  unfold set_allocated
  rw [GET_ALLOC_wr, allocword_alloc]

theorem rd_set_block_size (m : Mem) (p s x : Nat) (h : x ≠ p) :
    (set_block_size m p s).rd x = m.rd x := by
  unfold set_block_size; simp [h]

theorem rd_set_allocated (m : Mem) (p a x : Nat) (h : x ≠ p) :
    (set_allocated m p a).rd x = m.rd x := by
  unfold set_allocated; simp [h]

@[simp] theorem GET_SIZE_PACK (m : Mem) (p s a x : Nat) :
    GET_SIZE (PACK m p s a) x = if x = p then s % 2 ^ 31 else GET_SIZE m x := by
  unfold PACK; simp

@[simp] theorem GET_ALLOC_PACK (m : Mem) (p s a x : Nat) :
    GET_ALLOC (PACK m p s a) x = if x = p then a % 2 else GET_ALLOC m x := by
  unfold PACK; simp

theorem rd_PACK (m : Mem) (p s a x : Nat) (h : x ≠ p) : (PACK m p s a).rd x = m.rd x := by
  unfold PACK; rw [rd_set_allocated _ _ _ _ h, rd_set_block_size _ _ _ _ h]

/-! ## `calcList` -/

theorem calcListLoop_le (s : Nat) : ∀ n c x, c + n ≤ 6 → calcListLoop s n c x ≤ 5 := by
  intro n
  induction n with
  | zero => intro c x _; simp [calcListLoop]
  | succ n ih =>
    intro c x h
    unfold calcListLoop
    split
    · omega
    · exact ih (c + 1) (x * 2) (by omega)

theorem calcList_le (s : Nat) : calcList s ≤ 5 :=
  calcListLoop_le s 6 0 4000 (by omega)

theorem calcList_lt (s : Nat) : calcList s < 6 := by
  have := calcList_le s; omega

/-! ## Doubly linked segments -/

theorem Seg_congr {m m2 : Mem} : ∀ (l : List Nat) (p n : Nat),
    (∀ x, x ∈ l → m2.rd (x + 8) = m.rd (x + 8) ∧ m2.rd (x + 16) = m.rd (x + 16)) →
    Seg m p l n → Seg m2 p l n := by
  intro l
  induction l with
  | nil => intro p n _ _; trivial
  | cons a l ih =>
    intro p n h hs
    obtain ⟨h1, h2, h3⟩ := hs
    have ha := h a (List.mem_cons_self a l)
    refine ⟨?_, ?_, ih a n (fun x hx => h x (List.mem_cons_of_mem a hx)) h3⟩
    · unfold getPrev at *; rw [ha.2]; exact h1
    · unfold getNext at *; rw [ha.1]; exact h2

theorem Seg_append {m : Mem} : ∀ (l1 l2 : List Nat) (p n : Nat),
    Seg m p (l1 ++ l2) n ↔ (Seg m p l1 (l2.headD n) ∧ Seg m (l1.getLastD p) l2 n) := by
  intro l1
  induction l1 with
  | nil => intro l2 p n; simp [Seg]
  | cons a l ih =>
    intro l2 p n
    have e1 : (l ++ l2).headD n = l.headD (l2.headD n) := by cases l <;> simp
    have e2 : (a :: l).getLastD p = l.getLastD a := List.getLastD_cons p a l
    show (getPrev m a = p ∧ getNext m a = (l ++ l2).headD n ∧ Seg m a (l ++ l2) n) ↔ _
    rw [ih l2 a n, e1, e2]
    show _ ↔ ((getPrev m a = p ∧ getNext m a = l.headD (l2.headD n) ∧ Seg m a l (l2.headD n)) ∧ _)
    tauto

theorem list_snoc_cases (l : List Nat) : l = [] ∨ ∃ l0 x, l = l0 ++ [x] := by
  rcases List.eq_nil_or_concat l with h | ⟨l0, x, h⟩
  · exact Or.inl h
  · exact Or.inr ⟨l0, x, by rw [h, List.concat_eq_append]⟩

theorem Seg_snoc {m : Mem} (l : List Nat) (x p n : Nat) :
    Seg m p (l ++ [x]) n ↔
      (Seg m p l x ∧ getPrev m x = l.getLastD p ∧ getNext m x = n) := by
  rw [Seg_append]
  show (Seg m p l x ∧ (getPrev m x = l.getLastD p ∧ getNext m x = n ∧ True)) ↔ _
  tauto

theorem Seg_last_next {m : Mem} : ∀ (l : List Nat) (p n : Nat), Seg m p l n → l ≠ [] →
    getNext m (l.getLastD 0) = n := by
  intro l p n hs hne
  rcases list_snoc_cases l with h | ⟨l0, x, h⟩
  · exact absurd h hne
  · subst h
    rw [Seg_snoc] at hs
    rw [List.getLastD_concat]
    exact hs.2.2

theorem Seg_head_prev {m : Mem} (l : List Nat) (p n : Nat) (hs : Seg m p l n) (hne : l ≠ []) :
    getPrev m (l.headD 0) = p := by
  cases l with
  | nil => exact absurd rfl hne
  | cons a l => exact hs.1

theorem GET_SIZE_congr {m m2 : Mem} {x : Nat} (h : m2.rd x = m.rd x) :
    GET_SIZE m2 x = GET_SIZE m x := by
  unfold GET_SIZE; rw [h]

theorem GET_ALLOC_congr {m m2 : Mem} {x : Nat} (h : m2.rd x = m.rd x) :
    GET_ALLOC m2 x = GET_ALLOC m x := by
  unfold GET_ALLOC; rw [h]

theorem ListOK_congr {m m2 : Mem} {node : Nat} {l : List Nat}
    (hn : m2.rd (node + 8) = m.rd (node + 8) ∧ m2.rd (node + 16) = m.rd (node + 16))
    (hl : ∀ x, x ∈ l → m2.rd (x + 8) = m.rd (x + 8) ∧ m2.rd (x + 16) = m.rd (x + 16))
    (h : ListOK m node l) : ListOK m2 node l := by
  obtain ⟨h1, h2, h3⟩ := h
  refine ⟨?_, ?_, Seg_congr l _ _ hl h3⟩
  · unfold getNext at *; rw [hn.1]; exact h1
  · unfold getPrev at *; rw [hn.2]; exact h2

theorem getLastD_mem (a : Nat) (l : List Nat) : l.getLastD a ∈ a :: l := by
  induction l generalizing a with
  | nil => simp
  | cons b l ih =>
    rw [List.getLastD_cons]
    exact List.mem_cons_of_mem a (ih b)

theorem ListsAt_congr_fl {seg : Nat} {m : Mem} {fl fl2 : Nat → List Nat} {L : Nat → Prop}
    (h : ∀ i, i < 6 → fl i = fl2 i) (hL : ListsAt seg m fl L) : ListsAt seg m fl2 L := by
  obtain ⟨hok, hnd, hmem, hge, hsp⟩ := hL
  refine ⟨?_, ?_, ?_, hge, hsp⟩
  · intro i hi; rw [← h i hi]; exact hok i hi
  · intro i hi; rw [← h i hi]; exact hnd i hi
  · intro i hi x; rw [← h i hi]; exact hmem i hi x

/-- `insertBlock` puts `B` at the head of the list of its size class and
writes link words only. -/
theorem insertBlock_seq (seg : Nat) (m : Mem) (fl : Nat → List Nat) (L : Nat → Prop) (B : Nat)
    (hL : ListsAt seg m fl L) (hB : ¬ L B) (hlo : seg + 192 ≤ B)
    (hsep : ∀ x, L x → x + 32 ≤ B ∨ B + 32 ≤ x) :
    ListsAt seg (insertBlock seg m B)
      (fun i => if i = calcList (GET_SIZE m B) then B :: fl i else fl i)
      (fun x => L x ∨ x = B) ∧
    (∀ x, LinkFree seg (fun y => L y ∨ y = B) x → (insertBlock seg m B).rd x = m.rd x) := by
  obtain ⟨hok, hnd, hmem, hge, hsp⟩ := hL
  have hc : calcList (GET_SIZE m B) < 6 := calcList_lt _
  generalize hcdef : calcList (GET_SIZE m B) = c at hc ⊢
  obtain ⟨hroot, htail, hseg⟩ := hok c hc
  have hmemc : ∀ x, x ∈ fl c → L x := fun x hx => ((hmem c hc x).1 hx).1
  have hBc : B ∉ fl c := fun h => hB (hmemc B h)
  have hmemi : ∀ i, i < 6 → ∀ x, x ∈ fl i → L x := fun i hi x hx => ((hmem i hi x).1 hx).1
  -- the pointwise description of the new contents
  have key : ∀ x,
      (x ≠ seg + 32 * c + 8 → x ≠ seg + 32 * c + 16 → x ≠ B + 8 → x ≠ B + 16 →
        (fl c ≠ [] → x ≠ (fl c).headD 0 + 16) → (insertBlock seg m B).rd x = m.rd x) ∧
      (insertBlock seg m B).rd (seg + 32 * c + 8) = B ∧
      (insertBlock seg m B).rd (seg + 32 * c + 16) = (B :: fl c).getLastD 0 ∧
      (insertBlock seg m B).rd (B + 8) = (fl c).headD 0 ∧
      (insertBlock seg m B).rd (B + 16) = 0 ∧
      (fl c ≠ [] → (insertBlock seg m B).rd ((fl c).headD 0 + 16) = B) := by
    intro x
    cases hflc : fl c with
    | nil =>
      rw [hflc] at hroot htail
      have hm : insertBlock seg m B =
          wr (wr (wr (wr m (B + 16) 0) (B + 8) 0) (seg + 32 * c + 8) B) (seg + 32 * c + 16) B := by
        unfold insertBlock
        simp only [hcdef, hroot, htail, List.headD_nil, List.getLastD_nil, NEXT, PREV, if_true,
          ne_eq, not_true_eq_false, if_false]
      rw [hm]
      simp only [rd_wr, List.headD_nil, List.getLastD_cons, List.getLastD_nil]
      refine ⟨?_, ?_, ?_, ?_, ?_, ?_⟩
      · intro h1 h2 h3 h4 _
        rw [if_neg h2, if_neg h1, if_neg h3, if_neg h4]
      · split_ifs <;> first | rfl | omega
      · split_ifs <;> first | rfl | omega
      · split_ifs <;> first | rfl | omega
      · split_ifs <;> first | rfl | omega
      · intro h; exact absurd rfl h
    | cons a l =>
      rw [hflc] at hroot htail hseg hBc
      have hLa : L a := hmemc a (by rw [hflc]; exact List.mem_cons_self a l)
      have hLt : L (l.getLastD a) := hmemc _ (by rw [hflc]; exact getLastD_mem a l)
      have ha0 := hge a hLa
      have ht0 := hge _ hLt
      have hta := hsp _ _ hLt hLa
      have htB := hsep _ hLt
      have haB := hsep _ hLa
      have htn : m.rd (l.getLastD a + 8) = 0 := by
        have := Seg_last_next (a :: l) 0 0 hseg (List.cons_ne_nil a l)
        rw [List.getLastD_cons] at this
        exact this
      rw [List.headD_cons, List.getLastD_cons] at *
      have hm : insertBlock seg m B =
          wr (wr (wr (wr (wr m (a + 16) B) (B + 8) a) (B + 16) 0) (seg + 32 * c + 8) B)
            (l.getLastD a + 8) 0 := by
        unfold insertBlock
        simp only [hcdef, hroot, htail, NEXT, PREV, if_neg (show a ≠ 0 by omega)]
      rw [hm]
      simp only [rd_wr]
      refine ⟨?_, ?_, ?_, ?_, ?_, ?_⟩
      · intro h1 _ h3 h4 h5
        have h5 := h5 (List.cons_ne_nil a l)
        by_cases hx : x = l.getLastD a + 8
        · rw [if_pos hx, hx, htn]
        · rw [if_neg hx, if_neg h1, if_neg h4, if_neg h3, if_neg h5]
      · split_ifs <;> first | rfl | omega
      · unfold getPrev at htail
        rw [List.getLastD_cons]
        split_ifs <;> first | exact htail | omega
      · split_ifs <;> first | rfl | omega
      · split_ifs <;> first | rfl | omega
      · intro _
        split_ifs <;> first | rfl | omega
  have hsepA : ∀ x y, (L x ∨ x = B) → (L y ∨ y = B) → x = y ∨ x + 32 ≤ y ∨ y + 32 ≤ x := by
    intro x y hx hy
    rcases hx with hx | hx <;> rcases hy with hy | hy
    · exact hsp x y hx hy
    · subst hy; have := hsep x hx; omega
    · subst hx; have := hsep y hy; omega
    · subst hx; subst hy; exact Or.inl rfl
  have hgeA : ∀ x, (L x ∨ x = B) → seg + 192 ≤ x := by
    intro x hx
    rcases hx with hx | hx
    · exact hge x hx
    · subst hx; exact hlo
  have hhead : fl c ≠ [] → L ((fl c).headD 0) := by
    intro hne
    cases hflc : fl c with
    | nil => exact absurd hflc hne
    | cons a l => exact hmemc a (by rw [hflc]; exact List.mem_cons_self a l)
  -- frame
  have hframe : ∀ x, LinkFree seg (fun y => L y ∨ y = B) x →
      (insertBlock seg m B).rd x = m.rd x := by
    intro x hx
    have h1 := hx.2 c hc
    have h2 := hx.1 B (Or.inr rfl)
    exact (key x).1 h1.1 h1.2 h2.1 h2.2 (fun hne => (hx.1 _ (Or.inl (hhead hne))).2)
  have hhdr : ∀ x, (L x ∨ x = B) → (insertBlock seg m B).rd x = m.rd x := by
    intro x hx
    apply hframe
    constructor
    · intro y hy
      have := hsepA x y hx hy
      omega
    · intro i hi
      have := hgeA x hx
      omega
  refine ⟨⟨?_, ?_, ?_, hgeA, hsepA⟩, hframe⟩
  · -- the six lists
    intro i hi
    by_cases hic : i = c
    · subst hic
      simp only [if_true]
      refine ⟨?_, ?_, ?_, ?_, ?_⟩
      · exact (key 0).2.1
      · exact (key 0).2.2.1
      · exact (key 0).2.2.2.2.1
      · show getNext (insertBlock seg m B) B = (fl i).headD 0
        exact (key 0).2.2.2.1
      · cases hflc : fl i with
        | nil => trivial
        | cons a l =>
          have hLa : L a := hmemc a (by rw [hflc]; exact List.mem_cons_self a l)
          have haB := hsep a hLa
          have ha0 := hge a hLa
          have hnda := hnd i hi
          rw [hflc] at hseg hnda
          refine ⟨?_, ?_, ?_⟩
          · have := (key 0).2.2.2.2.2 (by rw [hflc]; exact List.cons_ne_nil a l)
            rw [hflc] at this
            exact this
          · show (insertBlock seg m B).rd (a + 8) = l.headD 0
            rw [(key (a + 8)).1 (by omega) (by omega) (by omega) (by omega)
              (by rw [hflc]; intro _; simp)]
            exact hseg.2.1
          · refine Seg_congr l a 0 ?_ hseg.2.2
            intro x hx
            have hLx : L x := hmemc x (by rw [hflc]; exact List.mem_cons_of_mem a hx)
            have hxB := hsep x hLx
            have hx0 := hge x hLx
            have hxa : x ≠ a := by
              intro h; subst h; exact (List.nodup_cons.1 hnda).1 hx
            have hxa2 := hsp x a hLx hLa
            constructor
            · exact (key (x + 8)).1 (by omega) (by omega) (by omega) (by omega)
                (by rw [hflc]; intro _; simp; omega)
            · exact (key (x + 16)).1 (by omega) (by omega) (by omega) (by omega)
                (by rw [hflc]; intro _; simp; omega)
    · simp only [if_neg hic]
      refine ListOK_congr ?_ ?_ (hok i hi)
      · constructor
        · refine (key _).1 (by omega) (by omega) (by omega) (by omega) ?_
          intro hne; have := hge _ (hhead hne); omega
        · refine (key _).1 (by omega) (by omega) (by omega) (by omega) ?_
          intro hne; have := hge _ (hhead hne); omega
      · intro x hx
        have hLx : L x := hmemi i hi x hx
        have hxB := hsep x hLx
        have hx0 := hge x hLx
        have hxne : fl c ≠ [] → x ≠ (fl c).headD 0 := by
          intro hne h
          have h1 : (fl c).headD 0 ∈ fl c := by
            cases hflc : fl c with
            | nil => exact absurd hflc hne
            | cons a l => simp
          rw [← h] at h1
          have e1 := ((hmem i hi x).1 hx).2
          have e2 := ((hmem c hc x).1 h1).2
          omega
        constructor
        · refine (key _).1 (by omega) (by omega) (by omega) (by omega) ?_
          intro hne; have := hsp x _ hLx (hhead hne); have := hxne hne; omega
        · refine (key _).1 (by omega) (by omega) (by omega) (by omega) ?_
          intro hne; have := hsp x _ hLx (hhead hne); have := hxne hne; omega
  · intro i hi
    by_cases hic : i = c
    · subst hic
      simp only [if_true]
      exact List.nodup_cons.2 ⟨hBc, hnd i hi⟩
    · simp only [if_neg hic]
      exact hnd i hi
  · intro i hi x
    have hszx : (L x ∨ x = B) → GET_SIZE (insertBlock seg m B) x = GET_SIZE m x :=
      fun hx => GET_SIZE_congr (hhdr x hx)
    by_cases hic : i = c
    · subst hic
      simp only [if_true, List.mem_cons]
      constructor
      · intro hx
        rcases hx with hx | hx
        · subst hx
          exact ⟨Or.inr rfl, by rw [hszx (Or.inr rfl)]; exact hcdef⟩
        · have := (hmem i hi x).1 hx
          exact ⟨Or.inl this.1, by rw [hszx (Or.inl this.1)]; exact this.2⟩
      · rintro ⟨hx, hcl⟩
        rw [hszx hx] at hcl
        rcases hx with hx | hx
        · exact Or.inr ((hmem i hi x).2 ⟨hx, hcl⟩)
        · exact Or.inl hx
    · simp only [if_neg hic]
      constructor
      · intro hx
        have := (hmem i hi x).1 hx
        exact ⟨Or.inl this.1, by rw [hszx (Or.inl this.1)]; exact this.2⟩
      · rintro ⟨hx, hcl⟩
        rw [hszx hx] at hcl
        rcases hx with hx | hx
        · exact (hmem i hi x).2 ⟨hx, hcl⟩
        · subst hx; exact absurd (hcdef.symm.trans hcl).symm hic

theorem insertBlock_spec (seg : Nat) (m : Mem) (L : Nat → Prop) (B : Nat)
    (hL : Lists seg m L) (hB : ¬ L B) (hlo : seg + 192 ≤ B)
    (hsep : ∀ x, L x → x + 32 ≤ B ∨ B + 32 ≤ x) :
    Lists seg (insertBlock seg m B) (fun x => L x ∨ x = B) ∧
    (∀ x, LinkFree seg (fun y => L y ∨ y = B) x → (insertBlock seg m B).rd x = m.rd x) := by
  obtain ⟨fl, hfl⟩ := hL
  obtain ⟨h1, h2⟩ := insertBlock_seq seg m fl L B hfl hB hlo hsep
  exact ⟨⟨_, h1⟩, h2⟩

theorem headD_append_ne (l1 l2 : List Nat) (d : Nat) (h : l1 ≠ []) :
    (l1 ++ l2).headD d = l1.headD d := by
  cases l1 with
  | nil => exact absurd rfl h
  | cons a l => rfl

theorem headD_mem (l : List Nat) (d : Nat) (h : l ≠ []) : l.headD d ∈ l := by
  cases l with
  | nil => exact absurd rfl h
  | cons a l => simp

theorem getLastD_append_cons (l1 l2 : List Nat) (a d : Nat) :
    (l1 ++ a :: l2).getLastD d = l2.getLastD a := by
  induction l1 generalizing d with
  | nil => exact List.getLastD_cons d a l2
  | cons b l ih =>
    rw [List.cons_append, List.getLastD_cons]
    exact ih b

theorem getLastD_mem_ne (l : List Nat) (d : Nat) (h : l ≠ []) : l.getLastD d ∈ l := by
  cases l with
  | nil => exact absurd rfl h
  | cons a l =>
    rw [List.getLastD_cons]
    exact getLastD_mem a l

theorem removeBlock_key (seg : Nat) (m : Mem) (B c : Nat) (l1 l2 : List Nat)
    (hc : calcList (GET_SIZE m B) = c)
    (hok : ListOK m (seg + 32 * c) (l1 ++ B :: l2))
    (hnd : (l1 ++ B :: l2).Nodup)
    (h0 : ∀ x, x ∈ l1 ++ B :: l2 → seg + 192 ≤ x)
    (hsp : ∀ x y, x ∈ l1 ++ B :: l2 → y ∈ l1 ++ B :: l2 → x = y ∨ x + 32 ≤ y ∨ y + 32 ≤ x)
    (x : Nat) :
    (x ≠ seg + 32 * c + 8 → x ≠ seg + 32 * c + 16 → x ≠ B + 8 → x ≠ B + 16 →
      (l1 ≠ [] → x ≠ l1.getLastD 0 + 8) → (l2 ≠ [] → x ≠ l2.headD 0 + 16) →
      (removeBlock seg m B).rd x = m.rd x) ∧
    (removeBlock seg m B).rd (seg + 32 * c + 8) = (l1 ++ l2).headD 0 ∧
    (removeBlock seg m B).rd (seg + 32 * c + 16) = (l1 ++ l2).getLastD 0 ∧
    (l1 ≠ [] → (removeBlock seg m B).rd (l1.getLastD 0 + 8) = l2.headD 0) ∧
    (l2 ≠ [] → (removeBlock seg m B).rd (l2.headD 0 + 16) = l1.getLastD 0) := by
  obtain ⟨hroot, htail, hseg⟩ := hok
  have hc6 : c < 6 := hc ▸ calcList_lt _
  have hB0 : seg + 192 ≤ B := h0 B (by simp)
  rw [getLastD_append_cons] at htail
  rw [Seg_append] at hseg
  obtain ⟨hseg1, hsegB⟩ := hseg
  obtain ⟨hBp, hBn, hseg2⟩ := hsegB
  have hndl := List.nodup_append.1 hnd
  have hBl1 : B ∉ l1 := fun h => hndl.2.2 h (List.mem_cons_self B l2)
  have hBl2 : B ∉ l2 := (List.nodup_cons.1 hndl.2.1).1
  rcases list_snoc_cases l1 with h1 | ⟨l1a, pred, h1⟩
  · subst h1
    simp only [List.nil_append, List.headD_cons] at hroot
    cases l2 with
    | nil =>
      simp only [List.getLastD_nil] at htail
      have hm : removeBlock seg m B =
          wr (wr (wr (wr m (seg + 32 * c + 8) 0) (seg + 32 * c + 16) 0) (B + 16) 0) (B + 8) 0 := by
        unfold removeBlock
        simp only [hc, hroot, htail, NEXT, PREV, if_neg (show B ≠ 0 by omega), if_true,
          ne_eq, not_true_eq_false, or_self, if_false]
      rw [hm]
      simp only [rd_wr, List.nil_append, List.headD_nil, List.getLastD_nil]
      refine ⟨?_, ?_, ?_, ?_, ?_⟩
      · intro a1 a2 a3 a4 _ _
        rw [if_neg a3, if_neg a4, if_neg a2, if_neg a1]
      · split_ifs <;> first | rfl | omega
      · split_ifs <;> first | rfl | omega
      · intro h; exact absurd rfl h
      · intro h; exact absurd rfl h
    | cons succ l2a =>
      rw [List.getLastD_cons] at htail
      simp only [List.headD_cons] at hBn
      have htm : l2a.getLastD succ ∈ [] ++ B :: succ :: l2a :=
        List.mem_cons_of_mem B (getLastD_mem succ l2a)
      have hsm : succ ∈ [] ++ B :: succ :: l2a := by simp
      have htB : l2a.getLastD succ ≠ B := fun h => hBl2 (h ▸ getLastD_mem succ l2a)
      have hs0 := h0 _ hsm
      have hsB := hsp _ _ hsm (show B ∈ [] ++ B :: succ :: l2a by simp)
      have hm : removeBlock seg m B =
          wr (wr (wr (wr m (seg + 32 * c + 8) succ) (succ + 16) 0) (B + 16) 0) (B + 8) 0 := by
        unfold removeBlock
        simp only [hc, hroot, htail, hBn, NEXT, PREV, if_neg (show B ≠ 0 by omega), if_true,
          if_neg (Ne.symm htB)]
      rw [hm]
      simp only [rd_wr, List.nil_append, List.headD_cons, List.getLastD_nil, List.getLastD_cons]
      refine ⟨?_, ?_, ?_, ?_, ?_⟩
      · intro a1 _ a3 a4 _ a6
        have a6 := a6 (List.cons_ne_nil _ _)
        rw [if_neg a3, if_neg a4, if_neg a6, if_neg a1]
      · split_ifs <;> first | rfl | omega
      · unfold getPrev at htail
        split_ifs <;> first | exact htail | omega
      · intro h; exact absurd rfl h
      · intro _
        split_ifs <;> first | rfl | omega
  · subst h1
    have hpm : pred ∈ (l1a ++ [pred]) ++ B :: l2 := by simp
    have hBm : B ∈ (l1a ++ [pred]) ++ B :: l2 := by simp
    have hne1 : l1a ++ [pred] ≠ [] := by simp
    have hrm : (l1a ++ [pred]).headD 0 ∈ l1a ++ [pred] := headD_mem _ 0 hne1
    have hrB : (l1a ++ [pred]).headD 0 ≠ B := fun h => hBl1 (h ▸ hrm)
    have hr0 := h0 _ (List.mem_append_left (B :: l2) hrm)
    have hp0 := h0 _ hpm
    have hpB := hsp _ _ hpm hBm
    have hpB2 : pred ≠ B := fun h => hBl1 (by rw [← h]; simp)
    rw [headD_append_ne _ _ _ hne1] at hroot
    rw [List.getLastD_concat] at hBp
    cases l2 with
    | nil =>
      simp only [List.getLastD_nil] at htail
      have hm : removeBlock seg m B =
          wr (wr (wr (wr m (seg + 32 * c + 16) pred) (pred + 8) 0) (B + 16) 0) (B + 8) 0 := by
        unfold removeBlock
        simp only [hc, hroot, htail, hBp, NEXT, PREV, if_neg (show B ≠ 0 by omega), if_true,
          if_neg (show (l1a ++ [pred]).headD 0 ≠ 0 by omega), if_neg hrB, if_neg (Ne.symm hrB)]
      rw [hm]
      simp only [rd_wr, List.append_nil, List.headD_nil, List.getLastD_concat]
      refine ⟨?_, ?_, ?_, ?_, ?_⟩
      · intro a1 a2 a3 a4 a5 _
        have a5 := a5 hne1
        rw [if_neg a3, if_neg a4, if_neg a5, if_neg a2]
      · unfold getNext at hroot
        split_ifs <;> first | exact hroot | omega
      · split_ifs <;> first | rfl | omega
      · intro _
        split_ifs <;> first | rfl | omega
      · intro h; exact absurd rfl h
    | cons succ l2a =>
      rw [List.getLastD_cons] at htail
      simp only [List.headD_cons] at hBn
      have hsm : succ ∈ (l1a ++ [pred]) ++ B :: succ :: l2a := by simp
      have htm2 : l2a.getLastD succ ∈ succ :: l2a := getLastD_mem succ l2a
      have htm : l2a.getLastD succ ∈ (l1a ++ [pred]) ++ B :: succ :: l2a :=
        List.mem_append_right _ (List.mem_cons_of_mem B htm2)
      have htB : l2a.getLastD succ ≠ B := fun h => hBl2 (h ▸ htm2)
      have hrt : (l1a ++ [pred]).headD 0 ≠ l2a.getLastD succ := by
        intro h
        exact hndl.2.2 hrm (List.mem_cons_of_mem B (h ▸ htm2))
      have hs0 := h0 _ hsm
      have hsB := hsp _ _ hsm hBm
      have hsp2 := hsp _ _ hsm hpm
      have hsB2 : succ ≠ B := fun h => hBl2 (h ▸ List.mem_cons_self succ l2a)
      have hps : succ ≠ pred := by
        intro h
        exact hndl.2.2 (show pred ∈ l1a ++ [pred] by simp)
          (List.mem_cons_of_mem B (h ▸ List.mem_cons_self succ l2a))
      have hm : removeBlock seg m B =
          wr (wr (wr (wr m (pred + 8) succ) (succ + 16) pred) (B + 8) 0) (B + 16) 0 := by
        unfold removeBlock
        simp only [hc, hroot, htail, hBp, hBn, NEXT, PREV, if_neg (show B ≠ 0 by omega),
          if_neg (show (l1a ++ [pred]).headD 0 ≠ 0 by omega), if_neg hrB, if_neg (Ne.symm hrB),
          if_neg hrt, if_neg (Ne.symm htB)]
      rw [hm]
      simp only [rd_wr, List.headD_cons, List.getLastD_concat]
      refine ⟨?_, ?_, ?_, ?_, ?_⟩
      · intro _ _ a3 a4 a5 a6
        have a5 := a5 hne1
        have a6 := a6 (List.cons_ne_nil _ _)
        rw [if_neg a4, if_neg a3, if_neg a6, if_neg a5]
      · unfold getNext at hroot
        rw [headD_append_ne _ _ _ hne1]
        split_ifs <;> first | exact hroot | omega
      · unfold getPrev at htail
        rw [getLastD_append_cons]
        split_ifs <;> first | exact htail | omega
      · intro _
        split_ifs <;> first | rfl | omega
      · intro _
        split_ifs <;> first | rfl | omega

/-- `removeBlock` takes the listed block `B` out of its list, keeps the order
of the other members, and writes link words only. -/
theorem removeBlock_seq (seg : Nat) (m : Mem) (fl : Nat → List Nat) (L : Nat → Prop) (B : Nat)
    (hL : ListsAt seg m fl L) (hB : L B) :
    ListsAt seg (removeBlock seg m B) (fun i => (fl i).erase B) (fun x => L x ∧ x ≠ B) ∧
    (∀ x, LinkFree seg L x → (removeBlock seg m B).rd x = m.rd x) := by
  obtain ⟨hok, hnd, hmem, hge, hsp⟩ := hL
  have hc : calcList (GET_SIZE m B) < 6 := calcList_lt _
  generalize hcdef : calcList (GET_SIZE m B) = c at hc
  have hBc : B ∈ fl c := (hmem c hc B).2 ⟨hB, hcdef⟩
  obtain ⟨l1, l2, hsplit⟩ := List.append_of_mem hBc
  have hmemc : ∀ x, x ∈ l1 ++ B :: l2 → L x := by
    intro x hx; rw [← hsplit] at hx; exact ((hmem c hc x).1 hx).1
  have hmemi : ∀ i, i < 6 → ∀ x, x ∈ fl i → L x := fun i hi x hx => ((hmem i hi x).1 hx).1
  have hndc : (l1 ++ B :: l2).Nodup := hsplit ▸ hnd c hc
  have hokc : ListOK m (seg + 32 * c) (l1 ++ B :: l2) := hsplit ▸ hok c hc
  have key := removeBlock_key seg m B c l1 l2 hcdef hokc hndc
    (fun x hx => hge x (hmemc x hx))
    (fun x y hx hy => hsp x y (hmemc x hx) (hmemc y hy))
  have hndl := List.nodup_append.1 hndc
  have hBl1 : B ∉ l1 := fun h => hndl.2.2 h (List.mem_cons_self B l2)
  have hBl2 : B ∉ l2 := (List.nodup_cons.1 hndl.2.1).1
  have hnd12 : (l1 ++ l2).Nodup :=
    List.nodup_append.2 ⟨hndl.1, (List.nodup_cons.1 hndl.2.1).2,
      fun x h1 h2 => hndl.2.2 h1 (List.mem_cons_of_mem B h2)⟩
  have hmem12 : ∀ x, x ∈ l1 ++ l2 ↔ (x ∈ l1 ++ B :: l2 ∧ x ≠ B) := by
    intro x
    simp only [List.mem_append, List.mem_cons]
    constructor
    · rintro (h | h)
      · exact ⟨Or.inl h, fun e => hBl1 (e ▸ h)⟩
      · exact ⟨Or.inr (Or.inr h), fun e => hBl2 (e ▸ h)⟩
    · rintro ⟨h | h | h, hne⟩
      · exact Or.inl h
      · exact absurd h hne
      · exact Or.inr h
  have hB0 := hge B hB
  have hLp : l1 ≠ [] → L (l1.getLastD 0) := fun hne =>
    hmemc _ (List.mem_append_left _ (getLastD_mem_ne l1 0 hne))
  have hLs : l2 ≠ [] → L (l2.headD 0) := fun hne =>
    hmemc _ (List.mem_append_right _ (List.mem_cons_of_mem B (headD_mem l2 0 hne)))
  have hframe : ∀ x, LinkFree seg L x → (removeBlock seg m B).rd x = m.rd x := by
    intro x hx
    have h1 := hx.2 c hc
    have h2 := hx.1 B hB
    exact (key x).1 h1.1 h1.2 h2.1 h2.2 (fun hne => (hx.1 _ (hLp hne)).1)
      (fun hne => (hx.1 _ (hLs hne)).2)
  have hhdr : ∀ x, L x → (removeBlock seg m B).rd x = m.rd x := by
    intro x hx
    apply hframe
    constructor
    · intro y hy
      have := hsp x y hx hy
      omega
    · intro i hi
      have := hge x hx
      omega
  -- link words of list members other than the neighbours of `B`
  have hother : ∀ x, L x → x ≠ B → (l1 ≠ [] → x ≠ l1.getLastD 0) → (l2 ≠ [] → x ≠ l2.headD 0) →
      (removeBlock seg m B).rd (x + 8) = m.rd (x + 8) ∧
      (removeBlock seg m B).rd (x + 16) = m.rd (x + 16) := by
    intro x hx hxB hxp hxs
    have h0 := hge x hx
    have h1 := hsp x B hx hB
    constructor
    · refine (key _).1 (by omega) (by omega) (by omega) (by omega) ?_ ?_
      · intro hne; have := hsp x _ hx (hLp hne); have := hxp hne; omega
      · intro hne; have := hsp x _ hx (hLs hne); have := hxs hne; omega
    · refine (key _).1 (by omega) (by omega) (by omega) (by omega) ?_ ?_
      · intro hne; have := hsp x _ hx (hLp hne); have := hxp hne; omega
      · intro hne; have := hsp x _ hx (hLs hne); have := hxs hne; omega
  refine ⟨ListsAt_congr_fl ?_ (⟨?_, ?_, ?_, ?_, ?_⟩ :
    ListsAt seg (removeBlock seg m B) (fun i => if i = c then l1 ++ l2 else fl i)
      (fun x => L x ∧ x ≠ B)), hframe⟩
  · intro i hi
    by_cases hic : i = c
    · subst hic
      simp only [if_true]
      rw [hsplit, List.erase_append_right _ hBl1, List.erase_cons_head]
    · simp only [if_neg hic]
      refine (List.erase_of_not_mem ?_).symm
      intro hBi
      exact hic (((hmem i hi B).1 hBi).2.symm.trans hcdef)
  · intro i hi
    by_cases hic : i = c
    · subst hic
      simp only [if_true]
      obtain ⟨_, _, hseg⟩ := hokc
      rw [Seg_append] at hseg
      obtain ⟨hseg1, hBp, hBn, hseg2⟩ := hseg
      refine ⟨(key 0).2.1, (key 0).2.2.1, ?_⟩
      rw [Seg_append]
      constructor
      · rcases list_snoc_cases l1 with h1 | ⟨l1a, pred, h1⟩
        · subst h1; trivial
        · subst h1
          rw [Seg_snoc] at hseg1 ⊢
          have hne1 : l1a ++ [pred] ≠ [] := by simp
          have hpl : (l1a ++ [pred]).getLastD 0 = pred := List.getLastD_concat 0 pred l1a
          have hLpred : L pred := hpl ▸ hLp hne1
          have hp0 := hge pred hLpred
          have hpB := hsp pred B hLpred hB
          have hpB2 : pred ≠ B := fun h => hBl1 (by rw [← h]; simp)
          have hnda : (l1a ++ [pred]).Nodup := hndl.1
          have hpl1a : pred ∉ l1a := by
            intro h
            have := (List.nodup_append.1 hnda).2.2 h (List.mem_singleton_self pred)
            exact this
          refine ⟨?_, ?_, ?_⟩
          · refine Seg_congr l1a 0 pred ?_ hseg1.1
            intro x hx
            have hxm : x ∈ l1a ++ [pred] := List.mem_append_left _ hx
            have hLx : L x := hmemc x (List.mem_append_left _ hxm)
            refine hother x hLx (fun h => hBl1 (h ▸ hxm)) ?_ ?_
            · intro _; rw [hpl]; intro h; exact hpl1a (h ▸ hx)
            · intro hne h
              exact hndl.2.2 hxm (List.mem_cons_of_mem B (h ▸ headD_mem l2 0 hne))
          · show (removeBlock seg m B).rd (pred + 8 + 8) = _
            have e : (removeBlock seg m B).rd (pred + 8 + 8) = m.rd (pred + 8 + 8) := by
              refine (key _).1 (by omega) (by omega) (by omega) (by omega) ?_ ?_
              · intro _; rw [hpl]; omega
              · intro hne
                have hLs2 := hLs hne
                have := hsp pred _ hLpred hLs2
                have : pred ≠ l2.headD 0 := by
                  intro h
                  exact hndl.2.2 (show pred ∈ l1a ++ [pred] by simp)
                    (List.mem_cons_of_mem B (h ▸ headD_mem l2 0 hne))
                omega
            rw [e]; exact hseg1.2.1
          · have := (key 0).2.2.2.1 hne1
            rw [hpl] at this
            exact this
      · cases l2 with
        | nil => trivial
        | cons succ l2a =>
          have hne2 : succ :: l2a ≠ [] := List.cons_ne_nil _ _
          have hLsucc : L succ := hLs hne2
          have hs0 := hge succ hLsucc
          have hsB := hsp succ B hLsucc hB
          have hsB2 : succ ≠ B := fun h => hBl2 (h ▸ List.mem_cons_self succ l2a)
          have hnd2 : (succ :: l2a).Nodup := (List.nodup_cons.1 hndl.2.1).2
          refine ⟨?_, ?_, ?_⟩
          · exact (key 0).2.2.2.2 hne2
          · show (removeBlock seg m B).rd (succ + 8) = _
            have e : (removeBlock seg m B).rd (succ + 8) = m.rd (succ + 8) := by
              refine (key _).1 (by omega) (by omega) (by omega) (by omega) ?_ ?_
              · intro hne
                have hLp2 := hLp hne
                have := hsp succ _ hLsucc hLp2
                have : succ ≠ l1.getLastD 0 := by
                  intro h
                  exact hndl.2.2 (h ▸ getLastD_mem_ne l1 0 hne)
                    (List.mem_cons_of_mem B (List.mem_cons_self succ l2a))
                omega
              · intro _; simp
            rw [e]; exact hseg2.2.1
          · refine Seg_congr l2a succ 0 ?_ hseg2.2.2
            intro x hx
            have hxm : x ∈ succ :: l2a := List.mem_cons_of_mem succ hx
            have hLx : L x := hmemc x (List.mem_append_right _ (List.mem_cons_of_mem B hxm))
            refine hother x hLx (fun h => hBl2 (h ▸ hxm)) ?_ ?_
            · intro hne h
              exact hndl.2.2 (h ▸ getLastD_mem_ne l1 0 hne) (List.mem_cons_of_mem B hxm)
            · intro _; simp only [List.headD_cons]; intro h
              exact (List.nodup_cons.1 hnd2).1 (h ▸ hx)
    · simp only [if_neg hic]
      have hnotc : ∀ x, x ∈ fl i → x ∉ l1 ++ B :: l2 := by
        intro x hx h
        rw [← hsplit] at h
        have e1 := ((hmem i hi x).1 hx).2
        have e2 := ((hmem c hc x).1 h).2
        omega
      refine ListOK_congr ?_ ?_ (hok i hi)
      · constructor
        · refine (key _).1 (by omega) (by omega) (by omega) (by omega) ?_ ?_
          · intro hne; have := hge _ (hLp hne); omega
          · intro hne; have := hge _ (hLs hne); omega
        · refine (key _).1 (by omega) (by omega) (by omega) (by omega) ?_ ?_
          · intro hne; have := hge _ (hLp hne); omega
          · intro hne; have := hge _ (hLs hne); omega
      · intro x hx
        have hxn := hnotc x hx
        refine hother x (hmemi i hi x hx) ?_ ?_ ?_
        · intro h; exact hxn (by rw [h]; simp)
        · intro hne h
          exact hxn (List.mem_append_left _ (h ▸ getLastD_mem_ne l1 0 hne))
        · intro hne h
          exact hxn (List.mem_append_right _ (List.mem_cons_of_mem B (h ▸ headD_mem l2 0 hne)))
  · intro i hi
    by_cases hic : i = c
    · subst hic; simp only [if_true]; exact hnd12
    · simp only [if_neg hic]; exact hnd i hi
  · intro i hi x
    have hszx : L x → GET_SIZE (removeBlock seg m B) x = GET_SIZE m x :=
      fun hx => GET_SIZE_congr (hhdr x hx)
    by_cases hic : i = c
    · subst hic
      simp only [if_true]
      rw [hmem12, ← hsplit, hmem i hi x]
      constructor
      · rintro ⟨⟨h1, h2⟩, h3⟩
        exact ⟨⟨h1, h3⟩, by rw [hszx h1]; exact h2⟩
      · rintro ⟨⟨h1, h3⟩, h2⟩
        rw [hszx h1] at h2
        exact ⟨⟨h1, h2⟩, h3⟩
    · simp only [if_neg hic]
      rw [hmem i hi x]
      constructor
      · rintro ⟨h1, h2⟩
        refine ⟨⟨h1, ?_⟩, by rw [hszx h1]; exact h2⟩
        intro h; subst h; omega
      · rintro ⟨⟨h1, _⟩, h2⟩
        rw [hszx h1] at h2
        exact ⟨h1, h2⟩
  · intro x hx; exact hge x hx.1
  · intro x y hx hy; exact hsp x y hx.1 hy.1

theorem removeBlock_spec (seg : Nat) (m : Mem) (L : Nat → Prop) (B : Nat)
    (hL : Lists seg m L) (hB : L B) :
    Lists seg (removeBlock seg m B) (fun x => L x ∧ x ≠ B) ∧
    (∀ x, LinkFree seg L x → (removeBlock seg m B).rd x = m.rd x) := by
  obtain ⟨fl, hfl⟩ := hL
  obtain ⟨h1, h2⟩ := removeBlock_seq seg m fl L B hfl hB
  exact ⟨⟨_, h1⟩, h2⟩

theorem find_fit_scan_sound (m : Mem) (asize : Nat) : ∀ (n : Nat) (l : List Nat) (p a : Nat),
    Seg m p l 0 → a = l.headD 0 → (∀ x, x ∈ l → x ≠ 0) →
    find_fit_scan m asize n a ≠ 0 →
    find_fit_scan m asize n a ∈ l ∧ asize ≤ GET_SIZE m (find_fit_scan m asize n a) := by
  intro n
  induction n with
  | zero => intro l p a _ _ _ h; exact absurd rfl h
  | succ n ih =>
    intro l p a hs ha hnz h
    unfold find_fit_scan at h ⊢
    by_cases ha0 : a = 0
    · rw [if_pos ha0] at h; exact absurd rfl h
    · rw [if_neg ha0] at h ⊢
      cases l with
      | nil => exact absurd ha ha0
      | cons b l =>
        simp only [List.headD_cons] at ha
        subst ha
        by_cases hsz : GET_SIZE m a ≥ asize
        · rw [if_pos hsz]
          exact ⟨List.mem_cons_self a l, hsz⟩
        · rw [if_neg hsz] at h ⊢
          have := ih l a (getNext m a) hs.2.2 hs.2.1
            (fun x hx => hnz x (List.mem_cons_of_mem a hx)) h
          exact ⟨List.mem_cons_of_mem a this.1, this.2⟩

theorem find_fit_lists_sound (seg : Nat) (m : Mem) (asize : Nat) (fl : Nat → List Nat)
    (hok : ∀ i, i < 6 → ListOK m (seg + 32 * i) (fl i))
    (hnz : ∀ i, i < 6 → ∀ x, x ∈ fl i → x ≠ 0) : ∀ (n i : Nat), i + n ≤ 6 →
    find_fit_lists seg m asize n i ≠ 0 →
    (∃ j, j < 6 ∧ find_fit_lists seg m asize n i ∈ fl j) ∧
      asize ≤ GET_SIZE m (find_fit_lists seg m asize n i) := by
  intro n
  induction n with
  | zero => intro i _ h; exact absurd rfl h
  | succ n ih =>
    intro i hi h
    unfold find_fit_lists at h ⊢
    simp only [] at h ⊢
    by_cases hr : find_fit_scan m asize 12 (getNext m (seg + 32 * i)) ≠ 0
    · rw [if_pos hr] at h ⊢
      have hoki := hok i (by omega)
      have := find_fit_scan_sound m asize 12 (fl i) 0 _ hoki.2.2 hoki.1 (hnz i (by omega)) hr
      exact ⟨⟨i, by omega, this.1⟩, this.2⟩
    · rw [if_neg hr] at h ⊢
      exact ih (i + 1) (by omega) h

theorem find_fit_spec (seg : Nat) (m : Mem) (L : Nat → Prop) (asize : Nat)
    (hL : Lists seg m L) (h : find_fit seg m asize ≠ 0) :
    L (find_fit seg m asize) ∧ asize ≤ GET_SIZE m (find_fit seg m asize) := by
  obtain ⟨fl, hok, _, hmem, hge, _⟩ := hL
  have hnz : ∀ i, i < 6 → ∀ x, x ∈ fl i → x ≠ 0 := by
    intro i hi x hx
    have := hge x ((hmem i hi x).1 hx).1
    omega
  have hc := calcList_le (asize % 2 ^ 32)
  unfold find_fit at h ⊢
  simp only [LISTMAX] at h ⊢
  have := find_fit_lists_sound seg m asize fl hok hnz _ _ (by omega) h
  obtain ⟨⟨j, hj, hjm⟩, hsz⟩ := this
  exact ⟨((hmem j hj _).1 hjm).1, hsz⟩

/-! ## Tilings -/

theorem BlockOK_congr {m m2 : Mem} {b : Blk}
    (h1 : m2.rd b.addr = m.rd b.addr)
    (h2 : m2.rd (b.addr + b.size - 8) = m.rd (b.addr + b.size - 8))
    (h : BlockOK m b) : BlockOK m2 b := by
  obtain ⟨a1, a2, a3, a4, a5, a6⟩ := h
  exact ⟨by rw [GET_SIZE_congr h1]; exact a1, by rw [GET_ALLOC_congr h1]; exact a2,
    by rw [GET_SIZE_congr h2]; exact a3, by rw [GET_ALLOC_congr h2]; exact a4, a5, a6⟩

theorem Tiled_congr {m m2 : Mem} : ∀ (bs : List Blk) (a e : Nat),
    (∀ b, b ∈ bs → m2.rd b.addr = m.rd b.addr ∧
      m2.rd (b.addr + b.size - 8) = m.rd (b.addr + b.size - 8)) →
    Tiled m a bs e → Tiled m2 a bs e := by
  intro bs
  induction bs with
  | nil => intro a e _ h; exact h
  | cons b bs ih =>
    intro a e hf h
    obtain ⟨h1, h2, h3⟩ := h
    have hb := hf b (List.mem_cons_self b bs)
    exact ⟨h1, BlockOK_congr hb.1 hb.2 h2,
      ih _ e (fun c hc => hf c (List.mem_cons_of_mem b hc)) h3⟩

theorem Tiled_append {m : Mem} : ∀ (l1 l2 : List Blk) (a e : Nat),
    Tiled m a (l1 ++ l2) e ↔ ∃ mid, Tiled m a l1 mid ∧ Tiled m mid l2 e := by
  intro l1
  induction l1 with
  | nil =>
    intro l2 a e
    constructor
    · intro h; exact ⟨a, rfl, h⟩
    · rintro ⟨mid, h1, h2⟩
      have : a = mid := h1
      subst this; exact h2
  | cons b l ih =>
    intro l2 a e
    show (b.addr = a ∧ BlockOK m b ∧ Tiled m (a + b.size) (l ++ l2) e) ↔ _
    rw [ih]
    constructor
    · rintro ⟨h1, h2, mid, h3, h4⟩
      exact ⟨mid, ⟨h1, h2, h3⟩, h4⟩
    · rintro ⟨mid, ⟨h1, h2, h3⟩, h4⟩
      exact ⟨h1, h2, mid, h3, h4⟩

theorem Tiled_bounds {m : Mem} : ∀ (bs : List Blk) (a e : Nat), Tiled m a bs e →
    a ≤ e ∧ ∀ b, b ∈ bs → a ≤ b.addr ∧ b.addr + b.size ≤ e := by
  intro bs
  induction bs with
  | nil =>
    intro a e h
    have : a = e := h
    exact ⟨by omega, fun b hb => absurd hb (List.not_mem_nil b)⟩
  | cons b bs ih =>
    intro a e h
    obtain ⟨h1, h2, h3⟩ := h
    have := ih _ e h3
    refine ⟨by omega, ?_⟩
    intro c hc
    rcases List.mem_cons.1 hc with hc | hc
    · subst hc; omega
    · have := this.2 c hc; omega

theorem Tiled_mem_ok {m : Mem} : ∀ (bs : List Blk) (a e : Nat), Tiled m a bs e →
    ∀ b, b ∈ bs → BlockOK m b := by
  intro bs
  induction bs with
  | nil => intro a e _ b hb; exact absurd hb (List.not_mem_nil b)
  | cons c bs ih =>
    intro a e h b hb
    rcases List.mem_cons.1 hb with hb | hb
    · subst hb; exact h.2.1
    · exact ih _ e h.2.2 b hb

/-- Splitting a tiling at one of its blocks. -/
theorem Tiled_split {m : Mem} {l1 l2 : List Blk} {b : Blk} {a e : Nat}
    (h : Tiled m a (l1 ++ b :: l2) e) :
    Tiled m a l1 b.addr ∧ BlockOK m b ∧ Tiled m (b.addr + b.size) l2 e := by
  rw [Tiled_append] at h
  obtain ⟨mid, h1, h2, h3, h4⟩ := h
  subst h2
  exact ⟨h1, h3, h4⟩

theorem Tiled_join {m : Mem} {l1 l2 : List Blk} {b : Blk} {a e : Nat}
    (h1 : Tiled m a l1 b.addr) (h2 : BlockOK m b) (h3 : Tiled m (b.addr + b.size) l2 e) :
    Tiled m a (l1 ++ b :: l2) e := by
  rw [Tiled_append]
  exact ⟨b.addr, h1, rfl, h2, h3⟩

theorem Tiled_snoc {m : Mem} (l : List Blk) (b : Blk) (a e : Nat) :
    Tiled m a (l ++ [b]) e ↔ (Tiled m a l b.addr ∧ BlockOK m b ∧ b.addr + b.size = e) := by
  constructor
  · intro h
    have := Tiled_split h
    exact ⟨this.1, this.2.1, this.2.2⟩
  · rintro ⟨h1, h2, h3⟩
    exact Tiled_join h1 h2 h3

/-- Two blocks of a tiling are equal or do not overlap. -/
theorem Tiled_disjoint {m : Mem} : ∀ (bs : List Blk) (a e : Nat), Tiled m a bs e →
    ∀ b c, b ∈ bs → c ∈ bs → b = c ∨ b.addr + b.size ≤ c.addr ∨ c.addr + c.size ≤ b.addr := by
  intro bs
  induction bs with
  | nil => intro a e _ b c hb; exact absurd hb (List.not_mem_nil b)
  | cons d bs ih =>
    intro a e h b c hb hc
    obtain ⟨h1, h2, h3⟩ := h
    have hbd := Tiled_bounds bs _ e h3
    rcases List.mem_cons.1 hb with hb1 | hb1 <;> rcases List.mem_cons.1 hc with hc1 | hc1
    · left; rw [hb1, hc1]
    · subst hb1; have := (hbd.2 c hc1).1; right; left; omega
    · subst hc1; have := (hbd.2 b hb1).1; right; right; omega
    · exact ih _ e h3 b c hb1 hc1

/-- A block of a tiling is determined by its address. -/
theorem Tiled_addr_inj {m : Mem} {bs : List Blk} {a e : Nat} (h : Tiled m a bs e)
    {b c : Blk} (hb : b ∈ bs) (hc : c ∈ bs) (hbc : b.addr = c.addr) : b = c := by
  have hd := Tiled_disjoint bs a e h b c hb hc
  have h1 := (Tiled_mem_ok bs a e h b hb).2.2.2.2.1
  have h2 := (Tiled_mem_ok bs a e h c hc).2.2.2.2.1
  rcases hd with hd | hd | hd
  · exact hd
  · omega
  · omega

/-! ## No two free neighbours -/

theorem NoAdj_cons_congr {b c : Blk} (h : b.alloc = c.alloc) :
    ∀ l : List Blk, NoAdj (b :: l) → NoAdj (c :: l) := by
  intro l hl
  cases l with
  | nil => trivial
  | cons d l => exact ⟨by rw [← h]; exact hl.1, hl.2⟩

theorem NoAdj_tail {b : Blk} : ∀ l : List Blk, NoAdj (b :: l) → NoAdj l := by
  intro l hl
  cases l with
  | nil => trivial
  | cons d l => exact hl.2

theorem NoAdj_cons_alloc {b : Blk} (h : b.alloc = 1) :
    ∀ l : List Blk, NoAdj l → NoAdj (b :: l) := by
  intro l hl
  cases l with
  | nil => trivial
  | cons d l => exact ⟨Or.inl h, hl⟩

theorem NoAdj_append_cons : ∀ (l1 l2 : List Blk) (b : Blk),
    NoAdj (l1 ++ b :: l2) ↔ (NoAdj (l1 ++ [b]) ∧ NoAdj (b :: l2)) := by
  intro l1
  induction l1 with
  | nil => intro l2 b; simp [NoAdj]
  | cons a l ih =>
    intro l2 b
    cases l with
    | nil =>
      show ((a.alloc = 1 ∨ b.alloc = 1) ∧ NoAdj (b :: l2)) ↔
        (((a.alloc = 1 ∨ b.alloc = 1) ∧ True) ∧ NoAdj (b :: l2))
      tauto
    | cons d l =>
      show ((a.alloc = 1 ∨ d.alloc = 1) ∧ NoAdj ((d :: l) ++ b :: l2)) ↔
        (((a.alloc = 1 ∨ d.alloc = 1) ∧ NoAdj ((d :: l) ++ [b])) ∧ NoAdj (b :: l2))
      rw [ih l2 b]
      tauto

theorem NoAdj_snoc_congr {b c : Blk} (h : b.alloc = c.alloc) :
    ∀ l : List Blk, NoAdj (l ++ [b]) → NoAdj (l ++ [c]) := by
  intro l
  induction l with
  | nil => intro _; trivial
  | cons a l ih =>
    intro hl
    cases l with
    | nil => exact ⟨by rw [← h]; exact hl.1, trivial⟩
    | cons d l => exact ⟨hl.1, ih hl.2⟩

theorem NoAdj_init {b : Blk} : ∀ l : List Blk, NoAdj (l ++ [b]) → NoAdj l := by
  intro l
  induction l with
  | nil => intro _; trivial
  | cons a l ih =>
    intro hl
    cases l with
    | nil => trivial
    | cons d l => exact ⟨hl.1, ih hl.2⟩

theorem NoAdj_snoc_alloc {b : Blk} (h : b.alloc = 1) :
    ∀ l : List Blk, NoAdj l → NoAdj (l ++ [b]) := by
  intro l
  induction l with
  | nil => intro _; trivial
  | cons a l ih =>
    intro hl
    cases l with
    | nil => exact ⟨Or.inr h, trivial⟩
    | cons d l => exact ⟨hl.1, ih hl.2⟩

/-- In a sequence with no two free neighbours, the block before a free block
is allocated. -/
theorem NoAdj_snoc_snoc (l : List Blk) (p b : Blk) (h : NoAdj (l ++ [p] ++ [b])) :
    p.alloc = 1 ∨ b.alloc = 1 := by
  rw [List.append_assoc] at h
  have := (NoAdj_append_cons l [b] p).1 h
  exact this.2.1

/-! ## Frame lemmas -/

theorem Lists_congr {seg : Nat} {m m2 : Mem} {L : Nat → Prop}
    (hh : ∀ x, L x → GET_SIZE m2 x = GET_SIZE m x ∧ m2.rd (x + 8) = m.rd (x + 8) ∧
      m2.rd (x + 16) = m.rd (x + 16))
    (hn : ∀ i, i < 6 → m2.rd (seg + 32 * i + 8) = m.rd (seg + 32 * i + 8) ∧
      m2.rd (seg + 32 * i + 16) = m.rd (seg + 32 * i + 16))
    (h : Lists seg m L) : Lists seg m2 L := by
  obtain ⟨fl, hok, hnd, hmem, hge, hsp⟩ := h
  refine ⟨fl, ?_, hnd, ?_, hge, hsp⟩
  · intro i hi
    refine ListOK_congr (hn i hi) ?_ (hok i hi)
    intro x hx
    exact (hh x ((hmem i hi x).1 hx).1).2
  · intro i hi x
    rw [hmem i hi x]
    constructor
    · rintro ⟨h1, h2⟩; exact ⟨h1, by rw [(hh x h1).1]; exact h2⟩
    · rintro ⟨h1, h2⟩; exact ⟨h1, by rw [← (hh x h1).1]; exact h2⟩

theorem Lists_pred {seg : Nat} {m : Mem} {L L2 : Nat → Prop} (hLL : ∀ x, L x ↔ L2 x)
    (h : Lists seg m L) : Lists seg m L2 := by
  have : L = L2 := funext fun x => propext (hLL x)
  rw [← this]; exact h

theorem ListsAt_congr {seg : Nat} {m m2 : Mem} {fl : Nat → List Nat} {L : Nat → Prop}
    (hh : ∀ x, L x → GET_SIZE m2 x = GET_SIZE m x ∧ m2.rd (x + 8) = m.rd (x + 8) ∧
      m2.rd (x + 16) = m.rd (x + 16))
    (hn : ∀ i, i < 6 → m2.rd (seg + 32 * i + 8) = m.rd (seg + 32 * i + 8) ∧
      m2.rd (seg + 32 * i + 16) = m.rd (seg + 32 * i + 16))
    (h : ListsAt seg m fl L) : ListsAt seg m2 fl L := by
  obtain ⟨hok, hnd, hmem, hge, hsp⟩ := h
  refine ⟨?_, hnd, ?_, hge, hsp⟩
  · intro i hi
    refine ListOK_congr (hn i hi) ?_ (hok i hi)
    intro x hx
    exact (hh x ((hmem i hi x).1 hx).1).2
  · intro i hi x
    rw [hmem i hi x]
    constructor
    · rintro ⟨h1, h2⟩; exact ⟨h1, by rw [(hh x h1).1]; exact h2⟩
    · rintro ⟨h1, h2⟩; exact ⟨h1, by rw [← (hh x h1).1]; exact h2⟩

theorem ListsAt_pred {seg : Nat} {m : Mem} {fl : Nat → List Nat} {L L2 : Nat → Prop}
    (hLL : ∀ x, L x ↔ L2 x) (h : ListsAt seg m fl L) : ListsAt seg m fl L2 := by
  have : L = L2 := funext fun x => propext (hLL x)
  rw [← this]; exact h

theorem Sentinels_congr {seg e : Nat} {m m2 : Mem}
    (h0 : m2.rd (seg - 8) = m.rd (seg - 8))
    (h1 : ∀ i, i < 6 → m2.rd (seg + 32 * i) = m.rd (seg + 32 * i) ∧
      m2.rd (seg + 32 * i + 24) = m.rd (seg + 32 * i + 24))
    (h2 : m2.rd e = m.rd e)
    (h : Sentinels seg m e) : Sentinels seg m2 e := by
  obtain ⟨a1, a2, a3, a4⟩ := h
  refine ⟨?_, ?_, ?_, a4⟩
  · rw [GET_SIZE_congr h0, GET_ALLOC_congr h0]; exact a1
  · intro i hi
    have := h1 i hi
    rw [GET_SIZE_congr this.1, GET_ALLOC_congr this.1, GET_SIZE_congr this.2,
      GET_ALLOC_congr this.2]
    exact a2 i hi
  · rw [GET_SIZE_congr h2, GET_ALLOC_congr h2]; exact a3

/-- The tag words of a tiling are not link words of its blocks. -/
theorem tag_linkfree {seg : Nat} {m : Mem} {T : List Blk} {e : Nat} {A : Nat → Prop}
    (hT : Tiled m (seg + 192) T e) (hA : ∀ y, A y → ∃ b, b ∈ T ∧ b.addr = y)
    {c : Blk} (hc : c ∈ T) :
    LinkFree seg A c.addr ∧ LinkFree seg A (c.addr + c.size - 8) := by
  have hcb := (Tiled_bounds T _ e hT).2 c hc
  have hcok := (Tiled_mem_ok T _ e hT c hc).2.2.2.2.1
  constructor
  · constructor
    · intro y hy
      obtain ⟨d, hd, hdy⟩ := hA y hy
      have := Tiled_disjoint T _ e hT c d hc hd
      have hdok := (Tiled_mem_ok T _ e hT d hd).2.2.2.2.1
      subst hdy
      rcases this with h | h | h
      · subst h; omega
      · omega
      · omega
    · intro i hi; omega
  · constructor
    · intro y hy
      obtain ⟨d, hd, hdy⟩ := hA y hy
      have := Tiled_disjoint T _ e hT c d hc hd
      have hdok := (Tiled_mem_ok T _ e hT d hd).2.2.2.2.1
      subst hdy
      rcases this with h | h | h
      · subst h; omega
      · omega
      · omega
    · intro i hi; omega

/-- A free-list operation on blocks of a tiling keeps the tiling and the
sentinels. -/
theorem linkframe_preserves {seg : Nat} {m m2 : Mem} {T : List Blk} {e : Nat}
    {A : Nat → Prop}
    (hT : Tiled m (seg + 192) T e) (hS : Sentinels seg m e)
    (hA : ∀ y, A y → ∃ b, b ∈ T ∧ b.addr = y)
    (hf : ∀ x, LinkFree seg A x → m2.rd x = m.rd x) :
    Tiled m2 (seg + 192) T e ∧ Sentinels seg m2 e := by
  have hAge : ∀ y, A y → seg + 192 ≤ y ∧ y + 32 ≤ e := by
    intro y hy
    obtain ⟨d, hd, hdy⟩ := hA y hy
    have h1 := (Tiled_bounds T _ e hT).2 d hd
    have h2 := (Tiled_mem_ok T _ e hT d hd).2.2.2.2.1
    omega
  have he := (Tiled_bounds T _ e hT).1
  have h8 := hS.2.2.2
  constructor
  · refine Tiled_congr T _ e ?_ hT
    intro c hc
    have := tag_linkfree hT hA hc
    exact ⟨hf _ this.1, hf _ this.2⟩
  · refine Sentinels_congr ?_ ?_ ?_ hS
    · apply hf
      constructor
      · intro y hy; have := hAge y hy; omega
      · intro i hi; omega
    · intro i hi
      constructor
      · apply hf
        constructor
        · intro y hy; have := hAge y hy; omega
        · intro j hj; omega
      · apply hf
        constructor
        · intro y hy; have := hAge y hy; omega
        · intro j hj; omega
    · apply hf
      constructor
      · intro y hy; have := hAge y hy; omega
      · intro i hi; omega

theorem FreeIn_addr {bs : List Blk} {x : Nat} (h : FreeIn bs x) : ∃ b, b ∈ bs ∧ b.addr = x := by
  obtain ⟨b, hb, hx, _⟩ := h
  exact ⟨b, hb, hx⟩

theorem PACK_FTRP_eq (m : Mem) (bp s a : Nat)
    (h : 8 < GET_SIZE m bp ∨ s % 2 ^ 31 = GET_SIZE m bp) :
    PACK_FTRP m bp s a = PACK m (bp + GET_SIZE m bp - 8) s a := by
  unfold PACK_FTRP PACK FTRP HDRP
  simp only [GET_SIZE_set_block_size]
  by_cases hb : bp = bp + GET_SIZE m bp - 8
  · rw [if_pos hb]
    rcases h with h | h
    · omega
    · rw [h]
  · rw [if_neg hb]

theorem FreeIn_nil (x : Nat) : FreeIn [] x ↔ False := by
  constructor
  · rintro ⟨b, hb, _⟩; exact absurd hb (List.not_mem_nil b)
  · intro h; exact absurd h id

theorem FreeIn_cons (c : Blk) (l : List Blk) (x : Nat) :
    FreeIn (c :: l) x ↔ ((c.addr = x ∧ c.alloc = 0) ∨ FreeIn l x) := by
  constructor
  · rintro ⟨b, hb, h1, h2⟩
    rcases List.mem_cons.1 hb with h | h
    · subst h; exact Or.inl ⟨h1, h2⟩
    · exact Or.inr ⟨b, h, h1, h2⟩
  · rintro (⟨h1, h2⟩ | ⟨b, hb, h1, h2⟩)
    · exact ⟨c, List.mem_cons_self c l, h1, h2⟩
    · exact ⟨b, List.mem_cons_of_mem c hb, h1, h2⟩

theorem FreeIn_append (l1 l2 : List Blk) (x : Nat) :
    FreeIn (l1 ++ l2) x ↔ (FreeIn l1 x ∨ FreeIn l2 x) := by
  constructor
  · rintro ⟨b, hb, h1, h2⟩
    rcases List.mem_append.1 hb with h | h
    · exact Or.inl ⟨b, h, h1, h2⟩
    · exact Or.inr ⟨b, h, h1, h2⟩
  · rintro (⟨b, hb, h1, h2⟩ | ⟨b, hb, h1, h2⟩)
    · exact ⟨b, List.mem_append_left l2 hb, h1, h2⟩
    · exact ⟨b, List.mem_append_right l1 hb, h1, h2⟩

/-- Bounds of the free blocks on either side of a block of a tiling. -/
theorem FreeIn_left {m : Mem} {l : List Blk} {a e x : Nat} (h : Tiled m a l e)
    (hx : FreeIn l x) : a ≤ x ∧ x + 32 ≤ e := by
  obtain ⟨c, hc, h1, _⟩ := hx
  have h2 := (Tiled_bounds l a e h).2 c hc
  have h3 := (Tiled_mem_ok l a e h c hc).2.2.2.2.1
  omega

theorem split_size_eq (s asize : Nat) (h1 : asize ≤ s) (h2 : s < 2 ^ 31) :
    (s + 2 ^ 32 - asize % 2 ^ 32) % 2 ^ 32 = s - asize := by
  omega

/-- Placement without split: the block becomes allocated, leaves its list,
and nothing outside the block is written but link words of listed blocks and
list heads. -/
theorem place_whole_full (seg : Nat) (m : Mem) (fl : Nat → List Nat) (l1 l2 : List Blk)
    (b : Blk) (e asize : Nat)
    (hT : Tiled m (seg + 192) (l1 ++ b :: l2) e)
    (hS : Sentinels seg m e)
    (hL : ListsAt seg m fl (FreeIn (l1 ++ b :: l2)))
    (hb : b.alloc = 0) (ha3 : asize ≤ b.size) (hw : b.size - asize < 32) :
    Tiled (place seg m b.addr asize) (seg + 192) (l1 ++ ⟨b.addr, b.size, 1⟩ :: l2) e ∧
    Sentinels seg (place seg m b.addr asize) e ∧
    ListsAt seg (place seg m b.addr asize) (fun i => (fl i).erase b.addr)
      (FreeIn (l1 ++ ⟨b.addr, b.size, 1⟩ :: l2)) ∧
    (∀ x, LinkFree seg (FreeIn (l1 ++ b :: l2)) x → (x < b.addr ∨ b.addr + b.size ≤ x) →
      (place seg m b.addr asize).rd x = m.rd x) := by
  obtain ⟨hT1, hbok, hT2⟩ := Tiled_split hT
  obtain ⟨hs1, hal1, hs2, hal2, h32, h8⟩ := hbok
  have hlt := GET_SIZE_lt m b.addr
  rw [hs1] at hlt
  have hB1 := (Tiled_bounds l1 _ _ hT1)
  have hB2 := (Tiled_bounds l2 _ _ hT2)
  have h8s := hS.2.2.2
  -- the contents after the two PACKs
  have hm2 : place seg m b.addr asize =
      removeBlock seg (PACK (PACK m b.addr b.size 1) (b.addr + b.size - 8) b.size 1) b.addr := by
    unfold place
    simp only [hs1, split_size_eq b.size asize ha3 hlt, if_pos hw, HDRP, ALLOC]
    have e1 : GET_SIZE (PACK m b.addr b.size 1) b.addr = b.size := by
      rw [GET_SIZE_PACK, if_pos rfl]; omega
    rw [PACK_FTRP_eq _ _ _ _ (Or.inl (by rw [e1]; omega)), e1]
  generalize hm2def : PACK (PACK m b.addr b.size 1) (b.addr + b.size - 8) b.size 1 = m2 at hm2
  have hrd : ∀ x, x ≠ b.addr → x ≠ b.addr + b.size - 8 → m2.rd x = m.rd x := by
    intro x h1 h2
    rw [← hm2def, rd_PACK _ _ _ _ _ h2, rd_PACK _ _ _ _ _ h1]
  have hsz : ∀ x, GET_SIZE m2 x = GET_SIZE m x := by
    intro x
    rw [← hm2def]
    simp only [GET_SIZE_PACK]
    by_cases h1 : x = b.addr + b.size - 8
    · rw [if_pos h1, h1, hs2]; omega
    · rw [if_neg h1]
      by_cases h2 : x = b.addr
      · rw [if_pos h2, h2, hs1]; omega
      · rw [if_neg h2]
  have hal : GET_ALLOC m2 b.addr = 1 ∧ GET_ALLOC m2 (b.addr + b.size - 8) = 1 := by
    rw [← hm2def]
    constructor <;> simp
  have hT' : Tiled m2 (seg + 192) (l1 ++ ⟨b.addr, b.size, 1⟩ :: l2) e := by
    refine Tiled_join (b := ⟨b.addr, b.size, 1⟩) ?_ ?_ ?_
    · refine Tiled_congr l1 _ _ ?_ hT1
      intro c hc
      have := hB1.2 c hc
      have := (Tiled_mem_ok l1 _ _ hT1 c hc).2.2.2.2.1
      exact ⟨hrd _ (by omega) (by omega), hrd _ (by omega) (by omega)⟩
    · exact ⟨by rw [hsz]; exact hs1, hal.1, by rw [hsz]; exact hs2, hal.2, h32, h8⟩
    · refine Tiled_congr l2 _ _ ?_ hT2
      intro c hc
      have := hB2.2 c hc
      have := (Tiled_mem_ok l2 _ _ hT2 c hc).2.2.2.2.1
      exact ⟨hrd _ (by omega) (by omega), hrd _ (by omega) (by omega)⟩
  have hS' : Sentinels seg m2 e := by
    refine Sentinels_congr ?_ ?_ ?_ hS
    · exact hrd _ (by omega) (by omega)
    · intro i hi
      exact ⟨hrd _ (by omega) (by omega), hrd _ (by omega) (by omega)⟩
    · exact hrd _ (by omega) (by omega)
  have hL' : ListsAt seg m2 fl (FreeIn (l1 ++ b :: l2)) := by
    refine ListsAt_congr ?_ ?_ hL
    · intro x hx
      refine ⟨hsz x, ?_⟩
      rw [FreeIn_append, FreeIn_cons] at hx
      rcases hx with hx | ⟨hx, _⟩ | hx
      · have := FreeIn_left hT1 hx
        exact ⟨hrd _ (by omega) (by omega), hrd _ (by omega) (by omega)⟩
      · exact ⟨hrd _ (by omega) (by omega), hrd _ (by omega) (by omega)⟩
      · have := FreeIn_left hT2 hx
        exact ⟨hrd _ (by omega) (by omega), hrd _ (by omega) (by omega)⟩
    · intro i hi
      exact ⟨hrd _ (by omega) (by omega), hrd _ (by omega) (by omega)⟩
  have hBfree : FreeIn (l1 ++ b :: l2) b.addr :=
    ⟨b, List.mem_append_right l1 (List.mem_cons_self b l2), rfl, hb⟩
  obtain ⟨hL3, hfr⟩ := removeBlock_seq seg m2 fl _ b.addr hL' hBfree
  rw [hm2]
  have hpres := linkframe_preserves hT' hS' (A := FreeIn (l1 ++ b :: l2)) (by
    intro y hy
    rw [FreeIn_append, FreeIn_cons] at hy
    rcases hy with ⟨c, hc, h1, _⟩ | ⟨h1, _⟩ | ⟨c, hc, h1, _⟩
    · exact ⟨c, List.mem_append_left _ hc, h1⟩
    · exact ⟨⟨b.addr, b.size, 1⟩, List.mem_append_right _ (List.mem_cons_self _ _), h1⟩
    · exact ⟨c, List.mem_append_right _ (List.mem_cons_of_mem _ hc), h1⟩) hfr
  refine ⟨hpres.1, hpres.2, ListsAt_pred ?_ hL3, ?_⟩
  swap
  · intro x hx hout
    rw [hfr x hx]
    exact hrd x (by omega) (by omega)
  intro x
  simp only [FreeIn_append, FreeIn_cons]
  constructor
  · rintro ⟨h | ⟨h, _⟩ | h, hne⟩
    · exact Or.inl h
    · exact absurd h.symm hne
    · exact Or.inr (Or.inr h)
  · rintro (h | ⟨_, h⟩ | h)
    · have := FreeIn_left hT1 h
      exact ⟨Or.inl h, by omega⟩
    · exact absurd h (by decide)
    · have := FreeIn_left hT2 h
      exact ⟨Or.inr (Or.inr h), by omega⟩

theorem place_whole_spec (seg : Nat) (m : Mem) (l1 l2 : List Blk) (b : Blk) (e asize : Nat)
    (hT : Tiled m (seg + 192) (l1 ++ b :: l2) e)
    (hS : Sentinels seg m e)
    (hL : Lists seg m (FreeIn (l1 ++ b :: l2)))
    (hb : b.alloc = 0) (ha3 : asize ≤ b.size) (hw : b.size - asize < 32) :
    Tiled (place seg m b.addr asize) (seg + 192) (l1 ++ ⟨b.addr, b.size, 1⟩ :: l2) e ∧
    Sentinels seg (place seg m b.addr asize) e ∧
    Lists seg (place seg m b.addr asize) (FreeIn (l1 ++ ⟨b.addr, b.size, 1⟩ :: l2)) := by
  obtain ⟨fl, hfl⟩ := hL
  obtain ⟨h1, h2, h3, _⟩ := place_whole_full seg m fl l1 l2 b e asize hT hS hfl hb ha3 hw
  exact ⟨h1, h2, ⟨_, h3⟩⟩

/-- Placement with split: the first `asize` bytes become an allocated block,
the rest a free block at the head of the list of its class, and nothing
outside the block is written but link words of listed blocks and list
heads. -/
theorem place_split_full (seg : Nat) (m : Mem) (fl : Nat → List Nat) (l1 l2 : List Blk)
    (b : Blk) (e asize : Nat)
    (hT : Tiled m (seg + 192) (l1 ++ b :: l2) e)
    (hS : Sentinels seg m e)
    (hL : ListsAt seg m fl (FreeIn (l1 ++ b :: l2)))
    (hb : b.alloc = 0) (ha1 : 32 ≤ asize) (ha2 : asize % 8 = 0) (ha3 : asize ≤ b.size)
    (hw : ¬ b.size - asize < 32) :
    Tiled (place seg m b.addr asize) (seg + 192)
      (l1 ++ ⟨b.addr, asize, 1⟩ :: ⟨b.addr + asize, b.size - asize, 0⟩ :: l2) e ∧
    Sentinels seg (place seg m b.addr asize) e ∧
    ListsAt seg (place seg m b.addr asize)
      (fun i => if i = calcList (b.size - asize) then (b.addr + asize) :: (fl i).erase b.addr
        else (fl i).erase b.addr)
      (FreeIn (l1 ++ ⟨b.addr, asize, 1⟩ :: ⟨b.addr + asize, b.size - asize, 0⟩ :: l2)) ∧
    (∀ x, LinkFree seg (FreeIn (l1 ++ b :: l2)) x → (x < b.addr ∨ b.addr + b.size ≤ x) →
      (place seg m b.addr asize).rd x = m.rd x) := by
  obtain ⟨hT1, hbok, hT2⟩ := Tiled_split hT
  obtain ⟨hs1, hal1, hs2, hal2, h32, h8⟩ := hbok
  have hlt := GET_SIZE_lt m b.addr
  rw [hs1] at hlt
  have hB1 := (Tiled_bounds l1 _ _ hT1)
  have hB2 := (Tiled_bounds l2 _ _ hT2)
  have h8s := hS.2.2.2
  have hBfree : FreeIn (l1 ++ b :: l2) b.addr :=
    ⟨b, List.mem_append_right l1 (List.mem_cons_self b l2), rfl, hb⟩
  obtain ⟨hL1, hfr1⟩ := removeBlock_seq seg m fl _ b.addr hL hBfree
  obtain ⟨hT', hS'⟩ := linkframe_preserves hT hS (A := FreeIn (l1 ++ b :: l2))
    (fun y hy => FreeIn_addr hy) hfr1
  generalize hm1def : removeBlock seg m b.addr = m1 at hL1 hfr1 hT' hS'
  obtain ⟨hT1', hbok', hT2'⟩ := Tiled_split hT'
  have hmod : asize % 2 ^ 31 = asize := Nat.mod_eq_of_lt (by omega)
  have hmodr : (b.size - asize) % 2 ^ 31 = b.size - asize := Nat.mod_eq_of_lt (by omega)
  have hm : place seg m b.addr asize =
      insertBlock seg (PACK (PACK (PACK (PACK m1 b.addr asize 1) (b.addr + asize - 8) asize 1)
        (b.addr + asize) (b.size - asize) 0) (b.addr + asize + (b.size - asize) - 8)
        (b.size - asize) 0) (b.addr + asize) := by
    unfold place
    simp only [hs1, split_size_eq b.size asize ha3 hlt, if_neg hw, hm1def, ALLOC, FREE, HSIZE]
    have e0 : ∀ (mm : Mem) (p s a : Nat), set_allocated (set_block_size mm p s) p a =
        PACK mm p s a := fun _ _ _ _ => rfl
    simp only [e0]
    have e1 : get_footer (PACK m1 b.addr asize 1) b.addr = b.addr + asize - 8 := by
      unfold get_footer
      simp only [GET_SIZE_PACK, if_true, hmod, HSIZE]
    rw [e1]
    have e2 : NEXT_BLKP (PACK (PACK m1 b.addr asize 1) (b.addr + asize - 8) asize 1) b.addr =
        b.addr + asize := by
      unfold NEXT_BLKP
      simp only [GET_SIZE_PACK, if_true, hmod]
      rw [if_neg (by omega)]
    rw [e2]
    have e3 : get_footer (PACK (PACK (PACK m1 b.addr asize 1) (b.addr + asize - 8) asize 1)
        (b.addr + asize) (b.size - asize) 0) (b.addr + asize) =
        b.addr + asize + (b.size - asize) - 8 := by
      unfold get_footer
      simp only [GET_SIZE_PACK, if_true, hmodr, HSIZE]
    rw [e3]
  generalize hm9def : PACK (PACK (PACK (PACK m1 b.addr asize 1) (b.addr + asize - 8) asize 1)
        (b.addr + asize) (b.size - asize) 0) (b.addr + asize + (b.size - asize) - 8)
        (b.size - asize) 0 = m9 at hm
  have hrd : ∀ x, x ≠ b.addr → x ≠ b.addr + asize - 8 → x ≠ b.addr + asize →
      x ≠ b.addr + b.size - 8 → m9.rd x = m1.rd x := by
    intro x h1 h2 h3 h4
    rw [← hm9def, rd_PACK _ _ _ _ _ (by omega), rd_PACK _ _ _ _ _ h3, rd_PACK _ _ _ _ _ h2,
      rd_PACK _ _ _ _ _ h1]
  have htags : GET_SIZE m9 b.addr = asize ∧ GET_ALLOC m9 b.addr = 1 ∧
      GET_SIZE m9 (b.addr + asize - 8) = asize ∧ GET_ALLOC m9 (b.addr + asize - 8) = 1 ∧
      GET_SIZE m9 (b.addr + asize) = b.size - asize ∧ GET_ALLOC m9 (b.addr + asize) = 0 ∧
      GET_SIZE m9 (b.addr + asize + (b.size - asize) - 8) = b.size - asize ∧
      GET_ALLOC m9 (b.addr + asize + (b.size - asize) - 8) = 0 := by
    rw [← hm9def]
    simp only [GET_SIZE_PACK, GET_ALLOC_PACK, hmod, hmodr]
    refine ⟨?_, ?_, ?_, ?_, ?_, ?_, ?_, ?_⟩ <;> split_ifs <;> first | rfl | omega
  rw [hm]
  -- the new tiling holds before the insertion
  have hT9 : Tiled m9 (seg + 192)
      (l1 ++ ⟨b.addr, asize, 1⟩ :: ⟨b.addr + asize, b.size - asize, 0⟩ :: l2) e := by
    refine Tiled_join (b := ⟨b.addr, asize, 1⟩) ?_ ?_ ?_
    · refine Tiled_congr l1 _ _ ?_ hT1'
      intro c hc
      have := hB1.2 c hc
      have := (Tiled_mem_ok l1 _ _ hT1 c hc).2.2.2.2.1
      exact ⟨hrd _ (by omega) (by omega) (by omega) (by omega),
        hrd _ (by omega) (by omega) (by omega) (by omega)⟩
    · exact ⟨htags.1, htags.2.1, htags.2.2.1, htags.2.2.2.1, ha1, ha2⟩
    · refine ⟨rfl, ⟨htags.2.2.2.2.1, htags.2.2.2.2.2.1, htags.2.2.2.2.2.2.1,
        htags.2.2.2.2.2.2.2, by simp only []; omega, by simp only []; omega⟩, ?_⟩
      have e4 : b.addr + asize + (b.size - asize) = b.addr + b.size := by omega
      simp only []
      rw [e4]
      refine Tiled_congr l2 _ _ ?_ hT2'
      intro c hc
      have := hB2.2 c hc
      have := (Tiled_mem_ok l2 _ _ hT2 c hc).2.2.2.2.1
      exact ⟨hrd _ (by omega) (by omega) (by omega) (by omega),
        hrd _ (by omega) (by omega) (by omega) (by omega)⟩
  have hS9 : Sentinels seg m9 e := by
    refine Sentinels_congr ?_ ?_ ?_ hS'
    · exact hrd _ (by omega) (by omega) (by omega) (by omega)
    · intro i hi
      exact ⟨hrd _ (by omega) (by omega) (by omega) (by omega),
        hrd _ (by omega) (by omega) (by omega) (by omega)⟩
    · exact hrd _ (by omega) (by omega) (by omega) (by omega)
  have hside : ∀ x, (FreeIn (l1 ++ b :: l2) x ∧ x ≠ b.addr) →
      (seg + 192 ≤ x ∧ x + 32 ≤ b.addr) ∨ b.addr + b.size ≤ x := by
    rintro x ⟨hx, hne⟩
    rw [FreeIn_append, FreeIn_cons] at hx
    rcases hx with hx | ⟨hx, _⟩ | hx
    · exact Or.inl (FreeIn_left hT1 hx)
    · exact absurd hx.symm hne
    · exact Or.inr (FreeIn_left hT2 hx).1
  have hL9 : ListsAt seg m9 (fun i => (fl i).erase b.addr)
      (fun x => FreeIn (l1 ++ b :: l2) x ∧ x ≠ b.addr) := by
    refine ListsAt_congr ?_ ?_ hL1
    · intro x hx
      have := hside x hx
      exact ⟨GET_SIZE_congr (hrd _ (by omega) (by omega) (by omega) (by omega)),
        hrd _ (by omega) (by omega) (by omega) (by omega),
        hrd _ (by omega) (by omega) (by omega) (by omega)⟩
    · intro i hi
      exact ⟨hrd _ (by omega) (by omega) (by omega) (by omega),
        hrd _ (by omega) (by omega) (by omega) (by omega)⟩
  obtain ⟨hL10, hfr10⟩ := insertBlock_seq seg m9 _ _ (b.addr + asize) hL9
    (by rintro ⟨hx, _⟩; have := hside _ ⟨hx, by omega⟩; omega)
    (by omega)
    (by intro x hx; have := hside x hx; omega)
  obtain ⟨hT10, hS10⟩ := linkframe_preserves hT9 hS9
    (A := fun y => (FreeIn (l1 ++ b :: l2) y ∧ y ≠ b.addr) ∨ y = b.addr + asize) (by
      intro y hy
      rcases hy with ⟨hy, hne⟩ | hy
      · rw [FreeIn_append, FreeIn_cons] at hy
        rcases hy with ⟨c, hc, h1, _⟩ | ⟨h1, _⟩ | ⟨c, hc, h1, _⟩
        · exact ⟨c, List.mem_append_left _ hc, h1⟩
        · exact absurd h1.symm hne
        · exact ⟨c, List.mem_append_right _
            (List.mem_cons_of_mem _ (List.mem_cons_of_mem _ hc)), h1⟩
      · exact ⟨⟨b.addr + asize, b.size - asize, 0⟩, List.mem_append_right _
          (List.mem_cons_of_mem _ (List.mem_cons_self _ _)), hy.symm⟩) hfr10
  rw [htags.2.2.2.2.1] at hL10
  refine ⟨hT10, hS10, ListsAt_pred ?_ hL10, ?_⟩
  swap
  · intro x hx hout
    have h32b : 32 ≤ b.size - asize := by omega
    rw [hfr10 x ⟨fun y hy => by
      rcases hy with hy | hy
      · exact hx.1 y hy.1
      · subst hy; omega, hx.2⟩, hrd x (by omega) (by omega) (by omega) (by omega), hfr1 x hx]
  intro x
  simp only [FreeIn_append, FreeIn_cons]
  constructor
  · rintro (⟨h | ⟨h, _⟩ | h, hne⟩ | h)
    · exact Or.inl h
    · exact absurd h.symm hne
    · exact Or.inr (Or.inr (Or.inr h))
    · exact Or.inr (Or.inr (Or.inl ⟨h.symm, trivial⟩))
  · rintro (h | ⟨_, h⟩ | ⟨h, _⟩ | h)
    · have := FreeIn_left hT1 h
      exact Or.inl ⟨Or.inl h, by omega⟩
    · exact absurd h (by decide)
    · exact Or.inr h.symm
    · have := FreeIn_left hT2 h
      exact Or.inl ⟨Or.inr (Or.inr h), by omega⟩

theorem place_split_spec (seg : Nat) (m : Mem) (l1 l2 : List Blk) (b : Blk) (e asize : Nat)
    (hT : Tiled m (seg + 192) (l1 ++ b :: l2) e)
    (hS : Sentinels seg m e)
    (hL : Lists seg m (FreeIn (l1 ++ b :: l2)))
    (hb : b.alloc = 0) (ha1 : 32 ≤ asize) (ha2 : asize % 8 = 0) (ha3 : asize ≤ b.size)
    (hw : ¬ b.size - asize < 32) :
    Tiled (place seg m b.addr asize) (seg + 192)
      (l1 ++ ⟨b.addr, asize, 1⟩ :: ⟨b.addr + asize, b.size - asize, 0⟩ :: l2) e ∧
    Sentinels seg (place seg m b.addr asize) e ∧
    Lists seg (place seg m b.addr asize)
      (FreeIn (l1 ++ ⟨b.addr, asize, 1⟩ :: ⟨b.addr + asize, b.size - asize, 0⟩ :: l2)) := by
  obtain ⟨fl, hfl⟩ := hL
  obtain ⟨h1, h2, h3, _⟩ :=
    place_split_full seg m fl l1 l2 b e asize hT hS hfl hb ha1 ha2 ha3 hw
  exact ⟨h1, h2, ⟨_, h3⟩⟩

/-! ## Reading the neighbours of a block -/

theorem prev_read_nil {seg : Nat} {m : Mem} {e : Nat} (hS : Sentinels seg m e) :
    PREV_BLKP m (seg + 192) = seg + 160 ∧
    GET_ALLOC m (FTRP m (PREV_BLKP m (seg + 192))) = 1 := by
  have h5 := hS.2.1 5 (by omega)
  have e1 : seg + 192 - 8 = seg + 32 * 5 + 24 := by omega
  have e2 : PREV_BLKP m (seg + 192) = seg + 32 * 5 := by
    unfold PREV_BLKP PREV_FTRP HSIZE
    rw [e1, h5.2.2.1]; omega
  constructor
  · rw [e2]
  · rw [e2]
    unfold FTRP HDRP HSIZE
    rw [h5.1]
    have e3 : seg + 32 * 5 + 32 - 8 = seg + 32 * 5 + 24 := by omega
    rw [e3]; exact h5.2.2.2

theorem prev_read_snoc {m : Mem} {l : List Blk} {p : Blk} {a B : Nat}
    (h : Tiled m a (l ++ [p]) B) :
    PREV_BLKP m B = p.addr ∧ GET_ALLOC m (FTRP m (PREV_BLKP m B)) = p.alloc ∧
    p.addr + p.size = B ∧ BlockOK m p := by
  rw [Tiled_snoc] at h
  obtain ⟨_, hok, hB⟩ := h
  obtain ⟨h1, h2, h3, h4, h5, h6⟩ := hok
  have e1 : B - 8 = p.addr + p.size - 8 := by omega
  have e2 : PREV_BLKP m B = p.addr := by
    unfold PREV_BLKP PREV_FTRP HSIZE
    rw [e1, h3]; omega
  refine ⟨e2, ?_, hB, ⟨h1, h2, h3, h4, h5, h6⟩⟩
  rw [e2]
  unfold FTRP HDRP HSIZE
  rw [h1]; exact h4

theorem next_read_cons {m : Mem} {n : Blk} {l : List Blk} {B s e : Nat}
    (hs : GET_SIZE m B = s) (h : Tiled m (B + s) (n :: l) e) :
    NEXT_BLKP m B = n.addr ∧ GET_ALLOC m (NEXT_BLKP m B) = n.alloc ∧ BlockOK m n := by
  obtain ⟨h1, h2, _⟩ := h
  have e1 : NEXT_BLKP m B = n.addr := by
    unfold NEXT_BLKP; rw [hs, h1]
  exact ⟨e1, by rw [e1]; exact h2.2.1, h2⟩

theorem next_read_nil {seg : Nat} {m : Mem} {B s e : Nat}
    (hs : GET_SIZE m B = s) (hS : Sentinels seg m e) (h : Tiled m (B + s) [] e) :
    NEXT_BLKP m B = e ∧ GET_ALLOC m (NEXT_BLKP m B) = 1 := by
  have h1 : B + s = e := h
  have e1 : NEXT_BLKP m B = e := by
    unfold NEXT_BLKP; rw [hs, h1]
  exact ⟨e1, by rw [e1]; exact hS.2.2.1.2⟩

/-- The effect of `PACK(FTRP(bp), size, FREE)` on a block whose footer is
already marked free. -/
theorem PACK_FTRP_free (m : Mem) (B s sz : Nat) (hs : GET_SIZE m B = s)
    (ha : GET_ALLOC m (B + s - 8) = 0) (hB : 8 ≤ B) (h8 : 8 ≤ s) :
    GET_SIZE (PACK_FTRP m B sz 0) (B + s - 8) = sz % 2 ^ 31 ∧
    GET_ALLOC (PACK_FTRP m B sz 0) (B + s - 8) = 0 ∧
    (∀ x, x ≠ B + s - 8 → (8 < s ∨ x ≠ B + sz % 2 ^ 31 - 8) →
      (PACK_FTRP m B sz 0).rd x = m.rd x) := by
  unfold PACK_FTRP FTRP HDRP HSIZE
  simp only [hs, GET_SIZE_set_block_size, GET_SIZE_set_allocated, GET_ALLOC_set_allocated,
    GET_ALLOC_set_block_size, if_true]
  refine ⟨?_, ?_, ?_⟩
  · trivial
  · split_ifs <;> first | rfl | exact ha
  · intro x hx hx2
    by_cases hb : B = B + s - 8
    · rw [if_pos hb]
      have : s = 8 := by omega
      rw [rd_set_allocated _ _ _ _ (by omega), rd_set_block_size _ _ _ _ hx]
    · rw [if_neg hb]
      rw [rd_set_allocated _ _ _ _ hx, rd_set_block_size _ _ _ _ hx]

/-- A free-list operation keeps a stretch of tiling whose blocks it may link
and whose other linked blocks lie outside the stretch. -/
theorem Tiled_linkframe {seg : Nat} {m m2 : Mem} {T : List Blk} {a e : Nat} {A : Nat → Prop}
    (hT : Tiled m a T e) (ha : seg + 192 ≤ a)
    (hA : ∀ y, A y → (∃ b, b ∈ T ∧ b.addr = y) ∨ y + 32 ≤ a ∨ e ≤ y)
    (hf : ∀ x, LinkFree seg A x → m2.rd x = m.rd x) : Tiled m2 a T e := by
  refine Tiled_congr T _ e ?_ hT
  intro c hc
  have hcb := (Tiled_bounds T _ e hT).2 c hc
  have hcok := (Tiled_mem_ok T _ e hT c hc).2.2.2.2.1
  constructor
  · apply hf
    constructor
    · intro y hy
      rcases hA y hy with ⟨d, hd, hdy⟩ | h | h
      · have := Tiled_disjoint T _ e hT c d hc hd
        have hdok := (Tiled_mem_ok T _ e hT d hd).2.2.2.2.1
        subst hdy
        rcases this with h | h | h
        · subst h; omega
        · omega
        · omega
      · omega
      · omega
    · intro i hi; omega
  · apply hf
    constructor
    · intro y hy
      rcases hA y hy with ⟨d, hd, hdy⟩ | h | h
      · have := Tiled_disjoint T _ e hT c d hc hd
        have hdok := (Tiled_mem_ok T _ e hT d hd).2.2.2.2.1
        subst hdy
        rcases this with h | h | h
        · subst h; omega
        · omega
        · omega
      · omega
      · omega
    · intro i hi; omega

theorem Sentinels_linkframe {seg : Nat} {m m2 : Mem} {e : Nat} {A : Nat → Prop}
    (hS : Sentinels seg m e) (he : seg + 192 ≤ e)
    (hA : ∀ y, A y → seg + 192 ≤ y ∧ y + 24 ≤ e)
    (hf : ∀ x, LinkFree seg A x → m2.rd x = m.rd x) : Sentinels seg m2 e := by
  have h8 := hS.2.2.2
  refine Sentinels_congr ?_ ?_ ?_ hS
  · apply hf
    constructor
    · intro y hy; have := hA y hy; omega
    · intro i hi; omega
  · intro i hi
    constructor
    · apply hf
      constructor
      · intro y hy; have := hA y hy; omega
      · intro j hj; omega
    · apply hf
      constructor
      · intro y hy; have := hA y hy; omega
      · intro j hj; omega
  · apply hf
    constructor
    · intro y hy; have := hA y hy; omega
    · intro i hi; omega

/-- Common last step of `coalesce`, with the resulting list sequences and the
words that keep their contents. -/
theorem merge_insert_full (seg : Nat) (m1 m3 : Mem) (fl : Nat → List Nat)
    (lA lB : List Blk) (P sz e : Nat)
    (hTA : Tiled m1 (seg + 192) lA P) (hTB : Tiled m1 (P + sz) lB e)
    (hS : Sentinels seg m1 e)
    (hL : ListsAt seg m1 fl (fun x => FreeIn lA x ∨ FreeIn lB x))
    (hfr : ∀ x, (x < P ∨ (P + sz ≤ x ∧ x ≤ e)) → m3.rd x = m1.rd x)
    (ht1 : GET_SIZE m3 P = sz) (ht2 : GET_ALLOC m3 P = 0)
    (ht3 : GET_SIZE m3 (P + sz - 8) = sz) (ht4 : GET_ALLOC m3 (P + sz - 8) = 0)
    (h32 : 32 ≤ sz) (h8 : sz % 8 = 0) :
    Tiled (insertBlock seg m3 P) (seg + 192) (lA ++ ⟨P, sz, 0⟩ :: lB) e ∧
    Sentinels seg (insertBlock seg m3 P) e ∧
    ListsAt seg (insertBlock seg m3 P) (fun i => if i = calcList sz then P :: fl i else fl i)
      (FreeIn (lA ++ ⟨P, sz, 0⟩ :: lB)) ∧
    (∀ x, LinkFree seg (fun y => FreeIn lA y ∨ FreeIn lB y) x →
      (x < P ∨ (P + sz ≤ x ∧ x ≤ e)) → (insertBlock seg m3 P).rd x = m1.rd x) := by
  have hBA := Tiled_bounds lA _ _ hTA
  have hBB := Tiled_bounds lB _ _ hTB
  have h8s := hS.2.2.2
  have hT3 : Tiled m3 (seg + 192) (lA ++ ⟨P, sz, 0⟩ :: lB) e := by
    refine Tiled_join (b := ⟨P, sz, 0⟩) ?_ ?_ ?_
    · refine Tiled_congr lA _ _ ?_ hTA
      intro c hc
      have := hBA.2 c hc
      have := (Tiled_mem_ok lA _ _ hTA c hc).2.2.2.2.1
      exact ⟨hfr _ (by omega), hfr _ (by omega)⟩
    · exact ⟨ht1, ht2, ht3, ht4, h32, h8⟩
    · refine Tiled_congr lB _ _ ?_ hTB
      intro c hc
      have := hBB.2 c hc
      have := (Tiled_mem_ok lB _ _ hTB c hc).2.2.2.2.1
      exact ⟨hfr _ (by omega), hfr _ (by omega)⟩
  have hS3 : Sentinels seg m3 e := by
    refine Sentinels_congr ?_ ?_ ?_ hS
    · exact hfr _ (by omega)
    · intro i hi
      exact ⟨hfr _ (by omega), hfr _ (by omega)⟩
    · exact hfr _ (by omega)
  have hside : ∀ x, (FreeIn lA x ∨ FreeIn lB x) →
      (seg + 192 ≤ x ∧ x + 32 ≤ P) ∨ (P + sz ≤ x ∧ x + 32 ≤ e) := by
    rintro x (hx | hx)
    · exact Or.inl (FreeIn_left hTA hx)
    · exact Or.inr (FreeIn_left hTB hx)
  have hL3 : ListsAt seg m3 fl (fun x => FreeIn lA x ∨ FreeIn lB x) := by
    refine ListsAt_congr ?_ ?_ hL
    · intro x hx
      have := hside x hx
      exact ⟨GET_SIZE_congr (hfr _ (by omega)), hfr _ (by omega), hfr _ (by omega)⟩
    · intro i hi
      exact ⟨hfr _ (by omega), hfr _ (by omega)⟩
  obtain ⟨hL4, hfr4⟩ := insertBlock_seq seg m3 fl _ P hL3
    (by intro hx; have := hside _ hx; omega) (by omega)
    (by intro x hx; have := hside x hx; omega)
  obtain ⟨hT4, hS4⟩ := linkframe_preserves hT3 hS3
    (A := fun y => (FreeIn lA y ∨ FreeIn lB y) ∨ y = P) (by
      intro y hy
      rcases hy with (⟨c, hc, h1, _⟩ | ⟨c, hc, h1, _⟩) | hy
      · exact ⟨c, List.mem_append_left _ hc, h1⟩
      · exact ⟨c, List.mem_append_right _ (List.mem_cons_of_mem _ hc), h1⟩
      · exact ⟨⟨P, sz, 0⟩, List.mem_append_right _ (List.mem_cons_self _ _), hy.symm⟩) hfr4
  rw [ht1] at hL4
  refine ⟨hT4, hS4, ListsAt_pred ?_ hL4, ?_⟩
  swap
  · intro x hx hout
    rw [hfr4 x ⟨fun y hy => by
      rcases hy with hy | hy
      · exact hx.1 y hy
      · subst hy; omega, hx.2⟩]
    exact hfr x hout
  intro x
  simp only [FreeIn_append, FreeIn_cons]
  constructor
  · rintro ((h | h) | h)
    · exact Or.inl h
    · exact Or.inr (Or.inr h)
    · exact Or.inr (Or.inl ⟨h.symm, trivial⟩)
  · rintro (h | ⟨h, _⟩ | h)
    · exact Or.inl (Or.inl h)
    · exact Or.inr h.symm
    · exact Or.inl (Or.inr h)

/-- Common last step of `coalesce`: the stretch from `P` to `P + sz` has just
been tagged as one free block, which `insertBlock` now puts into its list. -/
theorem merge_insert (seg : Nat) (m1 m3 : Mem) (lA lB : List Blk) (P sz e : Nat)
    (hTA : Tiled m1 (seg + 192) lA P) (hTB : Tiled m1 (P + sz) lB e)
    (hS : Sentinels seg m1 e)
    (hL : Lists seg m1 (fun x => FreeIn lA x ∨ FreeIn lB x))
    (hfr : ∀ x, (x < P ∨ (P + sz ≤ x ∧ x ≤ e)) → m3.rd x = m1.rd x)
    (ht1 : GET_SIZE m3 P = sz) (ht2 : GET_ALLOC m3 P = 0)
    (ht3 : GET_SIZE m3 (P + sz - 8) = sz) (ht4 : GET_ALLOC m3 (P + sz - 8) = 0)
    (h32 : 32 ≤ sz) (h8 : sz % 8 = 0) :
    Tiled (insertBlock seg m3 P) (seg + 192) (lA ++ ⟨P, sz, 0⟩ :: lB) e ∧
    Sentinels seg (insertBlock seg m3 P) e ∧
    Lists seg (insertBlock seg m3 P) (FreeIn (lA ++ ⟨P, sz, 0⟩ :: lB)) := by
  obtain ⟨fl, hfl⟩ := hL
  obtain ⟨h1, h2, h3, _⟩ := merge_insert_full seg m1 m3 fl lA lB P sz e hTA hTB hS hfl hfr
    ht1 ht2 ht3 ht4 h32 h8
  exact ⟨h1, h2, ⟨_, h3⟩⟩

theorem CoalIn.side {seg : Nat} {m : Mem} {l1 l2 : List Blk} {B s e : Nat} {L : Nat → Prop}
    (H : CoalIn seg m l1 B s l2 e L) (y : Nat) (hy : L y) :
    (seg + 192 ≤ y ∧ y + 32 ≤ B) ∨ (B + s ≤ y ∧ y + 32 ≤ e) := by
  rcases H.sub y hy with h | h
  · exact Or.inl (FreeIn_left H.t1 h)
  · exact Or.inr (FreeIn_left H.t2 h)

/-- Removing a listed block keeps the state `coalesce` works on. -/
theorem CoalIn.remove {seg : Nat} {m : Mem} {l1 l2 : List Blk} {B s e : Nat} {L : Nat → Prop}
    (H : CoalIn seg m l1 B s l2 e L) (X : Nat) (hX : L X) :
    CoalIn seg (removeBlock seg m X) l1 B s l2 e (fun x => L x ∧ x ≠ X) := by
  obtain ⟨hL1, hfr⟩ := removeBlock_spec seg m L X H.lists hX
  have hb1 := Tiled_bounds l1 _ _ H.t1
  have hb2 := Tiled_bounds l2 _ _ H.t2
  have h8 := H.h8
  have hB : (removeBlock seg m X).rd B = m.rd B := by
    apply hfr
    constructor
    · intro y hy; have := H.side y hy; omega
    · intro i hi; omega
  have hF : (removeBlock seg m X).rd (B + s - 8) = m.rd (B + s - 8) := by
    apply hfr
    constructor
    · intro y hy; have := H.side y hy; omega
    · intro i hi; omega
  refine ⟨?_, ?_, ?_, ?_, ?_, H.h8, H.m8, ?_, ?_, hL1, ?_, H.big⟩
  · refine Tiled_linkframe H.t1 (by omega) ?_ hfr
    intro y hy
    rcases H.sub y hy with h | h
    · exact Or.inl (FreeIn_addr h)
    · have := FreeIn_left H.t2 h; right; right; omega
  · rw [GET_SIZE_congr hB]; exact H.s1
  · rw [GET_ALLOC_congr hB]; exact H.a1
  · rw [GET_SIZE_congr hF]; exact H.s2
  · rw [GET_ALLOC_congr hF]; exact H.a2
  · refine Tiled_linkframe H.t2 (by omega) ?_ hfr
    intro y hy
    rcases H.sub y hy with h | h
    · have := FreeIn_left H.t1 h; right; left; omega
    · exact Or.inl (FreeIn_addr h)
  · refine Sentinels_linkframe H.sent (by omega) ?_ hfr
    intro y hy; have := H.side y hy; omega
  · intro y hy; exact H.sub y hy.1

/-- Removing a listed block: the list sequences lose the block, and only link
words are written. -/
theorem CoalIn.remove_seq {seg : Nat} {m : Mem} {l1 l2 : List Blk} {B s e : Nat}
    {L : Nat → Prop} {fl : Nat → List Nat}
    (H : CoalIn seg m l1 B s l2 e L) (hfl : ListsAt seg m fl L) (X : Nat) (hX : L X) :
    ListsAt seg (removeBlock seg m X) (fun i => (fl i).erase X) (fun x => L x ∧ x ≠ X) ∧
    (∀ x, LinkFree seg L x → (removeBlock seg m X).rd x = m.rd x) :=
  removeBlock_seq seg m fl L X hfl hX

theorem LinkFree_mono {seg : Nat} {A A2 : Nat → Prop} {x : Nat}
    (h : ∀ y, A2 y → A y) (hx : LinkFree seg A x) : LinkFree seg A2 x :=
  ⟨fun y hy => hx.1 y (h y hy), hx.2⟩

/-- Case I of `coalesce` with the list sequences and the words left alone. -/
theorem coalesce_case1_full {seg : Nat} {m : Mem} {l1 l2 : List Blk} {B s e : Nat}
    {fl : Nat → List Nat}
    (H : CoalIn seg m l1 B s l2 e (fun x => FreeIn l1 x ∨ FreeIn l2 x))
    (hfl : ListsAt seg m fl (fun x => FreeIn l1 x ∨ FreeIn l2 x))
    (hp : GET_ALLOC m (FTRP m (PREV_BLKP m B)) ≠ 0)
    (hn : GET_ALLOC m (NEXT_BLKP m B) ≠ 0) (h32 : 32 ≤ s) :
    (coalesce seg m B).2 = B ∧
    Tiled (coalesce seg m B).1 (seg + 192) (l1 ++ ⟨B, s, 0⟩ :: l2) e ∧
    Sentinels seg (coalesce seg m B).1 e ∧
    ListsAt seg (coalesce seg m B).1 (fun i => if i = calcList s then B :: fl i else fl i)
      (FreeIn (l1 ++ ⟨B, s, 0⟩ :: l2)) ∧
    (∀ x, LinkFree seg (fun y => FreeIn l1 y ∨ FreeIn l2 y) x →
      (x < B ∨ (B + s ≤ x ∧ x ≤ e)) → (coalesce seg m B).1.rd x = m.rd x) := by
  have hb1 := Tiled_bounds l1 _ _ H.t1
  have hc : coalesce seg m B = (insertBlock seg m B, B) := by
    unfold coalesce
    rw [if_neg (show ¬ B = NULL from (by show ¬ B = 0; omega))]
    simp only [HDRP]
    rw [if_pos ⟨hp, hn⟩]
  rw [hc]
  exact ⟨rfl, merge_insert_full seg m m fl l1 l2 B s e H.t1 H.t2 H.sent hfl (fun _ _ => rfl)
    H.s1 H.a1 H.s2 H.a2 h32 H.m8⟩

theorem coalesce_case1 {seg : Nat} {m : Mem} {l1 l2 : List Blk} {B s e : Nat}
    (H : CoalIn seg m l1 B s l2 e (fun x => FreeIn l1 x ∨ FreeIn l2 x))
    (hp : GET_ALLOC m (FTRP m (PREV_BLKP m B)) ≠ 0)
    (hn : GET_ALLOC m (NEXT_BLKP m B) ≠ 0) (h32 : 32 ≤ s) :
    (coalesce seg m B).2 = B ∧
    Tiled (coalesce seg m B).1 (seg + 192) (l1 ++ ⟨B, s, 0⟩ :: l2) e ∧
    Sentinels seg (coalesce seg m B).1 e ∧
    Lists seg (coalesce seg m B).1 (FreeIn (l1 ++ ⟨B, s, 0⟩ :: l2)) := by
  obtain ⟨fl, hfl⟩ := H.lists
  obtain ⟨h1, h2, h3, h4, _⟩ := coalesce_case1_full H hfl hp hn h32
  exact ⟨h1, h2, h3, ⟨_, h4⟩⟩

/-- Case II of `coalesce` with the list sequences and the words left alone. -/
theorem coalesce_case2_full {seg : Nat} {m : Mem} {l1 l2 : List Blk} {n : Blk} {B s e : Nat}
    {fl : Nat → List Nat}
    (H : CoalIn seg m l1 B s (n :: l2) e (fun x => FreeIn l1 x ∨ FreeIn (n :: l2) x))
    (hfl : ListsAt seg m fl (fun x => FreeIn l1 x ∨ FreeIn (n :: l2) x))
    (hp : GET_ALLOC m (FTRP m (PREV_BLKP m B)) ≠ 0)
    (hn : n.alloc = 0) (h32 : 32 ≤ s) :
    (coalesce seg m B).2 = B ∧
    Tiled (coalesce seg m B).1 (seg + 192) (l1 ++ ⟨B, s + n.size, 0⟩ :: l2) e ∧
    Sentinels seg (coalesce seg m B).1 e ∧
    ListsAt seg (coalesce seg m B).1
      (fun i => if i = calcList (s + n.size) then B :: (fl i).erase n.addr
        else (fl i).erase n.addr)
      (FreeIn (l1 ++ ⟨B, s + n.size, 0⟩ :: l2)) ∧
    (∀ x, LinkFree seg (fun y => FreeIn l1 y ∨ FreeIn (n :: l2) y) x →
      (x < B ∨ (B + (s + n.size) ≤ x ∧ x ≤ e)) → (coalesce seg m B).1.rd x = m.rd x) := by
  have hb1 := Tiled_bounds l1 _ _ H.t1
  have hb2 := Tiled_bounds _ _ _ H.t2
  obtain ⟨hnx, hna, hnok⟩ := next_read_cons H.s1 H.t2
  have hnaddr : n.addr = B + s := H.t2.1
  have hLn : (fun x => FreeIn l1 x ∨ FreeIn (n :: l2) x) n.addr :=
    Or.inr ⟨n, List.mem_cons_self n l2, rfl, hn⟩
  have H1 := H.remove n.addr hLn
  obtain ⟨hfl1, hfr1⟩ := H.remove_seq hfl n.addr hLn
  generalize hm1 : removeBlock seg m n.addr = m1 at H1 hfl1 hfr1
  have hn1 := H1.t2
  obtain ⟨_, hnok1, hT2r⟩ := hn1
  have hnsz : n.size < 2 ^ 31 := by
    have := GET_SIZE_lt m n.addr; rw [hnok.1] at this; exact this
  have hbn := (hb2.2 n (List.mem_cons_self n l2))
  have hn32 := hnok.2.2.2.2.1
  have hbig := H.big
  have hmod : (s + n.size) % 2 ^ 31 = s + n.size := Nat.mod_eq_of_lt (by omega)
  have hc : coalesce seg m B = (insertBlock seg
      (PACK (PACK m1 B (s + n.size) 0) (B + (s + n.size) - 8) (s + n.size) 0) B, B) := by
    unfold coalesce
    rw [if_neg (show ¬ B = NULL from (by show ¬ B = 0; omega))]
    simp only [HDRP]
    rw [if_neg (by rw [hna, hn]; simp), if_pos (by rw [hna, hn]; simp [hp])]
    simp only [hnx, hm1, hnok1.1, H.s1, FREE]
    rw [PACK_FTRP_eq _ _ _ _ (Or.inl (by rw [GET_SIZE_PACK, if_pos rfl, hmod]; omega))]
    simp only [GET_SIZE_PACK, if_true, hmod]
  rw [hc]
  refine ⟨rfl, ?_⟩
  have hsub : ∀ y, (FreeIn l1 y ∨ FreeIn l2 y) → (FreeIn l1 y ∨ FreeIn (n :: l2) y) := by
    intro y hy
    rcases hy with h | h
    · exact Or.inl h
    · exact Or.inr (by rw [FreeIn_cons]; exact Or.inr h)
  have hL1 : ListsAt seg m1 (fun i => (fl i).erase n.addr)
      (fun x => FreeIn l1 x ∨ FreeIn l2 x) := by
    refine ListsAt_pred ?_ hfl1
    intro x
    simp only [FreeIn_cons]
    constructor
    · rintro ⟨h | ⟨h, _⟩ | h, hne⟩
      · exact Or.inl h
      · exact absurd h.symm hne
      · exact Or.inr h
    · rintro (h | h)
      · have := FreeIn_left H.t1 h
        exact ⟨Or.inl h, by omega⟩
      · have := FreeIn_left hT2r h
        exact ⟨Or.inr (Or.inr h), by omega⟩
  have hTB : Tiled m1 (B + (s + n.size)) l2 e := by
    have e1 : B + (s + n.size) = B + s + n.size := by omega
    rw [e1]; exact hT2r
  obtain ⟨r1, r2, r3, r4⟩ := merge_insert_full seg m1
    (PACK (PACK m1 B (s + n.size) 0) (B + (s + n.size) - 8) (s + n.size) 0)
    (fun i => (fl i).erase n.addr) l1 l2 B (s + n.size) e H1.t1 hTB H1.sent hL1
    (by
      intro x hx
      rw [rd_PACK _ _ _ _ _ (by omega), rd_PACK _ _ _ _ _ (by omega)])
    (by simp only [GET_SIZE_PACK, hmod]; split_ifs <;> rfl)
    (by simp only [GET_ALLOC_PACK]; split_ifs <;> rfl)
    (by simp only [GET_SIZE_PACK, hmod, if_true])
    (by simp only [GET_ALLOC_PACK, if_true])
    (by omega) (by have := H.m8; have := hnok.2.2.2.2.2; omega)
  refine ⟨r1, r2, r3, ?_⟩
  intro x hx hxr
  rw [r4 x (LinkFree_mono hsub hx) hxr]
  exact hfr1 x hx

theorem coalesce_case2 {seg : Nat} {m : Mem} {l1 l2 : List Blk} {n : Blk} {B s e : Nat}
    (H : CoalIn seg m l1 B s (n :: l2) e (fun x => FreeIn l1 x ∨ FreeIn (n :: l2) x))
    (hp : GET_ALLOC m (FTRP m (PREV_BLKP m B)) ≠ 0)
    (hn : n.alloc = 0) (h32 : 32 ≤ s) :
    (coalesce seg m B).2 = B ∧
    Tiled (coalesce seg m B).1 (seg + 192) (l1 ++ ⟨B, s + n.size, 0⟩ :: l2) e ∧
    Sentinels seg (coalesce seg m B).1 e ∧
    Lists seg (coalesce seg m B).1 (FreeIn (l1 ++ ⟨B, s + n.size, 0⟩ :: l2)) := by
  obtain ⟨fl, hfl⟩ := H.lists
  obtain ⟨h1, h2, h3, h4, _⟩ := coalesce_case2_full H hfl hp hn h32
  exact ⟨h1, h2, h3, ⟨_, h4⟩⟩

/-- Case III of `coalesce` with the list sequences and the words left alone. -/
theorem coalesce_case3_full {seg : Nat} {m : Mem} {l1 l2 : List Blk} {p : Blk} {B s e : Nat}
    {fl : Nat → List Nat}
    (H : CoalIn seg m (l1 ++ [p]) B s l2 e (fun x => FreeIn (l1 ++ [p]) x ∨ FreeIn l2 x))
    (hfl : ListsAt seg m fl (fun x => FreeIn (l1 ++ [p]) x ∨ FreeIn l2 x))
    (hp : p.alloc = 0)
    (hn : GET_ALLOC m (NEXT_BLKP m B) ≠ 0) (h32 : 32 ≤ s ∨ l2 = []) :
    (coalesce seg m B).2 = p.addr ∧
    Tiled (coalesce seg m B).1 (seg + 192) (l1 ++ ⟨p.addr, s + p.size, 0⟩ :: l2) e ∧
    Sentinels seg (coalesce seg m B).1 e ∧
    ListsAt seg (coalesce seg m B).1
      (fun i => if i = calcList (s + p.size) then p.addr :: (fl i).erase p.addr
        else (fl i).erase p.addr)
      (FreeIn (l1 ++ ⟨p.addr, s + p.size, 0⟩ :: l2)) ∧
    (∀ x, LinkFree seg (fun y => FreeIn (l1 ++ [p]) y ∨ FreeIn l2 y) x →
      (x < p.addr ∨ (p.addr + (s + p.size) ≤ x ∧ x ≤ e)) →
      (coalesce seg m B).1.rd x = m.rd x) := by
  have hb1 := Tiled_bounds _ _ _ H.t1
  have hb2 := Tiled_bounds _ _ _ H.t2
  obtain ⟨hpx, hpa, hpB, hpok⟩ := prev_read_snoc H.t1
  have hLp : (fun x => FreeIn (l1 ++ [p]) x ∨ FreeIn l2 x) p.addr :=
    Or.inl ⟨p, by simp, rfl, hp⟩
  have H1 := H.remove p.addr hLp
  obtain ⟨hfl1, hfr1⟩ := H.remove_seq hfl p.addr hLp
  generalize hm1 : removeBlock seg m p.addr = m1 at H1 hfl1 hfr1
  have hp1 := H1.t1
  rw [Tiled_snoc] at hp1
  obtain ⟨hT1r, hpok1, _⟩ := hp1
  have hbp := (hb1.2 p (by simp))
  have hp32 := hpok.2.2.2.2.1
  have hbig := H.big
  have h8 := H.h8
  have hmod : (s + p.size) % 2 ^ 31 = s + p.size := Nat.mod_eq_of_lt (by omega)
  have hc : coalesce seg m B = (insertBlock seg
      (PACK (PACK_FTRP m1 B (s + p.size) 0) p.addr (s + p.size) 0) p.addr, p.addr) := by
    unfold coalesce
    rw [if_neg (show ¬ B = NULL from (by show ¬ B = 0; omega))]
    simp only [HDRP]
    rw [if_neg (by rw [hpa, hp]; simp), if_neg (by rw [hpa, hp]; simp),
      if_pos (by rw [hpa, hp]; simp [hn])]
    simp only [hpx, hm1, hpok1.1, H.s1, FREE]
  rw [hc]
  refine ⟨rfl, ?_⟩
  obtain ⟨hf1, hf2, hf3⟩ := PACK_FTRP_free m1 B s (s + p.size) H1.s1 H1.a2 (by omega) h8
  rw [hmod] at hf1 hf3
  have hsub : ∀ y, (FreeIn l1 y ∨ FreeIn l2 y) → (FreeIn (l1 ++ [p]) y ∨ FreeIn l2 y) := by
    intro y hy
    rcases hy with h | h
    · exact Or.inl (by rw [FreeIn_append]; exact Or.inl h)
    · exact Or.inr h
  have hL1 : ListsAt seg m1 (fun i => (fl i).erase p.addr)
      (fun x => FreeIn l1 x ∨ FreeIn l2 x) := by
    refine ListsAt_pred ?_ hfl1
    intro x
    simp only [FreeIn_append, FreeIn_cons, FreeIn_nil, or_false]
    constructor
    · rintro ⟨(h | ⟨h, _⟩) | h, hne⟩
      · exact Or.inl h
      · exact absurd h.symm hne
      · exact Or.inr h
    · rintro (h | h)
      · have := FreeIn_left hT1r h
        exact ⟨Or.inl (Or.inl h), by omega⟩
      · have := FreeIn_left H.t2 h
        exact ⟨Or.inr h, by omega⟩
  have hTB : Tiled m1 (p.addr + (s + p.size)) l2 e := by
    have e1 : p.addr + (s + p.size) = B + s := by omega
    rw [e1]; exact H1.t2
  have hle : l2 = [] → e = B + s := fun h => by
    have := H.t2; rw [h] at this; exact this.symm
  have hmi := merge_insert_full seg m1
    (PACK (PACK_FTRP m1 B (s + p.size) 0) p.addr (s + p.size) 0)
    (fun i => (fl i).erase p.addr) l1 l2 p.addr (s + p.size) e hT1r hTB H1.sent hL1 ?_ ?_ ?_ ?_ ?_
    (by omega) (by have := H.m8; have := hpok.2.2.2.2.2; omega)
  · obtain ⟨r1, r2, r3, r4⟩ := hmi
    refine ⟨r1, r2, r3, ?_⟩
    intro x hx hxr
    rw [r4 x (LinkFree_mono hsub hx) hxr]
    exact hfr1 x hx
  · intro x hx
    rw [rd_PACK _ _ _ _ _ (by omega)]
    refine hf3 x (by omega) ?_
    rcases h32 with h | h
    · left; omega
    · have := hle h; right; omega
  · simp only [GET_SIZE_PACK, hmod, if_true]
  · simp only [GET_ALLOC_PACK, if_true]
  · have e1 : p.addr + (s + p.size) - 8 = B + s - 8 := by omega
    rw [e1, GET_SIZE_PACK, if_neg (by omega)]
    exact hf1
  · have e1 : p.addr + (s + p.size) - 8 = B + s - 8 := by omega
    rw [e1, GET_ALLOC_PACK, if_neg (by omega)]
    exact hf2

theorem coalesce_case3 {seg : Nat} {m : Mem} {l1 l2 : List Blk} {p : Blk} {B s e : Nat}
    (H : CoalIn seg m (l1 ++ [p]) B s l2 e (fun x => FreeIn (l1 ++ [p]) x ∨ FreeIn l2 x))
    (hp : p.alloc = 0)
    (hn : GET_ALLOC m (NEXT_BLKP m B) ≠ 0) (h32 : 32 ≤ s ∨ l2 = []) :
    (coalesce seg m B).2 = p.addr ∧
    Tiled (coalesce seg m B).1 (seg + 192) (l1 ++ ⟨p.addr, s + p.size, 0⟩ :: l2) e ∧
    Sentinels seg (coalesce seg m B).1 e ∧
    Lists seg (coalesce seg m B).1 (FreeIn (l1 ++ ⟨p.addr, s + p.size, 0⟩ :: l2)) := by
  obtain ⟨fl, hfl⟩ := H.lists
  obtain ⟨h1, h2, h3, h4, _⟩ := coalesce_case3_full H hfl hp hn h32
  exact ⟨h1, h2, h3, ⟨_, h4⟩⟩

/-- Case IV of `coalesce` with the list sequences and the words left alone. -/
theorem coalesce_case4_full {seg : Nat} {m : Mem} {l1 l2 : List Blk} {p n : Blk} {B s e : Nat}
    {fl : Nat → List Nat}
    (H : CoalIn seg m (l1 ++ [p]) B s (n :: l2) e
      (fun x => FreeIn (l1 ++ [p]) x ∨ FreeIn (n :: l2) x))
    (hfl : ListsAt seg m fl (fun x => FreeIn (l1 ++ [p]) x ∨ FreeIn (n :: l2) x))
    (hp : p.alloc = 0) (hn : n.alloc = 0) (h32 : 32 ≤ s) :
    (coalesce seg m B).2 = p.addr ∧
    Tiled (coalesce seg m B).1 (seg + 192)
      (l1 ++ ⟨p.addr, s + (p.size + n.size), 0⟩ :: l2) e ∧
    Sentinels seg (coalesce seg m B).1 e ∧
    ListsAt seg (coalesce seg m B).1
      (fun i => if i = calcList (s + (p.size + n.size))
        then p.addr :: ((fl i).erase n.addr).erase p.addr
        else ((fl i).erase n.addr).erase p.addr)
      (FreeIn (l1 ++ ⟨p.addr, s + (p.size + n.size), 0⟩ :: l2)) ∧
    (∀ x, LinkFree seg (fun y => FreeIn (l1 ++ [p]) y ∨ FreeIn (n :: l2) y) x →
      (x < p.addr ∨ (p.addr + (s + (p.size + n.size)) ≤ x ∧ x ≤ e)) →
      (coalesce seg m B).1.rd x = m.rd x) := by
  have hb1 := Tiled_bounds _ _ _ H.t1
  have hb2 := Tiled_bounds _ _ _ H.t2
  obtain ⟨hpx, hpa, hpB, hpok⟩ := prev_read_snoc H.t1
  obtain ⟨hnx, hna, hnok⟩ := next_read_cons H.s1 H.t2
  have hnaddr : n.addr = B + s := H.t2.1
  have hbp := (hb1.2 p (by simp))
  have hbn := (hb2.2 n (List.mem_cons_self n l2))
  have hp32 := hpok.2.2.2.2.1
  have hn32 := hnok.2.2.2.2.1
  have hLn : (fun x => FreeIn (l1 ++ [p]) x ∨ FreeIn (n :: l2) x) n.addr :=
    Or.inr ⟨n, List.mem_cons_self n l2, rfl, hn⟩
  have H1 := H.remove n.addr hLn
  obtain ⟨hfl1, hfr1⟩ := H.remove_seq hfl n.addr hLn
  generalize hm1 : removeBlock seg m n.addr = m1 at H1 hfl1 hfr1
  have hLp : (fun x => (fun x => FreeIn (l1 ++ [p]) x ∨ FreeIn (n :: l2) x) x ∧ x ≠ n.addr)
      p.addr := ⟨Or.inl ⟨p, by simp, rfl, hp⟩, by omega⟩
  have H2 := H1.remove p.addr hLp
  obtain ⟨hfl2, hfr2⟩ := H1.remove_seq hfl1 p.addr hLp
  generalize hm2 : removeBlock seg m1 p.addr = m2 at H2 hfl2 hfr2
  have hp2 := H2.t1
  rw [Tiled_snoc] at hp2
  obtain ⟨hT1r, hpok2, _⟩ := hp2
  obtain ⟨_, hnok2, hT2r⟩ := H2.t2
  have hbig := H.big
  have hmod : (s + (p.size + n.size)) % 2 ^ 31 = s + (p.size + n.size) :=
    Nat.mod_eq_of_lt (by omega)
  have hc : coalesce seg m B = (insertBlock seg
      (PACK (PACK m2 (n.addr + n.size - 8) (s + (p.size + n.size)) 0) p.addr
        (s + (p.size + n.size)) 0) p.addr, p.addr) := by
    unfold coalesce
    rw [if_neg (show ¬ B = NULL from (by show ¬ B = 0; omega))]
    simp only [HDRP]
    rw [if_neg (by rw [hpa, hp]; simp), if_neg (by rw [hpa, hp]; simp),
      if_neg (by rw [hna, hn]; simp)]
    simp only [hpx, hnx, hm1, hm2, hpok2.1, hnok2.1, H.s1, FREE]
    rw [PACK_FTRP_eq _ _ _ _ (Or.inl (by rw [hnok2.1]; omega)), hnok2.1]
  rw [hc]
  refine ⟨rfl, ?_⟩
  have hsub : ∀ y, (FreeIn l1 y ∨ FreeIn l2 y) →
      (FreeIn (l1 ++ [p]) y ∨ FreeIn (n :: l2) y) := by
    intro y hy
    rcases hy with h | h
    · exact Or.inl (by rw [FreeIn_append]; exact Or.inl h)
    · exact Or.inr (by rw [FreeIn_cons]; exact Or.inr h)
  have hL2 : ListsAt seg m2 (fun i => ((fl i).erase n.addr).erase p.addr)
      (fun x => FreeIn l1 x ∨ FreeIn l2 x) := by
    refine ListsAt_pred ?_ hfl2
    intro x
    simp only [FreeIn_append, FreeIn_cons, FreeIn_nil, or_false]
    constructor
    · rintro ⟨⟨(h | ⟨h, _⟩) | (⟨h, _⟩ | h), hne1⟩, hne2⟩
      · exact Or.inl h
      · exact absurd h.symm hne2
      · exact absurd h.symm hne1
      · exact Or.inr h
    · rintro (h | h)
      · have := FreeIn_left hT1r h
        exact ⟨⟨Or.inl (Or.inl h), by omega⟩, by omega⟩
      · have := FreeIn_left hT2r h
        exact ⟨⟨Or.inr (Or.inr h), by omega⟩, by omega⟩
  have hTB : Tiled m2 (p.addr + (s + (p.size + n.size))) l2 e := by
    have e1 : p.addr + (s + (p.size + n.size)) = B + s + n.size := by omega
    rw [e1]; exact hT2r
  have hmi := merge_insert_full seg m2
    (PACK (PACK m2 (n.addr + n.size - 8) (s + (p.size + n.size)) 0) p.addr
        (s + (p.size + n.size)) 0)
    (fun i => ((fl i).erase n.addr).erase p.addr) l1 l2 p.addr (s + (p.size + n.size)) e
    hT1r hTB H2.sent hL2
    ?_ ?_ ?_ ?_ ?_ (by omega)
    (by have := H.m8; have := hpok.2.2.2.2.2; have := hnok.2.2.2.2.2; omega)
  · obtain ⟨r1, r2, r3, r4⟩ := hmi
    refine ⟨r1, r2, r3, ?_⟩
    intro x hx hxr
    rw [r4 x (LinkFree_mono hsub hx) hxr, hfr2 x (LinkFree_mono (fun y hy => hy.1) hx)]
    exact hfr1 x hx
  · intro x hx
    rw [rd_PACK _ _ _ _ _ (by omega), rd_PACK _ _ _ _ _ (by omega)]
  · simp only [GET_SIZE_PACK, hmod, if_true]
  · simp only [GET_ALLOC_PACK, if_true]
  · have e1 : p.addr + (s + (p.size + n.size)) - 8 = n.addr + n.size - 8 := by omega
    rw [e1, GET_SIZE_PACK, if_neg (by omega), GET_SIZE_PACK, if_pos rfl, hmod]
  · have e1 : p.addr + (s + (p.size + n.size)) - 8 = n.addr + n.size - 8 := by omega
    rw [e1, GET_ALLOC_PACK, if_neg (by omega), GET_ALLOC_PACK, if_pos rfl]


theorem coalesce_case4 {seg : Nat} {m : Mem} {l1 l2 : List Blk} {p n : Blk} {B s e : Nat}
    (H : CoalIn seg m (l1 ++ [p]) B s (n :: l2) e
      (fun x => FreeIn (l1 ++ [p]) x ∨ FreeIn (n :: l2) x))
    (hp : p.alloc = 0) (hn : n.alloc = 0) (h32 : 32 ≤ s) :
    (coalesce seg m B).2 = p.addr ∧
    Tiled (coalesce seg m B).1 (seg + 192)
      (l1 ++ ⟨p.addr, s + (p.size + n.size), 0⟩ :: l2) e ∧
    Sentinels seg (coalesce seg m B).1 e ∧
    Lists seg (coalesce seg m B).1
      (FreeIn (l1 ++ ⟨p.addr, s + (p.size + n.size), 0⟩ :: l2)) := by
  obtain ⟨fl, hfl⟩ := H.lists
  obtain ⟨h1, h2, h3, h4, _⟩ := coalesce_case4_full H hfl hp hn h32
  exact ⟨h1, h2, h3, ⟨_, h4⟩⟩

theorem Inv.big {h : Heap} {live : List Nat} {bs : List Blk} (hI : Inv h live bs)
    (hbig : mem_heapsize h < 2 ^ 31 + 208) : h.epilogue < h.segList + 192 + 2 ^ 31 := by
  have h1 := hI.pro
  have h2 := hI.seg
  have h3 := hI.brk
  unfold mem_heapsize at hbig
  omega

theorem free_coalin {h : Heap} {live : List Nat} {l1 l2 : List Blk} {b : Blk}
    (hI : Inv h live (l1 ++ b :: l2)) (hb : b.alloc = 1)
    (hbig : mem_heapsize h < 2 ^ 31 + 208) :
    mm_free h (b.addr + 8) = { h with mem := (coalesce h.segList
      (PACK (PACK h.mem b.addr b.size 0) (b.addr + b.size - 8) b.size 0) b.addr).1 } ∧
    CoalIn h.segList (PACK (PACK h.mem b.addr b.size 0) (b.addr + b.size - 8) b.size 0)
      l1 b.addr b.size l2 h.epilogue (fun x => FreeIn l1 x ∨ FreeIn l2 x) := by
  obtain ⟨hT1, hbok, hT2⟩ := Tiled_split hI.tiled
  obtain ⟨hs1, hal1, hs2, hal2, h32, h8⟩ := hbok
  have hlt := GET_SIZE_lt h.mem b.addr
  rw [hs1] at hlt
  have hmod : b.size % 2 ^ 31 = b.size := Nat.mod_eq_of_lt hlt
  have hB1 := (Tiled_bounds l1 _ _ hT1)
  have hB2 := (Tiled_bounds l2 _ _ hT2)
  have h8s := hI.sent.2.2.2
  constructor
  · unfold mm_free
    have e0 : b.addr + 8 - HSIZE = b.addr := by show b.addr + 8 - 8 = b.addr; omega
    simp only [e0, HDRP, hs1, FREE]
    have e1 : GET_SIZE (PACK h.mem b.addr b.size 0) b.addr = b.size := by
      rw [GET_SIZE_PACK, if_pos rfl, hmod]
    rw [PACK_FTRP_eq _ _ _ _ (Or.inl (by rw [e1]; omega)), e1]
  · generalize hm2def : PACK (PACK h.mem b.addr b.size 0) (b.addr + b.size - 8) b.size 0 = m2
    have hrd : ∀ x, x ≠ b.addr → x ≠ b.addr + b.size - 8 → m2.rd x = h.mem.rd x := by
      intro x h1 h2
      rw [← hm2def, rd_PACK _ _ _ _ _ h2, rd_PACK _ _ _ _ _ h1]
    have htags : GET_SIZE m2 b.addr = b.size ∧ GET_ALLOC m2 b.addr = 0 ∧
        GET_SIZE m2 (b.addr + b.size - 8) = b.size ∧
        GET_ALLOC m2 (b.addr + b.size - 8) = 0 := by
      rw [← hm2def]
      simp only [GET_SIZE_PACK, GET_ALLOC_PACK, hmod]
      refine ⟨?_, ?_, ?_, ?_⟩ <;> split_ifs <;> first | rfl | omega
    refine ⟨?_, htags.1, htags.2.1, htags.2.2.1, htags.2.2.2, by omega, h8, ?_, ?_, ?_, ?_,
      hI.big hbig⟩
    · refine Tiled_congr l1 _ _ ?_ hT1
      intro c hc
      have := hB1.2 c hc
      have := (Tiled_mem_ok l1 _ _ hT1 c hc).2.2.2.2.1
      exact ⟨hrd _ (by omega) (by omega), hrd _ (by omega) (by omega)⟩
    · refine Tiled_congr l2 _ _ ?_ hT2
      intro c hc
      have := hB2.2 c hc
      have := (Tiled_mem_ok l2 _ _ hT2 c hc).2.2.2.2.1
      exact ⟨hrd _ (by omega) (by omega), hrd _ (by omega) (by omega)⟩
    · refine Sentinels_congr ?_ ?_ ?_ hI.sent
      · exact hrd _ (by omega) (by omega)
      · intro i hi
        exact ⟨hrd _ (by omega) (by omega), hrd _ (by omega) (by omega)⟩
      · exact hrd _ (by omega) (by omega)
    · have hL0 : Lists h.segList h.mem (fun x => FreeIn l1 x ∨ FreeIn l2 x) := by
        refine Lists_pred ?_ hI.lists
        intro x
        simp only [FreeIn_append, FreeIn_cons]
        constructor
        · rintro (h | ⟨_, h⟩ | h)
          · exact Or.inl h
          · rw [hb] at h; exact absurd h (by decide)
          · exact Or.inr h
        · rintro (h | h)
          · exact Or.inl h
          · exact Or.inr (Or.inr h)
      refine Lists_congr ?_ ?_ hL0
      · intro x hx
        have : (h.segList + 192 ≤ x ∧ x + 32 ≤ b.addr) ∨ b.addr + b.size ≤ x := by
          rcases hx with hx | hx
          · exact Or.inl (FreeIn_left hT1 hx)
          · exact Or.inr (FreeIn_left hT2 hx).1
        exact ⟨GET_SIZE_congr (hrd _ (by omega) (by omega)), hrd _ (by omega) (by omega),
          hrd _ (by omega) (by omega)⟩
      · intro i hi
        exact ⟨hrd _ (by omega) (by omega), hrd _ (by omega) (by omega)⟩
    · intro y hy; exact hy

theorem snoc_cases {α : Type} (l : List α) : l = [] ∨ ∃ l0 x, l = l0 ++ [x] := by
  rcases List.eq_nil_or_concat l with h | ⟨l0, x, h⟩
  · exact Or.inl h
  · exact Or.inr ⟨l0, x, by rw [h, List.concat_eq_append]⟩

theorem NoAdj_snoc_two (l : List Blk) (p x : Blk) (h : NoAdj (l ++ [p]))
    (hpx : p.alloc = 1 ∨ x.alloc = 1) : NoAdj (l ++ [p] ++ [x]) := by
  rw [List.append_assoc]
  exact (NoAdj_append_cons l [x] p).2 ⟨h, hpx, trivial⟩

theorem NoAdj_cons_two (l : List Blk) (x n : Blk) (h : NoAdj (n :: l))
    (hxn : x.alloc = 1 ∨ n.alloc = 1) : NoAdj (x :: n :: l) := ⟨hxn, h⟩

theorem NoAdj_glue (l1 l2 : List Blk) (x : Blk) (h1 : NoAdj (l1 ++ [x])) (h2 : NoAdj (x :: l2)) :
    NoAdj (l1 ++ x :: l2) := (NoAdj_append_cons l1 l2 x).2 ⟨h1, h2⟩

theorem alloc_cases {m : Mem} {b : Blk} (h : BlockOK m b) : b.alloc = 0 ∨ b.alloc = 1 := by
  have := GET_ALLOC_lt m b.addr
  rw [h.2.1] at this
  omega

theorem NoAdj_snoc_prev (l1 : List Blk) (x : Blk) (hN1 : NoAdj l1)
    (hall : ∀ l p, l1 = l ++ [p] → p.alloc = 1) : NoAdj (l1 ++ [x]) := by
  rcases snoc_cases l1 with h | ⟨l, p, h⟩
  · subst h; trivial
  · subst h; exact NoAdj_snoc_two l p x hN1 (Or.inl (hall l p rfl))

theorem NoAdj_cons_next (l2 : List Blk) (x : Blk) (hN2 : NoAdj l2)
    (hall : ∀ n l, l2 = n :: l → n.alloc = 1) : NoAdj (x :: l2) := by
  cases l2 with
  | nil => trivial
  | cons n l => exact ⟨Or.inr (hall n l rfl), hN2⟩

theorem snoc_inj {α : Type} {l l2 : List α} {p p2 : α} (h : l ++ [p] = l2 ++ [p2]) :
    l = l2 ∧ p = p2 := by
  have := List.append_inj' h rfl
  exact ⟨this.1, by simpa using this.2⟩

/-- What `coalesce` achieves: the result of the four cases, stated once.  The
block sequence afterwards has no two free neighbours, keeps every allocated
block, and contains the returned block, which is free and covers the block
that was passed in. -/
theorem coalesce_total {seg : Nat} {m : Mem} {l1 l2 : List Blk} {B s e : Nat}
    (H : CoalIn seg m l1 B s l2 e (fun x => FreeIn l1 x ∨ FreeIn l2 x))
    (hN1 : NoAdj l1) (hN2 : NoAdj l2)
    (hsmall : 32 ≤ s ∨ (l2 = [] ∧ ∃ l p, l1 = l ++ [p] ∧ p.alloc = 0)) :
    ∃ (bs : List Blk) (r : Blk),
      (coalesce seg m B).2 = r.addr ∧
      Tiled (coalesce seg m B).1 (seg + 192) bs e ∧
      Sentinels seg (coalesce seg m B).1 e ∧
      Lists seg (coalesce seg m B).1 (FreeIn bs) ∧
      NoAdj bs ∧
      (∀ c : Blk, c.alloc = 1 → (c ∈ bs ↔ (c ∈ l1 ∨ c ∈ l2))) ∧
      r ∈ bs ∧ r.alloc = 0 ∧
      (∀ l p, l1 = l ++ [p] → p.alloc = 0 → l2 = [] → r.size = s + p.size) ∧
      ((∀ l p, l1 = l ++ [p] → p.alloc = 1) → l2 = [] → r.size = s) := by
  have hb1 := Tiled_bounds _ _ _ H.t1
  -- the block before
  have hprev : (GET_ALLOC m (FTRP m (PREV_BLKP m B)) ≠ 0 ∧ (∀ l p, l1 = l ++ [p] → p.alloc = 1)) ∨
      (∃ l p, l1 = l ++ [p] ∧ p.alloc = 0) := by
    rcases snoc_cases l1 with h | ⟨l, p, h⟩
    · left
      have hB : seg + 192 = B := by have := H.t1; rw [h] at this; exact this
      constructor
      · rw [← hB, (prev_read_nil H.sent).2]; decide
      · intro l p hl; rw [h] at hl; simp at hl
    · have ht := H.t1
      rw [h] at ht
      obtain ⟨_, hpa, _, hpok⟩ := prev_read_snoc ht
      rcases alloc_cases hpok with h0 | h1
      · right; exact ⟨l, p, h, h0⟩
      · left
        constructor
        · rw [hpa, h1]; decide
        · intro l' p' hl
          rw [h] at hl
          have := List.append_inj' hl rfl
          have e1 : p = p' := by simpa using this.2
          rw [← e1]; exact h1
  -- the block after
  have hnext : (GET_ALLOC m (NEXT_BLKP m B) ≠ 0 ∧ (∀ n l, l2 = n :: l → n.alloc = 1)) ∨
      (∃ n l, l2 = n :: l ∧ n.alloc = 0) := by
    cases hl2 : l2 with
    | nil =>
      left
      have ht := H.t2
      rw [hl2] at ht
      constructor
      · rw [(next_read_nil H.s1 H.sent ht).2]; decide
      · intro n l hl; exact absurd hl (by simp)
    | cons n l =>
      have ht := H.t2
      rw [hl2] at ht
      obtain ⟨_, hna, hnok⟩ := next_read_cons H.s1 ht
      rcases alloc_cases hnok with h0 | h1
      · right; exact ⟨n, l, rfl, h0⟩
      · left
        constructor
        · rw [hna, h1]; decide
        · intro n' l' hl
          have e1 : n = n' := by simpa using (List.cons.inj hl).1
          rw [← e1]; exact h1
  rcases hprev with ⟨hp, hpall⟩ | ⟨l1r, p, hl1, hp0⟩ <;>
    rcases hnext with ⟨hn, hnall⟩ | ⟨n, l2r, hl2, hn0⟩
  · -- case I
    have h32 : 32 ≤ s := by
      rcases hsmall with h | ⟨_, l, p, hl, hp0⟩
      · exact h
      · have := hpall l p hl; omega
    obtain ⟨c1, c2, c3, c4⟩ := coalesce_case1 H hp hn h32
    refine ⟨l1 ++ ⟨B, s, 0⟩ :: l2, ⟨B, s, 0⟩, c1, c2, c3, c4, ?_, ?_, by simp, rfl, ?_, ?_⟩
    · exact NoAdj_glue l1 l2 _ (NoAdj_snoc_prev l1 _ hN1 hpall) (NoAdj_cons_next l2 _ hN2 hnall)
    · intro c hc
      simp only [List.mem_append, List.mem_cons]
      constructor
      · rintro (h | h | h)
        · exact Or.inl h
        · rw [h] at hc; simp at hc
        · exact Or.inr h
      · rintro (h | h)
        · exact Or.inl h
        · exact Or.inr (Or.inr h)
    · intro l p hl hp0 _
      have := hpall l p hl; omega
    · intro _ _; rfl
  · -- case II
    subst hl2
    have h32 : 32 ≤ s := by
      rcases hsmall with h | ⟨h, _⟩
      · exact h
      · exact absurd h (by simp)
    obtain ⟨c1, c2, c3, c4⟩ := coalesce_case2 H hp hn0 h32
    refine ⟨l1 ++ ⟨B, s + n.size, 0⟩ :: l2r, ⟨B, s + n.size, 0⟩, c1, c2, c3, c4, ?_, ?_,
      by simp, rfl, ?_, ?_⟩
    · exact NoAdj_glue l1 l2r _ (NoAdj_snoc_prev l1 _ hN1 hpall)
        (NoAdj_cons_congr (b := n) (by rw [hn0]) l2r hN2)
    · intro c hc
      simp only [List.mem_append, List.mem_cons]
      constructor
      · rintro (h | h | h)
        · exact Or.inl h
        · rw [h] at hc; simp at hc
        · exact Or.inr (Or.inr h)
      · rintro (h | h | h)
        · exact Or.inl h
        · rw [h, hn0] at hc; exact absurd hc (by decide)
        · exact Or.inr (Or.inr h)
    · intro l p _ _ h; exact absurd h (by simp)
    · intro _ h; exact absurd h (by simp)
  · -- case III
    subst hl1
    have h32 : 32 ≤ s ∨ l2 = [] := by
      rcases hsmall with h | ⟨h, _⟩
      · exact Or.inl h
      · exact Or.inr h
    obtain ⟨c1, c2, c3, c4⟩ := coalesce_case3 H hp0 hn h32
    refine ⟨l1r ++ ⟨p.addr, s + p.size, 0⟩ :: l2, ⟨p.addr, s + p.size, 0⟩, c1, c2, c3, c4,
      ?_, ?_, by simp, rfl, ?_, ?_⟩
    · exact NoAdj_glue l1r l2 _ (NoAdj_snoc_congr (b := p) (by rw [hp0]) l1r hN1)
        (NoAdj_cons_next l2 _ hN2 hnall)
    · intro c hc
      simp only [List.mem_append, List.mem_cons, List.not_mem_nil, or_false]
      constructor
      · rintro (h | h | h)
        · exact Or.inl (Or.inl h)
        · rw [h] at hc; simp at hc
        · exact Or.inr h
      · rintro ((h | h) | h)
        · exact Or.inl h
        · rw [h, hp0] at hc; exact absurd hc (by decide)
        · exact Or.inr (Or.inr h)
    · intro l p2 hl _ _
      have := (snoc_inj hl).2
      rw [← this]
    · intro hall _
      have := hall l1r p rfl; omega
  · -- case IV
    subst hl1
    subst hl2
    have h32 : 32 ≤ s := by
      rcases hsmall with h | ⟨h, _⟩
      · exact h
      · exact absurd h (by simp)
    obtain ⟨c1, c2, c3, c4⟩ := coalesce_case4 H hp0 hn0 h32
    refine ⟨l1r ++ ⟨p.addr, s + (p.size + n.size), 0⟩ :: l2r,
      ⟨p.addr, s + (p.size + n.size), 0⟩, c1, c2, c3, c4, ?_, ?_, by simp, rfl, ?_, ?_⟩
    · exact NoAdj_glue l1r l2r _ (NoAdj_snoc_congr (b := p) (by rw [hp0]) l1r hN1)
        (NoAdj_cons_congr (b := n) (by rw [hn0]) l2r hN2)
    · intro c hc
      simp only [List.mem_append, List.mem_cons, List.not_mem_nil, or_false]
      constructor
      · rintro (h | h | h)
        · exact Or.inl (Or.inl h)
        · rw [h] at hc; simp at hc
        · exact Or.inr (Or.inr h)
      · rintro ((h | h) | h | h)
        · exact Or.inl h
        · rw [h, hp0] at hc; exact absurd hc (by decide)
        · rw [h, hn0] at hc; exact absurd hc (by decide)
        · exact Or.inr (Or.inr h)
    · intro l p2 _ _ h; exact absurd h (by simp)
    · intro _ h; exact absurd h (by simp)

theorem Inv.update {h : Heap} {live : List Nat} {bs : List Blk} (hI : Inv h live bs)
    (m2 : Mem) (bs2 : List Blk) (live2 : List Nat)
    (hT : Tiled m2 (h.segList + 192) bs2 h.epilogue)
    (hS : Sentinels h.segList m2 h.epilogue)
    (hL : Lists h.segList m2 (FreeIn bs2))
    (hN : NoAdj bs2)
    (hlive : ∀ q, q ∈ live2 ↔ ∃ c, c ∈ bs2 ∧ c.alloc = 1 ∧ q = c.addr + 8)
    (hnd : live2.Nodup) : Inv { h with mem := m2 } live2 bs2 :=
  { pro := hI.pro, seg := hI.seg, sent := hS, tiled := hT, brk := hI.brk, noadj := hN,
    lists := hL, live_iff := hlive, nodup := hnd }

theorem mm_free_inv {h : Heap} {live : List Nat} {bs : List Blk} (hI : Inv h live bs)
    {p : Nat} (hp : p ∈ live) (hbig : mem_heapsize h < 2 ^ 31 + 208) :
    ∃ bs2, Inv (mm_free h p) (live.erase p) bs2 := by
  obtain ⟨b, hbm, hba, hpb⟩ := (hI.live_iff p).1 hp
  subst hpb
  obtain ⟨l1, l2, hsplit⟩ := List.append_of_mem hbm
  subst hsplit
  obtain ⟨hmm, H⟩ := free_coalin hI hba hbig
  obtain ⟨hT1, hbok, hT2⟩ := Tiled_split hI.tiled
  have hN := (NoAdj_append_cons l1 l2 b).1 hI.noadj
  obtain ⟨bs2, r, _, c2, c3, c4, c5, c6, _⟩ :=
    coalesce_total H (NoAdj_init l1 hN.1) (NoAdj_tail l2 hN.2) (Or.inl hbok.2.2.2.2.1)
  refine ⟨bs2, ?_⟩
  rw [hmm]
  refine hI.update _ bs2 _ c2 c3 c4 c5 ?_ (hI.nodup.erase _)
  intro q
  rw [hI.nodup.mem_erase_iff, hI.live_iff]
  have hB1 := (Tiled_bounds l1 _ _ hT1)
  have hB2 := (Tiled_bounds l2 _ _ hT2)
  have h32 := hbok.2.2.2.2.1
  constructor
  · rintro ⟨hne, c, hc, hca, hq⟩
    refine ⟨c, (c6 c hca).2 ?_, hca, hq⟩
    rcases List.mem_append.1 hc with h | h
    · exact Or.inl h
    · rcases List.mem_cons.1 h with h | h
      · subst h; exact absurd hq hne
      · exact Or.inr h
  · rintro ⟨c, hc, hca, hq⟩
    rcases (c6 c hca).1 hc with h | h
    · have := hB1.2 c h
      have := (Tiled_mem_ok l1 _ _ hT1 c h).2.2.2.2.1
      exact ⟨by omega, c, List.mem_append_left _ h, hca, hq⟩
    · have := hB2.2 c h
      exact ⟨by omega, c, List.mem_append_right _ (List.mem_cons_of_mem _ h), hca, hq⟩

/-- What `place` achieves on a listed free block `r` of at least `asize`
bytes: the block sequence afterwards has `r` (or its first `asize` bytes)
allocated, every other block as before, and no two free neighbours. -/
theorem place_total {seg : Nat} {m : Mem} {bs : List Blk} {e asize : Nat}
    (hT : Tiled m (seg + 192) bs e) (hS : Sentinels seg m e)
    (hL : Lists seg m (FreeIn bs)) (hN : NoAdj bs)
    {r : Blk} (hr : r ∈ bs) (hr0 : r.alloc = 0)
    (ha1 : 32 ≤ asize) (ha2 : asize % 8 = 0) (ha3 : asize ≤ r.size) :
    ∃ bs2 : List Blk,
      Tiled (place seg m r.addr asize) (seg + 192) bs2 e ∧
      Sentinels seg (place seg m r.addr asize) e ∧
      Lists seg (place seg m r.addr asize) (FreeIn bs2) ∧
      NoAdj bs2 ∧
      (∀ q, (∃ c, c ∈ bs2 ∧ c.alloc = 1 ∧ q = c.addr + 8) ↔
        (q = r.addr + 8 ∨ ∃ c, c ∈ bs ∧ c.alloc = 1 ∧ q = c.addr + 8)) ∧
      (∃ c, c ∈ bs2 ∧ c.addr = r.addr ∧ c.alloc = 1 ∧ asize ≤ c.size) := by
  obtain ⟨l1, l2, hsplit⟩ := List.append_of_mem hr
  subst hsplit
  have hNN := (NoAdj_append_cons l1 l2 r).1 hN
  by_cases hw : r.size - asize < 32
  · obtain ⟨c1, c2, c3⟩ := place_whole_spec seg m l1 l2 r e asize hT hS hL hr0 ha3 hw
    refine ⟨_, c1, c2, c3, ?_, ?_, ⟨⟨r.addr, r.size, 1⟩, by simp, rfl, rfl, ha3⟩⟩
    · exact NoAdj_glue l1 l2 _ (NoAdj_snoc_alloc rfl l1 (NoAdj_init l1 hNN.1))
        (NoAdj_cons_alloc rfl l2 (NoAdj_tail l2 hNN.2))
    · intro q
      simp only [List.mem_append, List.mem_cons]
      constructor
      · rintro ⟨c, h | h | h, hca, hq⟩
        · exact Or.inr ⟨c, Or.inl h, hca, hq⟩
        · subst h; exact Or.inl hq
        · exact Or.inr ⟨c, Or.inr (Or.inr h), hca, hq⟩
      · rintro (hq | ⟨c, h | h | h, hca, hq⟩)
        · exact ⟨⟨r.addr, r.size, 1⟩, Or.inr (Or.inl rfl), rfl, hq⟩
        · exact ⟨c, Or.inl h, hca, hq⟩
        · subst h; rw [hr0] at hca; exact absurd hca (by decide)
        · exact ⟨c, Or.inr (Or.inr h), hca, hq⟩
  · obtain ⟨c1, c2, c3⟩ := place_split_spec seg m l1 l2 r e asize hT hS hL hr0 ha1 ha2 ha3 hw
    refine ⟨_, c1, c2, c3, ?_, ?_, ⟨⟨r.addr, asize, 1⟩, by simp, rfl, rfl, le_refl _⟩⟩
    · refine NoAdj_glue l1 _ _ (NoAdj_snoc_alloc rfl l1 (NoAdj_init l1 hNN.1)) ?_
      exact ⟨Or.inl rfl, NoAdj_cons_congr (b := r) (by rw [hr0]) l2 hNN.2⟩
    · intro q
      simp only [List.mem_append, List.mem_cons]
      constructor
      · rintro ⟨c, h | h | h | h, hca, hq⟩
        · exact Or.inr ⟨c, Or.inl h, hca, hq⟩
        · subst h; exact Or.inl hq
        · subst h; simp at hca
        · exact Or.inr ⟨c, Or.inr (Or.inr h), hca, hq⟩
      · rintro (hq | ⟨c, h | h | h, hca, hq⟩)
        · exact ⟨⟨r.addr, asize, 1⟩, Or.inr (Or.inl rfl), rfl, hq⟩
        · exact ⟨c, Or.inl h, hca, hq⟩
        · subst h; rw [hr0] at hca; exact absurd hca (by decide)
        · exact ⟨c, Or.inr (Or.inr (Or.inr h)), hca, hq⟩

theorem adjust_size_spec (size : Nat) :
    32 ≤ adjust_size size ∧ adjust_size size % 8 = 0 ∧ adjust_size size < 2 ^ 32 := by
  unfold adjust_size
  simp only [OVERHEAD, MIN_BLOCK_SIZE]
  split_ifs with h
  · omega
  · omega

theorem Inv.endFree_nil {h : Heap} {live : List Nat} (hI : Inv h live []) :
    endFree h = false := by
  have he : h.segList + 192 = h.epilogue := hI.tiled
  unfold endFree
  simp only [← he, (prev_read_nil hI.sent).1]
  have := (hI.sent.2.1 5 (by omega)).2.1
  have e1 : h.segList + 160 = h.segList + 32 * 5 := by omega
  rw [e1, this]
  decide

theorem Inv.endFree_snoc {h : Heap} {live : List Nat} {l : List Blk} {p : Blk}
    (hI : Inv h live (l ++ [p])) :
    endFree h = decide (p.alloc = 0) ∧ lastSize h = p.size := by
  obtain ⟨hx, _, _, hok⟩ := prev_read_snoc hI.tiled
  unfold endFree lastSize
  simp only [hx, hok.1, hok.2.1]
  trivial

/-- Placing in a free block of the current sequence and handing out its
payload keeps the invariant. -/
theorem Inv.place {h : Heap} {live : List Nat} {bs : List Blk} (hI : Inv h live bs)
    {r : Blk} (hr : r ∈ bs) (hr0 : r.alloc = 0) {asize : Nat}
    (ha1 : 32 ≤ asize) (ha2 : asize % 8 = 0) (ha3 : asize ≤ r.size) :
    ∃ bs2, Inv { h with mem := place h.segList h.mem r.addr asize } ((r.addr + 8) :: live) bs2 := by
  obtain ⟨bs2, c1, c2, c3, c4, c5, _⟩ :=
    place_total hI.tiled hI.sent hI.lists hI.noadj hr hr0 ha1 ha2 ha3
  refine ⟨bs2, hI.update _ bs2 _ c1 c2 c3 c4 ?_ ?_⟩
  · intro q
    rw [c5 q, List.mem_cons, hI.live_iff]
  · refine List.nodup_cons.2 ⟨?_, hI.nodup⟩
    intro hmem
    obtain ⟨c, hc, hca, hq⟩ := (hI.live_iff _).1 hmem
    have : c = r := Tiled_addr_inj hI.tiled hc hr (by omega)
    rw [this, hr0] at hca
    exact absurd hca (by decide)

theorem mm_malloc_fit_inv {h : Heap} {live : List Nat} {bs : List Blk} (hI : Inv h live bs)
    (grant : Bool) (size : Nat) (hsz : size ≠ 0)
    (hfit : find_fit h.segList h.mem (adjust_size size) ≠ 0) :
    (mm_malloc grant h size).1 = find_fit h.segList h.mem (adjust_size size) + 8 ∧
    ∃ bs2, Inv (mm_malloc grant h size).2 ((mm_malloc grant h size).1 :: live) bs2 := by
  generalize hfdef : find_fit h.segList h.mem (adjust_size size) = blk at hfit
  have hm : mm_malloc grant h size =
      (blk + 8, { h with mem := place h.segList h.mem blk (adjust_size size) }) := by
    unfold mm_malloc
    rw [if_neg hsz]
    simp only [hfdef]
    rw [if_pos hfit]
    rfl
  rw [hm]
  refine ⟨rfl, ?_⟩
  have hfit2 : find_fit h.segList h.mem (adjust_size size) ≠ 0 := by rw [hfdef]; exact hfit
  obtain ⟨hfree, hge⟩ := find_fit_spec h.segList h.mem _ _ hI.lists hfit2
  rw [hfdef] at hfree hge
  obtain ⟨r, hr, hra, hr0⟩ := hfree
  have hrok := Tiled_mem_ok _ _ _ hI.tiled r hr
  obtain ⟨a1, a2, _⟩ := adjust_size_spec size
  rw [← hra] at hge ⊢
  rw [hrok.1] at hge
  exact hI.place hr hr0 a1 a2 hge

theorem extend_heap_inv {h : Heap} {live : List Nat} {bs : List Blk} (hI : Inv h live bs)
    (grant : Bool) (words : Nat)
    (hsmall : 32 ≤ words * 8 % 2 ^ 32 ∨ ∃ l p, bs = l ++ [p] ∧ p.alloc = 0)
    (hbig : mem_heapsize (extend_heap grant h words).2 < 2 ^ 31 + 208) :
    ((extend_heap grant h words).1 = 0 ∧ (extend_heap grant h words).2 = h) ∨
    ∃ (bs2 : List Blk) (r : Blk),
      (extend_heap grant h words).1 = r.addr ∧
      Inv (extend_heap grant h words).2 live bs2 ∧ r ∈ bs2 ∧ r.alloc = 0 ∧
      (extend_heap grant h words).2.segList = h.segList ∧
      (∀ l p, bs = l ++ [p] → p.alloc = 0 → r.size = words * 8 % 2 ^ 32 + p.size) ∧
      ((∀ l p, bs = l ++ [p] → p.alloc = 1) → r.size = words * 8 % 2 ^ 32) := by
  generalize hszdef : words * 8 % 2 ^ 32 = sz at hsmall
  have hsz8 : sz % 8 = 0 := by omega
  by_cases hz : sz = 0
  · left
    unfold extend_heap
    simp only [hszdef, if_pos hz]
    refine ⟨?_, ?_⟩ <;> first | rfl | trivial
  by_cases hg : grant = true ∧ h.mem_brk + sz < 2 ^ 64
  swap
  · left
    unfold extend_heap
    simp only [hszdef, if_neg hz, mem_sbrk, if_neg hg, SBRK_FAIL, NULL, if_true]
    refine ⟨?_, ?_⟩ <;> first | rfl | trivial
  right
  have hbe := hI.brk
  have hpro := hI.pro
  have hseg := hI.seg
  have hTb := Tiled_bounds _ _ _ hI.tiled
  have h8s := hI.sent.2.2.2
  have hne : h.mem_brk ≠ 2 ^ 64 - 1 := by omega
  have hsz31 : sz < 2 ^ 31 := by
    have e0 : (extend_heap grant h words).2.mem_brk = h.mem_brk + sz ∧
        (extend_heap grant h words).2.mem_start_brk = h.mem_start_brk := by
      unfold extend_heap
      simp only [hszdef, if_neg hz, mem_sbrk, if_pos hg, SBRK_FAIL, if_neg hne]
      refine ⟨?_, ?_⟩ <;> first | rfl | trivial
    unfold mem_heapsize at hbig
    rw [e0.1, e0.2] at hbig
    omega
  have hm : extend_heap grant h words =
      ((coalesce h.segList (PACK (PACK (PACK h.mem h.epilogue sz 0) (h.epilogue + sz - 8) sz 0)
          (h.epilogue + sz) 0 1) h.epilogue).2,
        { h with mem_brk := h.mem_brk + sz
                 mem := (coalesce h.segList
                   (PACK (PACK (PACK h.mem h.epilogue sz 0) (h.epilogue + sz - 8) sz 0)
                     (h.epilogue + sz) 0 1) h.epilogue).1
                 epilogue := h.epilogue + sz }) := by
    have e1 : h.mem_brk - 8 = h.epilogue := by omega
    have hmod : sz % 2 ^ 31 = sz := Nat.mod_eq_of_lt hsz31
    have e2 : GET_SIZE (PACK h.mem h.epilogue sz 0) h.epilogue = sz := by
      rw [GET_SIZE_PACK, if_pos rfl, hmod]
    have e3 : PACK_FTRP (PACK h.mem h.epilogue sz 0) h.epilogue sz 0 =
        PACK (PACK h.mem h.epilogue sz 0) (h.epilogue + sz - 8) sz 0 := by
      rw [PACK_FTRP_eq _ _ _ _ (Or.inr (by rw [e2, hmod])), e2]
    have e4 : NEXT_BLKP (PACK (PACK h.mem h.epilogue sz 0) (h.epilogue + sz - 8) sz 0)
        h.epilogue = h.epilogue + sz := by
      unfold NEXT_BLKP
      rw [GET_SIZE_PACK]
      split_ifs
      · rw [hmod]
      · rw [e2]
    unfold extend_heap
    simp only [hszdef, if_neg hz, mem_sbrk, if_pos hg, SBRK_FAIL, if_neg hne, HSIZE, HDRP, FREE,
      ALLOC, e1, e3, e4]
  rw [hm]
  generalize hm3def : PACK (PACK (PACK h.mem h.epilogue sz 0) (h.epilogue + sz - 8) sz 0)
      (h.epilogue + sz) 0 1 = m3
  have hmod : sz % 2 ^ 31 = sz := Nat.mod_eq_of_lt hsz31
  have hrd : ∀ x, x < h.epilogue → m3.rd x = h.mem.rd x := by
    intro x hx
    rw [← hm3def, rd_PACK _ _ _ _ _ (by omega), rd_PACK _ _ _ _ _ (by omega),
      rd_PACK _ _ _ _ _ (by omega)]
  have htags : GET_SIZE m3 h.epilogue = sz ∧ GET_ALLOC m3 h.epilogue = 0 ∧
      GET_SIZE m3 (h.epilogue + sz - 8) = sz ∧ GET_ALLOC m3 (h.epilogue + sz - 8) = 0 ∧
      GET_SIZE m3 (h.epilogue + sz) = 0 ∧ GET_ALLOC m3 (h.epilogue + sz) = 1 := by
    rw [← hm3def]
    simp only [GET_SIZE_PACK, GET_ALLOC_PACK, hmod]
    refine ⟨?_, ?_, ?_, ?_, ?_, ?_⟩ <;> split_ifs <;> first | rfl | omega
  have H : CoalIn h.segList m3 bs h.epilogue sz [] (h.epilogue + sz)
      (fun x => FreeIn bs x ∨ FreeIn [] x) := by
    refine ⟨?_, htags.1, htags.2.1, htags.2.2.1, htags.2.2.2.1, by omega, hsz8, rfl, ?_, ?_,
      fun y hy => hy, ?_⟩
    · refine Tiled_congr bs _ _ ?_ hI.tiled
      intro c hc
      have := hTb.2 c hc
      have := (Tiled_mem_ok _ _ _ hI.tiled c hc).2.2.2.2.1
      exact ⟨hrd _ (by omega), hrd _ (by omega)⟩
    · have hS := hI.sent
      refine ⟨?_, ?_, ⟨htags.2.2.2.2.1, htags.2.2.2.2.2⟩, hS.2.2.2⟩
      · rw [GET_SIZE_congr (hrd _ (by omega)), GET_ALLOC_congr (hrd _ (by omega))]
        exact hS.1
      · intro i hi
        rw [GET_SIZE_congr (hrd _ (by omega)), GET_ALLOC_congr (hrd _ (by omega)),
          GET_SIZE_congr (hrd _ (by omega)), GET_ALLOC_congr (hrd _ (by omega))]
        exact hS.2.1 i hi
    · have hL0 : Lists h.segList h.mem (fun x => FreeIn bs x ∨ FreeIn [] x) := by
        refine Lists_pred ?_ hI.lists
        intro x
        rw [FreeIn_nil]; simp
      refine Lists_congr ?_ ?_ hL0
      · intro x hx
        have : x + 32 ≤ h.epilogue := by
          rcases hx with hx | hx
          · exact (FreeIn_left hI.tiled hx).2
          · exact absurd hx (by rw [FreeIn_nil]; exact id)
        exact ⟨GET_SIZE_congr (hrd _ (by omega)), hrd _ (by omega), hrd _ (by omega)⟩
      · intro i hi
        exact ⟨hrd _ (by omega), hrd _ (by omega)⟩
    · unfold mem_heapsize at hbig
      rw [hm] at hbig
      simp only [] at hbig
      omega
  obtain ⟨bs2, r, c1, c2, c3, c4, c5, c6, c7, c8, c9, c10⟩ :=
    coalesce_total H hI.noadj trivial (by
      rcases hsmall with h1 | h1
      · exact Or.inl h1
      · exact Or.inr ⟨rfl, h1⟩)
  refine ⟨bs2, r, c1, ?_, c7, c8, rfl, fun l p hl hp => c9 l p hl hp rfl,
    fun hall => c10 hall rfl⟩
  exact { pro := hI.pro, seg := hI.seg, sent := c3, tiled := c2,
          brk := by show h.mem_brk + sz = h.epilogue + sz + 8; omega,
          noadj := c5, lists := c4,
          live_iff := by
            intro q
            rw [hI.live_iff]
            constructor
            · rintro ⟨c, hc, hca, hq⟩
              exact ⟨c, (c6 c hca).2 (Or.inl hc), hca, hq⟩
            · rintro ⟨c, hc, hca, hq⟩
              rcases (c6 c hca).1 hc with h1 | h1
              · exact ⟨c, h1, hca, hq⟩
              · exact absurd h1 (List.not_mem_nil c),
          nodup := hI.nodup }

theorem mm_malloc_nofit_eq (grant : Bool) (h : Heap) (size : Nat) (hsz : size ≠ 0)
    (hfit : find_fit h.segList h.mem (adjust_size size) = 0) (ext : Nat)
    (hext : ext = if endFree h = true then
      (adjust_size size + 2 ^ 64 - lastSize h) % 2 ^ 64 % 2 ^ 32 else adjust_size size) :
    mm_malloc grant h size =
      if (extend_heap grant h (ext / 8)).1 ≠ 0 then
        ((extend_heap grant h (ext / 8)).1 + 8,
          { (extend_heap grant h (ext / 8)).2 with
            mem := place (extend_heap grant h (ext / 8)).2.segList
              (extend_heap grant h (ext / 8)).2.mem (extend_heap grant h (ext / 8)).1
              (adjust_size size) })
      else (0, (extend_heap grant h (ext / 8)).2) := by
  unfold mm_malloc
  rw [if_neg hsz]
  simp only [hfit, ne_eq, NULL, not_true_eq_false, if_false, HSIZE, ← hext]

theorem mm_malloc_inv {h : Heap} {live : List Nat} {bs : List Blk} (hI : Inv h live bs)
    (grant : Bool) (size : Nat)
    (hbig : mem_heapsize (mm_malloc grant h size).2 < 2 ^ 31 + 208) :
    ∃ bs2, Inv (mm_malloc grant h size).2
      (if (mm_malloc grant h size).1 = NULL then live else (mm_malloc grant h size).1 :: live)
      bs2 := by
  by_cases hsz : size = 0
  · have hm : mm_malloc grant h size = (NULL, h) := by
      unfold mm_malloc; rw [if_pos hsz]
    rw [hm]
    exact ⟨bs, by simpa using hI⟩
  by_cases hfit : find_fit h.segList h.mem (adjust_size size) = 0
  swap
  · obtain ⟨hp, bs2, hI2⟩ := mm_malloc_fit_inv hI grant size hsz hfit
    refine ⟨bs2, ?_⟩
    rw [if_neg (by rw [hp]; show ¬ _ = 0; omega)]
    exact hI2
  obtain ⟨a1, a2, a3⟩ := adjust_size_spec size
  generalize hextdef : (if endFree h = true then
      (adjust_size size + 2 ^ 64 - lastSize h) % 2 ^ 64 % 2 ^ 32 else adjust_size size) = ext
  have hm := mm_malloc_nofit_eq grant h size hsz hfit ext hextdef.symm
  -- what the extension amount is
  have hshape : (ext = adjust_size size ∧ (∀ l p, bs = l ++ [p] → p.alloc = 1)) ∨
      (∃ l p, bs = l ++ [p] ∧ p.alloc = 0 ∧
        ext = (adjust_size size + 2 ^ 64 - p.size) % 2 ^ 64 % 2 ^ 32 ∧ p.size % 8 = 0) := by
    rcases snoc_cases bs with hb | ⟨l, p, hb⟩
    · subst hb
      left
      rw [hI.endFree_nil] at hextdef
      exact ⟨hextdef.symm, fun l p hl => by simp at hl⟩
    · subst hb
      obtain ⟨e1, e2⟩ := hI.endFree_snoc
      have hpok := Tiled_mem_ok _ _ _ hI.tiled p (by simp)
      rcases alloc_cases hpok with h0 | h1
      · right
        refine ⟨l, p, rfl, h0, ?_, hpok.2.2.2.2.2⟩
        rw [e1, e2] at hextdef
        simp only [h0, decide_True, if_true] at hextdef
        exact hextdef.symm
      · left
        rw [e1] at hextdef
        simp only [h1] at hextdef
        refine ⟨by simpa using hextdef.symm, ?_⟩
        intro l2 p2 hl
        rw [← (snoc_inj hl).2]; exact h1
  have hext8 : ext / 8 * 8 % 2 ^ 32 = ext := by
    rcases hshape with ⟨h1, _⟩ | ⟨_, p, _, _, h1, h2⟩
    · omega
    · omega
  have hbig2 : mem_heapsize (extend_heap grant h (ext / 8)).2 < 2 ^ 31 + 208 := by
    rw [hm] at hbig
    split_ifs at hbig
    · exact hbig
    · exact hbig
  have hsmall : 32 ≤ ext / 8 * 8 % 2 ^ 32 ∨ ∃ l p, bs = l ++ [p] ∧ p.alloc = 0 := by
    rcases hshape with ⟨h1, _⟩ | ⟨l, p, h1, h2, _⟩
    · left; omega
    · right; exact ⟨l, p, h1, h2⟩
  rcases extend_heap_inv hI grant (ext / 8) hsmall hbig2 with ⟨r1, r2⟩ | ⟨bs2, r, r1, hI2, hr, hr0,
    hseg, hs1, hs2⟩
  · rw [hm, r1, r2]
    exact ⟨bs, by simpa using hI⟩
  · have hrok := Tiled_mem_ok _ _ _ hI2.tiled r hr
    have hrb := (Tiled_bounds _ _ _ hI2.tiled).2 r hr
    have hrlt := GET_SIZE_lt (extend_heap grant h (ext / 8)).2.mem r.addr
    rw [hrok.1] at hrlt
    have hrsz : r.size = adjust_size size := by
      rcases hshape with ⟨h1, hall⟩ | ⟨l, p, hb, hp0, h1, _⟩
      · have := hs2 hall; omega
      · have := hs1 l p hb hp0
        have hpok := Tiled_mem_ok _ _ _ hI.tiled p (by rw [hb]; simp)
        have hplt := GET_SIZE_lt h.mem p.addr
        rw [hpok.1] at hplt
        omega
    have hr0' : r.addr ≠ 0 := by omega
    obtain ⟨bs3, hI3⟩ := hI2.place hr hr0 a1 a2 (le_of_eq hrsz.symm)
    refine ⟨bs3, ?_⟩
    rw [hm, r1, if_pos hr0']
    simp only []
    rw [if_neg (show ¬ r.addr + 8 = NULL from by show ¬ _ = 0; omega)]
    exact hI3

/-- The loop of `mm_init`: `n` list heads are written from `tp` on, nothing
else changes. -/
theorem init_heads_spec : ∀ (n : Nat) (m : Mem) (tp : Nat), 8 ≤ tp →
    (init_heads m n tp).2 = tp + 32 * n ∧
    (∀ i, i < n →
      GET_SIZE (init_heads m n tp).1 (tp + 32 * i) = 32 ∧
      GET_ALLOC (init_heads m n tp).1 (tp + 32 * i) = 1 ∧
      GET_SIZE (init_heads m n tp).1 (tp + 32 * i + 24) = 32 ∧
      GET_ALLOC (init_heads m n tp).1 (tp + 32 * i + 24) = 1 ∧
      (init_heads m n tp).1.rd (tp + 32 * i + 8) = 0 ∧
      (init_heads m n tp).1.rd (tp + 32 * i + 16) = 0) ∧
    (∀ x, x < tp ∨ tp + 32 * n ≤ x → (init_heads m n tp).1.rd x = m.rd x) := by
  intro n
  induction n with
  | zero =>
    intro m tp _
    refine ⟨rfl, fun i hi => absurd hi (by omega), fun x _ => rfl⟩
  | succ n ih =>
    intro m tp htp
    have e1 : GET_SIZE (PREV (NEXT (PACK m tp 32 1) tp 0) tp 0) tp = 32 := by
      unfold PREV NEXT HSIZE
      simp only [GET_SIZE_wr, GET_SIZE_PACK]
      split_ifs <;> first | rfl | omega
    have e2 : PACK_FTRP (PREV (NEXT (PACK m tp 32 1) tp 0) tp 0) tp 32 1 =
        PACK (PREV (NEXT (PACK m tp 32 1) tp 0) tp 0) (tp + 24) 32 1 := by
      have e24 : tp + 32 - 8 = tp + 24 := by omega
      rw [PACK_FTRP_eq _ _ _ _ (Or.inl (by rw [e1]; omega)), e1, e24]
    generalize hm4 : PACK (PREV (NEXT (PACK m tp 32 1) tp 0) tp 0) (tp + 24) 32 1 = m4 at e2
    have e3 : NEXT_BLKP m4 tp = tp + 32 := by
      unfold NEXT_BLKP
      rw [← hm4, GET_SIZE_PACK, if_neg (by omega), e1]
    have hstep : init_heads m (n + 1) tp = init_heads m4 n (tp + 32) := by
      show init_heads (PACK_FTRP (PREV (NEXT (PACK m tp MIN_BLOCK_SIZE ALLOC) tp NULL) tp NULL)
        tp MIN_BLOCK_SIZE ALLOC) n (NEXT_BLKP (PACK_FTRP (PREV (NEXT (PACK m tp MIN_BLOCK_SIZE
          ALLOC) tp NULL) tp NULL) tp MIN_BLOCK_SIZE ALLOC) tp) = _
      simp only [MIN_BLOCK_SIZE, ALLOC, NULL, e2, e3]
    rw [hstep]
    obtain ⟨ih1, ih2, ih3⟩ := ih m4 (tp + 32) (by omega)
    have h4 : GET_SIZE m4 tp = 32 ∧ GET_ALLOC m4 tp = 1 ∧ GET_SIZE m4 (tp + 24) = 32 ∧
        GET_ALLOC m4 (tp + 24) = 1 ∧ m4.rd (tp + 8) = 0 ∧ m4.rd (tp + 16) = 0 ∧
        ∀ x, x < tp ∨ tp + 32 ≤ x → m4.rd x = m.rd x := by
      rw [← hm4]
      unfold PREV NEXT HSIZE
      refine ⟨?_, ?_, ?_, ?_, ?_, ?_, ?_⟩
      · simp only [GET_SIZE_PACK, GET_SIZE_wr]
        split_ifs <;> first | rfl | omega
      · simp only [GET_ALLOC_PACK, GET_ALLOC_wr]
        split_ifs <;> first | rfl | omega
      · simp only [GET_SIZE_PACK, GET_SIZE_wr]
        split_ifs <;> first | rfl | omega
      · simp only [GET_ALLOC_PACK, GET_ALLOC_wr]
        split_ifs <;> first | rfl | omega
      · rw [rd_PACK _ _ _ _ _ (by omega)]
        simp only [rd_wr]
        split_ifs <;> first | rfl | omega
      · rw [rd_PACK _ _ _ _ _ (by omega)]
        simp only [rd_wr]
        split_ifs <;> first | rfl | omega
      · intro x hx
        rw [rd_PACK _ _ _ _ _ (by omega)]
        simp only [rd_wr]
        rw [if_neg (by omega), if_neg (by omega), rd_PACK _ _ _ _ _ (by omega)]
    refine ⟨by rw [ih1]; omega, ?_, ?_⟩
    · intro i hi
      cases i with
      | zero =>
        simp only [Nat.mul_zero, Nat.add_zero]
        rw [GET_SIZE_congr (ih3 _ (by omega)), GET_ALLOC_congr (ih3 _ (by omega)),
          GET_SIZE_congr (ih3 _ (by omega)), GET_ALLOC_congr (ih3 _ (by omega)),
          ih3 _ (by omega), ih3 _ (by omega)]
        exact ⟨h4.1, h4.2.1, h4.2.2.1, h4.2.2.2.1, h4.2.2.2.2.1, h4.2.2.2.2.2.1⟩
      | succ j =>
        have := ih2 j (by omega)
        have e : tp + 32 * (j + 1) = tp + 32 + 32 * j := by omega
        rw [e]
        exact this
    · intro x hx
      rw [ih3 x (by omega)]
      exact h4.2.2.2.2.2.2 x (by omega)

theorem mm_init_fail (grant : Bool) (h : Heap)
    (hg : ¬ (grant = true ∧ h.mem_brk + 8192 < 2 ^ 64)) :
    mm_init grant h = (-1, { h with prologue := SBRK_FAIL }) := by
  unfold mm_init
  simp only [mem_sbrk, CHUNKSIZE, if_neg hg, if_true]

theorem mm_init_inv (grant : Bool) (h : Heap) (hempty : h.mem_start_brk = h.mem_brk)
    (hg : grant = true ∧ h.mem_brk + 8192 < 2 ^ 64) :
    (mm_init grant h).1 = 0 ∧
    (mm_init grant h).2.mem_start_brk = h.mem_brk ∧
    (mm_init grant h).2.mem_brk = h.mem_brk + 8192 ∧
    Inv (mm_init grant h).2 [] [⟨h.mem_brk + 200, 7984, 0⟩] := by
  generalize hb : h.mem_brk = b at hg hempty
  have hne : b ≠ 2 ^ 64 - 1 := by omega
  -- the list heads
  have e1 : GET_SIZE (PACK h.mem b 8 1) b = 8 := by
    rw [GET_SIZE_PACK, if_pos rfl]; rfl
  obtain ⟨ih1, ih2, ih3⟩ := init_heads_spec 6 (PACK h.mem b 8 1) (b + 8) (by omega)
  generalize hmh : init_heads (PACK h.mem b 8 1) 6 (b + 8) = rh at ih1 ih2 ih3
  have e2 : NEXT_BLKP (PACK h.mem b 8 1) b = b + 8 := by
    unfold NEXT_BLKP; rw [e1]
  have e3 : rh.2 = b + 200 := by rw [ih1]
  have e4 : GET_SIZE (PACK rh.1 (b + 200) 7984 0) (b + 200) = 7984 := by
    rw [GET_SIZE_PACK, if_pos rfl]; rfl
  have e5 : PACK_FTRP (PACK rh.1 (b + 200) 7984 0) (b + 200) 7984 0 =
      PACK (PACK rh.1 (b + 200) 7984 0) (b + 8176) 7984 0 := by
    have e8176 : b + 200 + 7984 - 8 = b + 8176 := by omega
    rw [PACK_FTRP_eq _ _ _ _ (Or.inl (by rw [e4]; omega)), e4, e8176]
  generalize hm3 : PACK (PACK rh.1 (b + 200) 7984 0) (b + 8176) 7984 0 = m3 at e5
  have hrd3 : ∀ x, x ≠ b + 200 → x ≠ b + 8176 → m3.rd x = rh.1.rd x := by
    intro x h1 h2
    rw [← hm3, rd_PACK _ _ _ _ _ h2, rd_PACK _ _ _ _ _ h1]
  have htag3 : GET_SIZE m3 (b + 200) = 7984 ∧ GET_ALLOC m3 (b + 200) = 0 ∧
      GET_SIZE m3 (b + 8176) = 7984 ∧ GET_ALLOC m3 (b + 8176) = 0 := by
    rw [← hm3]
    simp only [GET_SIZE_PACK, GET_ALLOC_PACK]
    refine ⟨?_, ?_, ?_, ?_⟩ <;> split_ifs <;> first | rfl | omega
  have hL3 : Lists (b + 8) m3 (fun _ => False) := by
    refine ⟨fun _ => [], ?_, ?_, ?_, ?_, ?_⟩
    · intro i hi
      have := ih2 i hi
      refine ⟨?_, ?_, trivial⟩
      · show m3.rd (b + 8 + 32 * i + 8) = 0
        rw [hrd3 _ (by omega) (by omega)]; exact this.2.2.2.2.1
      · show m3.rd (b + 8 + 32 * i + 8 + 8) = 0
        have e : b + 8 + 32 * i + 8 + 8 = b + 8 + 32 * i + 16 := by omega
        rw [e, hrd3 _ (by omega) (by omega)]; exact this.2.2.2.2.2
    · intro i _; exact List.nodup_nil
    · intro i _ x; simp
    · intro x hx; exact absurd hx id
    · intro x y hx; exact absurd hx id
  obtain ⟨hL4, hfr4⟩ := insertBlock_spec (b + 8) m3 _ (b + 200) hL3 id (by omega)
    (fun x hx => absurd hx id)
  generalize hm4 : insertBlock (b + 8) m3 (b + 200) = m4 at hL4 hfr4
  have hfr4b : ∀ x, x ≠ b + 208 → x ≠ b + 216 →
      (∀ i, i < 6 → x ≠ b + 8 + 32 * i + 8 ∧ x ≠ b + 8 + 32 * i + 16) → m4.rd x = m3.rd x := by
    intro x h1 h2 h3
    apply hfr4
    constructor
    · rintro y (hy | hy)
      · exact absurd hy id
      · subst hy; omega
    · exact h3
  have e6 : NEXT_BLKP m4 (b + 200) = b + 8184 := by
    unfold NEXT_BLKP
    rw [GET_SIZE_congr (hfr4b _ (by omega) (by omega) (fun i hi => by omega)), htag3.1]
  have hm : mm_init grant h =
      (0, (⟨PACK m4 (b + 8184) 0 1, h.mem_start_brk, b + 8192, b, b + 8, b + 8184⟩ : Heap)) := by
    unfold mm_init
    simp only [mem_sbrk, CHUNKSIZE, hb, if_pos hg, SBRK_FAIL, if_neg hne, HSIZE, ALLOC, FREE, HDRP,
      OVERHEAD, MIN_BLOCK_SIZE, LISTMAX, e2, hmh, e3, e5, hm4, e6]
  rw [hm]
  refine ⟨rfl, hempty, rfl, ?_⟩
  have hrd5 : ∀ x, x ≠ b + 8184 → (PACK m4 (b + 8184) 0 1).rd x = m4.rd x :=
    fun x hx => rd_PACK _ _ _ _ _ hx
  have hpro : GET_SIZE m4 b = 8 ∧ GET_ALLOC m4 b = 1 := by
    have e : m4.rd b = (PACK h.mem b 8 1).rd b := by
      rw [hfr4b _ (by omega) (by omega) (fun i hi => by omega), hrd3 _ (by omega) (by omega),
        ih3 _ (by omega)]
    rw [GET_SIZE_congr e, GET_ALLOC_congr e, GET_SIZE_PACK, GET_ALLOC_PACK]
    simp
  have hheads : ∀ i, i < 6 → GET_SIZE m4 (b + 8 + 32 * i) = 32 ∧
      GET_ALLOC m4 (b + 8 + 32 * i) = 1 ∧ GET_SIZE m4 (b + 8 + 32 * i + 24) = 32 ∧
      GET_ALLOC m4 (b + 8 + 32 * i + 24) = 1 := by
    intro i hi
    have := ih2 i hi
    have ea : m4.rd (b + 8 + 32 * i) = rh.1.rd (b + 8 + 32 * i) := by
      rw [hfr4b _ (by omega) (by omega) (fun j hj => by omega), hrd3 _ (by omega) (by omega)]
    have eb : m4.rd (b + 8 + 32 * i + 24) = rh.1.rd (b + 8 + 32 * i + 24) := by
      rw [hfr4b _ (by omega) (by omega) (fun j hj => by omega), hrd3 _ (by omega) (by omega)]
    rw [GET_SIZE_congr ea, GET_ALLOC_congr ea, GET_SIZE_congr eb, GET_ALLOC_congr eb]
    exact ⟨this.1, this.2.1, this.2.2.1, this.2.2.2.1⟩
  have hblk : BlockOK m4 ⟨b + 200, 7984, 0⟩ := by
    have ea : m4.rd (b + 200) = m3.rd (b + 200) :=
      hfr4b _ (by omega) (by omega) (fun j hj => by omega)
    have eb : m4.rd (b + 200 + 7984 - 8) = m3.rd (b + 8176) :=
      hfr4b _ (by omega) (by omega) (fun j hj => by omega)
    refine ⟨?_, ?_, ?_, ?_, by show 32 ≤ 7984; omega, by show 7984 % 8 = 0; rfl⟩
    · show GET_SIZE m4 (b + 200) = 7984
      rw [GET_SIZE_congr ea]; exact htag3.1
    · show GET_ALLOC m4 (b + 200) = 0
      rw [GET_ALLOC_congr ea]; exact htag3.2.1
    · show GET_SIZE m4 (b + 200 + 7984 - 8) = 7984
      rw [GET_SIZE_congr eb]; exact htag3.2.2.1
    · show GET_ALLOC m4 (b + 200 + 7984 - 8) = 0
      rw [GET_ALLOC_congr eb]; exact htag3.2.2.2
  exact
    { pro := hempty.symm
      seg := rfl
      sent := by
        show Sentinels (b + 8) (PACK m4 (b + 8184) 0 1) (b + 8184)
        refine ⟨?_, ?_, ?_, by omega⟩
        · have e : b + 8 - 8 = b := by omega
          rw [e, GET_SIZE_congr (hrd5 _ (by omega)), GET_ALLOC_congr (hrd5 _ (by omega))]
          exact hpro
        · intro i hi
          rw [GET_SIZE_congr (hrd5 _ (by omega)), GET_ALLOC_congr (hrd5 _ (by omega)),
            GET_SIZE_congr (hrd5 _ (by omega)), GET_ALLOC_congr (hrd5 _ (by omega))]
          exact hheads i hi
        · rw [GET_SIZE_PACK, GET_ALLOC_PACK]; simp
      tiled := by
        show Tiled (PACK m4 (b + 8184) 0 1) (b + 8 + 192) [⟨b + 200, 7984, 0⟩] (b + 8184)
        refine ⟨by show b + 200 = b + 8 + 192; omega, ?_, by show b + 8 + 192 + 7984 = b + 8184; omega⟩
        exact BlockOK_congr (hrd5 _ (by show b + 200 ≠ _; omega))
          (hrd5 _ (by show b + 200 + 7984 - 8 ≠ _; omega)) hblk
      brk := by show b + 8192 = b + 8184 + 8; omega
      noadj := trivial
      lists := by
        show Lists (b + 8) (PACK m4 (b + 8184) 0 1) _
        refine Lists_congr ?_ ?_ (Lists_pred ?_ hL4)
        · rintro x ⟨c, hc, hx, _⟩
          rw [List.mem_singleton] at hc
          subst hc
          have : x = b + 200 := hx.symm
          subst this
          exact ⟨GET_SIZE_congr (hrd5 _ (by omega)), hrd5 _ (by omega), hrd5 _ (by omega)⟩
        · intro i hi
          exact ⟨hrd5 _ (by omega), hrd5 _ (by omega)⟩
        · intro x
          constructor
          · rintro (hx | hx)
            · exact absurd hx id
            · exact ⟨⟨b + 200, 7984, 0⟩, List.mem_singleton_self _, hx.symm, rfl⟩
          · rintro ⟨c, hc, hx, _⟩
            rw [List.mem_singleton] at hc
            subst hc
            exact Or.inr hx.symm
      live_iff := by
        intro p
        constructor
        · intro hp; exact absurd hp (List.not_mem_nil p)
        · rintro ⟨c, hc, hca, _⟩
          rw [List.mem_singleton] at hc
          subst hc
          simp at hca
      nodup := List.nodup_nil }

/-! ## Runs: the invariant holds in every reachable state of a small arena -/

theorem extend_heap_brk (grant : Bool) (h : Heap) (words : Nat) :
    (extend_heap grant h words).2.mem_start_brk = h.mem_start_brk ∧
    h.mem_brk ≤ (extend_heap grant h words).2.mem_brk := by
  generalize hszdef : words * 8 % 2 ^ 32 = sz
  by_cases hz : sz = 0
  · unfold extend_heap
    simp only [hszdef, if_pos hz]
    refine ⟨?_, ?_⟩ <;> first | rfl | trivial | exact le_refl _
  by_cases hg : grant = true ∧ h.mem_brk + sz < 2 ^ 64
  · have hne : h.mem_brk ≠ 2 ^ 64 - 1 := by omega
    have e0 : (extend_heap grant h words).2.mem_brk = h.mem_brk + sz ∧
        (extend_heap grant h words).2.mem_start_brk = h.mem_start_brk := by
      unfold extend_heap
      simp only [hszdef, if_neg hz, mem_sbrk, if_pos hg, SBRK_FAIL, if_neg hne]
      refine ⟨?_, ?_⟩ <;> first | rfl | trivial
    rw [e0.1, e0.2]
    exact ⟨rfl, Nat.le_add_right _ _⟩
  · have e0 : (extend_heap grant h words).2 = h := by
      unfold extend_heap
      simp only [hszdef, if_neg hz, mem_sbrk, if_neg hg, SBRK_FAIL, NULL, if_true]
    rw [e0]
    exact ⟨rfl, le_refl _⟩

theorem mm_malloc_brk (grant : Bool) (h : Heap) (size : Nat) :
    (mm_malloc grant h size).2.mem_start_brk = h.mem_start_brk ∧
    h.mem_brk ≤ (mm_malloc grant h size).2.mem_brk := by
  by_cases hsz : size = 0
  · have hm : mm_malloc grant h size = (NULL, h) := by
      unfold mm_malloc; rw [if_pos hsz]
    rw [hm]
    exact ⟨rfl, le_refl _⟩
  by_cases hfit : find_fit h.segList h.mem (adjust_size size) = 0
  · rw [mm_malloc_nofit_eq grant h size hsz hfit _ rfl]
    have he := extend_heap_brk grant h
      ((if endFree h = true then
        (adjust_size size + 2 ^ 64 - lastSize h) % 2 ^ 64 % 2 ^ 32 else adjust_size size) / 8)
    generalize extend_heap grant h _ = r at he ⊢
    by_cases hr : r.1 ≠ 0
    · rw [if_pos hr]; exact he
    · rw [if_neg hr]; exact he
  · have hm : (mm_malloc grant h size).2.mem_start_brk = h.mem_start_brk ∧
        (mm_malloc grant h size).2.mem_brk = h.mem_brk := by
      unfold mm_malloc
      rw [if_neg hsz]
      simp only [ne_eq, NULL, hfit, not_false_eq_true, if_true]
      refine ⟨?_, ?_⟩ <;> first | rfl | trivial
    rw [hm.1, hm.2]
    exact ⟨rfl, le_refl _⟩

theorem mm_malloc_heapsize (grant : Bool) (h : Heap) (size : Nat) :
    mem_heapsize h ≤ mem_heapsize (mm_malloc grant h size).2 := by
  obtain ⟨h1, h2⟩ := mm_malloc_brk grant h size
  unfold mem_heapsize
  omega

theorem write_inv {h : Heap} {live : List Nat} {bs : List Blk} (hI : Inv h live bs)
    (a v : Nat) (ha : InPayload ⟨h, live⟩ a) :
    Inv { h with mem := wr h.mem a v } live bs := by
  obtain ⟨p, hp, h1, h2, _⟩ := ha
  obtain ⟨b, hb, hba, hpb⟩ := (hI.live_iff p).1 hp
  subst hpb
  have hok := Tiled_mem_ok _ _ _ hI.tiled b hb
  have hsz : GET_SIZE h.mem (b.addr + 8 - 8) = b.size := by
    rw [Nat.add_sub_cancel]; exact hok.1
  simp only [hsz] at h2
  have h32 := hok.2.2.2.2.1
  have hbd := (Tiled_bounds _ _ _ hI.tiled).2 b hb
  have hdis := Tiled_disjoint _ _ _ hI.tiled b
  have hrd : ∀ x, x ≠ a → (wr h.mem a v).rd x = h.mem.rd x := by
    intro x hx; rw [rd_wr, if_neg hx]
  have htag : ∀ c, c ∈ bs → c.addr ≠ a ∧ c.addr + c.size - 8 ≠ a := by
    intro c hc
    have hcok := Tiled_mem_ok _ _ _ hI.tiled c hc
    have := hcok.2.2.2.2.1
    rcases hdis c hb hc with e | e | e
    · subst e; constructor <;> omega
    · constructor <;> omega
    · constructor <;> omega
  have hT : Tiled (wr h.mem a v) (h.segList + 192) bs h.epilogue :=
    Tiled_congr bs _ _ (fun c hc => ⟨hrd _ (htag c hc).1, hrd _ (htag c hc).2⟩) hI.tiled
  have hS : Sentinels h.segList (wr h.mem a v) h.epilogue :=
    Sentinels_congr (hrd _ (by omega))
      (fun i hi => ⟨hrd _ (by omega), hrd _ (by omega)⟩) (hrd _ (by omega)) hI.sent
  have hL : Lists h.segList (wr h.mem a v) (FreeIn bs) := by
    refine Lists_congr ?_ (fun i hi => ⟨hrd _ (by omega), hrd _ (by omega)⟩) hI.lists
    rintro x ⟨c, hc, hcx, hc0⟩
    subst hcx
    have hcok := Tiled_mem_ok _ _ _ hI.tiled c hc
    have := hcok.2.2.2.2.1
    have hne : ¬ b = c := by
      intro e; subst e; omega
    have hd : b.addr + b.size ≤ c.addr ∨ c.addr + c.size ≤ b.addr := by
      rcases hdis c hb hc with e | e | e
      · exact absurd e hne
      · exact Or.inl e
      · exact Or.inr e
    exact ⟨GET_SIZE_congr (hrd _ (by omega)), hrd _ (by omega), hrd _ (by omega)⟩
  exact hI.update _ bs live hT hS hL hI.noadj hI.live_iff hI.nodup

/-- The representation invariant holds in every reachable state whose arena
is smaller than `2^31 + 208` bytes. -/
theorem reachable_inv {s : St} (hr : Reachable s)
    (hbig : mem_heapsize s.heap < 2 ^ 31 + 208) : ∃ bs, Inv s.heap s.live bs := by
  induction hr with
  | init grant m0 base h =>
    by_cases hg : grant = true ∧ (fresh_heap m0 base).mem_brk + 8192 < 2 ^ 64
    · exact ⟨_, (mm_init_inv grant (fresh_heap m0 base) rfl hg).2.2.2⟩
    · rw [mm_init_fail grant _ hg] at h
      exact absurd h (by show ¬ ((-1 : Int) = 0); decide)
  | malloc grant s size hs hsz ih =>
    have hle := mm_malloc_heapsize grant s.heap size
    obtain ⟨bs, hI⟩ := ih (lt_of_le_of_lt hle hbig)
    exact mm_malloc_inv hI grant size hbig
  | free s p hs hp ih =>
    obtain ⟨bs, hI⟩ := ih hbig
    exact mm_free_inv hI hp hbig
  | write s a v hs ha ih =>
    obtain ⟨bs, hI⟩ := ih hbig
    exact ⟨bs, write_inv hI a v ha⟩

/-! ## Traversals -/

theorem Trace_subset {next : Nat → Nat} {stop : Nat → Prop} :
    ∀ (l : List Nat) (a e : Nat) (l2 : List Nat) (e2 : Nat),
      Trace next stop a l e → Trace next stop a l2 e2 → stop e2 → ∀ x, x ∈ l → x ∈ l2 := by
  intro l
  induction l with
  | nil => intro a e l2 e2 _ _ _ x hx; cases hx
  | cons y l ih =>
    intro a e l2 e2 h1 h2 hs x hx
    obtain ⟨hy, hna, h1⟩ := h1
    cases l2 with
    | nil =>
      have : a = e2 := h2
      subst this
      exact absurd hs hna
    | cons z l2 =>
      obtain ⟨hz, _, h2⟩ := h2
      rcases List.mem_cons.1 hx with hx | hx
      · rw [hx, hy, hz]; exact List.mem_cons_self _ _
      · exact List.mem_cons_of_mem _ (ih _ _ _ _ h1 h2 hs x hx)

theorem Trace_unique {next : Nat → Nat} {stop : Nat → Prop} :
    ∀ (l : List Nat) (a e : Nat) (l2 : List Nat) (e2 : Nat),
      Trace next stop a l e → Trace next stop a l2 e2 → stop e → stop e2 → l = l2 := by
  intro l
  induction l with
  | nil =>
    intro a e l2 e2 h1 h2 hs _
    have h1 : a = e := h1
    subst h1
    cases l2 with
    | nil => rfl
    | cons z l2 => exact absurd hs h2.2.1
  | cons y l ih =>
    intro a e l2 e2 h1 h2 hs hs2
    obtain ⟨hy, hna, h1⟩ := h1
    cases l2 with
    | nil =>
      have : a = e2 := h2
      subst this
      exact absurd hs2 hna
    | cons z l2 =>
      obtain ⟨hz, _, h2⟩ := h2
      rw [hy, hz, ih _ _ _ _ h1 h2 hs hs2]

theorem Trace_append {next : Nat → Nat} {stop : Nat → Prop} :
    ∀ (l1 l2 : List Nat) (a mid e : Nat),
      Trace next stop a l1 mid → Trace next stop mid l2 e → Trace next stop a (l1 ++ l2) e := by
  intro l1
  induction l1 with
  | nil =>
    intro l2 a mid e h1 h2
    have h1 : a = mid := h1
    subst h1
    exact h2
  | cons y l ih =>
    intro l2 a mid e h1 h2
    exact ⟨h1.1, h1.2.1, ih _ _ _ _ h1.2.2 h2⟩

theorem Tiled_walk {m : Mem} : ∀ (bs : List Blk) (a e : Nat), Tiled m a bs e →
    IsWalk m a (bs.map Blk.addr) e := by
  intro bs
  induction bs with
  | nil => intro a e h; exact h
  | cons b bs ih =>
    intro a e h
    obtain ⟨hb, hok, ht⟩ := h
    have h32 := hok.2.2.2.2.1
    have hsz := hok.1
    rw [hb] at hsz
    refine ⟨hb, ?_, ?_⟩
    · show ¬ GET_SIZE m a = 0
      omega
    · have : NEXT_BLKP m a = a + b.size := by unfold NEXT_BLKP; rw [hsz]
      rw [this]
      exact ih _ _ ht

theorem Tiled_sum {m : Mem} : ∀ (bs : List Blk) (a e : Nat), Tiled m a bs e →
    a + ((bs.map Blk.addr).map (GET_SIZE m)).sum = e := by
  intro bs
  induction bs with
  | nil => intro a e h; simpa using h
  | cons b bs ih =>
    intro a e h
    obtain ⟨hb, hok, ht⟩ := h
    have := ih _ _ ht
    have hsz := hok.1
    simp only [List.map_cons, List.sum_cons, hsz]
    omega

theorem Tiled_align {m : Mem} : ∀ (bs : List Blk) (a e : Nat), Tiled m a bs e → a % 8 = 0 →
    ∀ b, b ∈ bs → b.addr % 8 = 0 := by
  intro bs
  induction bs with
  | nil => intro a e _ _ b hb; cases hb
  | cons c bs ih =>
    intro a e h ha b hb
    obtain ⟨hc, hok, ht⟩ := h
    have h8 := hok.2.2.2.2.2
    rcases List.mem_cons.1 hb with hb | hb
    · rw [hb, hc]; exact ha
    · exact ih _ _ ht (by omega) b hb

theorem Tiled_next_alloc {m : Mem} : ∀ (bs : List Blk) (a e : Nat), Tiled m a bs e →
    NoAdj bs → GET_ALLOC m e = 1 → ∀ b, b ∈ bs → b.alloc = 0 →
    GET_ALLOC m (b.addr + b.size) = 1 := by
  intro bs
  induction bs with
  | nil => intro a e _ _ _ b hb; cases hb
  | cons c bs ih =>
    intro a e h hn he b hb hb0
    obtain ⟨hc, hok, ht⟩ := h
    rcases List.mem_cons.1 hb with hb | hb
    · subst hb
      cases bs with
      | nil =>
        have : a + b.size = e := ht
        rw [hc, this]; exact he
      | cons d bs =>
        obtain ⟨hd, hdok, _⟩ := ht
        have hcd : b.alloc = 1 ∨ d.alloc = 1 := hn.1
        have hd1 : d.alloc = 1 := by omega
        rw [hc, ← hd, hdok.2.1, hd1]
    · exact ih _ _ ht (NoAdj_tail _ hn) he b hb hb0

theorem headBlocks_eq (seg : Nat) :
    headBlocks seg = [seg + 32 * 0, seg + 32 * 1, seg + 32 * 2, seg + 32 * 3, seg + 32 * 4,
      seg + 32 * 5] := rfl

theorem mem_headBlocks {seg x : Nat} : x ∈ headBlocks seg ↔ ∃ i, i < 6 ∧ x = seg + 32 * i := by
  unfold headBlocks
  simp only [List.mem_map, List.mem_range, LISTMAX, MIN_BLOCK_SIZE]
  constructor
  · rintro ⟨i, hi, rfl⟩; exact ⟨i, hi, rfl⟩
  · rintro ⟨i, hi, rfl⟩; exact ⟨i, hi, rfl⟩

theorem heads_walk {seg e : Nat} {m : Mem} (hS : Sentinels seg m e) :
    IsWalk m seg (headBlocks seg) (seg + 192) := by
  have h := hS.2.1
  have step : ∀ a b, GET_SIZE m a = 32 → b = a + 32 → ∀ l e, IsWalk m b l e →
      IsWalk m a (a :: l) e := by
    intro a b ha hb l e hw
    refine ⟨rfl, ?_, ?_⟩
    · show ¬ GET_SIZE m a = 0
      omega
    · have : NEXT_BLKP m a = b := by unfold NEXT_BLKP; rw [ha, hb]
      rw [this]; exact hw
  have h0 : GET_SIZE m seg = 32 := (h 0 (by omega)).1
  have h1 : GET_SIZE m (seg + 32) = 32 := (h 1 (by omega)).1
  have h2 : GET_SIZE m (seg + 64) = 32 := (h 2 (by omega)).1
  have h3 : GET_SIZE m (seg + 96) = 32 := (h 3 (by omega)).1
  have h4 : GET_SIZE m (seg + 128) = 32 := (h 4 (by omega)).1
  have h5 : GET_SIZE m (seg + 160) = 32 := (h 5 (by omega)).1
  have hend : IsWalk m (seg + 192) [] (seg + 192) := rfl
  show IsWalk m seg [seg, seg + 32, seg + 64, seg + 96, seg + 128, seg + 160] (seg + 192)
  exact step _ (seg + 32) h0 rfl _ _ (step _ (seg + 64) h1 (by omega) _ _
    (step _ (seg + 96) h2 (by omega) _ _ (step _ (seg + 128) h3 (by omega) _ _
    (step _ (seg + 160) h4 (by omega) _ _ (step _ (seg + 192) h5 (by omega) _ _ hend)))))

theorem heads_sum {seg e : Nat} {m : Mem} (hS : Sentinels seg m e) :
    ((headBlocks seg).map (GET_SIZE m)).sum = 192 := by
  have h := hS.2.1
  rw [headBlocks_eq]
  simp only [List.map_cons, List.map_nil, List.sum_cons, List.sum_nil,
    (h 0 (by omega)).1, (h 1 (by omega)).1, (h 2 (by omega)).1, (h 3 (by omega)).1,
    (h 4 (by omega)).1, (h 5 (by omega)).1]
  rfl

/-- The complete heap walk of a heap that satisfies the invariant. -/
theorem Inv.walk {h : Heap} {live : List Nat} {bs : List Blk} (hI : Inv h live bs) :
    IsWalk h.mem h.prologue (h.prologue :: (headBlocks h.segList ++ bs.map Blk.addr))
      h.epilogue := by
  have hp := hI.sent.1.1
  have hseg := hI.seg
  have h8 : h.segList - 8 = h.prologue := by omega
  rw [h8] at hp
  refine ⟨rfl, ?_, ?_⟩
  · show ¬ GET_SIZE h.mem h.prologue = 0
    rw [hp]; omega
  · have : NEXT_BLKP h.mem h.prologue = h.segList := by
      unfold NEXT_BLKP; rw [hp]; omega
    rw [this]
    exact Trace_append _ _ _ _ _ (heads_walk hI.sent) (Tiled_walk _ _ _ hI.tiled)

/-- A visited block is the prologue, a list head or a user block. -/
theorem Inv.visited {h : Heap} {live : List Nat} {bs : List Blk} (hI : Inv h live bs)
    {x : Nat} (hx : Visited h.mem h.prologue x) :
    x = h.prologue ∨ (∃ i, i < 6 ∧ x = h.segList + 32 * i) ∨ ∃ b, b ∈ bs ∧ b.addr = x := by
  obtain ⟨l, e, hw, hxl⟩ := hx
  have := Trace_subset _ _ _ _ _ hw hI.walk hI.sent.2.2.1.1 x hxl
  rcases List.mem_cons.1 this with h1 | h1
  · exact Or.inl h1
  · rcases List.mem_append.1 h1 with h2 | h2
    · exact Or.inr (Or.inl (mem_headBlocks.1 h2))
    · obtain ⟨b, hb, hbx⟩ := List.mem_map.1 h2
      exact Or.inr (Or.inr ⟨b, hb, hbx⟩)

theorem Inv.visited_block {h : Heap} {live : List Nat} {bs : List Blk} (hI : Inv h live bs)
    {b : Blk} (hb : b ∈ bs) : Visited h.mem h.prologue b.addr :=
  ⟨_, _, hI.walk, List.mem_cons_of_mem _ (List.mem_append_right _ (List.mem_map_of_mem _ hb))⟩

/-! ## The invariant gives the properties of the specification -/

theorem Inv.coverage {h : Heap} {live : List Nat} {bs : List Blk} (hI : Inv h live bs) :
    Coverage h := by
  have hS := hI.sent
  have hp := hI.sent.1
  have hseg := hI.seg
  have hpro := hI.pro
  have hbrk := hI.brk
  have h8 : h.segList - 8 = h.prologue := by omega
  rw [h8] at hp
  have hb := (Tiled_bounds _ _ _ hI.tiled).1
  have hsum := Tiled_sum _ _ _ hI.tiled
  refine ⟨bs.map Blk.addr, hI.walk, hp.1, hp.2, hS.2.2.1.1, hS.2.2.1.2, hbrk.symm, ?_⟩
  rw [List.map_cons, List.sum_cons, List.map_append, List.sum_append, heads_sum hS, hp.1]
  unfold mem_heapsize
  omega

theorem Inv.tags {h : Heap} {live : List Nat} {bs : List Blk} (hI : Inv h live bs) :
    TagConsistency h := by
  intro x hx
  rcases hI.visited hx with h1 | ⟨i, hi, h1⟩ | ⟨b, hb, h1⟩
  · have hp := hI.sent.1
    have hseg := hI.seg
    have h8 : h.segList - 8 = h.prologue := by omega
    rw [h8] at hp
    have : FTRP h.mem x = x := by
      unfold FTRP HDRP
      rw [h1, hp.1]
      show h.prologue + 8 - 8 = h.prologue
      omega
    unfold TagsAgree
    rw [this]
    exact ⟨rfl, rfl⟩
  · obtain ⟨a1, a2, a3, a4⟩ := hI.sent.2.1 i hi
    have : FTRP h.mem x = h.segList + 32 * i + 24 := by
      unfold FTRP HDRP
      rw [h1, a1]
      show h.segList + 32 * i + 32 - 8 = h.segList + 32 * i + 24
      omega
    unfold TagsAgree HDRP
    rw [this, h1, a1, a2, a3, a4]
    exact ⟨rfl, rfl⟩
  · obtain ⟨a1, a2, a3, a4, _, _⟩ := Tiled_mem_ok _ _ _ hI.tiled b hb
    have : FTRP h.mem x = b.addr + b.size - 8 := by
      unfold FTRP HDRP
      rw [← h1, a1]
    unfold TagsAgree HDRP
    rw [this, ← h1, a1, a2, a3, a4]
    exact ⟨rfl, rfl⟩

theorem Inv.noAdjacentFree {h : Heap} {live : List Nat} {bs : List Blk} (hI : Inv h live bs) :
    NoAdjacentFree h := by
  rintro x hx ⟨hx0, hn0⟩
  rcases hI.visited hx with h1 | ⟨i, hi, h1⟩ | ⟨b, hb, h1⟩
  · have hp := hI.sent.1
    have hseg := hI.seg
    have h8 : h.segList - 8 = h.prologue := by omega
    rw [h8, ← h1] at hp
    omega
  · have := (hI.sent.2.1 i hi).2.1
    rw [← h1] at this
    omega
  · obtain ⟨a1, a2, _⟩ := Tiled_mem_ok _ _ _ hI.tiled b hb
    have hb0 : b.alloc = 0 := by rw [← a2, h1]; exact hx0
    have := Tiled_next_alloc _ _ _ hI.tiled hI.noadj hI.sent.2.2.1.2 b hb hb0
    have hn : NEXT_BLKP h.mem x = b.addr + b.size := by
      unfold NEXT_BLKP; rw [← h1, a1]
    rw [hn] at hn0
    omega

theorem Inv.blockSizes {h : Heap} {live : List Nat} {bs : List Blk} (hI : Inv h live bs) :
    BlockSizes h := by
  intro x hx hlt
  have hseg := hI.seg
  have hlt : h.segList + 160 < x := hlt
  rcases hI.visited hx with h1 | ⟨i, hi, h1⟩ | ⟨b, hb, h1⟩
  · omega
  · omega
  · obtain ⟨a1, _, _, _, a5, a6⟩ := Tiled_mem_ok _ _ _ hI.tiled b hb
    rw [← h1, a1]
    exact ⟨a6, a5⟩

theorem Inv.inRange {h : Heap} {live : List Nat} {bs : List Blk} (hI : Inv h live bs)
    {p x : Nat} (hp : p ∈ live) (hx : InRange h.mem p x) :
    ∃ b, b ∈ bs ∧ p = b.addr + 8 ∧ b.addr + 8 ≤ x ∧ x + 8 < b.addr + b.size := by
  obtain ⟨b, hb, _, hpb⟩ := (hI.live_iff p).1 hp
  obtain ⟨a1, _⟩ := Tiled_mem_ok _ _ _ hI.tiled b hb
  obtain ⟨h1, h2⟩ := hx
  have e : p - HSIZE = b.addr := by
    show p - 8 = b.addr
    omega
  rw [e, a1] at h2
  exact ⟨b, hb, hpb, by omega, by omega⟩

theorem Inv.nonOverlap {h : Heap} {live : List Nat} {bs : List Blk} (hI : Inv h live bs) :
    NonOverlap ⟨h, live⟩ := by
  constructor
  · rintro p q hp hq hpq x ⟨hxp, hxq⟩
    obtain ⟨b, hb, hpb, b1, b2⟩ := hI.inRange hp hxp
    obtain ⟨c, hc, hqc, c1, c2⟩ := hI.inRange hq hxq
    rcases Tiled_disjoint _ _ _ hI.tiled b c hb hc with e | e | e
    · subst e; omega
    · omega
    · omega
  · rintro p hp x ⟨hxp, hs⟩
    obtain ⟨b, hb, hpb, b1, b2⟩ := hI.inRange hp hxp
    have hbd := (Tiled_bounds _ _ _ hI.tiled).2 b hb
    have hseg := hI.seg
    have hs : InSentinel h x := hs
    rcases hs with hs | hs | hs
    · omega
    · have hs : h.segList ≤ x ∧ x < h.segList + 32 * (5 + 1) := hs
      omega
    · omega

theorem Inv.payloadOK {h : Heap} {live : List Nat} {bs : List Blk} (hI : Inv h live bs)
    (hal : h.mem_start_brk % 8 = 0) {p : Nat} (hp : p ∈ live) : PayloadOK h p := by
  obtain ⟨b, hb, hb1, hpb⟩ := (hI.live_iff p).1 hp
  obtain ⟨_, a2, _, _, a5, _⟩ := Tiled_mem_ok _ _ _ hI.tiled b hb
  have hbd := (Tiled_bounds _ _ _ hI.tiled).2 b hb
  have hseg := hI.seg
  have hpro := hI.pro
  have hbrk := hI.brk
  have h8 := Tiled_align _ _ _ hI.tiled (by omega) b hb
  refine ⟨by omega, ⟨b.addr, hpb, hI.visited_block hb, by rw [a2, hb1]⟩, ?_, ?_⟩
  · show h.mem_start_brk < p
    omega
  · show p < h.mem_brk - 1
    omega

/-! ## Free lists as traversals -/

theorem Seg_path {m : Mem} : ∀ (l : List Nat) (p n : Nat), Seg m p l n →
    (∀ x, x ∈ l → x ≠ NULL) → Trace (getNext m) (fun x => x = NULL) (l.headD n) l n := by
  intro l
  induction l with
  | nil => intro p n _ _; rfl
  | cons a l ih =>
    intro p n hs hne
    obtain ⟨_, h2, h3⟩ := hs
    refine ⟨rfl, hne a (List.mem_cons_self _ _), ?_⟩
    show Trace (getNext m) (fun x => x = NULL) (getNext m a) l n
    rw [h2]
    exact ih _ _ h3 (fun x hx => hne x (List.mem_cons_of_mem _ hx))

theorem Seg_path_back {m : Mem} : ∀ (l : List Nat) (p n : Nat), Seg m p l n →
    (∀ x, x ∈ l → x ≠ NULL) →
    Trace (getPrev m) (fun x => x = NULL) (l.getLastD p) l.reverse p := by
  intro l
  induction l with
  | nil => intro p n _ _; rfl
  | cons a l ih =>
    intro p n hs hne
    obtain ⟨h1, _, h3⟩ := hs
    rw [List.getLastD_cons, List.reverse_cons]
    refine Trace_append _ _ _ a _ (ih _ _ h3 (fun x hx => hne x (List.mem_cons_of_mem _ hx))) ?_
    exact ⟨rfl, hne a (List.mem_cons_self _ _), h1⟩

theorem getLast?_getLastD (l : List Nat) (d : Nat) (hne : l ≠ []) :
    l.getLast? = some (l.getLastD d) := by
  rcases list_snoc_cases l with h | ⟨l0, x, h⟩
  · exact absurd h hne
  · subst h
    simp

/-- What the invariant says about list `i`, in terms of traversals. -/
theorem Inv.list {h : Heap} {live : List Nat} {bs : List Blk} (hI : Inv h live bs) :
    ∃ fl : Nat → List Nat,
      (∀ i, i < 6 → listHead h i = (fl i).headD NULL ∧ listTail h i = (fl i).getLastD NULL ∧
        Seg h.mem NULL (fl i) NULL ∧ (∀ x, x ∈ fl i → x ≠ NULL) ∧ (fl i).Nodup) ∧
      (∀ i, i < 6 → ∀ x, x ∈ fl i ↔ (FreeIn bs x ∧ calcList (GET_SIZE h.mem x) = i)) := by
  obtain ⟨fl, h1, h2, h3, h4, _⟩ := hI.lists
  refine ⟨fl, ?_, h3⟩
  intro i hi
  obtain ⟨a1, a2, a3⟩ := h1 i hi
  refine ⟨a1, a2, a3, ?_, h2 i hi⟩
  intro x hx
  have := h4 x ((h3 i hi x).1 hx).1
  show ¬ x = 0
  omega

theorem Inv.free_visited {h : Heap} {live : List Nat} {bs : List Blk} (hI : Inv h live bs)
    (x : Nat) : FreeIn bs x ↔ (Visited h.mem h.prologue x ∧ GET_ALLOC h.mem x = 0) := by
  constructor
  · rintro ⟨b, hb, hbx, hb0⟩
    obtain ⟨_, a2, _⟩ := Tiled_mem_ok _ _ _ hI.tiled b hb
    rw [← hbx]
    exact ⟨hI.visited_block hb, by rw [a2, hb0]⟩
  · rintro ⟨hv, h0⟩
    rcases hI.visited hv with h1 | ⟨i, hi, h1⟩ | ⟨b, hb, h1⟩
    · have hp := hI.sent.1
      have hseg := hI.seg
      have h8 : h.segList - 8 = h.prologue := by omega
      rw [h8, ← h1] at hp
      omega
    · have := (hI.sent.2.1 i hi).2.1
      rw [← h1] at this
      omega
    · obtain ⟨_, a2, _⟩ := Tiled_mem_ok _ _ _ hI.tiled b hb
      exact ⟨b, hb, h1, by rw [← a2, h1]; exact h0⟩

theorem Inv.listMembership {h : Heap} {live : List Nat} {bs : List Blk} (hI : Inv h live bs) :
    ListMembership h := by
  obtain ⟨fl, h1, h2⟩ := hI.list
  refine ⟨⟨fl, ?_, ?_, ?_, ?_, ?_⟩, ?_, ?_⟩
  · intro i hi
    obtain ⟨a1, _, a3, a4, _⟩ := h1 i hi
    show Trace (getNext h.mem) (fun x => x = NULL) (listHead h i) (fl i) NULL
    rw [a1]
    exact Seg_path _ _ _ a3 a4
  · intro x
    rw [← hI.free_visited]
    constructor
    · rintro ⟨i, hi, hx⟩
      exact ((h2 i hi x).1 hx).1
    · intro hx
      exact ⟨_, calcList_lt _, (h2 _ (calcList_lt _) x).2 ⟨hx, rfl⟩⟩
  · intro i hi
    exact (h1 i hi).2.2.2.2
  · intro i j hi hj hij x hx hx2
    have e1 := ((h2 i hi x).1 hx).2
    have e2 := ((h2 j hj x).1 hx2).2
    omega
  · intro i hi x hx
    exact ((hI.free_visited x).1 ((h2 i hi x).1 hx).1).2
  · have := hI.seg
    have := hI.pro
    omega
  · intro b hb
    obtain ⟨i, hi, rfl⟩ := mem_headBlocks.1 hb
    exact hI.sent.2.1 i hi

theorem Inv.classPlacement {h : Heap} {live : List Nat} {bs : List Blk} (hI : Inv h live bs) :
    ClassPlacement h := by
  obtain ⟨fl, h1, h2⟩ := hI.list
  intro i hi l e hp x hx
  obtain ⟨a1, _, a3, a4, _⟩ := h1 i hi
  have hfull := Seg_path _ _ _ a3 a4
  rw [← a1] at hfull
  exact ((h2 i hi x).1 (Trace_subset _ _ _ _ _ hp hfull rfl x hx)).2

theorem Inv.linkIntegrity {h : Heap} {live : List Nat} {bs : List Blk} (hI : Inv h live bs) :
    LinkIntegrity h := by
  obtain ⟨fl, h1, _⟩ := hI.list
  intro i hi
  obtain ⟨a1, a2, a3, a4, _⟩ := h1 i hi
  unfold LinkIntegrityAt
  rw [a1, a2]
  by_cases hnil : fl i = []
  · rw [hnil]
    exact ⟨⟨fun _ => rfl, fun _ => rfl⟩, fun hc => absurd rfl hc⟩
  · have hh : (fl i).headD NULL ≠ NULL := a4 _ (headD_mem _ _ hnil)
    have ht : (fl i).getLastD NULL ≠ NULL := a4 _ (getLastD_mem_ne _ _ hnil)
    refine ⟨⟨fun hc => absurd hc hh, fun hc => absurd hc ht⟩, fun _ => ⟨?_, ?_, fl i, ?_, ?_, ?_⟩⟩
    · exact Seg_head_prev _ _ _ a3 hnil
    · exact Seg_last_next _ _ _ a3 hnil
    · exact Seg_path _ _ _ a3 a4
    · exact getLast?_getLastD _ _ hnil
    · exact Seg_path_back _ _ _ a3 a4

/-! ## The layout after `mm_init` -/

theorem mm_init_start (grant : Bool) (h : Heap) (s : Nat) :
    (mm_init grant ⟨h.mem, s, h.mem_brk, h.prologue, h.segList, h.epilogue⟩).1 =
      (mm_init grant h).1 ∧
    (mm_init grant ⟨h.mem, s, h.mem_brk, h.prologue, h.segList, h.epilogue⟩).2.mem =
      (mm_init grant h).2.mem := by
  by_cases hg : grant = true ∧ h.mem_brk + 8192 < 2 ^ 64
  · have hne : h.mem_brk ≠ 2 ^ 64 - 1 := by omega
    unfold mm_init
    simp only [mem_sbrk, CHUNKSIZE, if_pos hg, SBRK_FAIL, if_neg hne]
    refine ⟨?_, ?_⟩ <;> first | trivial | rfl
  · rw [mm_init_fail grant h hg,
      mm_init_fail grant ⟨h.mem, s, h.mem_brk, h.prologue, h.segList, h.epilogue⟩ hg]
    exact ⟨rfl, rfl⟩

theorem nodup_singleton_of_mem {l : List Nat} {a : Nat} (hn : l.Nodup)
    (hm : ∀ x, x ∈ l ↔ x = a) : l = [a] := by
  cases l with
  | nil => exact absurd ((hm a).2 rfl) (List.not_mem_nil a)
  | cons y l =>
    have hy : y = a := (hm y).1 (List.mem_cons_self _ _)
    subst hy
    have hl : l = [] := by
      apply List.eq_nil_iff_forall_not_mem.2
      intro x hx
      have : x = y := (hm x).1 (List.mem_cons_of_mem _ hx)
      subst this
      exact (List.nodup_cons.1 hn).1 hx
    rw [hl]

theorem Inv.initLayout {h : Heap} {b : Nat} (hI : Inv h [] [⟨b + 200, 7984, 0⟩])
    (hp : h.prologue = b) : InitLayout h.mem b := by
  have hseg : h.segList = b + 8 := by rw [hI.seg, hp]
  have hS := hI.sent
  have hT := hI.tiled
  have hL := hI.lists
  rw [hseg] at hS hT hL
  obtain ⟨_, hok, he⟩ := hT
  have he : b + 8 + 192 + 7984 = h.epilogue := he
  have he2 : h.epilogue = b + 8184 := by omega
  rw [he2] at hS
  obtain ⟨s1, s2, s3, _⟩ := hS
  have e0 : b + 8 - 8 = b := by omega
  rw [e0] at s1
  obtain ⟨k1, k2, k3, k4, _, _⟩ := hok
  have k1 : GET_SIZE h.mem (b + 200) = 7984 := k1
  have k2 : GET_ALLOC h.mem (b + 200) = 0 := k2
  have k3 : GET_SIZE h.mem (b + 200 + 7984 - 8) = 7984 := k3
  have k4 : GET_ALLOC h.mem (b + 200 + 7984 - 8) = 0 := k4
  obtain ⟨fl, f1, f2, f3, _, _⟩ := hL
  have hfree : ∀ x, FreeIn [(⟨b + 200, 7984, 0⟩ : Blk)] x ↔ x = b + 200 := by
    intro x
    constructor
    · rintro ⟨c, hc, hx, _⟩
      rw [List.mem_singleton] at hc
      subst hc
      exact hx.symm
    · intro hx
      exact ⟨⟨b + 200, 7984, 0⟩, List.mem_singleton_self _, hx.symm, rfl⟩
  have hc6 : calcList 7984 < 6 := calcList_lt _
  have hfc : fl (calcList 7984) = [b + 200] := by
    apply nodup_singleton_of_mem (f2 _ hc6)
    intro x
    rw [f3 _ hc6, hfree]
    constructor
    · exact fun hx => hx.1
    · intro hx; rw [hx, k1]; exact ⟨rfl, rfl⟩
  have hfo : ∀ i, i < 6 → i ≠ calcList 7984 → fl i = [] := by
    intro i hi hic
    apply List.eq_nil_iff_forall_not_mem.2
    intro x hx
    obtain ⟨hx1, hx2⟩ := (f3 i hi x).1 hx
    rw [(hfree x).1 hx1, k1] at hx2
    exact hic hx2.symm
  refine ⟨s1, s2, ⟨k1, k2, k3, k4⟩, s3, ?_, ?_⟩
  · obtain ⟨a1, a2, a3⟩ := f1 _ hc6
    rw [hfc] at a1 a2 a3
    exact ⟨a1, a2, a3.2.1, a3.1⟩
  · intro i hi hic
    obtain ⟨a1, a2, _⟩ := f1 i hi
    rw [hfo i hi hic] at a1 a2
    exact ⟨a1, a2⟩

/-- Both outcomes of `mm_init`. -/
theorem mm_init_cases (grant : Bool) (h : Heap) :
    ((mem_sbrk grant h CHUNKSIZE).1 = SBRK_FAIL ∧ (mm_init grant h).1 = -1 ∧
      (mm_init grant h).2 = { h with prologue := SBRK_FAIL }) ∨
    ((mem_sbrk grant h CHUNKSIZE).1 = h.mem_brk ∧ h.mem_brk ≠ SBRK_FAIL ∧
      (mm_init grant h).1 = 0 ∧ InitLayout (mm_init grant h).2.mem h.mem_brk) := by
  by_cases hg : grant = true ∧ h.mem_brk + 8192 < 2 ^ 64
  · right
    have hne : h.mem_brk ≠ 2 ^ 64 - 1 := by omega
    have hs : (mem_sbrk grant h CHUNKSIZE).1 = h.mem_brk := by
      unfold mem_sbrk
      rw [if_pos hg]
    obtain ⟨e1, e2⟩ := mm_init_start grant h h.mem_brk
    obtain ⟨i1, _, _, i4⟩ :=
      mm_init_inv grant ⟨h.mem, h.mem_brk, h.mem_brk, h.prologue, h.segList, h.epilogue⟩ rfl hg
    have hp := i4.pro
    refine ⟨hs, hne, by rw [← e1]; exact i1, ?_⟩
    rw [← e2]
    refine i4.initLayout ?_
    rw [hp]
    assumption
  · left
    have hs : (mem_sbrk grant h CHUNKSIZE).1 = SBRK_FAIL := by
      unfold mem_sbrk
      rw [if_neg hg]
    rw [mm_init_fail grant h hg]
    exact ⟨hs, rfl, rfl⟩

/-! ## The concrete runs are runs of the allocator -/

set_option maxRecDepth 100000

theorem Trace_append_inv {next : Nat → Nat} {stop : Nat → Prop} :
    ∀ (l1 l2 : List Nat) (a e : Nat), Trace next stop a (l1 ++ l2) e →
      ∃ mid, Trace next stop a l1 mid ∧ Trace next stop mid l2 e := by
  intro l1
  induction l1 with
  | nil => intro l2 a e h; exact ⟨a, rfl, h⟩
  | cons y l ih =>
    intro l2 a e h
    obtain ⟨h1, h2, h3⟩ := h
    obtain ⟨mid, h4, h5⟩ := ih _ _ _ h3
    exact ⟨mid, ⟨h1, h2, h4⟩, h5⟩

theorem Trace_end_unique {next : Nat → Nat} {stop : Nat → Prop} :
    ∀ (l : List Nat) (a e e2 : Nat), Trace next stop a l e → Trace next stop a l e2 →
      e = e2 := by
  intro l
  induction l with
  | nil =>
    intro a e e2 h1 h2
    have h1 : a = e := h1
    have h2 : a = e2 := h2
    omega
  | cons y l ih =>
    intro a e e2 h1 h2
    exact ih _ _ _ h1.2.2 h2.2.2

/-- In a heap with the coverage property, the block after the list heads is
the epilogue or has a size greater than 0. -/
theorem Coverage.first_user {h : Heap} (hc : Coverage h) {x : Nat}
    (hx : IsWalk h.mem h.prologue (h.prologue :: headBlocks h.segList) x) :
    x = h.epilogue ∨ GET_SIZE h.mem x ≠ 0 := by
  obtain ⟨us, hw, _⟩ := hc
  obtain ⟨mid, h1, h2⟩ := Trace_append_inv (h.prologue :: headBlocks h.segList) us _ _ hw
  have := Trace_end_unique _ _ _ _ h1 hx
  subst this
  cases us with
  | nil => exact Or.inl h2
  | cons u us => exact Or.inr h2.2.1

theorem reach_stInit : Reachable stInit :=
  Reachable.init true zeroMem 4296015872 (by decide)

theorem reach_stRun : Reachable stRun :=
  Reachable.free _ _ (Reachable.malloc true _ 9000
    (Reachable.malloc true _ 100 reach_stInit (by decide)) (by decide)) (by decide)

theorem reach_stBig : Reachable stBig :=
  Reachable.malloc true _ _ reach_stInit (by decide)

theorem reach_stHuge : Reachable stHuge :=
  Reachable.malloc true _ _ reach_stInit (by decide)

theorem reach_stMerge : Reachable stMerge :=
  Reachable.free _ _ (Reachable.free _ _ (Reachable.malloc true _ (2 ^ 30 + 16)
    (Reachable.malloc true _ (2 ^ 30 - 16)
      (Reachable.free _ _ (Reachable.free _ _ (Reachable.malloc true _ 16
        (Reachable.malloc true _ 16 reach_stInit (by decide)) (by decide)) (by decide))
        (by decide))
      (by decide)) (by decide)) (by decide)) (by decide)

theorem reach_stFreed : Reachable stFreed :=
  Reachable.free _ _ (Reachable.malloc true _ _ reach_stInit (by decide)) (by decide)

theorem reach_stRelinked : Reachable stRelinked :=
  Reachable.malloc true _ _ reach_stFreed (by decide)

theorem reach_stOverlap : Reachable stOverlap :=
  Reachable.malloc true _ _ (Reachable.malloc true _ _ reach_stHuge (by decide)) (by decide)

/-! ## The claims -/

/-- C1: `mm_init`.  If growing the arena by 8192 bytes fails, `mm_init`
returns -1 and writes nothing to the arena: the state is unchanged, but for
the global `prologue`, which holds the error value of `mem_sbrk`.  Otherwise
it returns 0 and, with `b` the returned base, the arena holds the prologue
header at `b` (size 8, allocated), six list heads at `b + 8 + 32 * i`
(size 32, allocated, header and footer), one free block at `b + 200` of size
7984 (header and footer), the epilogue header at `b + 8184` (size 0,
allocated); the free block is the only member of the list of class
`calcList 7984` (head and tail point to it, its links are null) and the five
other lists are empty. -/
theorem mm_init_contract (grant : Bool) (h : Heap) :
    if (mem_sbrk grant h CHUNKSIZE).1 = SBRK_FAIL then
      (mm_init grant h).1 = -1 ∧ (mm_init grant h).2 = { h with prologue := SBRK_FAIL }
    else
      (mm_init grant h).1 = 0 ∧
        InitLayout (mm_init grant h).2.mem (mem_sbrk grant h CHUNKSIZE).1 := by
  rcases mm_init_cases grant h with ⟨h1, h2, h3⟩ | ⟨h1, h2, h3, h4⟩
  · rw [if_pos h1]
    exact ⟨h2, h3⟩
  · rw [if_neg (by rw [h1]; exact h2), h1]
    exact ⟨h3, h4⟩

/-- C2 (amended): coverage.  In every reachable state whose arena is smaller
than `2^31 + 208` bytes, the heap walk from the prologue visits the prologue
(size 8, allocated), the six list heads, then the user blocks, and arrives at
the epilogue header, which has size 0, is allocated and sits in the last 8
bytes of the arena; the sizes of the visited blocks sum to the arena size
minus 8. -/
theorem coverage_invariant (s : St) (hr : Reachable s)
    (hbig : mem_heapsize s.heap < 2 ^ 31 + 208) : Coverage s.heap := by
  obtain ⟨bs, hI⟩ := reachable_inv hr hbig
  exact hI.coverage

/-- The coverage theorem applied to the run `stRun`. -/
theorem coverage_invariant_witness :
    Reachable stRun ∧ mem_heapsize stRun.heap < 2 ^ 31 + 208 ∧ Coverage stRun.heap :=
  ⟨reach_stRun, by decide, coverage_invariant stRun reach_stRun (by decide)⟩

/-- C2 fails as stated: after `mm_init` and one `mm_malloc(2^31 - 16)` the
arena has `2^31 + 208` bytes and the heap walk stops at the first user block,
whose size field is 0, far from the epilogue. -/
theorem coverage_counterexample :
    Reachable stBig ∧ mem_heapsize stBig.heap = 2 ^ 31 + 208 ∧ ¬ Coverage stBig.heap :=
  ⟨reach_stBig, by decide, fun hc =>
    (hc.first_user (x := 4296016072) (by decide)).elim (by decide) (fun hne => hne (by decide))⟩

/-- C3 (amended): tag consistency.  In every reachable state whose arena is
smaller than `2^31 + 208` bytes, every block visited by the heap walk has a
footer whose size and allocated bit equal those of its header. -/
theorem tag_consistency_invariant (s : St) (hr : Reachable s)
    (hbig : mem_heapsize s.heap < 2 ^ 31 + 208) : TagConsistency s.heap := by
  obtain ⟨bs, hI⟩ := reachable_inv hr hbig
  exact hI.tags

/-- The tag consistency theorem applied to the run `stRun`. -/
theorem tag_consistency_invariant_witness :
    Reachable stRun ∧ mem_heapsize stRun.heap < 2 ^ 31 + 208 ∧ TagConsistency stRun.heap :=
  ⟨reach_stRun, by decide, tag_consistency_invariant stRun reach_stRun (by decide)⟩

/-- C3 fails as stated: after `mm_init` and one `mm_malloc(2^31)` the first
user block is visited by the heap walk with header (16, allocated) and footer
(0, free). -/
theorem tag_consistency_counterexample :
    Reachable stHuge ∧ Visited stHuge.heap.mem stHuge.heap.prologue 4296016072 ∧
      ¬ TagsAgree stHuge.heap.mem 4296016072 ∧ ¬ TagConsistency stHuge.heap :=
  have hv : Visited stHuge.heap.mem stHuge.heap.prologue 4296016072 :=
    ⟨stHuge.heap.prologue :: (headBlocks stHuge.heap.segList ++ [4296016072]), 4296016088,
      by decide, by decide⟩
  have ht : ¬ TagsAgree stHuge.heap.mem 4296016072 := by unfold TagsAgree; decide
  ⟨reach_stHuge, hv, ht, fun hc => ht (hc _ hv)⟩

/-- C4 (amended): coalescing completeness.  In every reachable state whose
arena is smaller than `2^31 + 208` bytes, no block visited by the heap walk
is free together with the block that follows it. -/
theorem no_adjacent_free_invariant (s : St) (hr : Reachable s)
    (hbig : mem_heapsize s.heap < 2 ^ 31 + 208) : NoAdjacentFree s.heap := by
  obtain ⟨bs, hI⟩ := reachable_inv hr hbig
  exact hI.noAdjacentFree

/-- The coalescing theorem applied to the run `stRun`. -/
theorem no_adjacent_free_invariant_witness :
    Reachable stRun ∧ mem_heapsize stRun.heap < 2 ^ 31 + 208 ∧ NoAdjacentFree stRun.heap :=
  ⟨reach_stRun, by decide, no_adjacent_free_invariant stRun reach_stRun (by decide)⟩

/-- C4 fails as stated: in the run `stMerge` the blocks at `4296016072` (size
32) and at `4296016104` (size 7952) are both visited by the heap walk, follow one
another, and are both free. -/
theorem no_adjacent_free_counterexample :
    Reachable stMerge ∧
      Visited stMerge.heap.mem stMerge.heap.prologue 4296016072 ∧
      Visited stMerge.heap.mem stMerge.heap.prologue 4296016104 ∧
      NEXT_BLKP stMerge.heap.mem 4296016072 = 4296016104 ∧
      GET_ALLOC stMerge.heap.mem 4296016072 = 0 ∧ GET_ALLOC stMerge.heap.mem 4296016104 = 0 ∧
      ¬ NoAdjacentFree stMerge.heap :=
  have hv : Visited stMerge.heap.mem stMerge.heap.prologue 4296016072 :=
    ⟨stMerge.heap.prologue :: (headBlocks stMerge.heap.segList ++ [4296016072, 4296016104]),
      4296024056, by decide, by decide⟩
  have hv2 : Visited stMerge.heap.mem stMerge.heap.prologue 4296016104 :=
    ⟨stMerge.heap.prologue :: (headBlocks stMerge.heap.segList ++ [4296016072, 4296016104]),
      4296024056, by decide, by decide⟩
  ⟨reach_stMerge, hv, hv2, by decide, by decide, by decide,
    fun hc => hc _ hv ⟨by decide, by decide⟩⟩

/-- C5 (amended): list membership.  In every reachable state whose arena is
smaller than `2^31 + 208` bytes, the blocks that the heap walk finds free are
exactly the blocks met by traversing the six lists from their heads, each once
over all lists; every list member is marked free; and the six list heads sit
at `segList + 32 * i`, with `segList` 8 bytes after the arena start, tagged
(32, allocated) in header and footer. -/
theorem list_membership_invariant (s : St) (hr : Reachable s)
    (hbig : mem_heapsize s.heap < 2 ^ 31 + 208) : ListMembership s.heap := by
  obtain ⟨bs, hI⟩ := reachable_inv hr hbig
  exact hI.listMembership

/-- The list membership theorem applied to the run `stRun`. -/
theorem list_membership_invariant_witness :
    Reachable stRun ∧ mem_heapsize stRun.heap < 2 ^ 31 + 208 ∧ ListMembership stRun.heap :=
  ⟨reach_stRun, by decide, list_membership_invariant stRun reach_stRun (by decide)⟩

/-- C5 fails as stated: in the run `stMerge` the heap walk finds the block at
`4296016104` free, but list 0 holds the block at `4296016072` alone and the other
lists are empty. -/
theorem list_membership_counterexample :
    Reachable stMerge ∧
      (Visited stMerge.heap.mem stMerge.heap.prologue 4296016104 ∧
        GET_ALLOC stMerge.heap.mem 4296016104 = 0) ∧
      (∀ i, i < 6 →
        IsPath stMerge.heap.mem (listHead stMerge.heap i) (if i = 0 then [4296016072] else [])
          NULL) ∧
      ¬ ListMembership stMerge.heap :=
  have hv : Visited stMerge.heap.mem stMerge.heap.prologue 4296016104 ∧
      GET_ALLOC stMerge.heap.mem 4296016104 = 0 :=
    ⟨⟨stMerge.heap.prologue :: (headBlocks stMerge.heap.segList ++ [4296016072, 4296016104]),
      4296024056, by decide, by decide⟩, by decide⟩
  have hl : ∀ i, i < 6 →
      IsPath stMerge.heap.mem (listHead stMerge.heap i) (if i = 0 then [4296016072] else [])
        NULL := by decide
  ⟨reach_stMerge, hv, hl, fun hc => by
    obtain ⟨⟨fl, h1, h2, _⟩, _⟩ := hc
    obtain ⟨i, hi, hx⟩ := (h2 4296016104).2 hv
    rw [Trace_unique _ _ _ _ _ (h1 i hi) (hl i hi) rfl rfl] at hx
    split_ifs at hx
    · simp at hx
    · simp at hx⟩

/-- C6 (amended): class placement.  In every reachable state whose arena is
smaller than `2^31 + 208` bytes, every block met on the traversal of list `i`
has a size `s` with `calcList s = i`. -/
theorem class_placement_invariant (s : St) (hr : Reachable s)
    (hbig : mem_heapsize s.heap < 2 ^ 31 + 208) : ClassPlacement s.heap := by
  obtain ⟨bs, hI⟩ := reachable_inv hr hbig
  exact hI.classPlacement

/-- The class placement theorem applied to the run `stRun`. -/
theorem class_placement_invariant_witness :
    Reachable stRun ∧ mem_heapsize stRun.heap < 2 ^ 31 + 208 ∧ ClassPlacement stRun.heap :=
  ⟨reach_stRun, by decide, class_placement_invariant stRun reach_stRun (by decide)⟩

/-- C6 fails as stated: after `mm_malloc(2^31 - 8)` and `mm_free` of the
result, list 0 is `4296016072, 4296016080`, and the size field of its second member
is 524392, a size of class 5. -/
theorem class_placement_counterexample :
    Reachable stFreed ∧
      IsPath stFreed.heap.mem (listHead stFreed.heap 0) [4296016072, 4296016080] NULL ∧
      calcList (GET_SIZE stFreed.heap.mem 4296016080) = 5 ∧ ¬ ClassPlacement stFreed.heap :=
  have hp : IsPath stFreed.heap.mem (listHead stFreed.heap 0) [4296016072, 4296016080] NULL := by
    decide
  have h5 : calcList (GET_SIZE stFreed.heap.mem 4296016080) = 5 := by decide
  ⟨reach_stFreed, hp, h5, fun hc => by
    have := hc 0 (by decide) _ _ hp 4296016080 (by decide)
    rw [h5] at this
    exact absurd this (by decide)⟩

/-- C7 (amended): link integrity.  In every reachable state whose arena is
smaller than `2^31 + 208` bytes, for each of the six lists the head pointer
is null iff the tail pointer is null; if they are not null, the head has a
null `prev`, the tail a null `next`, following `next` from the head reaches
the tail and then null, and following `prev` from the tail gives the reverse
sequence. -/
theorem link_integrity_invariant (s : St) (hr : Reachable s)
    (hbig : mem_heapsize s.heap < 2 ^ 31 + 208) : LinkIntegrity s.heap := by
  obtain ⟨bs, hI⟩ := reachable_inv hr hbig
  exact hI.linkIntegrity

/-- The link integrity theorem applied to the run `stRun`. -/
theorem link_integrity_invariant_witness :
    Reachable stRun ∧ mem_heapsize stRun.heap < 2 ^ 31 + 208 ∧ LinkIntegrity stRun.heap :=
  ⟨reach_stRun, by decide, link_integrity_invariant stRun reach_stRun (by decide)⟩

/-- C7 fails as stated: in the run `stRelinked` list 0 has head `4296016072`
and tail `4296016080`; following `prev` from the tail gives `4296016080, 4296016072`,
but the `next` link of the head is 4294967361, not the tail. -/
theorem link_integrity_counterexample :
    Reachable stRelinked ∧
      listHead stRelinked.heap 0 = 4296016072 ∧ listTail stRelinked.heap 0 = 4296016080 ∧
      getNext stRelinked.heap.mem 4296016072 = 4294967361 ∧
      IsPathBack stRelinked.heap.mem (listTail stRelinked.heap 0) [4296016080, 4296016072] NULL ∧
      ¬ LinkIntegrity stRelinked.heap :=
  have hback : IsPathBack stRelinked.heap.mem (listTail stRelinked.heap 0)
      [4296016080, 4296016072] NULL := by decide
  ⟨reach_stRelinked, by decide, by decide, by decide, hback, fun hc => by
    obtain ⟨_, h2⟩ := hc 0 (by decide)
    obtain ⟨_, _, l, hf, _, hb⟩ := h2 (by decide)
    have hrev := Trace_unique _ _ _ _ _ hb hback rfl rfl
    have hl : l = [4296016072, 4296016080] := by
      have := congrArg List.reverse hrev
      simpa using this
    subst hl
    exact absurd hf (by decide)⟩

/-- C8 (amended): block sizes.  In every reachable state whose arena is
smaller than `2^31 + 208` bytes, every block that the heap walk visits after
the last list head has a size that is a multiple of 8 and at least 32. -/
theorem block_size_invariant (s : St) (hr : Reachable s)
    (hbig : mem_heapsize s.heap < 2 ^ 31 + 208) : BlockSizes s.heap := by
  obtain ⟨bs, hI⟩ := reachable_inv hr hbig
  exact hI.blockSizes

/-- The block size theorem applied to the run `stRun`. -/
theorem block_size_invariant_witness :
    Reachable stRun ∧ mem_heapsize stRun.heap < 2 ^ 31 + 208 ∧ BlockSizes stRun.heap :=
  ⟨reach_stRun, by decide, block_size_invariant stRun reach_stRun (by decide)⟩

/-- C8 fails as stated: after `mm_init` and one `mm_malloc(2^31)` the heap
walk visits the first user block, right after the last list head, with size
16. -/
theorem block_size_counterexample :
    Reachable stHuge ∧ Visited stHuge.heap.mem stHuge.heap.prologue 4296016072 ∧
      stHuge.heap.segList + MIN_BLOCK_SIZE * LISTMAX < 4296016072 ∧
      GET_SIZE stHuge.heap.mem 4296016072 = 16 ∧ ¬ BlockSizes stHuge.heap :=
  have hv : Visited stHuge.heap.mem stHuge.heap.prologue 4296016072 :=
    ⟨stHuge.heap.prologue :: (headBlocks stHuge.heap.segList ++ [4296016072]), 4296016088,
      by decide, by decide⟩
  have h16 : GET_SIZE stHuge.heap.mem 4296016072 = 16 := by decide
  ⟨reach_stHuge, hv, by decide, h16, fun hc => by
    have := (hc _ hv (by decide)).2
    rw [h16] at this
    exact absurd this (by decide)⟩

/-- C9 (amended): returned pointers.  For every reachable state whose arena
base is a multiple of 8 and every size, if the arena after the call
`mm_malloc(size)` is smaller than `2^31 + 208` bytes, a non-null result `p`
satisfies `p mod 8 = 0`, `p = B + 8` for a block `B` visited by the heap walk
and marked allocated, and `mem_heap_lo < p < mem_heap_hi`. -/
theorem malloc_payload_ok (grant : Bool) (s : St) (size : Nat) (hr : Reachable s)
    (hal : s.heap.mem_start_brk % 8 = 0) (hsz : size < 2 ^ 64)
    (hbig : mem_heapsize (mm_malloc grant s.heap size).2 < 2 ^ 31 + 208)
    (hnn : (mm_malloc grant s.heap size).1 ≠ NULL) :
    PayloadOK (mm_malloc grant s.heap size).2 (mm_malloc grant s.heap size).1 := by
  obtain ⟨bs, hI⟩ := reachable_inv (Reachable.malloc grant s size hr hsz) hbig
  have hI : Inv (mm_malloc grant s.heap size).2
      (if (mm_malloc grant s.heap size).1 = NULL then s.live
        else (mm_malloc grant s.heap size).1 :: s.live) bs := hI
  rw [if_neg hnn] at hI
  refine hI.payloadOK ?_ (List.mem_cons_self _ _)
  rw [(mm_malloc_brk grant s.heap size).1]
  exact hal

/-- The theorem on returned pointers applied to `mm_malloc(24)` after the run
`stRun`. -/
theorem malloc_payload_ok_witness :
    Reachable stRun ∧ stRun.heap.mem_start_brk % 8 = 0 ∧ 24 < 2 ^ 64 ∧
      mem_heapsize (mm_malloc true stRun.heap 24).2 < 2 ^ 31 + 208 ∧
      (mm_malloc true stRun.heap 24).1 ≠ NULL ∧
      PayloadOK (mm_malloc true stRun.heap 24).2 (mm_malloc true stRun.heap 24).1 :=
  ⟨reach_stRun, by decide, by decide, by decide, by decide,
    malloc_payload_ok true stRun 24 reach_stRun (by decide) (by decide) (by decide)
      (by decide)⟩

/-- C9 fails as stated: right after `mm_init` at the 8-aligned base
`4296015872`, `mm_malloc(2^31 - 16)` returns `4296016080`, and the block `4296016072`
in front of it is marked free. -/
theorem malloc_payload_counterexample :
    Reachable stInit ∧ stInit.heap.mem_start_brk % 8 = 0 ∧
      (mm_malloc true stInit.heap (2 ^ 31 - 16)).1 = 4296016080 ∧
      GET_ALLOC (mm_malloc true stInit.heap (2 ^ 31 - 16)).2.mem 4296016072 = 0 ∧
      ¬ PayloadOK (mm_malloc true stInit.heap (2 ^ 31 - 16)).2
        (mm_malloc true stInit.heap (2 ^ 31 - 16)).1 :=
  have hp : (mm_malloc true stInit.heap (2 ^ 31 - 16)).1 = 4296016080 := by decide
  have h0 : GET_ALLOC (mm_malloc true stInit.heap (2 ^ 31 - 16)).2.mem 4296016072 = 0 := by
    decide
  ⟨reach_stInit, by decide, hp, h0, fun hc => by
    obtain ⟨_, ⟨B, hB, _, hB1⟩, _⟩ := hc
    rw [hp] at hB
    have : B = 4296016072 := by omega
    subst this
    rw [h0] at hB1
    exact absurd hB1 (by decide)⟩

/-- C10 (amended): non-overlap.  In every reachable state whose arena is
smaller than `2^31 + 208` bytes, the byte ranges
`[p, p + size(block(p)) - 16)` of two distinct live payload pointers are
disjoint, and no such range holds a byte of the prologue, of a list head or
of the epilogue. -/
theorem non_overlap_invariant (s : St) (hr : Reachable s)
    (hbig : mem_heapsize s.heap < 2 ^ 31 + 208) : NonOverlap s := by
  obtain ⟨bs, hI⟩ := reachable_inv hr hbig
  exact hI.nonOverlap

/-- The non-overlap theorem applied to the run `stRun`. -/
theorem non_overlap_invariant_witness :
    Reachable stRun ∧ mem_heapsize stRun.heap < 2 ^ 31 + 208 ∧ NonOverlap stRun :=
  ⟨reach_stRun, by decide, non_overlap_invariant stRun reach_stRun (by decide)⟩

/-- C10 fails as stated: after requests of `2^31`, `2^30 - 16` and 16 bytes
the pointers `6443499728` and `6443499744` are both live, and byte
`6443499744` lies in the payload range of both. -/
theorem non_overlap_counterexample :
    Reachable stOverlap ∧ 6443499728 ∈ stOverlap.live ∧ 6443499744 ∈ stOverlap.live ∧
      InRange stOverlap.heap.mem 6443499728 6443499744 ∧
      InRange stOverlap.heap.mem 6443499744 6443499744 ∧ ¬ NonOverlap stOverlap :=
  have h1 : 6443499728 ∈ stOverlap.live := by decide
  have h2 : 6443499744 ∈ stOverlap.live := by decide
  have r1 : InRange stOverlap.heap.mem 6443499728 6443499744 := by unfold InRange; decide
  have r2 : InRange stOverlap.heap.mem 6443499744 6443499744 := by unfold InRange; decide
  ⟨reach_stOverlap, h1, h2, r1, r2, fun hc => hc.1 _ _ h1 h2 (by decide) _ ⟨r1, r2⟩⟩

/-! ## Arena bounds along calls -/

theorem mm_init_brk (grant : Bool) (h : Heap) :
    (mm_init grant h).2.mem_start_brk = h.mem_start_brk ∧
    h.mem_brk ≤ (mm_init grant h).2.mem_brk := by
  by_cases hg : grant = true ∧ h.mem_brk + 8192 < 2 ^ 64
  · have hne : h.mem_brk ≠ 2 ^ 64 - 1 := by omega
    have e : (mm_init grant h).2.mem_start_brk = h.mem_start_brk ∧
        (mm_init grant h).2.mem_brk = h.mem_brk + 8192 := by
      unfold mm_init
      simp only [mem_sbrk, CHUNKSIZE, if_pos hg, SBRK_FAIL, if_neg hne]
      refine ⟨?_, ?_⟩ <;> first | trivial | rfl
    rw [e.1, e.2]
    exact ⟨rfl, Nat.le_add_right _ _⟩
  · rw [mm_init_fail grant h hg]
    exact ⟨rfl, le_refl _⟩

theorem mm_free_brk (h : Heap) (p : Nat) :
    (mm_free h p).mem_start_brk = h.mem_start_brk ∧ (mm_free h p).mem_brk = h.mem_brk :=
  ⟨rfl, rfl⟩

theorem mm_realloc_brk {grant : Bool} {h h3 : Heap} {ptr size q : Nat}
    (hr : mm_realloc grant h ptr size = some (q, h3)) :
    h3.mem_start_brk = h.mem_start_brk ∧ h.mem_brk ≤ h3.mem_brk := by
  unfold mm_realloc at hr
  by_cases h0 : (mm_malloc grant h size).1 = NULL
  · rw [if_pos h0] at hr
    cases hr
  · rw [if_neg h0] at hr
    have hb := mm_malloc_brk grant h size
    have e := congrArg (fun o => o.map (fun r => (r.2.mem_start_brk, r.2.mem_brk))) hr
    simp only [Option.map_some'] at e
    have e1 : (mm_malloc grant h size).2.mem_start_brk = h3.mem_start_brk :=
      congrArg Prod.fst (Option.some.inj e)
    have e2 : (mm_malloc grant h size).2.mem_brk = h3.mem_brk :=
      congrArg Prod.snd (Option.some.inj e)
    rw [← e1, ← e2]
    exact hb

theorem Calls.brk {h h2 : Heap} (c : Calls h h2) :
    h2.mem_start_brk = h.mem_start_brk ∧ h.mem_brk ≤ h2.mem_brk := by
  induction c with
  | refl => exact ⟨rfl, le_refl _⟩
  | init grant h2 _ ih =>
    have := mm_init_brk grant h2
    exact ⟨this.1.trans ih.1, le_trans ih.2 this.2⟩
  | malloc grant size h2 _ ih =>
    have := mm_malloc_brk grant h2 size
    exact ⟨this.1.trans ih.1, le_trans ih.2 this.2⟩
  | free p h2 _ ih => exact ih
  | realloc grant ptr size q h2 h3 _ hr ih =>
    have := mm_realloc_brk hr
    exact ⟨this.1.trans ih.1, le_trans ih.2 this.2⟩

theorem mm_malloc_fit_brk (grant : Bool) (h : Heap) (size : Nat)
    (hfit : find_fit h.segList h.mem (adjust_size size) ≠ NULL) :
    (mm_malloc grant h size).2.mem_brk = h.mem_brk := by
  by_cases hsz : size = 0
  · have hm : mm_malloc grant h size = (NULL, h) := by
      unfold mm_malloc; rw [if_pos hsz]
    rw [hm]
  · unfold mm_malloc
    rw [if_neg hsz]
    simp only [ne_eq, NULL, (show ¬ find_fit h.segList h.mem (adjust_size size) = 0 from hfit),
      not_false_eq_true, if_true]

theorem reachable_heapsize {s : St} (hr : Reachable s) : 8192 ≤ mem_heapsize s.heap := by
  induction hr with
  | init grant m0 base h =>
    by_cases hg : grant = true ∧ (fresh_heap m0 base).mem_brk + 8192 < 2 ^ 64
    · obtain ⟨_, e1, e2, _⟩ := mm_init_inv grant (fresh_heap m0 base) rfl hg
      show 8192 ≤ (mm_init grant (fresh_heap m0 base)).2.mem_brk -
        (mm_init grant (fresh_heap m0 base)).2.mem_start_brk
      rw [e1, e2]
      omega
    · rw [mm_init_fail grant _ hg] at h
      exact absurd h (by show ¬ ((-1 : Int) = 0); decide)
  | malloc grant s size _ _ ih =>
    exact le_trans ih (mm_malloc_heapsize grant s.heap size)
  | free s p _ _ ih => exact ih
  | write s a v _ _ ih => exact ih

/-! ## A heap without allocated blocks -/

theorem NoAdj_all_free : ∀ bs : List Blk, NoAdj bs → (∀ b, b ∈ bs → b.alloc = 0) →
    bs.length ≤ 1 := by
  intro bs hn hf
  cases bs with
  | nil => simp
  | cons b bs =>
    cases bs with
    | nil => simp
    | cons c bs =>
      have h1 := hf b (List.mem_cons_self _ _)
      have h2 := hf c (List.mem_cons_of_mem _ (List.mem_cons_self _ _))
      have := hn.1
      omega

/-- When nothing is live, the invariant leaves one free block. -/
theorem Inv.single {h : Heap} {bs : List Blk} (hI : Inv h [] bs)
    (hsz : 8192 ≤ mem_heapsize h) (hbig : mem_heapsize h < 2 ^ 31 + 208) :
    bs = [⟨h.segList + 192, mem_heapsize h - 8 - 192 - 8, 0⟩] := by
  have hfree : ∀ b, b ∈ bs → b.alloc = 0 := by
    intro b hb
    rcases alloc_cases (Tiled_mem_ok _ _ _ hI.tiled b hb) with h0 | h1
    · exact h0
    · exact absurd ((hI.live_iff (b.addr + 8)).2 ⟨b, hb, h1, rfl⟩) (List.not_mem_nil _)
  have hlen := NoAdj_all_free bs hI.noadj hfree
  have hseg := hI.seg
  have hpro := hI.pro
  have hbrk := hI.brk
  unfold mem_heapsize at hsz hbig ⊢
  cases bs with
  | nil =>
    have : h.segList + 192 = h.epilogue := hI.tiled
    omega
  | cons b bs =>
    cases bs with
    | cons c bs => simp at hlen
    | nil =>
      obtain ⟨ha, _, he⟩ := hI.tiled
      have he : h.segList + 192 + b.size = h.epilogue := he
      have h0 := hfree b (List.mem_cons_self _ _)
      cases b with
      | mk addr size alloc =>
        simp only at ha he h0
        subst ha
        subst h0
        have : size = h.mem_brk - h.mem_start_brk - 8 - 192 - 8 := by omega
        rw [this]

theorem Inv.singleFreeBlock {h : Heap} {bs : List Blk} (hI : Inv h [] bs)
    (hsz : 8192 ≤ mem_heapsize h) (hbig : mem_heapsize h < 2 ^ 31 + 208) :
    SingleFreeBlock h := by
  have hbs := hI.single hsz hbig
  unfold SingleFreeBlock
  generalize mem_heapsize h - 8 - 192 - 8 = T at hbs ⊢
  subst hbs
  obtain ⟨_, hok, he⟩ := hI.tiled
  have he : h.segList + 192 + T = h.epilogue := he
  obtain ⟨k1, k2, k3, k4, _, _⟩ := hok
  have k1 : GET_SIZE h.mem (h.segList + 192) = T := k1
  have k2 : GET_ALLOC h.mem (h.segList + 192) = 0 := k2
  have k3 : GET_SIZE h.mem (h.segList + 192 + T - 8) = T := k3
  have k4 : GET_ALLOC h.mem (h.segList + 192 + T - 8) = 0 := k4
  have hF : FTRP h.mem (h.segList + 192) = h.segList + 192 + T - 8 := by
    unfold FTRP HDRP; rw [k1]
  refine ⟨k1, k2, ?_, ?_, ?_⟩
  · unfold TagsAgree HDRP
    rw [hF, k1, k2, k3, k4]
    exact ⟨rfl, rfl⟩
  · unfold NEXT_BLKP
    rw [k1]; exact he
  · obtain ⟨fl, h1, h2⟩ := hI.list
    have hfree : ∀ x, FreeIn [(⟨h.segList + 192, T, 0⟩ : Blk)] x ↔ x = h.segList + 192 := by
      intro x
      constructor
      · rintro ⟨c, hc, hx, _⟩
        rw [List.mem_singleton] at hc
        subst hc
        exact hx.symm
      · intro hx
        exact ⟨⟨h.segList + 192, T, 0⟩, List.mem_singleton_self _, hx.symm, rfl⟩
    intro i hi
    obtain ⟨a1, _, a3, a4, a5⟩ := h1 i hi
    have hp := Seg_path _ _ _ a3 a4
    rw [← a1] at hp
    by_cases hic : i = calcList T
    · rw [if_pos hic]
      have : fl i = [h.segList + 192] := by
        apply nodup_singleton_of_mem a5
        intro x
        rw [h2 i hi, hfree]
        constructor
        · exact fun hx => hx.1
        · intro hx; rw [hx, k1]; exact ⟨rfl, hic.symm⟩
      rw [this] at hp
      exact hp
    · rw [if_neg hic]
      have : fl i = [] := by
        apply List.eq_nil_iff_forall_not_mem.2
        intro x hx
        obtain ⟨hx1, hx2⟩ := (h2 i hi x).1 hx
        rw [(hfree x).1 hx1, k1] at hx2
        exact hic hx2.symm
      rw [this] at hp
      exact hp

theorem reach_stTwoFreed : Reachable stTwoFreed :=
  Reachable.free _ _ (Reachable.free _ _ (Reachable.malloc true _ 24
    (Reachable.malloc true _ 24 reach_stInit (by decide)) (by decide)) (by decide)) (by decide)

theorem reach_stOne : Reachable stOne :=
  Reachable.malloc true _ 100 reach_stInit (by decide)

theorem copySize_eq_min (m : Mem) (ptr size : Nat) :
    copySize m ptr size = min size (GET_SIZE m (ptr - HSIZE)) := by
  unfold copySize
  simp only []
  split_ifs with h
  · exact (Nat.min_eq_left (Nat.le_of_lt h)).symm
  · exact (Nat.min_eq_right (Nat.le_of_not_lt h)).symm

/-- C13: `mm_malloc(0)` returns `NULL` and leaves the whole state unchanged:
the arena contents (headers, footers, link fields, so every free list), the
arena bounds and the globals. -/
theorem mm_malloc_zero (grant : Bool) (h : Heap) : mm_malloc grant h 0 = (NULL, h) := by
  unfold mm_malloc
  rw [if_pos rfl]

/-- C16 (amended): full coalescing.  In every reachable state whose arena is
smaller than `2^31 + 208` bytes and in which no payload is live, the user area
is one free block of `arena size - 8 - 192 - 8` bytes, and it is the only
member of any free list. -/
theorem full_coalescing (s : St) (hr : Reachable s)
    (hbig : mem_heapsize s.heap < 2 ^ 31 + 208) (hlive : s.live = []) :
    SingleFreeBlock s.heap := by
  obtain ⟨bs, hI⟩ := reachable_inv hr hbig
  rw [hlive] at hI
  exact hI.singleFreeBlock (reachable_heapsize hr) hbig

/-- The run of the specification (allocate 24, allocate 24, free the first,
free the second) leaves one free block of 7984 bytes. -/
theorem full_coalescing_witness :
    Reachable stTwoFreed ∧ mem_heapsize stTwoFreed.heap < 2 ^ 31 + 208 ∧
      stTwoFreed.live = [] ∧ SingleFreeBlock stTwoFreed.heap ∧
      mem_heapsize stTwoFreed.heap - 8 - 192 - 8 = 7984 :=
  ⟨reach_stTwoFreed, by decide, by decide,
    full_coalescing stTwoFreed reach_stTwoFreed (by decide) (by decide), by decide⟩

/-- C16 fails as stated: after `mm_malloc(2^31 - 8)` and `mm_free` of the
result nothing is live, but the block after the last list head has size field
0 and list 0 has two members. -/
theorem full_coalescing_counterexample :
    Reachable stFreed ∧ stFreed.live = [] ∧
      GET_SIZE stFreed.heap.mem (stFreed.heap.segList + 192) = 0 ∧
      IsPath stFreed.heap.mem (listHead stFreed.heap 0) [4296016072, 4296016080] NULL ∧
      ¬ SingleFreeBlock stFreed.heap :=
  have h0 : GET_SIZE stFreed.heap.mem (stFreed.heap.segList + 192) = 0 := by decide
  ⟨reach_stFreed, by decide, h0, by decide, fun hc => by
    have := hc.1
    rw [h0] at this
    exact absurd this (by decide)⟩

/-- C18: monotone arena.  Over every sequence of calls of `mm_init`,
`mm_malloc`, `mm_free` and `mm_realloc` the arena high bound does not
decrease; `mm_free` does not change it; and `mm_malloc` does not change it
when `find_fit` returns a block. -/
theorem arena_monotone :
    (∀ h h2 : Heap, Calls h h2 → mem_heap_hi h ≤ mem_heap_hi h2 ∧ h.mem_brk ≤ h2.mem_brk) ∧
    (∀ (h : Heap) (p : Nat),
      mem_heap_hi (mm_free h p) = mem_heap_hi h ∧ (mm_free h p).mem_brk = h.mem_brk) ∧
    (∀ (grant : Bool) (h : Heap) (size : Nat),
      find_fit h.segList h.mem (adjust_size size) ≠ NULL →
        mem_heap_hi (mm_malloc grant h size).2 = mem_heap_hi h ∧
        (mm_malloc grant h size).2.mem_brk = h.mem_brk) := by
  refine ⟨?_, ?_, ?_⟩
  · intro h h2 c
    have := c.brk.2
    unfold mem_heap_hi
    exact ⟨by omega, this⟩
  · intro h p
    exact ⟨rfl, rfl⟩
  · intro grant h size hfit
    have := mm_malloc_fit_brk grant h size hfit
    unfold mem_heap_hi
    rw [this]
    exact ⟨rfl, rfl⟩

/-- C20 (code bug): `mm_realloc` copies `min(new_size, old_size)` bytes,
where `old_size` is the size field of the old block, not
`min(new_size, old_size - 16)`.  For the block of 120 bytes that
`mm_malloc(100)` returns after `mm_init` and `new_size = 200` the copy length
is 120, while the old payload has 104 bytes. -/
theorem realloc_copy_length :
    Reachable stOne ∧ 4296016080 ∈ stOne.live ∧
      GET_SIZE stOne.heap.mem (4296016080 - HSIZE) = 120 ∧
      (mm_malloc true stOne.heap 200).1 ≠ NULL ∧
      copySize (mm_malloc true stOne.heap 200).2.mem 4296016080 200 = 120 ∧
      min 200 (GET_SIZE stOne.heap.mem (4296016080 - HSIZE) - 16) = 104 :=
  ⟨reach_stOne, by decide, by decide, by decide, by decide, by decide⟩

/-! ## The result of `coalesce`, stated once for the four cases -/

theorem absorbPrev_nil : absorbPrev [] = 0 := rfl

theorem keepPrev_nil : keepPrev [] = [] := rfl

theorem absorbPrev_snoc (l : List Blk) (p : Blk) :
    absorbPrev (l ++ [p]) = if p.alloc = 0 then p.size else 0 := by
  unfold absorbPrev
  rw [List.getLast?_append, List.getLast?_singleton]
  rfl

theorem keepPrev_snoc (l : List Blk) (p : Blk) :
    keepPrev (l ++ [p]) = if p.alloc = 0 then l else l ++ [p] := by
  unfold keepPrev
  rw [List.getLast?_append, List.getLast?_singleton]
  show (if p.alloc = 0 then (l ++ [p]).dropLast else l ++ [p]) = _
  rw [List.dropLast_concat]

theorem absorbPrev_alloc (l1 : List Blk) (hall : ∀ l p, l1 = l ++ [p] → p.alloc = 1) :
    absorbPrev l1 = 0 ∧ keepPrev l1 = l1 := by
  rcases snoc_cases l1 with h | ⟨l, p, h⟩
  · subst h; exact ⟨rfl, rfl⟩
  · subst h
    have := hall l p rfl
    rw [absorbPrev_snoc, keepPrev_snoc, if_neg (by omega), if_neg (by omega)]
    exact ⟨rfl, rfl⟩

theorem absorbNext_alloc (l2 : List Blk) (hall : ∀ n l, l2 = n :: l → n.alloc = 1) :
    absorbNext l2 = 0 ∧ keepNext l2 = l2 := by
  cases l2 with
  | nil => exact ⟨rfl, rfl⟩
  | cons n l =>
    have := hall n l rfl
    constructor
    · show (if n.alloc = 0 then n.size else 0) = 0
      rw [if_neg (by omega)]
    · show (if n.alloc = 0 then l else n :: l) = n :: l
      rw [if_neg (by omega)]

theorem erase_not_listed {seg : Nat} {m : Mem} {fl : Nat → List Nat} {L : Nat → Prop}
    (hfl : ListsAt seg m fl L) {x : Nat} (hx : ¬ L x) (i : Nat) (hi : i < 6) :
    (fl i).erase x = fl i :=
  List.erase_of_not_mem (fun h => hx ((hfl.2.2.1 i hi x).1 h).1)

theorem CoalIn.not_listed_self {seg : Nat} {m : Mem} {l1 l2 : List Blk} {B s e : Nat}
    (H : CoalIn seg m l1 B s l2 e (fun x => FreeIn l1 x ∨ FreeIn l2 x)) :
    ¬ (FreeIn l1 B ∨ FreeIn l2 B) := by
  intro h
  have := H.side B h
  have := H.h8
  omega

theorem CoalIn.not_listed_next {seg : Nat} {m : Mem} {l1 l2 : List Blk} {B s e : Nat}
    (H : CoalIn seg m l1 B s l2 e (fun x => FreeIn l1 x ∨ FreeIn l2 x))
    (hall : ∀ n l, l2 = n :: l → n.alloc = 1) : ¬ (FreeIn l1 (B + s) ∨ FreeIn l2 (B + s)) := by
  rintro (h | ⟨c, hc, hca, hc0⟩)
  · have := FreeIn_left H.t1 h
    omega
  · cases l2 with
    | nil => exact absurd hc (List.not_mem_nil c)
    | cons n l =>
      have hn : n.addr = B + s := H.t2.1
      have : c = n := Tiled_addr_inj H.t2 hc (List.mem_cons_self n l) (by omega)
      have := hall n l rfl
      subst c
      omega

/-- What `coalesce` achieves: the free neighbours of the block are absorbed,
the merged block is the head of the list of its class, and outside the merged
block only link words of listed blocks and list heads are written. -/
theorem coalesce_full {seg : Nat} {m : Mem} {l1 l2 : List Blk} {B s e : Nat}
    {fl : Nat → List Nat}
    (H : CoalIn seg m l1 B s l2 e (fun x => FreeIn l1 x ∨ FreeIn l2 x))
    (hfl : ListsAt seg m fl (fun x => FreeIn l1 x ∨ FreeIn l2 x))
    (hN1 : NoAdj l1) (hN2 : NoAdj l2)
    (hsmall : 32 ≤ s ∨ (l2 = [] ∧ ∃ l p, l1 = l ++ [p] ∧ p.alloc = 0)) :
    (coalesce seg m B).2 = B - absorbPrev l1 ∧
    Tiled (coalesce seg m B).1 (seg + 192) (mergedSeq l1 ⟨B, s, 0⟩ l2) e ∧
    Sentinels seg (coalesce seg m B).1 e ∧
    ListsAt seg (coalesce seg m B).1 (mergedLists fl B s (absorbPrev l1) (absorbNext l2))
      (FreeIn (mergedSeq l1 ⟨B, s, 0⟩ l2)) ∧
    NoAdj (mergedSeq l1 ⟨B, s, 0⟩ l2) ∧
    (∀ x, LinkFree seg (fun y => FreeIn l1 y ∨ FreeIn l2 y) x →
      (x < B - absorbPrev l1 ∨ (B + s + absorbNext l2 ≤ x ∧ x ≤ e)) →
      (coalesce seg m B).1.rd x = m.rd x) := by
  have hb1 := Tiled_bounds _ _ _ H.t1
  have hself := H.not_listed_self
  have herB : ∀ i, i < 6 → ∀ l : List Nat, (∀ x, x ∈ l → x ∈ fl i) → l.erase B = l := by
    intro i hi l hl
    exact List.erase_of_not_mem (fun h => hself ((hfl.2.2.1 i hi B).1 (hl B h)).1)
  -- the block before
  have hprev : (GET_ALLOC m (FTRP m (PREV_BLKP m B)) ≠ 0 ∧ (∀ l p, l1 = l ++ [p] → p.alloc = 1)) ∨
      (∃ l p, l1 = l ++ [p] ∧ p.alloc = 0) := by
    rcases snoc_cases l1 with h | ⟨l, p, h⟩
    · left
      have hB : seg + 192 = B := by have := H.t1; rw [h] at this; exact this
      constructor
      · rw [← hB, (prev_read_nil H.sent).2]; decide
      · intro l p hl; rw [h] at hl; simp at hl
    · have ht := H.t1
      rw [h] at ht
      obtain ⟨_, hpa, _, hpok⟩ := prev_read_snoc ht
      rcases alloc_cases hpok with h0 | h1
      · right; exact ⟨l, p, h, h0⟩
      · left
        constructor
        · rw [hpa, h1]; decide
        · intro l' p' hl
          rw [h] at hl
          have := List.append_inj' hl rfl
          have e1 : p = p' := by simpa using this.2
          rw [← e1]; exact h1
  -- the block after
  have hnext : (GET_ALLOC m (NEXT_BLKP m B) ≠ 0 ∧ (∀ n l, l2 = n :: l → n.alloc = 1)) ∨
      (∃ n l, l2 = n :: l ∧ n.alloc = 0) := by
    cases hl2 : l2 with
    | nil =>
      left
      have ht := H.t2
      rw [hl2] at ht
      constructor
      · rw [(next_read_nil H.s1 H.sent ht).2]; decide
      · intro n l hl; exact absurd hl (by simp)
    | cons n l =>
      have ht := H.t2
      rw [hl2] at ht
      obtain ⟨_, hna, hnok⟩ := next_read_cons H.s1 ht
      rcases alloc_cases hnok with h0 | h1
      · right; exact ⟨n, l, rfl, h0⟩
      · left
        constructor
        · rw [hna, h1]; decide
        · intro n' l' hl
          have e1 : n = n' := by simpa using (List.cons.inj hl).1
          rw [← e1]; exact h1
  rcases hprev with ⟨hp, hpall⟩ | ⟨l1r, p, hl1, hp0⟩ <;>
    rcases hnext with ⟨hn, hnall⟩ | ⟨n, l2r, hl2, hn0⟩
  · -- case I
    have h32 : 32 ≤ s := by
      rcases hsmall with h | ⟨_, l, p, hl, hp0⟩
      · exact h
      · have := hpall l p hl; omega
    obtain ⟨ea, ek⟩ := absorbPrev_alloc l1 hpall
    obtain ⟨ec, ekn⟩ := absorbNext_alloc l2 hnall
    have hnotN := H.not_listed_next hnall
    obtain ⟨c1, c2, c3, c4, c5⟩ := coalesce_case1_full H hfl hp hn h32
    simp only [mergedSeq, ea, ek, ec, ekn, Nat.sub_zero, Nat.add_zero]
    refine ⟨c1, c2, c3, ListsAt_congr_fl ?_ c4, ?_, ?_⟩
    · intro i hi
      unfold mergedLists
      simp only [Nat.sub_zero, Nat.add_zero]
      rw [erase_not_listed hfl hnotN i hi, herB i hi _ (fun x hx => hx)]
    · exact NoAdj_glue l1 l2 _ (NoAdj_snoc_prev l1 _ hN1 hpall) (NoAdj_cons_next l2 _ hN2 hnall)
    · intro x hx hxr
      exact c5 x hx hxr
  · -- case II
    subst hl2
    have h32 : 32 ≤ s := by
      rcases hsmall with h | ⟨h, _⟩
      · exact h
      · exact absurd h (by simp)
    obtain ⟨ea, ek⟩ := absorbPrev_alloc l1 hpall
    have ec : absorbNext (n :: l2r) = n.size := by
      show (if n.alloc = 0 then n.size else 0) = n.size
      rw [if_pos hn0]
    have ekn : keepNext (n :: l2r) = l2r := by
      show (if n.alloc = 0 then l2r else n :: l2r) = l2r
      rw [if_pos hn0]
    have hnaddr : n.addr = B + s := H.t2.1
    obtain ⟨c1, c2, c3, c4, c5⟩ := coalesce_case2_full H hfl hp hn0 h32
    simp only [mergedSeq, ea, ek, ec, ekn, Nat.sub_zero, Nat.zero_add]
    refine ⟨c1, c2, c3, ListsAt_congr_fl ?_ c4, ?_, ?_⟩
    · intro i hi
      unfold mergedLists
      simp only [Nat.sub_zero, Nat.zero_add, hnaddr]
      rw [herB i hi _ (fun x hx => List.mem_of_mem_erase hx)]
    · exact NoAdj_glue l1 l2r _ (NoAdj_snoc_prev l1 _ hN1 hpall)
        (NoAdj_cons_congr (b := n) (by rw [hn0]) l2r hN2)
    · intro x hx hxr
      exact c5 x hx (by omega)
  · -- case III
    subst hl1
    have h32 : 32 ≤ s ∨ l2 = [] := by
      rcases hsmall with h | ⟨h, _⟩
      · exact Or.inl h
      · exact Or.inr h
    have ea : absorbPrev (l1r ++ [p]) = p.size := by rw [absorbPrev_snoc, if_pos hp0]
    have ek : keepPrev (l1r ++ [p]) = l1r := by rw [keepPrev_snoc, if_pos hp0]
    obtain ⟨ec, ekn⟩ := absorbNext_alloc l2 hnall
    have hnotN := H.not_listed_next hnall
    obtain ⟨_, _, hpB, hpok⟩ := prev_read_snoc H.t1
    have hpaddr : B - p.size = p.addr := by omega
    obtain ⟨c1, c2, c3, c4, c5⟩ := coalesce_case3_full H hfl hp0 hn h32
    simp only [mergedSeq, ea, ek, ec, ekn, Nat.add_zero, hpaddr]
    refine ⟨c1, c2, c3, ListsAt_congr_fl ?_ c4, ?_, ?_⟩
    · intro i hi
      unfold mergedLists
      simp only [Nat.add_zero, hpaddr]
      rw [erase_not_listed hfl hnotN i hi]
    · exact NoAdj_glue l1r l2 _ (NoAdj_snoc_congr (b := p) (by rw [hp0]) l1r hN1)
        (NoAdj_cons_next l2 _ hN2 hnall)
    · intro x hx hxr
      exact c5 x hx (by omega)
  · -- case IV
    subst hl1
    subst hl2
    have h32 : 32 ≤ s := by
      rcases hsmall with h | ⟨h, _⟩
      · exact h
      · exact absurd h (by simp)
    have ea : absorbPrev (l1r ++ [p]) = p.size := by rw [absorbPrev_snoc, if_pos hp0]
    have ek : keepPrev (l1r ++ [p]) = l1r := by rw [keepPrev_snoc, if_pos hp0]
    have ec : absorbNext (n :: l2r) = n.size := by
      show (if n.alloc = 0 then n.size else 0) = n.size
      rw [if_pos hn0]
    have ekn : keepNext (n :: l2r) = l2r := by
      show (if n.alloc = 0 then l2r else n :: l2r) = l2r
      rw [if_pos hn0]
    have hnaddr : n.addr = B + s := H.t2.1
    obtain ⟨_, _, hpB, hpok⟩ := prev_read_snoc H.t1
    have hpaddr : B - p.size = p.addr := by omega
    obtain ⟨c1, c2, c3, c4, c5⟩ := coalesce_case4_full H hfl hp0 hn0 h32
    simp only [mergedSeq, ea, ek, ec, ekn, hpaddr]
    refine ⟨c1, c2, c3, ListsAt_congr_fl ?_ c4, ?_, ?_⟩
    · intro i hi
      unfold mergedLists
      simp only [hpaddr, hnaddr]
    · exact NoAdj_glue l1r l2r _ (NoAdj_snoc_congr (b := p) (by rw [hp0]) l1r hN1)
        (NoAdj_cons_congr (b := n) (by rw [hn0]) l2r hN2)
    · intro x hx hxr
      exact c5 x hx (by omega)

/-! ## The result of `mm_free` -/

theorem mem_keepPrev_alloc (l : List Blk) (c : Blk) (hc : c.alloc = 1) :
    c ∈ keepPrev l ↔ c ∈ l := by
  rcases snoc_cases l with h | ⟨l0, p, h⟩
  · subst h; exact Iff.rfl
  · subst h
    rw [keepPrev_snoc]
    by_cases hp : p.alloc = 0
    · rw [if_pos hp]
      simp only [List.mem_append, List.mem_singleton]
      constructor
      · exact Or.inl
      · rintro (h | h)
        · exact h
        · subst h; omega
    · rw [if_neg hp]

theorem mem_keepNext_alloc (l : List Blk) (c : Blk) (hc : c.alloc = 1) :
    c ∈ keepNext l ↔ c ∈ l := by
  cases l with
  | nil => exact Iff.rfl
  | cons n l =>
    show c ∈ (if n.alloc = 0 then l else n :: l) ↔ _
    by_cases hn : n.alloc = 0
    · rw [if_pos hn]
      simp only [List.mem_cons]
      constructor
      · exact Or.inr
      · rintro (h | h)
        · subst h; omega
        · exact h
    · rw [if_neg hn]

theorem mem_mergedSeq_alloc (l1 l2 : List Blk) (b c : Blk) (hc : c.alloc = 1) :
    c ∈ mergedSeq l1 b l2 ↔ (c ∈ l1 ∨ c ∈ l2) := by
  unfold mergedSeq
  simp only [List.mem_append, List.mem_cons]
  rw [mem_keepPrev_alloc l1 c hc, mem_keepNext_alloc l2 c hc]
  constructor
  · rintro (h | h | h)
    · exact Or.inl h
    · rw [h] at hc; simp at hc
    · exact Or.inr h
  · rintro (h | h)
    · exact Or.inl h
    · exact Or.inr (Or.inr h)

/-- What `mm_free` achieves on the block `b` of the sequence `l1 ++ b :: l2`. -/
theorem mm_free_full {h : Heap} {live : List Nat} {l1 l2 : List Blk} {b : Blk}
    {fl : Nat → List Nat}
    (hI : Inv h live (l1 ++ b :: l2)) (hb : b.alloc = 1)
    (hbig : mem_heapsize h < 2 ^ 31 + 208)
    (hfl : ListsAt h.segList h.mem fl (FreeIn (l1 ++ b :: l2))) :
    mm_free_block h (b.addr + 8) = b.addr - absorbPrev l1 ∧
    Inv (mm_free h (b.addr + 8)) (live.erase (b.addr + 8)) (mergedSeq l1 b l2) ∧
    ListsAt h.segList (mm_free h (b.addr + 8)).mem
      (mergedLists fl b.addr b.size (absorbPrev l1) (absorbNext l2))
      (FreeIn (mergedSeq l1 b l2)) ∧
    (∀ x, LinkFree h.segList (FreeIn (l1 ++ b :: l2)) x →
      (x < b.addr - absorbPrev l1 ∨
        (b.addr + b.size + absorbNext l2 ≤ x ∧ x ≤ h.epilogue)) →
      (mm_free h (b.addr + 8)).mem.rd x = h.mem.rd x) := by
  obtain ⟨hmm, H⟩ := free_coalin hI hb hbig
  obtain ⟨hT1, hbok, hT2⟩ := Tiled_split hI.tiled
  obtain ⟨hs1, hal1, hs2, hal2, h32, h8⟩ := hbok
  have hN := (NoAdj_append_cons l1 l2 b).1 hI.noadj
  have hB1 := (Tiled_bounds l1 _ _ hT1)
  have hB2 := (Tiled_bounds l2 _ _ hT2)
  have h8s := hI.sent.2.2.2
  have hlt := GET_SIZE_lt h.mem b.addr
  rw [hs1] at hlt
  have hmod : b.size % 2 ^ 31 = b.size := Nat.mod_eq_of_lt hlt
  have hblk : mm_free_block h (b.addr + 8) = (coalesce h.segList
      (PACK (PACK h.mem b.addr b.size 0) (b.addr + b.size - 8) b.size 0) b.addr).2 := by
    unfold mm_free_block
    have e0 : b.addr + 8 - HSIZE = b.addr := by show b.addr + 8 - 8 = b.addr; omega
    simp only [e0, HDRP, hs1, FREE]
    have e1 : GET_SIZE (PACK h.mem b.addr b.size 0) b.addr = b.size := by
      rw [GET_SIZE_PACK, if_pos rfl, hmod]
    rw [PACK_FTRP_eq _ _ _ _ (Or.inl (by rw [e1]; omega)), e1]
  rw [hblk, hmm]
  generalize hm2def : PACK (PACK h.mem b.addr b.size 0) (b.addr + b.size - 8) b.size 0 = m2
    at H
  have hrd : ∀ x, x ≠ b.addr → x ≠ b.addr + b.size - 8 → m2.rd x = h.mem.rd x := by
    intro x h1 h2
    rw [← hm2def, rd_PACK _ _ _ _ _ h2, rd_PACK _ _ _ _ _ h1]
  have hsubL : ∀ x, (FreeIn l1 x ∨ FreeIn l2 x) ↔ FreeIn (l1 ++ b :: l2) x := by
    intro x
    simp only [FreeIn_append, FreeIn_cons]
    constructor
    · rintro (h | h)
      · exact Or.inl h
      · exact Or.inr (Or.inr h)
    · rintro (h | ⟨_, h⟩ | h)
      · exact Or.inl h
      · rw [hb] at h; exact absurd h (by decide)
      · exact Or.inr h
  have hfl2 : ListsAt h.segList m2 fl (fun x => FreeIn l1 x ∨ FreeIn l2 x) := by
    have hL0 : ListsAt h.segList h.mem fl (fun x => FreeIn l1 x ∨ FreeIn l2 x) :=
      ListsAt_pred (fun x => (hsubL x).symm) hfl
    refine ListsAt_congr ?_ ?_ hL0
    · intro x hx
      have : (h.segList + 192 ≤ x ∧ x + 32 ≤ b.addr) ∨ b.addr + b.size ≤ x := by
        rcases hx with hx | hx
        · exact Or.inl (FreeIn_left hT1 hx)
        · exact Or.inr (FreeIn_left hT2 hx).1
      exact ⟨GET_SIZE_congr (hrd _ (by omega) (by omega)), hrd _ (by omega) (by omega),
        hrd _ (by omega) (by omega)⟩
    · intro i hi
      exact ⟨hrd _ (by omega) (by omega), hrd _ (by omega) (by omega)⟩
  obtain ⟨c1, c2, c3, c4, c5, c6⟩ :=
    coalesce_full H hfl2 (NoAdj_init l1 hN.1) (NoAdj_tail l2 hN.2) (Or.inl h32)
  have hseq : mergedSeq l1 ⟨b.addr, b.size, 0⟩ l2 = mergedSeq l1 b l2 := rfl
  rw [hseq] at c2 c4 c5
  refine ⟨c1, ?_, c4, ?_⟩
  · refine hI.update _ _ _ c2 c3 ⟨_, c4⟩ c5 ?_ (hI.nodup.erase _)
    intro q
    rw [hI.nodup.mem_erase_iff, hI.live_iff]
    constructor
    · rintro ⟨hne, c, hc, hca, hq⟩
      refine ⟨c, (mem_mergedSeq_alloc l1 l2 b c hca).2 ?_, hca, hq⟩
      rcases List.mem_append.1 hc with h | h
      · exact Or.inl h
      · rcases List.mem_cons.1 h with h | h
        · subst h; exact absurd hq hne
        · exact Or.inr h
    · rintro ⟨c, hc, hca, hq⟩
      rcases (mem_mergedSeq_alloc l1 l2 b c hca).1 hc with h | h
      · have := hB1.2 c h
        have := (Tiled_mem_ok l1 _ _ hT1 c h).2.2.2.2.1
        exact ⟨by omega, c, List.mem_append_left _ h, hca, hq⟩
      · have := hB2.2 c h
        exact ⟨by omega, c, List.mem_append_right _ (List.mem_cons_of_mem _ h), hca, hq⟩
  · intro x hx hxr
    show (coalesce h.segList m2 b.addr).1.rd x = h.mem.rd x
    rw [c6 x (LinkFree_mono (fun y hy => (hsubL y).1 hy) hx) hxr]
    exact hrd x (by omega) (by omega)

/-! ## Words that `mm_malloc` leaves alone -/

theorem Protected.linkFree {seg : Nat} {m : Mem} {bs : List Blk} {a e x : Nat}
    (hT : Tiled m a bs e) (hx : Protected seg bs x) : LinkFree seg (FreeIn bs) x := by
  refine ⟨?_, hx.2⟩
  rintro y ⟨f, hf, hfy, hf0⟩
  have := hx.1 f hf hf0
  have := (Tiled_mem_ok _ _ _ hT f hf).2.2.2.2.1
  omega

theorem mem_keepPrev (l : List Blk) (c : Blk) (hc : c ∈ keepPrev l) : c ∈ l := by
  rcases snoc_cases l with h | ⟨l0, p, h⟩
  · subst h; exact hc
  · subst h
    rw [keepPrev_snoc] at hc
    by_cases hp : p.alloc = 0
    · rw [if_pos hp] at hc; exact List.mem_append_left _ hc
    · rw [if_neg hp] at hc; exact hc

theorem mem_keepNext (l : List Blk) (c : Blk) (hc : c ∈ keepNext l) : c ∈ l := by
  cases l with
  | nil => exact hc
  | cons n l =>
    have hc : c ∈ (if n.alloc = 0 then l else n :: l) := hc
    by_cases hn : n.alloc = 0
    · rw [if_pos hn] at hc; exact List.mem_cons_of_mem _ hc
    · rw [if_neg hn] at hc; exact hc

theorem FreeIn_mergedSeq {l1 l2 : List Blk} {b : Blk} {y : Nat}
    (hy : FreeIn (mergedSeq l1 b l2) y) :
    y = b.addr - absorbPrev l1 ∨ FreeIn l1 y ∨ FreeIn l2 y := by
  obtain ⟨c, hc, hcy, hc0⟩ := hy
  unfold mergedSeq at hc
  rcases List.mem_append.1 hc with h | h
  · exact Or.inr (Or.inl ⟨c, mem_keepPrev l1 c h, hcy, hc0⟩)
  · rcases List.mem_cons.1 h with h | h
    · left; rw [← hcy, h]
    · exact Or.inr (Or.inr ⟨c, mem_keepNext l2 c h, hcy, hc0⟩)

/-- Outside the block it places in, `place` writes only link words of listed
blocks and list heads. -/
theorem place_frame {seg : Nat} {m : Mem} {bs : List Blk} {e asize : Nat}
    (hT : Tiled m (seg + 192) bs e) (hS : Sentinels seg m e)
    (hL : Lists seg m (FreeIn bs))
    {r : Blk} (hr : r ∈ bs) (hr0 : r.alloc = 0)
    (ha1 : 32 ≤ asize) (ha2 : asize % 8 = 0) (ha3 : asize ≤ r.size) :
    ∀ x, LinkFree seg (FreeIn bs) x → (x < r.addr ∨ r.addr + r.size ≤ x) →
      (place seg m r.addr asize).rd x = m.rd x := by
  obtain ⟨l1, l2, hsplit⟩ := List.append_of_mem hr
  subst hsplit
  obtain ⟨fl, hfl⟩ := hL
  by_cases hw : r.size - asize < 32
  · exact (place_whole_full seg m fl l1 l2 r e asize hT hS hfl hr0 ha3 hw).2.2.2
  · exact (place_split_full seg m fl l1 l2 r e asize hT hS hfl hr0 ha1 ha2 ha3 hw).2.2.2

/-- Placing in a free block of the current sequence: the invariant holds
afterwards, the block at the same address is allocated with at least `asize`
bytes, and words outside the block that are not link words are kept. -/
theorem place_inv_full {h : Heap} {live : List Nat} {bs : List Blk} (hI : Inv h live bs)
    {r : Blk} (hr : r ∈ bs) (hr0 : r.alloc = 0) {asize : Nat}
    (ha1 : 32 ≤ asize) (ha2 : asize % 8 = 0) (ha3 : asize ≤ r.size) :
    ∃ bs2 c, Inv { h with mem := place h.segList h.mem r.addr asize } ((r.addr + 8) :: live) bs2 ∧
      c ∈ bs2 ∧ c.addr = r.addr ∧ c.alloc = 1 ∧ asize ≤ c.size ∧
      (∀ x, LinkFree h.segList (FreeIn bs) x → (x < r.addr ∨ r.addr + r.size ≤ x) →
        (place h.segList h.mem r.addr asize).rd x = h.mem.rd x) := by
  obtain ⟨bs2, c1, c2, c3, c4, c5, c, hc, hca, hc1, hcs⟩ :=
    place_total hI.tiled hI.sent hI.lists hI.noadj hr hr0 ha1 ha2 ha3
  refine ⟨bs2, c, hI.update _ bs2 _ c1 c2 c3 c4 ?_ ?_, hc, hca, hc1, hcs,
    place_frame hI.tiled hI.sent hI.lists hr hr0 ha1 ha2 ha3⟩
  · intro q
    rw [c5 q, List.mem_cons, hI.live_iff]
  · refine List.nodup_cons.2 ⟨?_, hI.nodup⟩
    intro hmem
    obtain ⟨c, hc, hca, hq⟩ := (hI.live_iff _).1 hmem
    have : c = r := Tiled_addr_inj hI.tiled hc hr (by omega)
    rw [this, hr0] at hca
    exact absurd hca (by decide)

theorem mm_malloc_fit_eq (grant : Bool) (h : Heap) (size : Nat) (hsz : size ≠ 0) (blk : Nat)
    (hfdef : find_fit h.segList h.mem (adjust_size size) = blk) (hfit : blk ≠ 0) :
    mm_malloc grant h size =
      (blk + 8, { h with mem := place h.segList h.mem blk (adjust_size size) }) := by
  unfold mm_malloc
  rw [if_neg hsz]
  simp only [hfdef]
  rw [if_pos hfit]
  rfl

/-- The block `find_fit` returns is a free block of the sequence with room
for the request. -/
theorem Inv.fit_block {h : Heap} {live : List Nat} {bs : List Blk} (hI : Inv h live bs)
    (asize : Nat) (hfit : find_fit h.segList h.mem asize ≠ 0) :
    ∃ r, r ∈ bs ∧ r.addr = find_fit h.segList h.mem asize ∧ r.alloc = 0 ∧ asize ≤ r.size := by
  obtain ⟨hfree, hge⟩ := find_fit_spec h.segList h.mem _ _ hI.lists hfit
  obtain ⟨r, hr, hra, hr0⟩ := hfree
  have hrok := Tiled_mem_ok _ _ _ hI.tiled r hr
  rw [← hra, hrok.1] at hge
  exact ⟨r, hr, hra, hr0, hge⟩

/-! ## The result of `mm_malloc` -/

/-- What `extend_heap` achieves when the arena grows: the new block, merged
with a free last block, ends the block sequence, and below it only link words
of listed blocks and list heads are written. -/
theorem extend_heap_full {h : Heap} {live : List Nat} {bs : List Blk} (hI : Inv h live bs)
    (grant : Bool) (words : Nat)
    (hsmall : 32 ≤ words * 8 % 2 ^ 32 ∨ ∃ l p, bs = l ++ [p] ∧ p.alloc = 0)
    (hbig : mem_heapsize (extend_heap grant h words).2 < 2 ^ 31 + 208) :
    ((extend_heap grant h words).1 = 0 ∧ (extend_heap grant h words).2 = h) ∨
    ∃ (bs2 : List Blk) (r : Blk),
      (extend_heap grant h words).1 = r.addr ∧
      Inv (extend_heap grant h words).2 live bs2 ∧ r ∈ bs2 ∧ r.alloc = 0 ∧
      (extend_heap grant h words).2.segList = h.segList ∧
      r.addr = h.epilogue - absorbPrev bs ∧
      r.size = words * 8 % 2 ^ 32 + absorbPrev bs ∧
      (∀ y, FreeIn bs2 y → y = r.addr ∨ FreeIn bs y) ∧
      (∀ x, LinkFree h.segList (FreeIn bs) x → x < h.epilogue - absorbPrev bs →
        (extend_heap grant h words).2.mem.rd x = h.mem.rd x) := by
  generalize hszdef : words * 8 % 2 ^ 32 = sz at hsmall
  have hsz8 : sz % 8 = 0 := by omega
  by_cases hz : sz = 0
  · left
    unfold extend_heap
    simp only [hszdef, if_pos hz]
    refine ⟨?_, ?_⟩ <;> first | rfl | trivial
  by_cases hg : grant = true ∧ h.mem_brk + sz < 2 ^ 64
  swap
  · left
    unfold extend_heap
    simp only [hszdef, if_neg hz, mem_sbrk, if_neg hg, SBRK_FAIL, NULL, if_true]
    refine ⟨?_, ?_⟩ <;> first | rfl | trivial
  right
  have hbe := hI.brk
  have hpro := hI.pro
  have hseg := hI.seg
  have hTb := Tiled_bounds _ _ _ hI.tiled
  have h8s := hI.sent.2.2.2
  have hne : h.mem_brk ≠ 2 ^ 64 - 1 := by omega
  have hsz31 : sz < 2 ^ 31 := by
    have e0 : (extend_heap grant h words).2.mem_brk = h.mem_brk + sz ∧
        (extend_heap grant h words).2.mem_start_brk = h.mem_start_brk := by
      unfold extend_heap
      simp only [hszdef, if_neg hz, mem_sbrk, if_pos hg, SBRK_FAIL, if_neg hne]
      refine ⟨?_, ?_⟩ <;> first | rfl | trivial
    unfold mem_heapsize at hbig
    rw [e0.1, e0.2] at hbig
    omega
  have hm : extend_heap grant h words =
      ((coalesce h.segList (PACK (PACK (PACK h.mem h.epilogue sz 0) (h.epilogue + sz - 8) sz 0)
          (h.epilogue + sz) 0 1) h.epilogue).2,
        { h with mem_brk := h.mem_brk + sz
                 mem := (coalesce h.segList
                   (PACK (PACK (PACK h.mem h.epilogue sz 0) (h.epilogue + sz - 8) sz 0)
                     (h.epilogue + sz) 0 1) h.epilogue).1
                 epilogue := h.epilogue + sz }) := by
    have e1 : h.mem_brk - 8 = h.epilogue := by omega
    have hmod : sz % 2 ^ 31 = sz := Nat.mod_eq_of_lt hsz31
    have e2 : GET_SIZE (PACK h.mem h.epilogue sz 0) h.epilogue = sz := by
      rw [GET_SIZE_PACK, if_pos rfl, hmod]
    have e3 : PACK_FTRP (PACK h.mem h.epilogue sz 0) h.epilogue sz 0 =
        PACK (PACK h.mem h.epilogue sz 0) (h.epilogue + sz - 8) sz 0 := by
      rw [PACK_FTRP_eq _ _ _ _ (Or.inr (by rw [e2, hmod])), e2]
    have e4 : NEXT_BLKP (PACK (PACK h.mem h.epilogue sz 0) (h.epilogue + sz - 8) sz 0)
        h.epilogue = h.epilogue + sz := by
      unfold NEXT_BLKP
      rw [GET_SIZE_PACK]
      split_ifs
      · rw [hmod]
      · rw [e2]
    unfold extend_heap
    simp only [hszdef, if_neg hz, mem_sbrk, if_pos hg, SBRK_FAIL, if_neg hne, HSIZE, HDRP, FREE,
      ALLOC, e1, e3, e4]
  rw [hm]
  generalize hm3def : PACK (PACK (PACK h.mem h.epilogue sz 0) (h.epilogue + sz - 8) sz 0)
      (h.epilogue + sz) 0 1 = m3
  have hmod : sz % 2 ^ 31 = sz := Nat.mod_eq_of_lt hsz31
  have hrd : ∀ x, x < h.epilogue → m3.rd x = h.mem.rd x := by
    intro x hx
    rw [← hm3def, rd_PACK _ _ _ _ _ (by omega), rd_PACK _ _ _ _ _ (by omega),
      rd_PACK _ _ _ _ _ (by omega)]
  have htags : GET_SIZE m3 h.epilogue = sz ∧ GET_ALLOC m3 h.epilogue = 0 ∧
      GET_SIZE m3 (h.epilogue + sz - 8) = sz ∧ GET_ALLOC m3 (h.epilogue + sz - 8) = 0 ∧
      GET_SIZE m3 (h.epilogue + sz) = 0 ∧ GET_ALLOC m3 (h.epilogue + sz) = 1 := by
    rw [← hm3def]
    simp only [GET_SIZE_PACK, GET_ALLOC_PACK, hmod]
    refine ⟨?_, ?_, ?_, ?_, ?_, ?_⟩ <;> split_ifs <;> first | rfl | omega
  have H : CoalIn h.segList m3 bs h.epilogue sz [] (h.epilogue + sz)
      (fun x => FreeIn bs x ∨ FreeIn [] x) := by
    refine ⟨?_, htags.1, htags.2.1, htags.2.2.1, htags.2.2.2.1, by omega, hsz8, rfl, ?_, ?_,
      fun y hy => hy, ?_⟩
    · refine Tiled_congr bs _ _ ?_ hI.tiled
      intro c hc
      have := hTb.2 c hc
      have := (Tiled_mem_ok _ _ _ hI.tiled c hc).2.2.2.2.1
      exact ⟨hrd _ (by omega), hrd _ (by omega)⟩
    · have hS := hI.sent
      refine ⟨?_, ?_, ⟨htags.2.2.2.2.1, htags.2.2.2.2.2⟩, hS.2.2.2⟩
      · rw [GET_SIZE_congr (hrd _ (by omega)), GET_ALLOC_congr (hrd _ (by omega))]
        exact hS.1
      · intro i hi
        rw [GET_SIZE_congr (hrd _ (by omega)), GET_ALLOC_congr (hrd _ (by omega)),
          GET_SIZE_congr (hrd _ (by omega)), GET_ALLOC_congr (hrd _ (by omega))]
        exact hS.2.1 i hi
    · have hL0 : Lists h.segList h.mem (fun x => FreeIn bs x ∨ FreeIn [] x) := by
        refine Lists_pred ?_ hI.lists
        intro x
        rw [FreeIn_nil]; simp
      refine Lists_congr ?_ ?_ hL0
      · intro x hx
        have : x + 32 ≤ h.epilogue := by
          rcases hx with hx | hx
          · exact (FreeIn_left hI.tiled hx).2
          · exact absurd hx (by rw [FreeIn_nil]; exact id)
        exact ⟨GET_SIZE_congr (hrd _ (by omega)), hrd _ (by omega), hrd _ (by omega)⟩
      · intro i hi
        exact ⟨hrd _ (by omega), hrd _ (by omega)⟩
    · unfold mem_heapsize at hbig
      rw [hm] at hbig
      simp only [] at hbig
      omega
  have hfl0 : ∃ fl, ListsAt h.segList m3 fl (fun x => FreeIn bs x ∨ FreeIn [] x) := H.lists
  obtain ⟨fl, hfl⟩ := hfl0
  obtain ⟨c1, c2, c3, c4, c5, c6⟩ :=
    coalesce_full H hfl hI.noadj trivial (by
      rcases hsmall with h1 | h1
      · exact Or.inl h1
      · exact Or.inr ⟨rfl, h1⟩)
  have hmem : ∀ c : Blk, c.alloc = 1 → (c ∈ mergedSeq bs ⟨h.epilogue, sz, 0⟩ [] ↔ c ∈ bs) := by
    intro c hc
    rw [mem_mergedSeq_alloc bs [] _ c hc]
    simp
  refine ⟨mergedSeq bs ⟨h.epilogue, sz, 0⟩ [],
    ⟨h.epilogue - absorbPrev bs, sz + (absorbPrev bs + absorbNext []), 0⟩, c1, ?_, ?_, rfl, rfl,
    rfl, rfl, ?_, ?_⟩
  · exact { pro := hI.pro, seg := hI.seg, sent := c3, tiled := c2,
            brk := by show h.mem_brk + sz = h.epilogue + sz + 8; omega,
            noadj := c5, lists := ⟨_, c4⟩,
            live_iff := by
              intro q
              rw [hI.live_iff]
              constructor
              · rintro ⟨c, hc, hca, hq⟩
                exact ⟨c, (hmem c hca).2 hc, hca, hq⟩
              · rintro ⟨c, hc, hca, hq⟩
                exact ⟨c, (hmem c hca).1 hc, hca, hq⟩,
            nodup := hI.nodup }
  · unfold mergedSeq
    simp
  · intro y hy
    rcases FreeIn_mergedSeq hy with h1 | h1 | h1
    · exact Or.inl h1
    · exact Or.inr h1
    · exact absurd h1 (by rw [FreeIn_nil]; exact id)
  · intro x hx hxl
    show (coalesce h.segList m3 h.epilogue).1.rd x = h.mem.rd x
    rw [c6 x (LinkFree_mono (fun y hy => by
      rcases hy with h1 | h1
      · exact h1
      · exact absurd h1 (by rw [FreeIn_nil]; exact id)) hx) (Or.inl hxl)]
    exact hrd x (by omega)

/-- What `mm_malloc` achieves in a heap that satisfies the invariant: either
it returns `NULL` and the state is unchanged, or the invariant holds with the
returned payload added, the block of the payload has at least
`adjust_size size` bytes, and every word below the old epilogue that lies in
no free block and is no link field of a list head is kept. -/
theorem mm_malloc_full {h : Heap} {live : List Nat} {bs : List Blk} (hI : Inv h live bs)
    (grant : Bool) (size : Nat)
    (hbig : mem_heapsize (mm_malloc grant h size).2 < 2 ^ 31 + 208) :
    ((mm_malloc grant h size).1 = NULL ∧ (mm_malloc grant h size).2 = h) ∨
    ∃ (bs2 : List Blk) (c : Blk),
      (mm_malloc grant h size).1 = c.addr + 8 ∧
      Inv (mm_malloc grant h size).2 ((c.addr + 8) :: live) bs2 ∧
      c ∈ bs2 ∧ c.alloc = 1 ∧ adjust_size size ≤ c.size ∧
      (mm_malloc grant h size).2.segList = h.segList ∧
      (∀ x, Protected h.segList bs x → x < h.epilogue →
        (mm_malloc grant h size).2.mem.rd x = h.mem.rd x) := by
  by_cases hsz : size = 0
  · left
    have hm : mm_malloc grant h size = (NULL, h) := by
      unfold mm_malloc; rw [if_pos hsz]
    rw [hm]
    exact ⟨rfl, rfl⟩
  obtain ⟨a1, a2, a3⟩ := adjust_size_spec size
  by_cases hfit : find_fit h.segList h.mem (adjust_size size) = 0
  swap
  · right
    obtain ⟨r, hr, hra, hr0, hge⟩ := hI.fit_block _ hfit
    rw [mm_malloc_fit_eq grant h size hsz _ hra.symm (by rw [hra]; exact hfit)]
    obtain ⟨bs2, c, hI2, hc, hca, hc1, hcs, hfr⟩ := place_inv_full hI hr hr0 a1 a2 hge
    refine ⟨bs2, c, by rw [hca], by rw [hca]; exact hI2, hc, hc1, hcs, rfl, ?_⟩
    intro x hx hxe
    exact hfr x (hx.linkFree hI.tiled) (hx.1 r hr hr0)
  generalize hextdef : (if endFree h = true then
      (adjust_size size + 2 ^ 64 - lastSize h) % 2 ^ 64 % 2 ^ 32 else adjust_size size) = ext
  have hm := mm_malloc_nofit_eq grant h size hsz hfit ext hextdef.symm
  -- what the extension amount is
  have hshape : (ext = adjust_size size ∧ (∀ l p, bs = l ++ [p] → p.alloc = 1)) ∨
      (∃ l p, bs = l ++ [p] ∧ p.alloc = 0 ∧
        ext = (adjust_size size + 2 ^ 64 - p.size) % 2 ^ 64 % 2 ^ 32 ∧ p.size % 8 = 0) := by
    rcases snoc_cases bs with hb | ⟨l, p, hb⟩
    · subst hb
      left
      rw [hI.endFree_nil] at hextdef
      exact ⟨hextdef.symm, fun l p hl => by simp at hl⟩
    · subst hb
      obtain ⟨e1, e2⟩ := hI.endFree_snoc
      have hpok := Tiled_mem_ok _ _ _ hI.tiled p (by simp)
      rcases alloc_cases hpok with h0 | h1
      · right
        refine ⟨l, p, rfl, h0, ?_, hpok.2.2.2.2.2⟩
        rw [e1, e2] at hextdef
        simp only [h0, decide_True, if_true] at hextdef
        exact hextdef.symm
      · left
        rw [e1] at hextdef
        simp only [h1] at hextdef
        refine ⟨by simpa using hextdef.symm, ?_⟩
        intro l2 p2 hl
        rw [← (snoc_inj hl).2]; exact h1
  have hext8 : ext / 8 * 8 % 2 ^ 32 = ext := by
    rcases hshape with ⟨h1, _⟩ | ⟨_, p, _, _, h1, h2⟩
    · omega
    · omega
  have hbig2 : mem_heapsize (extend_heap grant h (ext / 8)).2 < 2 ^ 31 + 208 := by
    rw [hm] at hbig
    split_ifs at hbig
    · exact hbig
    · exact hbig
  have hsmall : 32 ≤ ext / 8 * 8 % 2 ^ 32 ∨ ∃ l p, bs = l ++ [p] ∧ p.alloc = 0 := by
    rcases hshape with ⟨h1, _⟩ | ⟨l, p, h1, h2, _⟩
    · left; omega
    · right; exact ⟨l, p, h1, h2⟩
  rcases extend_heap_full hI grant (ext / 8) hsmall hbig2 with ⟨r1, r2⟩ | ⟨bs2, r, r1, hI2, hr, hr0,
    hseg, hra, hrs, hsub, hfr⟩
  · left
    rw [hm, r1, r2]
    exact ⟨rfl, rfl⟩
  · right
    have hrok := Tiled_mem_ok _ _ _ hI2.tiled r hr
    have hrb := (Tiled_bounds _ _ _ hI2.tiled).2 r hr
    have hrlt := GET_SIZE_lt (extend_heap grant h (ext / 8)).2.mem r.addr
    rw [hrok.1] at hrlt
    -- the last block of the old sequence, if it is free, ends at the old epilogue
    have hlast : absorbPrev bs = 0 ∨
        ∃ p, p ∈ bs ∧ p.alloc = 0 ∧ p.addr + p.size = h.epilogue ∧ absorbPrev bs = p.size := by
      rcases snoc_cases bs with hb | ⟨l, p, hb⟩
      · left; rw [hb]; rfl
      · by_cases hp : p.alloc = 0
        · right
          have ht := hI.tiled
          rw [hb] at ht
          obtain ⟨_, _, hpe, _⟩ := prev_read_snoc ht
          exact ⟨p, by rw [hb]; simp, hp, hpe, by rw [hb, absorbPrev_snoc, if_pos hp]⟩
        · left; rw [hb, absorbPrev_snoc, if_neg hp]
    have hrsz : r.size = adjust_size size := by
      rcases hshape with ⟨h1, hall⟩ | ⟨l, p, hb, hp0, h1, _⟩
      · have := (absorbPrev_alloc bs hall).1; omega
      · have e1 : absorbPrev bs = p.size := by rw [hb, absorbPrev_snoc, if_pos hp0]
        have hpok := Tiled_mem_ok _ _ _ hI.tiled p (by rw [hb]; simp)
        have hplt := GET_SIZE_lt h.mem p.addr
        rw [hpok.1] at hplt
        omega
    have hr0' : r.addr ≠ 0 := by omega
    obtain ⟨bs3, c, hI3, hc, hca, hc1, hcs, hfr3⟩ :=
      place_inv_full hI2 hr hr0 a1 a2 (le_of_eq hrsz.symm)
    rw [hm, r1, if_pos hr0']
    refine ⟨bs3, c, by rw [hca], ?_, hc, hc1, hcs, hseg, ?_⟩
    · rw [hca]
      exact hI3
    · rw [hseg] at hfr3
      intro x hx hxe
      have hxr : x < r.addr := by
        rcases hlast with h0 | ⟨p, hp, hp0, hpe, hpa⟩
        · omega
        · have := hx.1 p hp hp0
          omega
      show (place (extend_heap grant h (ext / 8)).2.segList
        (extend_heap grant h (ext / 8)).2.mem r.addr (adjust_size size)).rd x = h.mem.rd x
      rw [hseg, hfr3 x ?_ (Or.inl hxr)]
      · exact hfr x (hx.linkFree hI.tiled) (by omega)
      · refine ⟨?_, hx.2⟩
        intro y hy
        rcases hsub y hy with h1 | h1
        · omega
        · exact (hx.linkFree hI.tiled).1 y h1

/-! ## Frame of `mm_free` and `mm_malloc` -/

theorem absorbPrev_spec {m : Mem} {l1 : List Blk} {a B : Nat} (hT : Tiled m a l1 B) :
    absorbPrev l1 = 0 ∨
      ∃ p, p ∈ l1 ∧ p.alloc = 0 ∧ p.addr + p.size = B ∧ absorbPrev l1 = p.size := by
  rcases snoc_cases l1 with hb | ⟨l, p, hb⟩
  · left; rw [hb]; rfl
  · by_cases hp : p.alloc = 0
    · right
      rw [hb] at hT
      obtain ⟨_, _, hpe, _⟩ := prev_read_snoc hT
      exact ⟨p, by rw [hb]; simp, hp, hpe, by rw [hb, absorbPrev_snoc, if_pos hp]⟩
    · left; rw [hb, absorbPrev_snoc, if_neg hp]

theorem absorbNext_spec {m : Mem} {l2 : List Blk} {a e : Nat} (hT : Tiled m a l2 e) :
    absorbNext l2 = 0 ∨
      ∃ n, n ∈ l2 ∧ n.alloc = 0 ∧ n.addr = a ∧ absorbNext l2 = n.size := by
  cases l2 with
  | nil => left; rfl
  | cons n l =>
    by_cases hn : n.alloc = 0
    · right
      refine ⟨n, List.mem_cons_self n l, hn, hT.1, ?_⟩
      show (if n.alloc = 0 then n.size else 0) = n.size
      rw [if_pos hn]
    · left
      show (if n.alloc = 0 then n.size else 0) = 0
      rw [if_neg hn]

/-- A live payload is the payload of an allocated block of the sequence. -/
theorem Inv.live_split {h : Heap} {live : List Nat} {bs : List Blk} (hI : Inv h live bs)
    {p : Nat} (hp : p ∈ live) :
    ∃ l1 b l2, bs = l1 ++ b :: l2 ∧ b.alloc = 1 ∧ p = b.addr + 8 := by
  obtain ⟨b, hbm, hba, hpb⟩ := (hI.live_iff p).1 hp
  obtain ⟨l1, l2, hsplit⟩ := List.append_of_mem hbm
  exact ⟨l1, b, l2, hsplit, hba, hpb⟩

/-- Outside the freed block, `mm_free` keeps every word of the arena that
lies in no free block and is no link field of a list head. -/
theorem mm_free_frame {h : Heap} {live : List Nat} {l1 l2 : List Blk} {b : Blk}
    (hI : Inv h live (l1 ++ b :: l2)) (hb : b.alloc = 1)
    (hbig : mem_heapsize h < 2 ^ 31 + 208) :
    ∀ x, Protected h.segList (l1 ++ b :: l2) x → (x < b.addr ∨ b.addr + b.size ≤ x) →
      x ≤ h.epilogue → (mm_free h (b.addr + 8)).mem.rd x = h.mem.rd x := by
  obtain ⟨fl, hfl⟩ := hI.lists
  obtain ⟨_, _, _, hfr⟩ := mm_free_full hI hb hbig hfl
  obtain ⟨hT1, hbok, hT2⟩ := Tiled_split hI.tiled
  intro x hx hxb hxe
  refine hfr x (hx.linkFree hI.tiled) ?_
  rcases hxb with h1 | h1
  · left
    rcases absorbPrev_spec hT1 with h0 | ⟨p, hp, hp0, hpe, hpa⟩
    · omega
    · have := hx.1 p (List.mem_append_left _ hp) hp0
      omega
  · right
    refine ⟨?_, hxe⟩
    rcases absorbNext_spec hT2 with h0 | ⟨n, hn, hn0, hna, hns⟩
    · omega
    · have := hx.1 n (List.mem_append_right _ (List.mem_cons_of_mem _ hn)) hn0
      omega

/-- A word of an allocated block lies in no free block and is no link field
of a list head. -/
theorem Inv.protected_block {h : Heap} {live : List Nat} {bs : List Blk} (hI : Inv h live bs)
    {c : Blk} (hc : c ∈ bs) (hc1 : c.alloc = 1) {x : Nat} (h1 : c.addr ≤ x)
    (h2 : x < c.addr + c.size) : Protected h.segList bs x := by
  have hcb := (Tiled_bounds _ _ _ hI.tiled).2 c hc
  constructor
  · intro f hf hf0
    rcases Tiled_disjoint _ _ _ hI.tiled c f hc hf with e | e | e
    · subst e; omega
    · omega
    · omega
  · intro i hi; omega

/-- A word in a block that the heap walk finds free lies in a free block of
the sequence. -/
theorem Inv.inFreeBlock {h : Heap} {live : List Nat} {bs : List Blk} (hI : Inv h live bs)
    {x : Nat} (hx : InFreeBlock h x) :
    ∃ f, f ∈ bs ∧ f.alloc = 0 ∧ f.addr ≤ x ∧ x < f.addr + f.size := by
  obtain ⟨b, hv, h0, h1, h2⟩ := hx
  obtain ⟨f, hf, hfb, hf0⟩ := (hI.free_visited b).2 ⟨hv, h0⟩
  have hok := Tiled_mem_ok _ _ _ hI.tiled f hf
  subst hfb
  rw [hok.1] at h2
  exact ⟨f, hf, hf0, h1, h2⟩

/-- A word that is outside every block the heap walk finds free and is no
link field of a list head. -/
theorem Inv.protected_of_not {h : Heap} {live : List Nat} {bs : List Blk} (hI : Inv h live bs)
    {x : Nat} (h1 : ¬ InFreeBlock h x) (h2 : ¬ InHeadLinks h x) : Protected h.segList bs x := by
  constructor
  · intro f hf hf0
    by_contra hc
    apply h1
    have hok := Tiled_mem_ok _ _ _ hI.tiled f hf
    refine ⟨f.addr, hI.visited_block hf, by rw [hok.2.1, hf0], by omega, ?_⟩
    rw [hok.1]; omega
  · intro i hi
    constructor
    · intro hc; exact h2 ⟨i, hi, Or.inl hc⟩
    · intro hc; exact h2 ⟨i, hi, Or.inr hc⟩

theorem Inv.inBlock {h : Heap} {live : List Nat} {bs : List Blk} (hI : Inv h live bs)
    {c : Blk} (hc : c ∈ bs) {x : Nat} :
    InBlock h.mem (c.addr + 8) x ↔ (c.addr ≤ x ∧ x < c.addr + c.size) := by
  have hok := Tiled_mem_ok _ _ _ hI.tiled c hc
  unfold InBlock
  have e : c.addr + 8 - HSIZE = c.addr := by show c.addr + 8 - 8 = c.addr; omega
  rw [e, hok.1]

/-- Frame of `mm_malloc` in a heap that satisfies the invariant. -/
theorem Inv.malloc_frame {h : Heap} {live : List Nat} {bs : List Blk} (hI : Inv h live bs)
    (grant : Bool) (size : Nat)
    (hbig : mem_heapsize (mm_malloc grant h size).2 < 2 ^ 31 + 208) :
    ∀ x, Protected h.segList bs x → x < h.epilogue →
      (mm_malloc grant h size).2.mem.rd x = h.mem.rd x := by
  rcases mm_malloc_full hI grant size hbig with ⟨_, h2⟩ | ⟨_, _, _, _, _, _, _, _, hfr⟩
  · intro x _ _; rw [h2]
  · exact hfr

theorem reach_stPair : Reachable stPair :=
  Reachable.malloc true _ _ reach_stHuge (by decide)

theorem reach_stSeq : Reachable stSeq :=
  Reachable.free _ _ (Reachable.free _ _ (Reachable.malloc true _ 16
    (Reachable.malloc true _ 512 (Reachable.malloc true _ 64
      (Reachable.malloc true _ 16 reach_stInit (by decide)) (by decide)) (by decide))
    (by decide)) (by decide)) (by decide)

theorem reach_stOnes : Reachable stOnes :=
  Reachable.init true onesMem 4296015872 (by decide)

theorem adjust_size_ge (size : Nat) (h : size ≤ 2 ^ 32 - 24) : size + 16 ≤ adjust_size size := by
  unfold adjust_size
  simp only [OVERHEAD, MIN_BLOCK_SIZE]
  split_ifs with h1
  · omega
  · omega

/-- C11 (amended): frame of `mm_malloc` and `mm_free`.  In every reachable
state, a call `mm_malloc(n)` after which the arena is smaller than
`2^31 + 208` bytes, and a call `mm_free(q)` on a live payload `q` in an arena
smaller than `2^31 + 208` bytes, leave the header word, the footer word and
every payload word of every other live block as they were; and every word
below the end of the arena that the call changes lies in a block that was
free, in the block being allocated or freed, in a link field of a list head,
or at or after the old epilogue. -/
theorem frame_property (s : St) (hr : Reachable s) :
    (∀ (grant : Bool) (n : Nat),
      mem_heapsize (mm_malloc grant s.heap n).2 < 2 ^ 31 + 208 →
      Kept s (mm_malloc grant s.heap n).2 [] ∧
      ∀ x, x < (mm_malloc grant s.heap n).2.mem_brk →
        WriteOK s.heap (mm_malloc grant s.heap n).2
          (InBlock (mm_malloc grant s.heap n).2.mem (mm_malloc grant s.heap n).1) x) ∧
    (∀ q, q ∈ s.live → mem_heapsize s.heap < 2 ^ 31 + 208 →
      Kept s (mm_free s.heap q) [q] ∧
      ∀ x, x < (mm_free s.heap q).mem_brk →
        WriteOK s.heap (mm_free s.heap q) (InBlock s.heap.mem q) x) := by
  constructor
  · intro grant n hbig
    obtain ⟨bs, hI⟩ := reachable_inv hr
      (lt_of_le_of_lt (mm_malloc_heapsize grant s.heap n) hbig)
    have hfr := hI.malloc_frame grant n hbig
    constructor
    · intro p hp _ x hx
      obtain ⟨l1, b, l2, hsplit, hb1, hpb⟩ := hI.live_split hp
      have hbm : b ∈ bs := by rw [hsplit]; simp
      rw [hpb, hI.inBlock hbm] at hx
      have hbd := (Tiled_bounds _ _ _ hI.tiled).2 b hbm
      exact hfr x (hI.protected_block hbm hb1 hx.1 hx.2) (by omega)
    · intro x hx hne
      by_contra hno
      simp only [not_or] at hno
      obtain ⟨n1, _, n3, n4⟩ := hno
      exact hne (hfr x (hI.protected_of_not n1 n3) (by
        by_contra hc
        exact n4 ⟨by omega, hx⟩))
  · intro q hq hbig
    obtain ⟨bs, hI⟩ := reachable_inv hr hbig
    obtain ⟨l1, b, l2, hsplit, hb1, hqb⟩ := hI.live_split hq
    subst hsplit
    subst hqb
    have hfr := mm_free_frame hI hb1 hbig
    have hbm : b ∈ l1 ++ b :: l2 := by simp
    constructor
    · intro p hp hpq x hx
      obtain ⟨l1', c, l2', hsplit', hc1, hpc⟩ := hI.live_split hp
      have hcm : c ∈ l1 ++ b :: l2 := by rw [hsplit']; simp
      rw [hpc, hI.inBlock hcm] at hx
      have hcd := (Tiled_bounds _ _ _ hI.tiled).2 c hcm
      have hne : ¬ c = b := by
        intro e
        apply hpq
        rw [hpc, e]
        exact List.mem_singleton_self _
      refine hfr x (hI.protected_block hcm hc1 hx.1 hx.2) ?_ (by omega)
      rcases Tiled_disjoint _ _ _ hI.tiled c b hcm hbm with e | e | e
      · exact absurd e hne
      · left; omega
      · right; omega
    · intro x hx hne
      by_contra hno
      simp only [not_or] at hno
      obtain ⟨n1, n2, n3, n4⟩ := hno
      rw [hI.inBlock hbm] at n2
      have hbrk : (mm_free s.heap (b.addr + 8)).mem_brk = s.heap.mem_brk := rfl
      rw [hbrk] at hx n4
      exact hne (hfr x (hI.protected_of_not n1 n3) (by omega) (by
        by_contra hc
        exact n4 ⟨by omega, hx⟩))

/-- The frame theorem applied to the example run `stSeq`, in which the
payloads `4296016080` and `4296016192` are live, at the calls
`mm_free(4296016192)` and `mm_malloc(100)`. -/
theorem frame_property_witness :
    Reachable stSeq ∧ stSeq.live = [4296016192, 4296016080] ∧
    mem_heapsize stSeq.heap < 2 ^ 31 + 208 ∧
    (Kept stSeq (mm_free stSeq.heap 4296016192) [4296016192] ∧
      ∀ x, x < (mm_free stSeq.heap 4296016192).mem_brk →
        WriteOK stSeq.heap (mm_free stSeq.heap 4296016192)
          (InBlock stSeq.heap.mem 4296016192) x) ∧
    mem_heapsize (mm_malloc true stSeq.heap 100).2 < 2 ^ 31 + 208 ∧
    (Kept stSeq (mm_malloc true stSeq.heap 100).2 [] ∧
      ∀ x, x < (mm_malloc true stSeq.heap 100).2.mem_brk →
        WriteOK stSeq.heap (mm_malloc true stSeq.heap 100).2
          (InBlock (mm_malloc true stSeq.heap 100).2.mem (mm_malloc true stSeq.heap 100).1) x) :=
  ⟨reach_stSeq, by decide, by decide,
    (frame_property stSeq reach_stSeq).2 4296016192 (by decide) (by decide), by decide,
    (frame_property stSeq reach_stSeq).1 true 100 (by decide)⟩

/-- C11 fails as stated, in two ways.  In the reachable state `stPair` (arena
of more than `2^31 + 208` bytes) the payload `6443499728` is live, and
`mm_malloc(16)` changes the word `6443499736` of its block from 0 to 65.
In the reachable state `stOnes` (arena of 8192 bytes) `mm_malloc(7976)`
extends the arena by 8 bytes to the end `4296024072` and clears the word
`4296032040`, which lies above the arena. -/
theorem frame_property_counterexample :
    (Reachable stPair ∧ 6443499728 ∈ stPair.live ∧
      InBlock stPair.heap.mem 6443499728 6443499736 ∧
      stPair.heap.mem.rd 6443499736 = 0 ∧
      (mm_malloc true stPair.heap 16).2.mem.rd 6443499736 = 65 ∧
      ¬ Kept stPair (mm_malloc true stPair.heap 16).2 []) ∧
    (Reachable stOnes ∧ mem_heapsize stOnes.heap = 8192 ∧
      (mm_malloc true stOnes.heap 7976).2.mem_brk = 4296024072 ∧
      stOnes.heap.mem.rd 4296032040 = 1 ∧
      (mm_malloc true stOnes.heap 7976).2.mem.rd 4296032040 = 0 ∧
      ¬ WriteOK stOnes.heap (mm_malloc true stOnes.heap 7976).2
        (InBlock (mm_malloc true stOnes.heap 7976).2.mem (mm_malloc true stOnes.heap 7976).1)
        4296032040) :=
  have hin : InBlock stPair.heap.mem 6443499728 6443499736 := by unfold InBlock; decide
  have h65 : (mm_malloc true stPair.heap 16).2.mem.rd 6443499736 = 65 := by decide
  have h0 : stPair.heap.mem.rd 6443499736 = 0 := by decide
  have hlive : 6443499728 ∈ stPair.live := by decide
  have hbrk : (mm_malloc true stOnes.heap 7976).2.mem_brk = 4296024072 := by decide
  have hw1 : stOnes.heap.mem.rd 4296032040 = 1 := by decide
  have hw0 : (mm_malloc true stOnes.heap 7976).2.mem.rd 4296032040 = 0 := by decide
  ⟨⟨reach_stPair, hlive, hin, h0, h65, fun hk => by
      have := hk 6443499728 hlive (List.not_mem_nil _) 6443499736 hin
      rw [h65, h0] at this
      exact absurd this (by decide)⟩,
    ⟨reach_stOnes, by decide, hbrk, hw1, hw0, fun hw => by
      obtain ⟨bs, hI⟩ := reachable_inv reach_stOnes (by decide)
      have he : stOnes.heap.epilogue = 4296024056 := by decide
      have hs : stOnes.heap.segList = 4296015880 := by decide
      rcases hw (by rw [hw0, hw1]; decide) with h1 | h1 | h1 | h1
      · obtain ⟨f, hf, _, _, h3⟩ := hI.inFreeBlock h1
        have := (Tiled_bounds _ _ _ hI.tiled).2 f hf
        rw [he] at this
        omega
      · have hd : ¬ InBlock (mm_malloc true stOnes.heap 7976).2.mem
            (mm_malloc true stOnes.heap 7976).1 4296032040 := by unfold InBlock; decide
        exact hd h1
      · obtain ⟨i, hi, h2⟩ := h1
        rw [hs] at h2
        simp only [MIN_BLOCK_SIZE] at h2
        omega
      · rw [hbrk] at h1
        omega⟩⟩

/-- C12 (amended): payload capacity.  In every reachable state, for every
size of at most `2^32 - 24`, if `mm_malloc(size)` returns a non-null
pointer `p` and the arena is then smaller than `2^31 + 208` bytes, the block
`p - 8` has a size field of at least `size + 16`, so the `size` bytes from `p`
on end before the footer of the block. -/
theorem payload_capacity (grant : Bool) (s : St) (size : Nat) (hr : Reachable s)
    (hsz : size ≤ 2 ^ 32 - 24)
    (hbig : mem_heapsize (mm_malloc grant s.heap size).2 < 2 ^ 31 + 208)
    (hnn : (mm_malloc grant s.heap size).1 ≠ NULL) :
    Capacity (mm_malloc grant s.heap size).2.mem (mm_malloc grant s.heap size).1 size := by
  obtain ⟨bs, hI⟩ := reachable_inv hr
    (lt_of_le_of_lt (mm_malloc_heapsize grant s.heap size) hbig)
  rcases mm_malloc_full hI grant size hbig with ⟨h1, _⟩ | ⟨bs2, c, h1, hI2, hc, hc1, hcs, _⟩
  · exact absurd h1 hnn
  · have hok := Tiled_mem_ok _ _ _ hI2.tiled c hc
    have hge := adjust_size_ge size hsz
    rw [h1]
    unfold Capacity FTRP HDRP
    have e : c.addr + 8 - HSIZE = c.addr := by show c.addr + 8 - 8 = c.addr; omega
    rw [e, hok.1]
    simp only [OVERHEAD, HSIZE]
    omega

/-- The capacity theorem applied to `mm_malloc(100)` right after `mm_init`. -/
theorem payload_capacity_witness :
    Reachable stInit ∧ 100 ≤ 2 ^ 32 - 24 ∧
      mem_heapsize (mm_malloc true stInit.heap 100).2 < 2 ^ 31 + 208 ∧
      (mm_malloc true stInit.heap 100).1 ≠ NULL ∧
      Capacity (mm_malloc true stInit.heap 100).2.mem (mm_malloc true stInit.heap 100).1 100 :=
  ⟨reach_stInit, by decide, by decide, by decide,
    payload_capacity true stInit 100 reach_stInit (by decide) (by decide) (by decide)⟩

/-- C12 fails as stated, in two ways.  Right after `mm_init`,
`mm_malloc(2^32 - 23)` returns `4296016080` in an arena of 8192 bytes, and the
block `4296016072` has 32 bytes; `mm_malloc(2^31 - 16)` returns `4296016080`
in an arena of `2^31 + 208` bytes, and the size field of the block is 0. -/
theorem payload_capacity_counterexample :
    Reachable stInit ∧
    ((mm_malloc true stInit.heap (2 ^ 32 - 23)).1 = 4296016080 ∧
      mem_heapsize (mm_malloc true stInit.heap (2 ^ 32 - 23)).2 = 8192 ∧
      GET_SIZE (mm_malloc true stInit.heap (2 ^ 32 - 23)).2.mem 4296016072 = 32 ∧
      ¬ Capacity (mm_malloc true stInit.heap (2 ^ 32 - 23)).2.mem
        (mm_malloc true stInit.heap (2 ^ 32 - 23)).1 (2 ^ 32 - 23)) ∧
    ((mm_malloc true stInit.heap (2 ^ 31 - 16)).1 = 4296016080 ∧
      mem_heapsize (mm_malloc true stInit.heap (2 ^ 31 - 16)).2 = 2 ^ 31 + 208 ∧
      GET_SIZE (mm_malloc true stInit.heap (2 ^ 31 - 16)).2.mem 4296016072 = 0 ∧
      ¬ Capacity (mm_malloc true stInit.heap (2 ^ 31 - 16)).2.mem
        (mm_malloc true stInit.heap (2 ^ 31 - 16)).1 (2 ^ 31 - 16)) :=
  ⟨reach_stInit,
    ⟨by decide, by decide, by decide, by unfold Capacity; decide⟩,
    ⟨by decide, by decide, by decide, by unfold Capacity; decide⟩⟩

/-! ## When `mm_malloc` returns `NULL` -/

theorem coalesce_ret (seg : Nat) (m : Mem) (block : Nat) :
    (coalesce seg m block).2 = block ∨ (coalesce seg m block).2 = PREV_BLKP m block := by
  unfold coalesce
  by_cases h0 : block = NULL
  · rw [if_pos h0]; left; exact h0.symm
  · rw [if_neg h0]
    simp only [HDRP]
    by_cases hp : GET_ALLOC m (FTRP m (PREV_BLKP m block)) ≠ 0
    · by_cases hn : GET_ALLOC m (NEXT_BLKP m block) ≠ 0
      · rw [if_pos ⟨hp, hn⟩]; left; rfl
      · rw [if_neg (fun h => hn h.2), if_pos ⟨hp, hn⟩]; left; rfl
    · by_cases hn : GET_ALLOC m (NEXT_BLKP m block) ≠ 0
      · rw [if_neg (fun h => hp h.1), if_neg (fun h => hp h.1), if_pos ⟨hp, hn⟩]; right; rfl
      · rw [if_neg (fun h => hp h.1), if_neg (fun h => hp h.1), if_neg (fun h => hn h.2)]
        right; rfl

theorem extend_heap_zero (grant : Bool) (h : Heap) (words : Nat)
    (hz : words * 8 % 2 ^ 32 = 0) : extend_heap grant h words = (NULL, h) := by
  unfold extend_heap
  simp only [hz, if_true]

theorem extend_heap_refused (grant : Bool) (h : Heap) (words : Nat)
    (hz : words * 8 % 2 ^ 32 ≠ 0)
    (hf : (mem_sbrk grant h (words * 8 % 2 ^ 32)).1 = SBRK_FAIL) :
    (extend_heap grant h words).1 = NULL := by
  unfold extend_heap
  simp only [if_neg hz, hf, if_true]

theorem mem_sbrk_ok (grant : Bool) (h : Heap) (incr : Nat)
    (hf : (mem_sbrk grant h incr).1 ≠ SBRK_FAIL) :
    mem_sbrk grant h incr = (h.mem_brk, { h with mem_brk := h.mem_brk + incr }) := by
  unfold mem_sbrk at hf ⊢
  by_cases hg : grant = true ∧ h.mem_brk + incr < 2 ^ 64
  · rw [if_pos hg]
  · rw [if_neg hg] at hf
    exact absurd rfl hf

/-- The size field that `extend_heap` leaves in the word before the new
block is the old one or 0. -/
theorem extend_tags_prev (m : Mem) (block sz : Nat) (hb : 8 ≤ block) :
    GET_SIZE (PACK (PACK_FTRP (PACK m block sz FREE) block sz FREE)
      (NEXT_BLKP (PACK_FTRP (PACK m block sz FREE) block sz FREE) block) 0 ALLOC) (block - 8) =
        GET_SIZE m (block - 8) ∨
    GET_SIZE (PACK (PACK_FTRP (PACK m block sz FREE) block sz FREE)
      (NEXT_BLKP (PACK_FTRP (PACK m block sz FREE) block sz FREE) block) 0 ALLOC) (block - 8) =
        0 := by
  rw [GET_SIZE_PACK]
  split_ifs with h1
  · right; rfl
  · unfold PACK_FTRP
    simp only [GET_SIZE_set_allocated, GET_SIZE_set_block_size]
    split_ifs with h2
    · right
      unfold FTRP HDRP HSIZE at h2
      rw [GET_SIZE_PACK, if_pos rfl] at h2
      omega
    · left
      rw [GET_SIZE_PACK, if_neg (by omega)]

/-- The word before the epilogue holds a size smaller than the address of
the epilogue. -/
theorem Inv.last_footer {h : Heap} {live : List Nat} {bs : List Blk} (hI : Inv h live bs) :
    GET_SIZE h.mem (h.epilogue - 8) < h.epilogue ∧ 8 ≤ h.epilogue := by
  have h8 := hI.sent.2.2.2
  have hb := (Tiled_bounds _ _ _ hI.tiled).1
  rcases snoc_cases bs with hnil | ⟨l, p, hsn⟩
  · have ht := hI.tiled
    rw [hnil] at ht
    have he : h.segList + 192 = h.epilogue := ht
    have h5 := (hI.sent.2.1 5 (by omega)).2.2.1
    have e1 : h.epilogue - 8 = h.segList + 32 * 5 + 24 := by omega
    rw [e1, h5]
    omega
  · have ht := hI.tiled
    rw [hsn] at ht
    obtain ⟨_, _, hpe, hpok⟩ := prev_read_snoc ht
    have hpb := (Tiled_bounds _ _ _ ht).2 p (by simp)
    have e1 : h.epilogue - 8 = p.addr + p.size - 8 := by omega
    rw [e1, hpok.2.2.1]
    omega

/-- In a reachable state, `extend_heap` returns a block whenever it asks for
a positive number of bytes and `mem_sbrk` grants them. -/
theorem extend_heap_ret {s : St} (hr : Reachable s) (grant : Bool) (words : Nat)
    (hz : words * 8 % 2 ^ 32 ≠ 0)
    (hf : (mem_sbrk grant s.heap (words * 8 % 2 ^ 32)).1 ≠ SBRK_FAIL) :
    (extend_heap grant s.heap words).1 ≠ NULL := by
  have hok := mem_sbrk_ok grant s.heap _ hf
  have hne : s.heap.mem_brk ≠ SBRK_FAIL := by
    rw [hok] at hf; exact hf
  have hsize := reachable_heapsize hr
  have hbrk8 : 8192 ≤ s.heap.mem_brk := by unfold mem_heapsize at hsize; omega
  unfold extend_heap
  simp only [if_neg hz, hok, if_neg hne, HDRP]
  generalize words * 8 % 2 ^ 32 = sz
  have hb : 8 ≤ s.heap.mem_brk - HSIZE := by show 8 ≤ s.heap.mem_brk - 8; omega
  generalize hblk : s.heap.mem_brk - HSIZE = block at hb
  have hblk2 : block = s.heap.mem_brk - 8 := hblk.symm
  have hprev := extend_tags_prev s.heap.mem block sz hb
  generalize PACK (PACK_FTRP (PACK s.heap.mem block sz FREE) block sz FREE)
      (NEXT_BLKP (PACK_FTRP (PACK s.heap.mem block sz FREE) block sz FREE) block) 0 ALLOC = m3
      at hprev
  have hlt := GET_SIZE_lt m3 (block - 8)
  have hgoal : block - GET_SIZE m3 (block - 8) ≠ 0 := by
    by_cases hbig : mem_heapsize s.heap < 2 ^ 31 + 208
    · obtain ⟨bs, hI⟩ := reachable_inv hr hbig
      have hlf := hI.last_footer
      have he : s.heap.epilogue = block := by have := hI.brk; omega
      rw [he] at hlf
      rcases hprev with h1 | h1
      · rw [h1]; omega
      · rw [h1]; omega
    · unfold mem_heapsize at hbig
      omega
  rcases coalesce_ret s.heap.segList m3 block with h1 | h1
  · show (coalesce s.heap.segList m3 block).2 ≠ 0
    rw [h1]; omega
  · show (coalesce s.heap.segList m3 block).2 ≠ 0
    rw [h1]
    exact hgoal

theorem mm_malloc_null_cases {s : St} (hr : Reachable s) (grant : Bool) (size : Nat) :
    (mm_malloc grant s.heap size).1 = NULL ↔
      (size = 0 ∨ GrowFails grant s.heap size ∨ GrowSkipped s.heap size) := by
  by_cases hsz : size = 0
  · have hm : mm_malloc grant s.heap size = (NULL, s.heap) := by
      unfold mm_malloc; rw [if_pos hsz]
    rw [hm]
    exact ⟨fun _ => Or.inl hsz, fun _ => rfl⟩
  by_cases hfit : find_fit s.heap.segList s.heap.mem (adjust_size size) = 0
  swap
  · rw [mm_malloc_fit_eq grant s.heap size hsz _ rfl hfit]
    constructor
    · intro h; exact absurd h (by show ¬ _ + 8 = 0; omega)
    · rintro (h | ⟨⟨_, h, _⟩, _⟩ | ⟨_, h, _⟩)
      · exact absurd h hsz
      · exact absurd h hfit
      · exact absurd h hfit
  have hm := mm_malloc_nofit_eq grant s.heap size hsz hfit _ rfl
  have hreq : extend_request s.heap size =
      (if endFree s.heap = true then
        (adjust_size size + 2 ^ 64 - lastSize s.heap) % 2 ^ 64 % 2 ^ 32
        else adjust_size size) / 8 * 8 % 2 ^ 32 := rfl
  generalize (if endFree s.heap = true then
        (adjust_size size + 2 ^ 64 - lastSize s.heap) % 2 ^ 64 % 2 ^ 32
        else adjust_size size) / 8 = words at hm hreq
  have hnull : (mm_malloc grant s.heap size).1 = NULL ↔
      (extend_heap grant s.heap words).1 = NULL := by
    rw [hm]
    by_cases he : (extend_heap grant s.heap words).1 ≠ 0
    · rw [if_pos he]
      constructor
      · intro h; exact absurd h (by show ¬ _ + 8 = 0; omega)
      · intro h; exact absurd h he
    · rw [if_neg he]
      constructor
      · intro _; exact not_not.1 he
      · intro _; rfl
  rw [hnull]
  constructor
  · intro h0
    right
    by_cases hz : words * 8 % 2 ^ 32 = 0
    · right; exact ⟨hsz, hfit, by rw [hreq]; exact hz⟩
    · left
      refine ⟨⟨hsz, hfit, by rw [hreq]; exact hz⟩, ?_⟩
      rw [hreq]
      by_contra hf
      exact extend_heap_ret hr grant words hz hf h0
  · rintro (h | ⟨⟨_, _, hz⟩, hf⟩ | ⟨_, _, hz⟩)
    · exact absurd h hsz
    · rw [hreq] at hz hf
      exact extend_heap_refused grant s.heap words hz hf
    · rw [hreq] at hz
      rw [extend_heap_zero grant s.heap words hz]

theorem reach_mallocs {s : St} (hr : Reachable s) : ∀ k, Reachable (mallocs s k)
  | 0 => hr
  | k + 1 => Reachable.malloc true (mallocs s k) 296 (reach_mallocs hr k) (by decide)

theorem reach_stFrag : Reachable stFrag :=
  have h0 : Reachable (frees (mallocs stInit 24) 0) := reach_mallocs reach_stInit 24
  have h1 : Reachable (frees (mallocs stInit 24) 1) := Reachable.free _ _ h0 (by decide)
  have h2 : Reachable (frees (mallocs stInit 24) 2) := Reachable.free _ _ h1 (by decide)
  have h3 : Reachable (frees (mallocs stInit 24) 3) := Reachable.free _ _ h2 (by decide)
  have h4 : Reachable (frees (mallocs stInit 24) 4) := Reachable.free _ _ h3 (by decide)
  have h5 : Reachable (frees (mallocs stInit 24) 5) := Reachable.free _ _ h4 (by decide)
  have h6 : Reachable (frees (mallocs stInit 24) 6) := Reachable.free _ _ h5 (by decide)
  have h7 : Reachable (frees (mallocs stInit 24) 7) := Reachable.free _ _ h6 (by decide)
  have h8 : Reachable (frees (mallocs stInit 24) 8) := Reachable.free _ _ h7 (by decide)
  have h9 : Reachable (frees (mallocs stInit 24) 9) := Reachable.free _ _ h8 (by decide)
  have h10 : Reachable (frees (mallocs stInit 24) 10) := Reachable.free _ _ h9 (by decide)
  have h11 : Reachable (frees (mallocs stInit 24) 11) := Reachable.free _ _ h10 (by decide)
  Reachable.free _ _ h11 (by decide)

/-! ## The result of `mm_free` in terms of heap walk and list traversals -/

theorem prevFree_eq {seg : Nat} {m : Mem} {l1 : List Blk} {B e : Nat}
    (hS : Sentinels seg m e) (hT : Tiled m (seg + 192) l1 B) :
    prevFree m B = absorbPrev l1 := by
  unfold prevFree
  rcases snoc_cases l1 with h | ⟨l, p, h⟩
  · subst h
    have hB : seg + 192 = B := hT
    rw [← hB, (prev_read_nil hS).2, if_neg (by decide)]
    rfl
  · subst h
    obtain ⟨hpx, hpa, _, hpok⟩ := prev_read_snoc hT
    rw [hpa, hpx, hpok.1, absorbPrev_snoc]

theorem nextFree_eq {seg : Nat} {m : Mem} {l2 : List Blk} {B s e : Nat}
    (hs : GET_SIZE m B = s) (hS : Sentinels seg m e) (hT : Tiled m (B + s) l2 e) :
    nextFree m B = absorbNext l2 := by
  unfold nextFree HDRP
  cases l2 with
  | nil =>
    rw [(next_read_nil hs hS hT).2, if_neg (by decide)]
    rfl
  | cons n l =>
    obtain ⟨hnx, hna, hnok⟩ := next_read_cons hs hT
    rw [hna, hnx, hnok.1]
    rfl

theorem ListsAt.path {seg : Nat} {m : Mem} {fl : Nat → List Nat} {L : Nat → Prop}
    (h : ListsAt seg m fl L) (i : Nat) (hi : i < 6) :
    IsPath m (getNext m (seg + 32 * i)) (fl i) NULL := by
  obtain ⟨hok, _, hmem, hge, _⟩ := h
  obtain ⟨a1, _, a3⟩ := hok i hi
  have hnz : ∀ x, x ∈ fl i → x ≠ NULL := by
    intro x hx
    have := hge x ((hmem i hi x).1 hx).1
    show x ≠ 0
    omega
  have := Seg_path _ _ _ a3 hnz
  rw [← a1] at this
  exact this

theorem ListsAt.path_unique {seg : Nat} {m : Mem} {fl : Nat → List Nat} {L : Nat → Prop}
    (h : ListsAt seg m fl L) (i : Nat) (hi : i < 6) {l : List Nat}
    (hl : IsPath m (getNext m (seg + 32 * i)) l NULL) : l = fl i :=
  Trace_unique _ _ _ _ _ hl (h.path i hi) rfl rfl

theorem Inv.visited_iff {h : Heap} {live : List Nat} {bs : List Blk} (hI : Inv h live bs)
    (x : Nat) :
    Visited h.mem h.prologue x ↔
      (x = h.prologue ∨ (∃ i, i < 6 ∧ x = h.segList + 32 * i) ∨ ∃ b, b ∈ bs ∧ b.addr = x) := by
  constructor
  · exact fun hx => hI.visited hx
  · rintro (h1 | ⟨i, hi, h1⟩ | ⟨b, hb, h1⟩)
    · exact ⟨_, _, hI.walk, by rw [h1]; exact List.mem_cons_self _ _⟩
    · exact ⟨_, _, hI.walk, List.mem_cons_of_mem _
        (List.mem_append_left _ (mem_headBlocks.2 ⟨i, hi, h1⟩))⟩
    · rw [← h1]; exact hI.visited_block hb

theorem mergedLists_congr (fl fl2 : Nat → List Nat) (B s a c i : Nat) (h : fl i = fl2 i) :
    mergedLists fl B s a c i = mergedLists fl2 B s a c i := by
  unfold mergedLists
  rw [h]

/-- The result of `mm_free` on a live payload in a heap that satisfies the
invariant, in an arena smaller than `2^31 + 208` bytes. -/
theorem Inv.freeResult_holds {h : Heap} {live : List Nat} {bs : List Blk} (hI : Inv h live bs)
    (hbig : mem_heapsize h < 2 ^ 31 + 208) {p : Nat} (hp : p ∈ live) : FreeResult h p := by
  obtain ⟨l1, b, l2, hsplit, hb1, hpb⟩ := hI.live_split hp
  subst hsplit
  subst hpb
  obtain ⟨fl, hfl⟩ := hI.lists
  obtain ⟨r1, hI2, hfl2, hfr⟩ := mm_free_full hI hb1 hbig hfl
  obtain ⟨hT1, hbok, hT2⟩ := Tiled_split hI.tiled
  have e0 : b.addr + 8 - HSIZE = b.addr := by show b.addr + 8 - 8 = b.addr; omega
  have ea : prevFree h.mem b.addr = absorbPrev l1 := prevFree_eq hI.sent hT1
  have ec : nextFree h.mem b.addr = absorbNext l2 := nextFree_eq hbok.1 hI.sent hT2
  have hale : absorbPrev l1 ≤ b.addr := by
    rcases absorbPrev_spec hT1 with h0 | ⟨q, _, _, hqe, hqa⟩
    · omega
    · omega
  have h8s := hI.sent.2.2.2
  have hB1 := Tiled_bounds _ _ _ hT1
  have hB2 := Tiled_bounds _ _ _ hT2
  have hb32 := hbok.2.2.2.2.1
  -- the merged block
  have hTm := hI2.tiled
  unfold mergedSeq at hTm
  have hsp : Tiled (mm_free h (b.addr + 8)).mem (h.segList + 192) (keepPrev l1)
        (b.addr - absorbPrev l1) ∧
      BlockOK (mm_free h (b.addr + 8)).mem
        ⟨b.addr - absorbPrev l1, b.size + (absorbPrev l1 + absorbNext l2), 0⟩ ∧
      Tiled (mm_free h (b.addr + 8)).mem
        (b.addr - absorbPrev l1 + (b.size + (absorbPrev l1 + absorbNext l2))) (keepNext l2)
        h.epilogue := Tiled_split hTm
  obtain ⟨hTk1, hRok, hTk2⟩ := hsp
  have hR : GET_SIZE (mm_free h (b.addr + 8)).mem (b.addr - absorbPrev l1) =
        b.size + (absorbPrev l1 + absorbNext l2) ∧
      GET_ALLOC (mm_free h (b.addr + 8)).mem (b.addr - absorbPrev l1) = 0 ∧
      GET_SIZE (mm_free h (b.addr + 8)).mem
        (b.addr - absorbPrev l1 + (b.size + (absorbPrev l1 + absorbNext l2)) - 8) =
        b.size + (absorbPrev l1 + absorbNext l2) ∧
      GET_ALLOC (mm_free h (b.addr + 8)).mem
        (b.addr - absorbPrev l1 + (b.size + (absorbPrev l1 + absorbNext l2)) - 8) = 0 :=
    ⟨hRok.1, hRok.2.1, hRok.2.2.1, hRok.2.2.2.1⟩
  obtain ⟨hR1, hR2, hR3, hR4⟩ := hR
  have hK1 := Tiled_bounds _ _ _ hTk1
  have hK2 := Tiled_bounds _ _ _ hTk2
  have hsum : absorbPrev l1 + b.size + absorbNext l2 =
      b.size + (absorbPrev l1 + absorbNext l2) := by omega
  unfold FreeResult
  simp only [e0, hbok.1, ea, ec, hsum]
  have hseg2 : (mm_free h (b.addr + 8)).segList = h.segList := rfl
  have hpro2 : (mm_free h (b.addr + 8)).prologue = h.prologue := rfl
  refine ⟨⟨hR1, hR2, ?_, ?_⟩, ?_, ?_, ?_, ?_, r1⟩
  · unfold FTRP HDRP HSIZE; rw [hR1]; exact hR3
  · unfold FTRP HDRP HSIZE; rw [hR1]; exact hR4
  · -- head of the list of its class
    have hi := calcList_lt (b.size + (absorbPrev l1 + absorbNext l2))
    have := (hfl2.1 _ hi).1
    unfold listHead
    rw [hseg2]
    show getNext _ (h.segList + 32 * _) = _
    rw [this]
    unfold mergedLists
    rw [if_pos rfl]
    rfl
  · -- the lists
    intro i hi l hl
    have hl' : IsPath h.mem (getNext h.mem (h.segList + 32 * i)) l NULL := hl
    have e1 := ListsAt.path_unique hfl i hi hl'
    have := ListsAt.path hfl2 i hi
    rw [mergedLists_congr (fun _ => l) fl _ _ _ _ i e1]
    exact this
  · -- the heap walk
    intro x
    rw [hI2.visited_iff x, hI.visited_iff x, hseg2, hpro2]
    have hpro := hI.seg
    constructor
    · rintro (h1 | ⟨i, hi, h1⟩ | ⟨c, hc, h1⟩)
      · right
        exact ⟨Or.inl h1, by omega, fun _ => by omega⟩
      · right
        exact ⟨Or.inr (Or.inl ⟨i, hi, h1⟩), by omega, fun _ => by omega⟩
      · unfold mergedSeq at hc
        rcases List.mem_append.1 hc with h2 | h2
        · right
          have hcb := hK1.2 c h2
          have hcok := (Tiled_mem_ok _ _ _ hTk1 c h2).2.2.2.2.1
          exact ⟨Or.inr (Or.inr ⟨c, List.mem_append_left _ (mem_keepPrev l1 c h2), h1⟩),
            by omega, fun _ => by omega⟩
        · rcases List.mem_cons.1 h2 with h3 | h3
          · left; rw [← h1, h3]
          · right
            have hcb := hK2.2 c h3
            refine ⟨Or.inr (Or.inr ⟨c, List.mem_append_right _
              (List.mem_cons_of_mem _ (mem_keepNext l2 c h3)), h1⟩), by omega, fun hc0 => ?_⟩
            have hcok := (Tiled_mem_ok _ _ _ hTk2 c h3).2.2.2.2.1
            omega
    · rintro (h1 | ⟨h1, hxb, hxn⟩)
      · right; right
        exact ⟨⟨b.addr - absorbPrev l1, b.size + (absorbPrev l1 + absorbNext l2), 0⟩,
          by unfold mergedSeq; simp, h1.symm⟩
      · rcases h1 with h1 | ⟨i, hi, h1⟩ | ⟨c, hc, h1⟩
        · exact Or.inl h1
        · exact Or.inr (Or.inl ⟨i, hi, h1⟩)
        · right; right
          rcases List.mem_append.1 hc with h2 | h2
          · -- a block before `b`
            by_cases hck : c ∈ keepPrev l1
            · exact ⟨c, by unfold mergedSeq; exact List.mem_append_left _ hck, h1⟩
            · -- the absorbed previous block: its address is that of the merged block
              rcases snoc_cases l1 with hn | ⟨l, q, hq⟩
              · rw [hn] at h2; exact absurd h2 (List.not_mem_nil c)
              · have hTq := hT1
                rw [hq] at hTq h2 hck
                obtain ⟨_, _, hqe, hqok⟩ := prev_read_snoc hTq
                rw [keepPrev_snoc] at hck
                by_cases hq0 : q.alloc = 0
                · rw [if_pos hq0] at hck
                  have hcq : c = q := by
                    rcases List.mem_append.1 h2 with h3 | h3
                    · exact absurd h3 hck
                    · exact List.mem_singleton.1 h3
                  refine ⟨⟨b.addr - absorbPrev l1,
                    b.size + (absorbPrev l1 + absorbNext l2), 0⟩, by unfold mergedSeq; simp, ?_⟩
                  show b.addr - absorbPrev l1 = x
                  rw [hq, absorbPrev_snoc, if_pos hq0, ← h1, hcq]
                  omega
                · rw [if_neg hq0] at hck
                  exact absurd h2 hck
          · rcases List.mem_cons.1 h2 with h3 | h3
            · exact absurd (by rw [← h1, h3]) hxb
            · -- a block after `b`
              by_cases hck : c ∈ keepNext l2
              · exact ⟨c, by unfold mergedSeq
                             exact List.mem_append_right _ (List.mem_cons_of_mem _ hck), h1⟩
              · exfalso
                cases hl2 : l2 with
                | nil => rw [hl2] at h3; exact absurd h3 (List.not_mem_nil c)
                | cons n l =>
                  rw [hl2] at h3 hck hT2
                  have hck : ¬ c ∈ (if n.alloc = 0 then l else n :: l) := hck
                  by_cases hn0 : n.alloc = 0
                  · rw [if_pos hn0] at hck
                    have hcn : c = n := by
                      rcases List.mem_cons.1 h3 with h4 | h4
                      · exact h4
                      · exact absurd h4 hck
                    have hna : n.addr = b.addr + b.size := hT2.1
                    have hns := hT2.2.1.2.2.2.2.1
                    have hcabs : absorbNext l2 = n.size := by
                      rw [hl2]
                      show (if n.alloc = 0 then n.size else 0) = n.size
                      rw [if_pos hn0]
                    exact hxn (by omega) (by rw [← h1, hcn, hna])
                  · rw [if_neg hn0] at hck
                    exact hck h3
  · -- tag words of the other blocks
    intro x hx hxR
    have hlf : ∀ y, LinkFree h.segList (FreeIn (l1 ++ b :: l2)) y →
        y < b.addr - absorbPrev l1 ∨ (b.addr + b.size + absorbNext l2 ≤ y ∧ y ≤ h.epilogue) →
        (mm_free h (b.addr + 8)).mem.rd y = h.mem.rd y := hfr
    have hfree_ge : ∀ y, FreeIn (l1 ++ b :: l2) y → h.segList + 192 ≤ y := by
      intro y hy
      exact (FreeIn_left hI.tiled hy).1
    rw [hI2.visited_iff x, hseg2, hpro2] at hx
    have hpro := hI.seg
    rcases hx with h1 | ⟨i, hi, h1⟩ | ⟨c, hc, h1⟩
    · have hsz : GET_SIZE h.mem x = 8 := by
        rw [h1]
        have := hI.sent.1.1
        have e : h.segList - 8 = h.prologue := by omega
        rw [e] at this; exact this
      have hft : FTRP h.mem x = x := by unfold FTRP HDRP HSIZE; rw [hsz]; omega
      rw [hft]
      have : (mm_free h (b.addr + 8)).mem.rd x = h.mem.rd x := by
        refine hlf x ⟨?_, ?_⟩ (Or.inl (by omega))
        · intro y hy; have := hfree_ge y hy; omega
        · intro i hi; omega
      exact ⟨this, this⟩
    · have hsz : GET_SIZE h.mem x = 32 := by
        rw [h1]; exact (hI.sent.2.1 i hi).1
      have hft : FTRP h.mem x = x + 24 := by unfold FTRP HDRP HSIZE; rw [hsz]; omega
      rw [hft]
      constructor
      · refine hlf x ⟨?_, ?_⟩ (Or.inl (by omega))
        · intro y hy; have := hfree_ge y hy; omega
        · intro j hj; omega
      · refine hlf (x + 24) ⟨?_, ?_⟩ (Or.inl (by omega))
        · intro y hy; have := hfree_ge y hy; omega
        · intro j hj; omega
    · unfold mergedSeq at hc
      have hcpre : c ∈ l1 ++ b :: l2 ∧ (c.addr + c.size ≤ b.addr - absorbPrev l1 ∨
          (b.addr + b.size + absorbNext l2 ≤ c.addr ∧ c.addr + c.size ≤ h.epilogue)) := by
        rcases List.mem_append.1 hc with h2 | h2
        · exact ⟨List.mem_append_left _ (mem_keepPrev l1 c h2), Or.inl (hK1.2 c h2).2⟩
        · rcases List.mem_cons.1 h2 with h3 | h3
          · exact absurd (by rw [← h1, h3]) hxR
          · have := hK2.2 c h3
            exact ⟨List.mem_append_right _ (List.mem_cons_of_mem _ (mem_keepNext l2 c h3)),
              Or.inr ⟨by omega, this.2⟩⟩
      obtain ⟨hcm, hcr⟩ := hcpre
      have hcok := Tiled_mem_ok _ _ _ hI.tiled c hcm
      have h32 := hcok.2.2.2.2.1
      have htl := tag_linkfree (A := FreeIn (l1 ++ b :: l2)) hI.tiled
        (fun y hy => FreeIn_addr hy) hcm
      have hft : FTRP h.mem x = c.addr + c.size - 8 := by
        unfold FTRP HDRP HSIZE; rw [← h1, hcok.1]
      rw [hft, ← h1]
      constructor
      · refine hlf _ htl.1 ?_
        rcases hcr with h2 | h2
        · left; omega
        · right; omega
      · refine hlf _ htl.2 ?_
        rcases hcr with h2 | h2
        · left; omega
        · right; omega

theorem reach_stHalves : Reachable stHalves :=
  Reachable.free _ _ (Reachable.malloc true _ _
    (Reachable.malloc true _ _ reach_stInit (by decide)) (by decide)) (by decide)

/-- The invariant holds in the state `stHalves`, with a free block of `2^30`
bytes followed by an allocated block of `2^30` bytes. -/
theorem inv_stHalves : Inv stHalves.heap stHalves.live
    [⟨4296016072, 1073741824, 0⟩, ⟨5369757896, 1073741824, 1⟩] := by
  have hF : ∀ x, FreeIn [⟨4296016072, 1073741824, 0⟩, ⟨5369757896, 1073741824, 1⟩] x ↔
      x = 4296016072 := by
    intro x
    unfold FreeIn
    constructor
    · rintro ⟨b, hb, h1, h2⟩
      simp only [List.mem_cons, List.mem_singleton, List.not_mem_nil, or_false] at hb
      rcases hb with h | h
      · rw [← h1, h]
      · rw [h] at h2; exact absurd h2 (by decide)
    · intro h
      exact ⟨⟨4296016072, 1073741824, 0⟩, by simp, h.symm, rfl⟩
  have hseg : stHalves.heap.segList = 4296015880 := by decide
  refine
    { pro := by decide
      seg := by decide
      sent := by unfold Sentinels; decide
      tiled := ⟨by decide, ⟨by decide, by decide, by decide, by decide, by decide, by decide⟩,
        by decide, ⟨by decide, by decide, by decide, by decide, by decide, by decide⟩,
        (by decide : stHalves.heap.segList + 192 + 1073741824 + 1073741824 =
          stHalves.heap.epilogue)⟩
      brk := by decide
      noadj := ⟨Or.inr rfl, trivial⟩
      lists := ⟨fun i => if i = 5 then [4296016072] else [], ?_, ?_, ?_, ?_, ?_⟩
      live_iff := ?_
      nodup := by decide }
  · intro i hi
    rw [hseg]
    interval_cases i <;> refine ⟨by decide, by decide, ?_⟩ <;>
      first
      | exact trivial
      | exact ⟨by decide, by decide, trivial⟩
  · intro i hi
    interval_cases i <;> simp
  · intro i hi x
    rw [hF]
    show x ∈ (if i = 5 then [4296016072] else []) ↔ _
    by_cases h5 : i = 5
    · rw [if_pos h5, List.mem_singleton]
      constructor
      · intro h; subst h; subst h5; exact ⟨rfl, by decide⟩
      · exact fun h => h.1
    · rw [if_neg h5]
      constructor
      · intro h; exact absurd h (List.not_mem_nil x)
      · rintro ⟨h1, h2⟩
        subst h1
        have : calcList (GET_SIZE stHalves.heap.mem 4296016072) = 5 := by decide
        exact absurd (this.symm.trans h2) (fun e => h5 e.symm)
  · intro x hx
    rw [(hF x).1 hx, hseg]
  · intro x y hx hy
    left
    rw [(hF x).1 hx, (hF y).1 hy]
  · intro p
    have hl : stHalves.live = [5369757904] := by decide
    rw [hl]
    simp only [List.mem_cons, List.mem_singleton, List.not_mem_nil, or_false]
    constructor
    · intro h
      exact ⟨⟨5369757896, 1073741824, 1⟩, Or.inr rfl, rfl, h⟩
    · rintro ⟨b, hb | hb, h1, h2⟩
      · rw [hb] at h1; exact absurd h1 (by decide)
      · rw [h2, hb]

/-- C15 (amended): the result of `mm_free`.  In every well-formed heap whose
arena is smaller than `2^31 + 208` bytes and for every live payload `p`, with
`B` the block of `p`, `s` its size, and `a`, `c` the sizes of the free
neighbours before and after it (0 where the neighbour is not free): after
`mm_free(p)` the block at `B - a` has header and footer `(a + s + c, free)`;
it is the head of the list of class `calcList (a + s + c)`; every list is what
it was without the two neighbours (the merged block apart); the heap walk
visits the merged block and the blocks visited before other than `B` and the
absorbed next block, and their tag words are unchanged; and `coalesce` returns
`B - a`. -/
theorem free_result (s : St) (hw : WellFormed s)
    (hbig : mem_heapsize s.heap < 2 ^ 31 + 208) (p : Nat) (hp : p ∈ s.live) :
    FreeResult s.heap p := by
  obtain ⟨bs, hI⟩ := hw
  exact hI.freeResult_holds hbig hp

/-- The theorem on `mm_free` applied to the example of the specification:
blocks for 16, 64, 512 and 16 bytes, the second and fourth freed, then the
third is freed and merges with both neighbours. -/
theorem free_result_witness :
    WellFormed stSeq ∧ mem_heapsize stSeq.heap < 2 ^ 31 + 208 ∧ 4296016192 ∈ stSeq.live ∧
      FreeResult stSeq.heap 4296016192 :=
  ⟨reachable_inv reach_stSeq (by decide), by decide, by decide,
    free_result stSeq (reachable_inv reach_stSeq (by decide)) (by decide) 4296016192
      (by decide)⟩

/-- C15 fails as stated: the heap `stHalves` is well-formed, with an arena of
`2^31 + 208` bytes, a free block of `2^30` bytes at `4296016072` and the live
block `5369757896` of `2^30` bytes after it; after `mm_free(5369757904)` the
header of the block at `4296016072` holds the size 0, not `2^31`. -/
theorem free_result_counterexample :
    WellFormed stHalves ∧ mem_heapsize stHalves.heap = 2 ^ 31 + 208 ∧
      5369757904 ∈ stHalves.live ∧
      GET_SIZE stHalves.heap.mem (5369757904 - HSIZE) = 2 ^ 30 ∧
      prevFree stHalves.heap.mem (5369757904 - HSIZE) = 2 ^ 30 ∧
      nextFree stHalves.heap.mem (5369757904 - HSIZE) = 0 ∧
      GET_SIZE (mm_free stHalves.heap 5369757904).mem 4296016072 = 0 ∧
      ¬ FreeResult stHalves.heap 5369757904 :=
  ⟨⟨_, inv_stHalves⟩, by decide, by decide, by decide, by decide, by decide, by decide,
    fun h => absurd h.1.1 (by decide)⟩

/-! ## Allocate and free again -/

theorem Blk.eta (r : Blk) : (⟨r.addr, r.size, r.alloc⟩ : Blk) = r := by
  cases r; rfl

/-- Around a free block of a sequence without free neighbours, the blocks
before and after are allocated. -/
theorem NoAdj_around {l1 l2 : List Blk} {r : Blk} (hN : NoAdj (l1 ++ r :: l2))
    (hr0 : r.alloc = 0) :
    (∀ l p, l1 = l ++ [p] → p.alloc = 1) ∧ (∀ n l, l2 = n :: l → n.alloc = 1) := by
  have hNN := (NoAdj_append_cons l1 l2 r).1 hN
  constructor
  · intro l p hl
    have h1 := hNN.1
    rw [hl, List.append_assoc] at h1
    have h2 := ((NoAdj_append_cons l [r] p).1 h1).2
    have h3 : p.alloc = 1 ∨ r.alloc = 1 := h2.1
    omega
  · intro n l hl
    have h1 := hNN.2
    rw [hl] at h1
    have h3 : r.alloc = 1 ∨ n.alloc = 1 := h1.1
    omega

/-- Placement without split keeps the invariant, with the block allocated. -/
theorem inv_place_whole {h : Heap} {live : List Nat} {l1 l2 : List Blk} {r : Blk}
    {fl : Nat → List Nat} {asize : Nat}
    (hI : Inv h live (l1 ++ r :: l2))
    (hfl : ListsAt h.segList h.mem fl (FreeIn (l1 ++ r :: l2)))
    (hr0 : r.alloc = 0) (ha3 : asize ≤ r.size) (hw : r.size - asize < 32) :
    Inv { h with mem := place h.segList h.mem r.addr asize } ((r.addr + 8) :: live)
      (l1 ++ ⟨r.addr, r.size, 1⟩ :: l2) ∧
    ListsAt h.segList (place h.segList h.mem r.addr asize) (fun i => (fl i).erase r.addr)
      (FreeIn (l1 ++ ⟨r.addr, r.size, 1⟩ :: l2)) := by
  have hNN := (NoAdj_append_cons l1 l2 r).1 hI.noadj
  have hr : r ∈ l1 ++ r :: l2 := by simp
  obtain ⟨c1, c2, c3, _⟩ :=
    place_whole_full h.segList h.mem fl l1 l2 r h.epilogue asize hI.tiled hI.sent hfl hr0 ha3 hw
  refine ⟨hI.update _ _ _ c1 c2 ⟨_, c3⟩ ?_ ?_ ?_, c3⟩
  · exact NoAdj_glue l1 l2 _ (NoAdj_snoc_alloc rfl l1 (NoAdj_init l1 hNN.1))
      (NoAdj_cons_alloc rfl l2 (NoAdj_tail l2 hNN.2))
  · intro q
    rw [List.mem_cons, hI.live_iff]
    simp only [List.mem_append, List.mem_cons]
    constructor
    · rintro (hq | ⟨c, h | h | h, hca, hq⟩)
      · exact ⟨⟨r.addr, r.size, 1⟩, Or.inr (Or.inl rfl), rfl, hq⟩
      · exact ⟨c, Or.inl h, hca, hq⟩
      · subst h; rw [hr0] at hca; exact absurd hca (by decide)
      · exact ⟨c, Or.inr (Or.inr h), hca, hq⟩
    · rintro ⟨c, h | h | h, hca, hq⟩
      · exact Or.inr ⟨c, Or.inl h, hca, hq⟩
      · subst h; exact Or.inl hq
      · exact Or.inr ⟨c, Or.inr (Or.inr h), hca, hq⟩
  · refine List.nodup_cons.2 ⟨?_, hI.nodup⟩
    intro hmem
    obtain ⟨c, hc, hca, hq⟩ := (hI.live_iff _).1 hmem
    have : c = r := Tiled_addr_inj hI.tiled hc hr (by omega)
    rw [this, hr0] at hca
    exact absurd hca (by decide)

/-- Placement with split keeps the invariant, with the first `asize` bytes
allocated and the rest a free block. -/
theorem inv_place_split {h : Heap} {live : List Nat} {l1 l2 : List Blk} {r : Blk}
    {fl : Nat → List Nat} {asize : Nat}
    (hI : Inv h live (l1 ++ r :: l2))
    (hfl : ListsAt h.segList h.mem fl (FreeIn (l1 ++ r :: l2)))
    (hr0 : r.alloc = 0) (ha1 : 32 ≤ asize) (ha2 : asize % 8 = 0) (ha3 : asize ≤ r.size)
    (hw : ¬ r.size - asize < 32) :
    Inv { h with mem := place h.segList h.mem r.addr asize } ((r.addr + 8) :: live)
      (l1 ++ ⟨r.addr, asize, 1⟩ :: ⟨r.addr + asize, r.size - asize, 0⟩ :: l2) ∧
    ListsAt h.segList (place h.segList h.mem r.addr asize)
      (fun i => if i = calcList (r.size - asize) then (r.addr + asize) :: (fl i).erase r.addr
        else (fl i).erase r.addr)
      (FreeIn (l1 ++ ⟨r.addr, asize, 1⟩ :: ⟨r.addr + asize, r.size - asize, 0⟩ :: l2)) := by
  have hNN := (NoAdj_append_cons l1 l2 r).1 hI.noadj
  have hr : r ∈ l1 ++ r :: l2 := by simp
  obtain ⟨c1, c2, c3, _⟩ :=
    place_split_full h.segList h.mem fl l1 l2 r h.epilogue asize hI.tiled hI.sent hfl hr0
      ha1 ha2 ha3 hw
  refine ⟨hI.update _ _ _ c1 c2 ⟨_, c3⟩ ?_ ?_ ?_, c3⟩
  · refine NoAdj_glue l1 _ _ (NoAdj_snoc_alloc rfl l1 (NoAdj_init l1 hNN.1)) ?_
    exact ⟨Or.inl rfl, NoAdj_cons_congr (b := r) (by rw [hr0]) l2 hNN.2⟩
  · intro q
    rw [List.mem_cons, hI.live_iff]
    simp only [List.mem_append, List.mem_cons]
    constructor
    · rintro (hq | ⟨c, h | h | h, hca, hq⟩)
      · exact ⟨⟨r.addr, asize, 1⟩, Or.inr (Or.inl rfl), rfl, hq⟩
      · exact ⟨c, Or.inl h, hca, hq⟩
      · subst h; rw [hr0] at hca; exact absurd hca (by decide)
      · exact ⟨c, Or.inr (Or.inr (Or.inr h)), hca, hq⟩
    · rintro ⟨c, h | h | h | h, hca, hq⟩
      · exact Or.inr ⟨c, Or.inl h, hca, hq⟩
      · subst h; exact Or.inl hq
      · subst h; simp at hca
      · exact Or.inr ⟨c, Or.inr (Or.inr h), hca, hq⟩
  · refine List.nodup_cons.2 ⟨?_, hI.nodup⟩
    intro hmem
    obtain ⟨c, hc, hca, hq⟩ := (hI.live_iff _).1 hmem
    have : c = r := Tiled_addr_inj hI.tiled hc hr (by omega)
    rw [this, hr0] at hca
    exact absurd hca (by decide)

/-- The list sequences after a block taken from the lists has come back: the
block is the head of the list of its class. -/
theorem roundtrip_lists {seg : Nat} {m : Mem} {fl : Nat → List Nat} {L : Nat → Prop}
    (hfl : ListsAt seg m fl L) {R S : Nat} (hS : GET_SIZE m R = S) (i : Nat) (hi : i < 6) :
    (if i = calcList S then R :: ((fl i).erase R).erase R else ((fl i).erase R).erase R) =
      (if i = calcList S then R :: (fl i).erase R else fl i) := by
  have hnd := hfl.2.1 i hi
  have h1 : ((fl i).erase R).erase R = (fl i).erase R :=
    List.erase_of_not_mem (fun h => ((hnd.mem_erase_iff).1 h).1 rfl)
  rw [h1]
  by_cases hc : i = calcList S
  · rw [if_pos hc, if_pos hc]
  · rw [if_neg hc, if_neg hc]
    refine List.erase_of_not_mem (fun h => hc ?_)
    have := ((hfl.2.2.1 i hi R).1 h).2
    rw [hS] at this
    exact this.symm

/-- Allocating in the free block `r` and freeing the payload again restores
the block sequence; the lists are as before, but `r` is the head of the list
of its class. -/
theorem roundtrip_inv {h : Heap} {live : List Nat} {l1 l2 : List Blk} {r : Blk}
    {fl : Nat → List Nat} {asize : Nat}
    (hI : Inv h live (l1 ++ r :: l2)) (hbig : mem_heapsize h < 2 ^ 31 + 208)
    (hfl : ListsAt h.segList h.mem fl (FreeIn (l1 ++ r :: l2)))
    (hr0 : r.alloc = 0) (ha1 : 32 ≤ asize) (ha2 : asize % 8 = 0) (ha3 : asize ≤ r.size) :
    Inv (mm_free { h with mem := place h.segList h.mem r.addr asize } (r.addr + 8)) live
      (l1 ++ r :: l2) ∧
    ListsAt h.segList
      (mm_free { h with mem := place h.segList h.mem r.addr asize } (r.addr + 8)).mem
      (fun i => if i = calcList r.size then r.addr :: (fl i).erase r.addr else fl i)
      (FreeIn (l1 ++ r :: l2)) := by
  obtain ⟨hpall, hnall⟩ := NoAdj_around hI.noadj hr0
  obtain ⟨ea, ek⟩ := absorbPrev_alloc l1 hpall
  obtain ⟨hT1, hrok, hT2⟩ := Tiled_split hI.tiled
  have hB1 := Tiled_bounds _ _ _ hT1
  have hB2 := Tiled_bounds _ _ _ hT2
  have hr32 := hrok.2.2.2.2.1
  have hreta : (⟨r.addr, r.size, 0⟩ : Blk) = r := by
    rw [← hr0]
  have hlive : ((r.addr + 8) :: live).erase (r.addr + 8) = live := List.erase_cons_head _ _
  have hnotin : ∀ y, r.addr < y → y ≤ r.addr + r.size →
      (∀ n l, l2 = n :: l → n.addr = y → n.alloc = 1) → ¬ FreeIn (l1 ++ r :: l2) y := by
    intro y h1 h2 hn ⟨c, hc, hcy, hc0⟩
    rcases List.mem_append.1 hc with h3 | h3
    · have := hB1.2 c h3
      have := (Tiled_mem_ok _ _ _ hT1 c h3).2.2.2.2.1
      omega
    · rcases List.mem_cons.1 h3 with h4 | h4
      · rw [h4] at hcy; omega
      · cases hl2 : l2 with
        | nil => rw [hl2] at h4; exact absurd h4 (List.not_mem_nil c)
        | cons n l =>
          have hT2' := hT2
          rw [hl2] at hT2' h4
          have hna : n.addr = r.addr + r.size := hT2'.1
          have hcb := hB2.2 c (by rw [hl2]; exact h4)
          have hcn : c = n := Tiled_addr_inj hT2' h4 (List.mem_cons_self n l) (by omega)
          have := hn n l hl2 (by omega)
          rw [hcn] at hc0
          omega
  by_cases hw : r.size - asize < 32
  · -- the whole block is handed out
    obtain ⟨hI1, hfl1⟩ := inv_place_whole hI hfl hr0 ha3 hw
    obtain ⟨ec, ekn⟩ := absorbNext_alloc l2 hnall
    obtain ⟨_, hI2, hfl2, _⟩ :=
      mm_free_full (b := ⟨r.addr, r.size, 1⟩) hI1 rfl hbig hfl1
    have hseq : mergedSeq l1 ⟨r.addr, r.size, 1⟩ l2 = l1 ++ r :: l2 := by
      unfold mergedSeq
      rw [ea, ek, ec, ekn]
      show l1 ++ ⟨r.addr, r.size, 0⟩ :: l2 = _
      rw [hreta]
    rw [hseq] at hI2 hfl2
    rw [hlive] at hI2
    refine ⟨hI2, ListsAt_congr_fl ?_ hfl2⟩
    intro i hi
    rw [ea, ec]
    unfold mergedLists
    simp only [Nat.sub_zero, Nat.add_zero]
    have hne : ((fl i).erase r.addr).erase (r.addr + r.size) = (fl i).erase r.addr := by
      refine List.erase_of_not_mem (fun hm => ?_)
      have hm2 := List.mem_of_mem_erase hm
      exact hnotin _ (by omega) (le_refl _) (fun n l hl _ => hnall n l hl)
        ((hfl.2.2.1 i hi _).1 hm2).1
    rw [hne]
    exact roundtrip_lists hfl hrok.1 i hi
  · -- the block is split
    obtain ⟨hI1, hfl1⟩ := inv_place_split hI hfl hr0 ha1 ha2 ha3 hw
    have ec : absorbNext (⟨r.addr + asize, r.size - asize, 0⟩ :: l2) = r.size - asize := rfl
    have ekn : keepNext (⟨r.addr + asize, r.size - asize, 0⟩ :: l2) = l2 := rfl
    obtain ⟨_, hI2, hfl2, _⟩ :=
      mm_free_full (b := ⟨r.addr, asize, 1⟩) hI1 rfl hbig hfl1
    have hsz : asize + (0 + (r.size - asize)) = r.size := by omega
    have hseq : mergedSeq l1 ⟨r.addr, asize, 1⟩ (⟨r.addr + asize, r.size - asize, 0⟩ :: l2) =
        l1 ++ r :: l2 := by
      unfold mergedSeq
      rw [ea, ek, ec, ekn]
      show l1 ++ ⟨r.addr, asize + (0 + (r.size - asize)), 0⟩ :: l2 = _
      rw [hsz, hreta]
    rw [hseq] at hI2 hfl2
    rw [hlive] at hI2
    refine ⟨hI2, ListsAt_congr_fl ?_ hfl2⟩
    intro i hi
    rw [ea, ec]
    unfold mergedLists
    simp only [Nat.sub_zero, hsz]
    have hnm : r.addr + asize ∉ (fl i).erase r.addr := by
      intro hm
      have hm2 := List.mem_of_mem_erase hm
      exact hnotin _ (by omega) (by omega) (fun n l hl hna => by
        have hT2' := hT2
        rw [hl] at hT2'
        have : n.addr = r.addr + r.size := hT2'.1
        omega) ((hfl.2.2.1 i hi _).1 hm2).1
    have hne : (if i = calcList (r.size - asize) then (r.addr + asize) :: (fl i).erase r.addr
        else (fl i).erase r.addr).erase (r.addr + asize) = (fl i).erase r.addr := by
      by_cases hc : i = calcList (r.size - asize)
      · rw [if_pos hc, List.erase_cons_head]
      · rw [if_neg hc]
        exact List.erase_of_not_mem hnm
    rw [hne]
    exact roundtrip_lists hfl hrok.1 i hi

/-! ## `find_fit` on the list sequences -/

theorem find_fit_scan_eq (m : Mem) (asize : Nat) : ∀ (n : Nat) (l : List Nat) (p : Nat),
    Seg m p l 0 → (∀ x, x ∈ l → x ≠ 0) →
    find_fit_scan m asize n (l.headD 0) = scanList (GET_SIZE m) asize n l := by
  intro n
  induction n with
  | zero => intro l p _ _; cases l <;> rfl
  | succ n ih =>
    intro l p hs hnz
    cases l with
    | nil =>
      unfold find_fit_scan scanList
      simp
    | cons a l =>
      have ha : a ≠ 0 := hnz a (List.mem_cons_self a l)
      unfold find_fit_scan scanList
      simp only [List.headD_cons]
      rw [if_neg (show ¬ a = NULL from ha)]
      by_cases hsz : GET_SIZE m a ≥ asize
      · rw [if_pos hsz, if_pos hsz]
      · rw [if_neg hsz, if_neg hsz, hs.2.1]
        exact ih l a hs.2.2 (fun x hx => hnz x (List.mem_cons_of_mem a hx))

theorem find_fit_lists_eq {seg : Nat} {m : Mem} {fl : Nat → List Nat} {L : Nat → Prop}
    (hfl : ListsAt seg m fl L) (asize : Nat) : ∀ (n i : Nat), i + n ≤ 6 →
    find_fit_lists seg m asize n i = scanLists (GET_SIZE m) fl asize n i := by
  intro n
  induction n with
  | zero => intro i _; rfl
  | succ n ih =>
    intro i hi
    have hok := hfl.1 i (by omega)
    have hnz : ∀ x, x ∈ fl i → x ≠ 0 := by
      intro x hx
      have := hfl.2.2.2.1 x ((hfl.2.2.1 i (by omega) x).1 hx).1
      omega
    have e := find_fit_scan_eq m asize 12 (fl i) 0 hok.2.2 hnz
    have e1 : getNext m (seg + 32 * i) = (fl i).headD 0 := hok.1
    unfold find_fit_lists scanLists
    simp only [MIN_BLOCK_SIZE]
    rw [e1, e, ih (i + 1) (by omega)]

theorem find_fit_eq {seg : Nat} {m : Mem} {fl : Nat → List Nat} {L : Nat → Prop}
    (hfl : ListsAt seg m fl L) (asize : Nat) :
    find_fit seg m asize =
      scanLists (GET_SIZE m) fl asize (6 - calcList (asize % 2 ^ 32))
        (calcList (asize % 2 ^ 32)) := by
  have hc := calcList_le (asize % 2 ^ 32)
  unfold find_fit
  simp only [LISTMAX]
  exact find_fit_lists_eq hfl asize _ _ (by omega)

theorem scanList_mem (sz : Nat → Nat) (asize : Nat) : ∀ (n : Nat) (l : List Nat),
    scanList sz asize n l ≠ 0 → scanList sz asize n l ∈ l := by
  intro n
  induction n with
  | zero => intro l h; cases l <;> exact absurd rfl h
  | succ n ih =>
    intro l h
    cases l with
    | nil => exact absurd rfl h
    | cons a l =>
      unfold scanList at h ⊢
      by_cases hsz : sz a ≥ asize
      · rw [if_pos hsz]; exact List.mem_cons_self a l
      · rw [if_neg hsz] at h ⊢
        exact List.mem_cons_of_mem a (ih l h)

theorem scanList_congr {sz sz2 : Nat → Nat} (asize : Nat) : ∀ (n : Nat) (l : List Nat),
    (∀ x, x ∈ l → sz2 x = sz x) → scanList sz2 asize n l = scanList sz asize n l := by
  intro n
  induction n with
  | zero => intro l _; cases l <;> rfl
  | succ n ih =>
    intro l h
    cases l with
    | nil => rfl
    | cons a l =>
      unfold scanList
      rw [h a (List.mem_cons_self a l), ih l (fun x hx => h x (List.mem_cons_of_mem a hx))]

theorem scanLists_congr {sz sz2 : Nat → Nat} {fl : Nat → List Nat} (asize : Nat)
    (h : ∀ i, i < 6 → ∀ x, x ∈ fl i → sz2 x = sz x) : ∀ (n i : Nat), i + n ≤ 6 →
    scanLists sz2 fl asize n i = scanLists sz fl asize n i := by
  intro n
  induction n with
  | zero => intro i _; rfl
  | succ n ih =>
    intro i hi
    unfold scanLists
    rw [scanList_congr asize 12 (fl i) (h i (by omega)), ih (i + 1) (by omega)]

/-- Moving the block that the search finds to the head of its list does not
change the result of the search. -/
theorem scanLists_head {sz : Nat → Nat} {fl fl3 : Nat → List Nat} {asize R j : Nat}
    (hR : R ≠ 0) (hsz : asize ≤ sz R)
    (hj : ∀ k, k < 6 → R ∈ fl k → k = j)
    (h3 : ∀ k, fl3 k = if k = j then R :: (fl k).erase R else fl k) : ∀ (n i : Nat),
    i + n ≤ 6 → scanLists sz fl asize n i = R → scanLists sz fl3 asize n i = R := by
  intro n
  induction n with
  | zero => intro i _ h; exact absurd h.symm hR
  | succ n ih =>
    intro i hi h
    unfold scanLists at h ⊢
    by_cases hij : i = j
    · have e : scanList sz asize 12 (fl3 i) = R := by
        rw [h3 i, if_pos hij]
        show (if sz R ≥ asize then R else _) = R
        rw [if_pos hsz]
      rw [e, if_pos hR]
    · rw [h3 i, if_neg hij]
      by_cases hs : scanList sz asize 12 (fl i) ≠ NULL
      · rw [if_pos hs] at h
        have := scanList_mem sz asize 12 (fl i) hs
        rw [h] at this
        exact absurd (hj i (by omega) this) hij
      · rw [if_neg hs] at h ⊢
        exact ih (i + 1) (by omega) h

/-- The round trip in a heap that satisfies the invariant. -/
theorem roundtrip_of_inv {h : Heap} {live : List Nat} {bs : List Blk} (hI : Inv h live bs)
    (hbig : mem_heapsize h < 2 ^ 31 + 208) (grant : Bool) (n : Nat) (hn : n ≠ 0)
    (hfit : find_fit h.segList h.mem (adjust_size n) ≠ NULL) : RoundTrip grant h n := by
  obtain ⟨a1, a2, _⟩ := adjust_size_spec n
  obtain ⟨r, hr, hra, hr0, hge⟩ := hI.fit_block _ hfit
  obtain ⟨l1, l2, hsplit⟩ := List.append_of_mem hr
  subst hsplit
  obtain ⟨fl, hfl⟩ := hI.lists
  have hm := mm_malloc_fit_eq grant h n hn _ hra.symm (by rw [hra]; exact hfit)
  obtain ⟨hI3, hfl3⟩ := roundtrip_inv hI hbig hfl hr0 a1 a2 hge
  have hrok := Tiled_mem_ok _ _ _ hI.tiled r hr
  unfold RoundTrip
  rw [hm]
  simp only []
  generalize hh3 : mm_free { h with mem := place h.segList h.mem r.addr (adjust_size n) }
    (r.addr + 8) = h3 at hI3 hfl3
  have hseg : h3.segList = h.segList := by rw [← hh3]; rfl
  have hpro : h3.prologue = h.prologue := by rw [← hh3]; rfl
  have hepi : h3.epilogue = h.epilogue := by rw [← hh3]; rfl
  have hsize : mem_heapsize h3 = mem_heapsize h := by rw [← hh3]; rfl
  refine ⟨hsize, ?_, ?_⟩
  · refine ⟨_, hI.walk, ?_, ?_⟩
    · have := hI3.walk
      rw [hseg, hpro, hepi] at this
      rw [hpro, hepi]
      exact this
    · intro x hx
      have hps := hI.seg
      rcases List.mem_cons.1 hx with h1 | h1
      · have e : x = h.segList - 8 := by rw [h1]; omega
        have s1 := hI.sent.1
        have s3 := hI3.sent.1
        rw [hseg] at s3
        rw [e, s1.1, s1.2, s3.1, s3.2]
        exact ⟨rfl, rfl⟩
      · rcases List.mem_append.1 h1 with h2 | h2
        · obtain ⟨i, hi, h3'⟩ := mem_headBlocks.1 h2
          have s1 := hI.sent.2.1 i hi
          have s3 := hI3.sent.2.1 i hi
          rw [hseg] at s3
          rw [h3', s1.1, s1.2.1, s3.1, s3.2.1]
          exact ⟨rfl, rfl⟩
        · obtain ⟨c, hc, hcx⟩ := List.mem_map.1 h2
          have b1 := Tiled_mem_ok _ _ _ hI.tiled c hc
          have b3 := Tiled_mem_ok _ _ _ hI3.tiled c hc
          rw [← hcx, b1.1, b1.2.1, b3.1, b3.2.1]
          exact ⟨rfl, rfl⟩
  · intro grant2
    have hsz3 : ∀ i, i < 6 → ∀ x,
        x ∈ (fun i => if i = calcList r.size then r.addr :: (fl i).erase r.addr else fl i) i →
        GET_SIZE h3.mem x = GET_SIZE h.mem x := by
      intro i hi x hx
      obtain ⟨c, hc, hcx, _⟩ := ((hfl3.2.2.1 i hi x).1 hx).1
      have b1 := Tiled_mem_ok _ _ _ hI.tiled c hc
      have b3 := Tiled_mem_ok _ _ _ hI3.tiled c hc
      rw [← hcx, b1.1, b3.1]
    have hc5 := calcList_le (adjust_size n % 2 ^ 32)
    have e1 := find_fit_eq hfl (adjust_size n)
    have e3 := find_fit_eq hfl3 (adjust_size n)
    rw [scanLists_congr (adjust_size n) hsz3 _ _ (by omega)] at e3
    have hR : r.addr ≠ 0 := by rw [hra]; exact hfit
    have hfit3 : find_fit h3.segList h3.mem (adjust_size n) = r.addr := by
      rw [hseg, e3]
      refine @scanLists_head _ fl _ _ _ (calcList r.size) hR (by rw [hrok.1]; exact hge)
        ?_ (fun k => rfl) _ _ (by omega) (by rw [← e1, hra])
      intro k hk6 hk
      have := ((hfl.2.2.1 k hk6 r.addr).1 hk).2
      rw [hrok.1] at this
      exact this.symm
    rw [mm_malloc_fit_eq grant2 h3 n hn _ hfit3 hR]

/-- C17 (amended): allocate/free round trip.  In every reachable state whose
arena is smaller than `2^31 + 208` bytes and for every size `n > 0` for which
`find_fit` succeeds inside `mm_malloc(n)`, the sequence `p = mm_malloc(n);
mm_free(p)` leaves the arena size unchanged, the heap walk visits the same
blocks with the same sizes and allocated bits as before the allocation, and
a following `mm_malloc(n)` returns `p` again. -/
theorem round_trip (grant : Bool) (s : St) (n : Nat) (hr : Reachable s)
    (hbig : mem_heapsize s.heap < 2 ^ 31 + 208) (hn : 0 < n)
    (hfit : find_fit s.heap.segList s.heap.mem (adjust_size n) ≠ NULL) :
    RoundTrip grant s.heap n := by
  obtain ⟨bs, hI⟩ := reachable_inv hr hbig
  exact roundtrip_of_inv hI hbig grant n (by omega) hfit

/-- The round trip theorem applied to the example of the specification:
after `mm_init`, allocate 100, free, allocate 100. -/
theorem round_trip_witness :
    Reachable stInit ∧ mem_heapsize stInit.heap < 2 ^ 31 + 208 ∧ 0 < 100 ∧
      find_fit stInit.heap.segList stInit.heap.mem (adjust_size 100) ≠ NULL ∧
      RoundTrip true stInit.heap 100 :=
  ⟨reach_stInit, by decide, by decide, by decide,
    round_trip true stInit 100 reach_stInit (by decide) (by decide) (by decide)⟩

/-- C17 fails as stated: in the reachable state `stMerge` (arena of more than
`2^31 + 208` bytes) the heap walk visits the free blocks `4296016072` of 32
bytes and `4296016104` of 7952 bytes; `find_fit` succeeds for
`mm_malloc(16)`, which returns `4296016080`, and after `mm_free(4296016080)`
the block `4296016072` has 7984 bytes. -/
theorem round_trip_counterexample :
    Reachable stMerge ∧
      find_fit stMerge.heap.segList stMerge.heap.mem (adjust_size 16) ≠ NULL ∧
      (mm_malloc true stMerge.heap 16).1 = 4296016080 ∧
      GET_SIZE stMerge.heap.mem 4296016072 = 32 ∧
      GET_SIZE (mm_free (mm_malloc true stMerge.heap 16).2 4296016080).mem 4296016072 = 7984 ∧
      ¬ RoundTrip true stMerge.heap 16 :=
  have hw : IsWalk stMerge.heap.mem stMerge.heap.prologue
      [4296015872, 4296015880, 4296015912, 4296015944, 4296015976, 4296016008, 4296016040,
        4296016072, 4296016104, 4296024056, 5369757896] stMerge.heap.epilogue := by decide
  have he : GET_SIZE stMerge.heap.mem stMerge.heap.epilogue = 0 := by decide
  have h32 : GET_SIZE stMerge.heap.mem 4296016072 = 32 := by decide
  have h79 : GET_SIZE (mm_free (mm_malloc true stMerge.heap 16).2
      (mm_malloc true stMerge.heap 16).1).mem 4296016072 = 7984 := by decide
  ⟨reach_stMerge, by decide, by decide, h32, by decide, fun hc => by
    obtain ⟨_, ⟨us, hw1, _, hsz⟩, _⟩ := hc
    have hus := Trace_unique _ _ _ _ _ hw1 hw he he
    have := (hsz 4296016072 (by rw [hus]; decide)).1
    rw [h32] at this
    rw [h79] at this
    exact absurd this (by decide)⟩

/-! ## `memcpy` -/

theorem memcpy_words_frame (m : Mem) (dst src : Nat) : ∀ (k x : Nat),
    (∀ j, j < k → x ≠ dst + 8 * j) → (memcpy_words m dst src k).rd x = m.rd x := by
  intro k
  induction k with
  | zero => intro x _; rfl
  | succ k ih =>
    intro x hx
    show (wr (memcpy_words m dst src k) (dst + 8 * k) _).rd x = m.rd x
    rw [rd_wr, if_neg (hx k (by omega))]
    exact ih x (fun j hj => hx j (by omega))

theorem memcpy_words_copy (m : Mem) (dst src : Nat) : ∀ (k : Nat),
    (∀ j j2, j < k → j2 < k → src + 8 * j2 ≠ dst + 8 * j) →
    ∀ w, w < k → (memcpy_words m dst src k).rd (dst + 8 * w) = m.rd (src + 8 * w) := by
  intro k
  induction k with
  | zero => intro _ w hw; omega
  | succ k ih =>
    intro hd w hw
    show (wr (memcpy_words m dst src k) (dst + 8 * k) _).rd (dst + 8 * w) = m.rd (src + 8 * w)
    rw [rd_wr]
    by_cases hwk : w = k
    · rw [if_pos (by rw [hwk]), hwk]
      exact memcpy_words_frame m dst src k _ (fun j hj => hd j k (by omega) (by omega))
    · rw [if_neg (by omega)]
      exact ih (fun j j2 hj hj2 => hd j j2 (by omega) (by omega)) w (by omega)

/-- Words outside the destination are not written by `memcpy`. -/
theorem memcpy_frame (m : Mem) (dst src n x : Nat)
    (hx : ∀ j, 8 * j < n → x ≠ dst + 8 * j) : (memcpy m dst src n).rd x = m.rd x := by
  unfold memcpy
  simp only []
  have h1 : (memcpy_words m dst src (n / 8)).rd x = m.rd x :=
    memcpy_words_frame m dst src _ x (fun j hj => hx j (by omega))
  by_cases h0 : n % 8 = 0
  · rw [if_pos h0]; exact h1
  · rw [if_neg h0, rd_wr, if_neg (hx (n / 8) (by omega))]
    exact h1

theorem low_bytes (a b r t : Nat) (hr : r < 8) (ht : t < r) :
    (a / 256 ^ r * 256 ^ r + b % 256 ^ r) / 256 ^ t % 256 = b / 256 ^ t % 256 := by
  interval_cases r <;> interval_cases t <;> norm_num <;> omega

/-- The first `n` bytes at the destination are the bytes of the source, when
no word of the source is a word of the destination. -/
theorem memcpy_bytes (m : Mem) (dst src n : Nat)
    (hd : ∀ j j2, 8 * j < n → 8 * j2 < n → src + 8 * j2 ≠ dst + 8 * j) (i : Nat) (hi : i < n) :
    byteAt (memcpy m dst src n) dst i = byteAt m src i := by
  unfold byteAt memcpy
  simp only []
  have e1 : dst + i / 8 * 8 = dst + 8 * (i / 8) := by omega
  have e2 : src + i / 8 * 8 = src + 8 * (i / 8) := by omega
  rw [e1, e2]
  have hcopy : ∀ w, w < n / 8 →
      (memcpy_words m dst src (n / 8)).rd (dst + 8 * w) = m.rd (src + 8 * w) :=
    memcpy_words_copy m dst src _ (fun j j2 hj hj2 => hd j j2 (by omega) (by omega))
  by_cases h0 : n % 8 = 0
  · rw [if_pos h0, hcopy (i / 8) (by omega)]
  · rw [if_neg h0, rd_wr]
    by_cases hw : i / 8 = n / 8
    · rw [if_pos (by rw [hw]), hw]
      have hsrc : (memcpy_words m dst src (n / 8)).rd (src + 8 * (n / 8)) =
          m.rd (src + 8 * (n / 8)) :=
        memcpy_words_frame m dst src _ _ (fun j hj => hd j (n / 8) (by omega) (by omega))
      rw [hsrc]
      exact low_bytes _ _ (n % 8) (i % 8) (by omega) (by omega)
    · rw [if_neg (by omega), hcopy (i / 8) (by omega)]

/-! ## Payloads that are held -/

/-- Stores into the payload of an allocated block keep the invariant. -/
theorem Inv.payload_congr {h : Heap} {live : List Nat} {bs : List Blk} (hI : Inv h live bs)
    {b : Blk} (hb : b ∈ bs) (hb1 : b.alloc = 1) (m2 : Mem)
    (hrd : ∀ x, (x < b.addr + 8 ∨ b.addr + b.size - 8 ≤ x) → m2.rd x = h.mem.rd x) :
    Inv { h with mem := m2 } live bs := by
  have hok := Tiled_mem_ok _ _ _ hI.tiled b hb
  have h32 := hok.2.2.2.2.1
  have hbd := (Tiled_bounds _ _ _ hI.tiled).2 b hb
  have hdis := Tiled_disjoint _ _ _ hI.tiled b
  have h8s := hI.sent.2.2.2
  have htag : ∀ c, c ∈ bs → m2.rd c.addr = h.mem.rd c.addr ∧
      m2.rd (c.addr + c.size - 8) = h.mem.rd (c.addr + c.size - 8) := by
    intro c hc
    have hcok := Tiled_mem_ok _ _ _ hI.tiled c hc
    have := hcok.2.2.2.2.1
    rcases hdis c hb hc with e | e | e
    · subst e; exact ⟨hrd _ (by omega), hrd _ (by omega)⟩
    · exact ⟨hrd _ (by omega), hrd _ (by omega)⟩
    · exact ⟨hrd _ (by omega), hrd _ (by omega)⟩
  have hT : Tiled m2 (h.segList + 192) bs h.epilogue :=
    Tiled_congr bs _ _ htag hI.tiled
  have hS : Sentinels h.segList m2 h.epilogue :=
    Sentinels_congr (hrd _ (by omega))
      (fun i hi => ⟨hrd _ (by omega), hrd _ (by omega)⟩) (hrd _ (by omega)) hI.sent
  have hL : Lists h.segList m2 (FreeIn bs) := by
    refine Lists_congr ?_ (fun i hi => ⟨hrd _ (by omega), hrd _ (by omega)⟩) hI.lists
    rintro x ⟨c, hc, hcx, hc0⟩
    subst hcx
    have hcok := Tiled_mem_ok _ _ _ hI.tiled c hc
    have := hcok.2.2.2.2.1
    have hne : ¬ b = c := by
      intro e; subst e; omega
    have hd : b.addr + b.size ≤ c.addr ∨ c.addr + c.size ≤ b.addr := by
      rcases hdis c hb hc with e | e | e
      · exact absurd e hne
      · exact Or.inl e
      · exact Or.inr e
    exact ⟨GET_SIZE_congr (hrd _ (by omega)), hrd _ (by omega), hrd _ (by omega)⟩
  exact hI.update _ bs live hT hS hL hI.noadj hI.live_iff hI.nodup

theorem Obtained.reachable {p old : Nat} {s : St} (h : Obtained p old s) : Reachable s := by
  induction h with
  | malloc grant s hs hsz hp hnn => exact Reachable.malloc grant s old hs hsz
  | later grant s size _ hsz ih => exact Reachable.malloc grant s size ih hsz
  | free s q _ hq hne ih => exact Reachable.free s q ih hq
  | write s a v _ ha ih => exact Reachable.write s a v ih ha

/-- A payload obtained by `mm_malloc(old)` is live, and its block has room
for `old` bytes, as long as the arena is smaller than `2^31 + 208` bytes. -/
theorem Obtained.holds {p old : Nat} {s : St} (h : Obtained p old s)
    (hold : old ≤ 2 ^ 32 - 24) :
    mem_heapsize s.heap < 2 ^ 31 + 208 →
      p ∈ s.live ∧ old + 16 ≤ GET_SIZE s.heap.mem (p - 8) := by
  induction h with
  | malloc grant s hs hsz hp hnn =>
    intro hbig
    have hbig : mem_heapsize (mm_malloc grant s.heap old).2 < 2 ^ 31 + 208 := hbig
    obtain ⟨bs, hI⟩ := reachable_inv hs
      (lt_of_le_of_lt (mm_malloc_heapsize grant s.heap old) hbig)
    rcases mm_malloc_full hI grant old hbig with ⟨h1, _⟩ | ⟨bs2, c, h1, hI2, hc, hc1, hcs, _⟩
    · rw [hp] at h1; exact absurd h1 hnn
    · have hok := Tiled_mem_ok _ _ _ hI2.tiled c hc
      have hge := adjust_size_ge old hold
      constructor
      · show p ∈ (if (mm_malloc grant s.heap old).1 = NULL then s.live
          else (mm_malloc grant s.heap old).1 :: s.live)
        rw [hp, if_neg hnn]
        exact List.mem_cons_self _ _
      · show old + 16 ≤ GET_SIZE (mm_malloc grant s.heap old).2.mem (p - 8)
        rw [← hp, h1, Nat.add_sub_cancel, hok.1]
        omega
  | later grant s size hob hsz ih =>
    intro hbig
    have hbig : mem_heapsize (mm_malloc grant s.heap size).2 < 2 ^ 31 + 208 := hbig
    have hbig0 := lt_of_le_of_lt (mm_malloc_heapsize grant s.heap size) hbig
    obtain ⟨hp, hcap⟩ := ih hbig0
    obtain ⟨bs, hI⟩ := reachable_inv hob.reachable hbig0
    obtain ⟨l1, b, l2, hsplit, hb1, hpb⟩ := hI.live_split hp
    have hbm : b ∈ bs := by rw [hsplit]; simp
    have hbd := (Tiled_bounds _ _ _ hI.tiled).2 b hbm
    have h32 := (Tiled_mem_ok _ _ _ hI.tiled b hbm).2.2.2.2.1
    have hfr := hI.malloc_frame grant size hbig b.addr
      (hI.protected_block hbm hb1 (le_refl _) (by omega)) (by omega)
    constructor
    · show p ∈ (if (mm_malloc grant s.heap size).1 = NULL then s.live
        else (mm_malloc grant s.heap size).1 :: s.live)
      split_ifs
      · exact hp
      · exact List.mem_cons_of_mem _ hp
    · show old + 16 ≤ GET_SIZE (mm_malloc grant s.heap size).2.mem (p - 8)
      rw [hpb, Nat.add_sub_cancel] at hcap ⊢
      rw [GET_SIZE_congr hfr]
      exact hcap
  | free s q hob hq hne ih =>
    intro hbig
    have hbig : mem_heapsize s.heap < 2 ^ 31 + 208 := hbig
    obtain ⟨hp, hcap⟩ := ih hbig
    obtain ⟨bs, hI⟩ := reachable_inv hob.reachable hbig
    obtain ⟨l1, c, l2, hsplit, hc1, hqc⟩ := hI.live_split hq
    subst hsplit
    obtain ⟨l1', b, l2', hsplit', hb1, hpb⟩ := hI.live_split hp
    have hbm : b ∈ l1 ++ c :: l2 := by rw [hsplit']; simp
    have hcm : c ∈ l1 ++ c :: l2 := by simp
    have hbd := (Tiled_bounds _ _ _ hI.tiled).2 b hbm
    have h32 := (Tiled_mem_ok _ _ _ hI.tiled b hbm).2.2.2.2.1
    have hne2 : ¬ b = c := by
      intro e; apply hne; rw [hqc, hpb, e]
    have hfr := mm_free_frame hI hc1 hbig b.addr
      (hI.protected_block hbm hb1 (le_refl _) (by omega))
      (by
        rcases Tiled_disjoint _ _ _ hI.tiled b c hbm hcm with e | e | e
        · exact absurd e hne2
        · left; omega
        · right; omega)
      (by omega)
    constructor
    · show p ∈ s.live.erase q
      exact (List.mem_erase_of_ne (fun e => hne e.symm)).2 hp
    · show old + 16 ≤ GET_SIZE (mm_free s.heap q).mem (p - 8)
      rw [hpb, Nat.add_sub_cancel] at hcap ⊢
      rw [hqc, GET_SIZE_congr hfr]
      exact hcap
  | write s a v hob ha ih =>
    intro hbig
    have hbig : mem_heapsize s.heap < 2 ^ 31 + 208 := hbig
    obtain ⟨hp, hcap⟩ := ih hbig
    obtain ⟨bs, hI⟩ := reachable_inv hob.reachable hbig
    obtain ⟨l1', b, l2', hsplit', hb1, hpb⟩ := hI.live_split hp
    have hbm : b ∈ bs := by rw [hsplit']; simp
    obtain ⟨p2, hp2, a1, a2, _⟩ := ha
    obtain ⟨l1, c, l2, hsplit, hc1, hpc⟩ := hI.live_split hp2
    have hcm : c ∈ bs := by rw [hsplit]; simp
    have hcok := Tiled_mem_ok _ _ _ hI.tiled c hcm
    have hbok := Tiled_mem_ok _ _ _ hI.tiled b hbm
    rw [hpc, Nat.add_sub_cancel, hcok.1] at a2
    have hne : b.addr ≠ a := by
      rcases Tiled_disjoint _ _ _ hI.tiled b c hbm hcm with e | e | e
      · subst e; omega
      · have := hbok.2.2.2.2.1; omega
      · have := hcok.2.2.2.2.1; omega
    refine ⟨hp, ?_⟩
    show old + 16 ≤ GET_SIZE (wr s.heap.mem a v) (p - 8)
    rw [hpb, Nat.add_sub_cancel] at hcap ⊢
    rw [GET_SIZE_wr, if_neg hne]
    exact hcap

/-! ## `mm_realloc` in a heap that satisfies the invariant -/

theorem mm_realloc_some (grant : Bool) (h : Heap) (ptr size : Nat)
    (hnn : (mm_malloc grant h size).1 ≠ NULL) :
    mm_realloc grant h ptr size = some (realloc_result grant h ptr size) := by
  unfold mm_realloc realloc_result
  simp only []
  rw [if_neg hnn]

theorem realloc_of_inv {h : Heap} {live : List Nat} {bs : List Blk} (hI : Inv h live bs)
    (grant : Bool) {ptr old new_size : Nat}
    (hp : ptr ∈ live) (hcap : old + 16 ≤ GET_SIZE h.mem (ptr - 8))
    (hnew : new_size ≤ 2 ^ 32 - 24)
    (hnn : (mm_malloc grant h new_size).1 ≠ NULL)
    (hbig : mem_heapsize (mm_malloc grant h new_size).2 < 2 ^ 31 + 208) :
    ReallocOK h ptr old new_size (realloc_result grant h ptr new_size).1
      (realloc_result grant h ptr new_size).2 := by
  -- the old block
  obtain ⟨l1, b, l2, hsplit, hb1, hpb⟩ := hI.live_split hp
  have hbm : b ∈ bs := by rw [hsplit]; simp
  have hbok := Tiled_mem_ok _ _ _ hI.tiled b hbm
  have hbd := (Tiled_bounds _ _ _ hI.tiled).2 b hbm
  have hb32 := hbok.2.2.2.2.1
  have hb8 := hbok.2.2.2.2.2
  rw [hpb, Nat.add_sub_cancel, hbok.1] at hcap
  -- the new block
  rcases mm_malloc_full hI grant new_size hbig with ⟨h1, _⟩ |
    ⟨bs2, c, h1, hI2, hc, hc1, hcs, hseg, hfr⟩
  · exact absurd h1 hnn
  have hge := adjust_size_ge new_size hnew
  have hcok := Tiled_mem_ok _ _ _ hI2.tiled c hc
  have hc32 := hcok.2.2.2.2.1
  have hc8 := hcok.2.2.2.2.2
  have hres : realloc_result grant h ptr new_size =
      (c.addr + 8, mm_free { (mm_malloc grant h new_size).2 with
        mem := memcpy (mm_malloc grant h new_size).2.mem (c.addr + 8) ptr
          (copySize (mm_malloc grant h new_size).2.mem ptr new_size) } ptr) := by
    unfold realloc_result
    simp only []
    rw [h1]
  rw [hres]
  simp only []
  generalize hH1 : (mm_malloc grant h new_size).2 = H1 at hI2 hcok hfr hseg hbig
  -- the old block in the new sequence
  have hp2 : ptr ∈ (c.addr + 8) :: live := List.mem_cons_of_mem _ hp
  obtain ⟨k1, b2, k2, hsplit2, hb21, hpb2⟩ := hI2.live_split hp2
  subst hsplit2
  have hb2m : b2 ∈ k1 ++ b2 :: k2 := by simp
  have hb2ok := Tiled_mem_ok _ _ _ hI2.tiled b2 hb2m
  have hb2a : b2.addr = b.addr := by omega
  have hhdr : H1.mem.rd b.addr = h.mem.rd b.addr :=
    hfr b.addr (hI.protected_block hbm hb1 (le_refl _) (by omega)) (by omega)
  have hb2s : b2.size = b.size := by
    rw [← hb2ok.1, hb2a, GET_SIZE_congr hhdr, hbok.1]
  have hqne : c.addr + 8 ≠ ptr := by
    intro e
    have := (List.nodup_cons.1 hI2.nodup).1
    rw [e] at this
    exact this hp
  have hcb : ¬ c = b2 := by
    intro e; apply hqne; rw [hpb2, e]
  have hdisj : c.addr + c.size ≤ b.addr ∨ b.addr + b.size ≤ c.addr := by
    rcases Tiled_disjoint _ _ _ hI2.tiled c b2 hc hb2m with e | e | e
    · exact absurd e hcb
    · left; omega
    · right; omega
  -- the copy
  have hn : copySize H1.mem ptr new_size = if new_size < b.size then new_size else b.size := by
    unfold copySize
    simp only []
    have e : ptr - HSIZE = b.addr := by rw [hpb]; show b.addr + 8 - 8 = b.addr; omega
    rw [e, GET_SIZE_congr hhdr, hbok.1]
  generalize hndef : copySize H1.mem ptr new_size = n at hn
  have hnle : n ≤ new_size ∧ n ≤ b.size ∧ min old new_size ≤ n := by
    rw [hn]
    split_ifs with hlt
    · refine ⟨le_refl _, by omega, Nat.min_le_right _ _⟩
    · refine ⟨by omega, le_refl _, ?_⟩
      exact le_trans (Nat.min_le_left _ _) (by omega)
  have hM : ∀ x, (x < c.addr + 8 ∨ c.addr + c.size - 8 ≤ x) →
      (memcpy H1.mem (c.addr + 8) ptr n).rd x = H1.mem.rd x := by
    intro x hx
    refine memcpy_frame _ _ _ _ _ (fun j hj => ?_)
    omega
  have hI3 := hI2.payload_congr hc hc1 (memcpy H1.mem (c.addr + 8) ptr n) hM
  generalize hMdef : memcpy H1.mem (c.addr + 8) ptr n = M at hI3 hM
  have hcd := (Tiled_bounds _ _ _ hI3.tiled).2 c hc
  -- the call of mm_free
  have hbig3 : mem_heapsize { H1 with mem := M } < 2 ^ 31 + 208 := hbig
  have hptr : ptr = b2.addr + 8 := hpb2
  rw [hptr]
  obtain ⟨fl3, hfl3⟩ := hI3.lists
  obtain ⟨_, hI4, _, hfr4⟩ := mm_free_full hI3 hb21 hbig3 hfl3
  have hfr4' := mm_free_frame hI3 hb21 hbig3
  generalize hH4 : mm_free { H1 with mem := M } (b2.addr + 8) = H4 at hI4 hfr4 hfr4'
  have hpro4 : H4.prologue = H1.prologue := by rw [← hH4]; rfl
  have hc4 : c ∈ mergedSeq k1 b2 k2 := by
    rw [mem_mergedSeq_alloc k1 k2 b2 c hc1]
    rcases List.mem_append.1 hc with e | e
    · exact Or.inl e
    · rcases List.mem_cons.1 e with e2 | e2
      · exact absurd e2 hcb
      · exact Or.inr e2
  have hc4ok := Tiled_mem_ok _ _ _ hI4.tiled c hc4
  have e8 : c.addr + 8 - HSIZE = c.addr := by show c.addr + 8 - 8 = c.addr; omega
  have e8b : b2.addr + 8 - HSIZE = b2.addr := by show b2.addr + 8 - 8 = b2.addr; omega
  unfold ReallocOK
  rw [e8, e8b]
  refine ⟨⟨hI4.visited_block hc4, by rw [hc4ok.2.1, hc1]⟩, by rw [← hptr]; exact hqne, ?_, ?_, ?_⟩
  · -- the payload ranges
    rintro x ⟨⟨x1, x2⟩, ⟨x3, x4⟩⟩
    rw [e8, hc4ok.1] at x2
    rw [e8b, hb2a, hbok.1] at x4
    omega
  · -- the bytes
    intro i hi
    have hi2 : i < n := lt_of_lt_of_le hi hnle.2.2
    have hiold : i < old := lt_of_lt_of_le hi (Nat.min_le_left _ _)
    have hw : i / 8 * 8 + 8 ≤ b.size - 16 := by omega
    have hwc : i / 8 * 8 + 8 ≤ c.size - 16 := by omega
    have s1 : byteAt H4.mem (c.addr + 8) i = byteAt M (c.addr + 8) i := by
      unfold byteAt
      rw [hfr4' (c.addr + 8 + i / 8 * 8)
        (hI3.protected_block hc hc1 (by omega) (by omega)) (by omega) (by omega)]
    have s2 : byteAt M (c.addr + 8) i = byteAt H1.mem ptr i := by
      rw [← hMdef]
      refine memcpy_bytes _ _ _ _ (fun j j2 hj hj2 => ?_) i hi2
      omega
    have s3 : byteAt H1.mem ptr i = byteAt h.mem ptr i := by
      unfold byteAt
      rw [hfr (ptr + i / 8 * 8) (hI.protected_block hbm hb1 (by omega) (by omega)) (by omega)]
    rw [s1, s2, s3, hptr]
  · -- the old block
    have hT := Tiled_split hI3.tiled
    have hale : absorbPrev k1 ≤ b2.addr := by
      rcases absorbPrev_spec hT.1 with h0 | ⟨q, _, _, hqe, hqa⟩
      · omega
      · omega
    have hR : (⟨b2.addr - absorbPrev k1, b2.size + (absorbPrev k1 + absorbNext k2), 0⟩ : Blk) ∈
        mergedSeq k1 b2 k2 := by unfold mergedSeq; simp
    have hRok := Tiled_mem_ok _ _ _ hI4.tiled _ hR
    have hR1 : GET_SIZE H4.mem (b2.addr - absorbPrev k1) =
        b2.size + (absorbPrev k1 + absorbNext k2) := hRok.1
    have hR2 : GET_ALLOC H4.mem (b2.addr - absorbPrev k1) = 0 := hRok.2.1
    have hv := hI4.visited_block hR
    refine ⟨b2.addr - absorbPrev k1, hv, hR2, by omega, ?_⟩
    rw [hR1]
    have := hb2ok.2.2.2.2.1
    omega

theorem reach_stOneFreed : Reachable (free_step stOne 4296016080) :=
  Reachable.free _ _ reach_stOne (by decide)

theorem obtained_stOne : Obtained 4296016080 100 stOne :=
  Obtained.malloc true stInit reach_stInit (by decide) (by decide) (by decide)

theorem obtained_stGaps : Obtained 4296016080 100 stGaps :=
  Obtained.free _ _ (Obtained.free _ _ (Obtained.later true _ 16 (Obtained.later true _ 16
    (Obtained.later true _ 16 (Obtained.later true _ 16 (Obtained.later true _ 16
      obtained_stOne (by decide)) (by decide)) (by decide)) (by decide)) (by decide))
    (by decide) (by decide)) (by decide) (by decide)

/-- C19 (amended): content preservation of `mm_realloc`.  For every payload
`ptr` obtained by `mm_malloc(old)` with `old ≤ 2^32 - 24` and still held, and
every `new_size ≤ 2^32 - 24` for which the inner `mm_malloc` succeeds and
leaves an arena smaller than `2^31 + 208` bytes, `mm_realloc(ptr, new_size)`
returns a pointer `q` that is the payload of an allocated block, is not `ptr`
and whose payload shares no byte with the old one; for every
`i < min old new_size` the byte at `q + i` after the call is the byte that was
at `ptr + i` before it; and the old block lies in a free block afterwards. -/
theorem realloc_preserves (grant : Bool) (s : St) (ptr old new_size : Nat)
    (hob : Obtained ptr old s) (hold : old ≤ 2 ^ 32 - 24) (hnew : new_size ≤ 2 ^ 32 - 24)
    (hnn : (mm_malloc grant s.heap new_size).1 ≠ NULL)
    (hbig : mem_heapsize (mm_malloc grant s.heap new_size).2 < 2 ^ 31 + 208) :
    mm_realloc grant s.heap ptr new_size = some (realloc_result grant s.heap ptr new_size) ∧
    ReallocOK s.heap ptr old new_size (realloc_result grant s.heap ptr new_size).1
      (realloc_result grant s.heap ptr new_size).2 := by
  have hbig0 := lt_of_le_of_lt (mm_malloc_heapsize grant s.heap new_size) hbig
  obtain ⟨hp, hcap⟩ := hob.holds hold hbig0
  obtain ⟨bs, hI⟩ := reachable_inv hob.reachable hbig0
  exact ⟨mm_realloc_some grant s.heap ptr new_size hnn,
    realloc_of_inv hI grant hp hcap hnew hnn hbig⟩

/-- The theorem on `mm_realloc` applied to a block for 100 bytes that is
reallocated to 200 bytes right after `mm_init`. -/
theorem realloc_preserves_witness :
    Obtained 4296016080 100 stOne ∧ 100 ≤ 2 ^ 32 - 24 ∧ 200 ≤ 2 ^ 32 - 24 ∧
      (mm_malloc true stOne.heap 200).1 ≠ NULL ∧
      mem_heapsize (mm_malloc true stOne.heap 200).2 < 2 ^ 31 + 208 ∧
      (mm_realloc true stOne.heap 4296016080 200 =
          some (realloc_result true stOne.heap 4296016080 200) ∧
        ReallocOK stOne.heap 4296016080 100 200 (realloc_result true stOne.heap 4296016080 200).1
          (realloc_result true stOne.heap 4296016080 200).2) :=
  ⟨obtained_stOne, by decide, by decide, by decide, by decide,
    realloc_preserves true stOne 4296016080 100 200 obtained_stOne (by decide) (by decide)
      (by decide) (by decide)⟩

/-- C19 fails as stated, in three ways.  (1) In `stStale` the payload
`4296016080` was obtained by `mm_malloc(2^31)` in an arena of more than
`2^31 + 208` bytes; `mm_realloc` to 200 bytes copies 16 bytes, and byte 104
is 240 at the old payload before the call and 0 at the new payload after it.
(2) In `stGaps`, an arena of 8192 bytes, the payload `4296016080` was obtained
by `mm_malloc(100)`; `mm_realloc` to `2^32 - 16` bytes returns `4296016232`,
the payload of a block of 32 bytes, and byte 72 there is 200 after the call
while byte 72 at the old payload was 0.  (3) In `stWrapped`, an arena of 8192
bytes, the payload `4296016080` was obtained by `mm_malloc(2^32 - 16)`;
`mm_realloc` to 100 bytes copies 32 bytes, and byte 24 is 32 at the old
payload before the call and 241 at the new payload after it. -/
theorem realloc_preserves_counterexample :
    (Obtained 4296016080 (2 ^ 31) stStale ∧
      (mm_malloc true stStale.heap 200).1 ≠ NULL ∧
      2 ^ 31 + 208 ≤ mem_heapsize stStale.heap ∧
      copySize (mm_malloc true stStale.heap 200).2.mem 4296016080 200 = 16 ∧
      byteAt stStale.heap.mem 4296016080 104 = 240 ∧
      byteAt (realloc_result true stStale.heap 4296016080 200).2.mem
        (realloc_result true stStale.heap 4296016080 200).1 104 = 0 ∧
      ¬ ReallocOK stStale.heap 4296016080 (2 ^ 31) 200
        (realloc_result true stStale.heap 4296016080 200).1
        (realloc_result true stStale.heap 4296016080 200).2) ∧
    (Obtained 4296016080 100 stGaps ∧
      (mm_malloc true stGaps.heap (2 ^ 32 - 16)).1 = 4296016232 ∧
      mem_heapsize (realloc_result true stGaps.heap 4296016080 (2 ^ 32 - 16)).2 = 8192 ∧
      byteAt stGaps.heap.mem 4296016080 72 = 0 ∧
      byteAt (realloc_result true stGaps.heap 4296016080 (2 ^ 32 - 16)).2.mem 4296016232 72 =
        200 ∧
      ¬ ReallocOK stGaps.heap 4296016080 100 (2 ^ 32 - 16)
        (realloc_result true stGaps.heap 4296016080 (2 ^ 32 - 16)).1
        (realloc_result true stGaps.heap 4296016080 (2 ^ 32 - 16)).2) ∧
    (Obtained 4296016080 (2 ^ 32 - 16) stWrapped ∧
      (mm_malloc true stWrapped.heap 100).1 ≠ NULL ∧
      mem_heapsize (realloc_result true stWrapped.heap 4296016080 100).2 = 8192 ∧
      copySize (mm_malloc true stWrapped.heap 100).2.mem 4296016080 100 = 32 ∧
      byteAt stWrapped.heap.mem 4296016080 24 = 32 ∧
      byteAt (realloc_result true stWrapped.heap 4296016080 100).2.mem
        (realloc_result true stWrapped.heap 4296016080 100).1 24 = 241 ∧
      ¬ ReallocOK stWrapped.heap 4296016080 (2 ^ 32 - 16) 100
        (realloc_result true stWrapped.heap 4296016080 100).1
        (realloc_result true stWrapped.heap 4296016080 100).2) :=
  ⟨⟨Obtained.malloc true _ reach_stOneFreed (by decide) (by decide) (by decide),
      by decide, by decide, by decide, by decide, by decide,
      fun h => absurd (h.2.2.2.1 104 (by decide)) (by decide)⟩,
    ⟨obtained_stGaps, by decide, by decide, by decide, by decide,
      fun h => absurd (h.2.2.2.1 72 (by decide)) (by decide)⟩,
    ⟨Obtained.malloc true stInit reach_stInit (by decide) (by decide) (by decide),
      by decide, by decide, by decide, by decide, by decide,
      fun h => absurd (h.2.2.2.1 24 (by decide)) (by decide)⟩⟩

/-! ## Size classes, adjusted size, failure of `mm_realloc` -/

theorem calcList_eq (s : Nat) :
    calcList s =
      if s ≤ 4000 then 0 else if s ≤ 8000 then 1 else if s ≤ 16000 then 2
      else if s ≤ 32000 then 3 else if s ≤ 64000 then 4 else 5 := by
  simp only [calcList, calcListLoop, LISTMAX, MINSIZE]
  split_ifs <;> first | rfl | omega

/-- A failed `mm_malloc` leaves a reachable state as it is. -/
theorem mm_malloc_null_state {s : St} (hr : Reachable s) (grant : Bool) (size : Nat)
    (h0 : (mm_malloc grant s.heap size).1 = NULL) :
    (mm_malloc grant s.heap size).2 = s.heap := by
  by_cases hsz : size = 0
  · have hm : mm_malloc grant s.heap size = (NULL, s.heap) := by
      unfold mm_malloc; rw [if_pos hsz]
    rw [hm]
  by_cases hfit : find_fit s.heap.segList s.heap.mem (adjust_size size) = 0
  swap
  · rw [mm_malloc_fit_eq grant s.heap size hsz _ rfl hfit] at h0
    exact absurd h0 (by show ¬ _ + 8 = 0; omega)
  have hm := mm_malloc_nofit_eq grant s.heap size hsz hfit _ rfl
  generalize (if endFree s.heap = true then
        (adjust_size size + 2 ^ 64 - lastSize s.heap) % 2 ^ 64 % 2 ^ 32
        else adjust_size size) / 8 = words at hm
  rw [hm] at h0 ⊢
  by_cases he : (extend_heap grant s.heap words).1 ≠ 0
  · rw [if_pos he] at h0
    exact absurd h0 (by show ¬ _ + 8 = 0; omega)
  · rw [if_neg he]
    show (extend_heap grant s.heap words).2 = s.heap
    have he0 : (extend_heap grant s.heap words).1 = 0 := not_not.1 he
    by_cases hz : words * 8 % 2 ^ 32 = 0
    · rw [extend_heap_zero grant s.heap words hz]
    · by_cases hf : (mem_sbrk grant s.heap (words * 8 % 2 ^ 32)).1 = SBRK_FAIL
      · have hs : (mem_sbrk grant s.heap (words * 8 % 2 ^ 32)).2 = s.heap := by
          unfold mem_sbrk at hf ⊢
          by_cases hg : grant = true ∧ s.heap.mem_brk + words * 8 % 2 ^ 32 < 2 ^ 64
          · rw [if_pos hg] at hf
            have hf : s.heap.mem_brk = 2 ^ 64 - 1 := hf
            omega
          · rw [if_neg hg]
        unfold extend_heap
        simp only [if_neg hz, hf, if_true]
        exact hs
      · exact absurd he0 (extend_heap_ret hr grant words hz hf)

theorem mm_realloc_none_iff (grant : Bool) (h : Heap) (ptr size : Nat) :
    mm_realloc grant h ptr size = none ↔ (mm_malloc grant h size).1 = NULL := by
  unfold mm_realloc
  simp only []
  by_cases h0 : (mm_malloc grant h size).1 = NULL
  · rw [if_pos h0]; exact ⟨fun _ => h0, fun _ => rfl⟩
  · rw [if_neg h0]
    exact ⟨fun h => absurd h (by simp), fun h => absurd h h0⟩

/-- C21: failure policy of `mm_realloc`.  In every reachable state,
`mm_realloc(ptr, size)` calls `exit(1)` exactly when the inner
`mm_malloc(size)` returns `NULL`; it does so for `size = 0`; the state at the
call of `exit` is the state before `mm_realloc`, so the old block is neither
freed nor modified; otherwise `mm_realloc` returns the payload that
`mm_malloc` returned, after the copy and `mm_free(ptr)`. -/
theorem realloc_failure_policy (grant : Bool) (s : St) (hr : Reachable s) (ptr size : Nat) :
    (mm_realloc grant s.heap ptr size = none ↔ (mm_malloc grant s.heap size).1 = NULL) ∧
    (size = 0 → mm_realloc grant s.heap ptr size = none) ∧
    (mm_realloc grant s.heap ptr size = none → realloc_exit_state grant s.heap size = s.heap) ∧
    ((mm_malloc grant s.heap size).1 ≠ NULL →
      mm_realloc grant s.heap ptr size =
        some ((mm_malloc grant s.heap size).1,
          mm_free { (mm_malloc grant s.heap size).2 with
            mem := memcpy (mm_malloc grant s.heap size).2.mem (mm_malloc grant s.heap size).1 ptr
              (copySize (mm_malloc grant s.heap size).2.mem ptr size) } ptr)) := by
  have hiff := mm_realloc_none_iff grant s.heap ptr size
  refine ⟨hiff, ?_, ?_, ?_⟩
  · intro hsz
    rw [hiff, hsz]
    unfold mm_malloc
    rw [if_pos rfl]
  · intro hn
    exact mm_malloc_null_state hr grant size (hiff.1 hn)
  · intro hnn
    exact mm_realloc_some grant s.heap ptr size hnn

/-- The failure policy at the state `stFrag`, where `mm_malloc(480)` fails,
and at `mm_realloc` of the first live payload to 100 bytes, which succeeds. -/
theorem realloc_failure_policy_witness :
    Reachable stFrag ∧ 4296016392 ∈ stFrag.live ∧
    mm_realloc true stFrag.heap 4296016392 480 = none ∧
    realloc_exit_state true stFrag.heap 480 = stFrag.heap ∧
    (mm_malloc true stFrag.heap 100).1 ≠ NULL ∧
    (mm_realloc true stFrag.heap 4296016392 100).isSome = true :=
  have h := realloc_failure_policy true stFrag reach_stFrag 4296016392 480
  have h2 := realloc_failure_policy true stFrag reach_stFrag 4296016392 100
  have hn : (mm_malloc true stFrag.heap 480).1 = NULL := by decide
  have hnn : (mm_malloc true stFrag.heap 100).1 ≠ NULL := by decide
  ⟨reach_stFrag, by decide, h.1.2 hn, h.2.2.1 (h.1.2 hn), hnn, by rw [h2.2.2.2 hnn]; rfl⟩

/-- C25 (amended): size classes of `calcList`.  For every block size `s`,
`calcList s` is 0 exactly for `s <= 4000`, is `i` (for `i` from 1 to 4)
exactly for `4000 * 2^(i-1) < s <= 4000 * 2^i`, and is 5 exactly for
`s > 64000`; the initial free block of 7984 bytes belongs to class 1. -/
theorem calcList_classes (s : Nat) :
    (calcList s = 0 ↔ s ≤ 4000) ∧
    (calcList s = 1 ↔ 4000 * 2 ^ 0 < s ∧ s ≤ 4000 * 2 ^ 1) ∧
    (calcList s = 2 ↔ 4000 * 2 ^ 1 < s ∧ s ≤ 4000 * 2 ^ 2) ∧
    (calcList s = 3 ↔ 4000 * 2 ^ 2 < s ∧ s ≤ 4000 * 2 ^ 3) ∧
    (calcList s = 4 ↔ 4000 * 2 ^ 3 < s ∧ s ≤ 4000 * 2 ^ 4) ∧
    (calcList s = 5 ↔ 4000 * 2 ^ 4 < s) ∧
    calcList 7984 = 1 := by
  have h := calcList_eq s
  refine ⟨?_, ?_, ?_, ?_, ?_, ?_, by decide⟩ <;> (split_ifs at h <;> omega)

/-- C25 fails as stated: the block of 7984 bytes is in class 1, not in class
0, although `4000 * 2^1 < 7984` does not hold; a size of 100 bytes is in class
0 although `4000 * 2^0 < 100` does not hold; and a size of 100000 bytes is in
class 5 although it is not greater than `4000 * 2^5`. -/
theorem calcList_counterexample :
    (calcList 7984 = 1 ∧ calcList 7984 ≠ 0 ∧ ¬ (4000 * 2 ^ 1 < 7984 ∧ 7984 ≤ 4000 * 2 ^ (1 + 1))) ∧
    (calcList 100 = 0 ∧ ¬ (4000 * 2 ^ 0 < 100 ∧ 100 ≤ 4000 * 2 ^ (0 + 1))) ∧
    (calcList 100000 = 5 ∧ ¬ (100000 > 4000 * 2 ^ 5)) := by
  decide

/-- C26 (amended): the adjusted size of `mm_malloc`.  For every request size
of at most `2^32 - 24` bytes, the adjusted block size is
`max 32 (round_up (size + 16) 8)` over the naturals: a multiple of 8, at least
32 and at least `size + 16`. -/
theorem adjusted_size (size : Nat) (hsz : size ≤ 2 ^ 32 - 24) :
    adjust_size size = max 32 (roundUp8 (size + 16)) ∧
    adjust_size size % 8 = 0 ∧ 32 ≤ adjust_size size ∧ size + 16 ≤ adjust_size size := by
  unfold adjust_size roundUp8
  simp only [OVERHEAD, MIN_BLOCK_SIZE]
  split_ifs with h
  · refine ⟨?_, by omega, by omega, by omega⟩
    rw [Nat.max_def]
    split_ifs <;> omega
  · refine ⟨?_, by omega, by omega, by omega⟩
    rw [Nat.max_def]
    split_ifs <;> omega

/-- The adjusted size of a request of 100 bytes is 120. -/
theorem adjusted_size_witness :
    100 ≤ 2 ^ 32 - 24 ∧
    (adjust_size 100 = max 32 (roundUp8 (100 + 16)) ∧
      adjust_size 100 % 8 = 0 ∧ 32 ≤ adjust_size 100 ∧ 100 + 16 ≤ adjust_size 100) ∧
    adjust_size 100 = 120 :=
  ⟨by decide, adjusted_size 100 (by decide), by decide⟩

/-- C26 fails as stated: for the request size `2^32 - 23` the adjusted size
is 32, since `asize` is a `uint32_t`, while
`max 32 (round_up (size + 16) 8)` is `2^32`; the block size is smaller than
`size + 16`. -/
theorem adjusted_size_counterexample :
    0 < 2 ^ 32 - 23 ∧ adjust_size (2 ^ 32 - 23) = 32 ∧
      max 32 (roundUp8 (2 ^ 32 - 23 + 16)) = 2 ^ 32 ∧
      ¬ (2 ^ 32 - 23 + 16 ≤ adjust_size (2 ^ 32 - 23)) := by
  decide

/-! ## The consistency checker on a heap walk -/

/-- The lines of one block in the loop of `mm_checkheap`. -/
theorem checkheap_walk_eq (m : Mem) (v : Nat) : ∀ (bs : List Nat) (a e : Nat),
    IsWalk m a bs e → GET_SIZE m e = 0 → ∀ n, bs.length < n →
    checkheap_walk m v n a =
      some (bs.flatMap (fun b => (if v ≠ 0 then printblock m b else []) ++ checkblock m b), e) := by
  intro bs
  induction bs with
  | nil =>
    intro a e hw he n hn
    have hae : a = e := hw
    subst hae
    obtain ⟨k, rfl⟩ : ∃ k, n = k + 1 := ⟨n - 1, by simp at hn; omega⟩
    unfold checkheap_walk
    rw [if_neg (by omega)]
    rfl
  | cons x bs ih =>
    intro a e hw he n hn
    obtain ⟨hx, hna, hrest⟩ := hw
    subst hx
    obtain ⟨k, rfl⟩ : ∃ k, n = k + 1 := ⟨n - 1, by simp at hn; omega⟩
    have hpos : GET_SIZE m x > 0 := Nat.pos_of_ne_zero hna
    unfold checkheap_walk
    rw [if_pos hpos, ih _ _ hrest he k (by simp at hn; omega)]
    simp only [List.flatMap_cons, List.append_assoc]

/-- The loop of `mm_checkheap` on a heap walk from the prologue: it visits
the blocks after the prologue and stops at the end of the walk. -/
theorem checkheap_walk_prologue (m : Mem) (v : Nat) (p : Nat) (bs : List Nat) (e : Nat)
    (hw : IsWalk m p bs e) (he : GET_SIZE m e = 0) (n : Nat) (hn : bs.length < n) :
    checkheap_walk m v n (NEXT_BLKP m p) =
      some (bs.tail.flatMap (fun b => (if v ≠ 0 then printblock m b else []) ++ checkblock m b),
        e) := by
  cases bs with
  | nil =>
    have hpe : p = e := hw
    subst hpe
    have hnx : NEXT_BLKP m p = p := by unfold NEXT_BLKP; rw [he]; rfl
    rw [hnx]
    exact checkheap_walk_eq m v [] p p rfl he n hn
  | cons x bs =>
    obtain ⟨hx, _, hrest⟩ := hw
    exact checkheap_walk_eq m v bs _ e hrest he n (by simp at hn; omega)

/-- The output of `mm_checkheap` on a heap walk that ends at a block of size
0. -/
theorem mm_checkheap_eq (h : Heap) (v : Nat) (bs : List Nat) (e : Nat)
    (hw : IsWalk h.mem h.prologue bs e) (he : GET_SIZE h.mem e = 0)
    (fuel : Nat) (hn : bs.length < fuel) :
    mm_checkheap fuel h v =
      some ((if v ≠ 0 then [Line.heap h.prologue] else []) ++
        (if GET_SIZE h.mem h.prologue ≠ HSIZE ∨ GET_ALLOC h.mem h.prologue = 0 then
          [Line.badPrologue] else []) ++
        checkblock h.mem h.prologue ++
        bs.tail.flatMap (fun b => (if v ≠ 0 then printblock h.mem b else []) ++ checkblock h.mem b) ++
        (if v ≠ 0 then printblock h.mem e else []) ++
        (if GET_SIZE h.mem e ≠ 0 ∨ GET_ALLOC h.mem e = 0 then
          [Line.badEpilogue (GET_SIZE h.mem e) (GET_ALLOC h.mem e)] else []) ++ checklist, h) := by
  unfold mm_checkheap
  simp only [checkheap_walk_prologue h.mem v h.prologue bs e hw he fuel hn]

theorem CHK_ALN_eq (b : Nat) : CHK_ALN b = (b + 8) % 8 := by
  unfold CHK_ALN PLDP
  show (b + 8) % 2 ^ 64 % 8 = (b + 8) % 8
  omega

/-- Function `checkblock` prints nothing for a block with an aligned payload
and agreeing tags that is not free together with its successor. -/
theorem checkblock_nil (m : Mem) (b : Nat) (ha : (b + 8) % 8 = 0) (ht : TagsAgree m b)
    (hn : ¬ (GET_ALLOC m b = 0 ∧ GET_ALLOC m (NEXT_BLKP m b) = 0)) : checkblock m b = [] := by
  unfold checkblock
  rw [CHK_ALN_eq, if_neg (not_not.2 ha), if_neg (not_not.2 ht.1.symm),
    if_neg (not_not.2 ht.2.symm), if_neg hn]
  rfl

/-- Function `checkblock` prints an error for a block with an unaligned
payload, with tags that differ, or free together with its successor. -/
theorem checkblock_error (m : Mem) (b : Nat)
    (hf : (b + 8) % 8 ≠ 0 ∨ ¬ TagsAgree m b ∨
      (GET_ALLOC m b = 0 ∧ GET_ALLOC m (NEXT_BLKP m b) = 0)) :
    ∃ l, l ∈ checkblock m b ∧ l.isError = true := by
  unfold checkblock
  rcases hf with h1 | h1 | h1
  · refine ⟨Line.unaligned b, ?_, rfl⟩
    rw [CHK_ALN_eq, if_pos h1]
    simp
  · by_cases hs : GET_SIZE m (HDRP b) ≠ GET_SIZE m (FTRP m b)
    · refine ⟨Line.sizeMismatch, ?_, rfl⟩
      rw [if_pos hs]
      simp
    · have hal : GET_ALLOC m (HDRP b) ≠ GET_ALLOC m (FTRP m b) := by
        intro hc
        exact h1 ⟨(not_not.1 hs).symm, hc.symm⟩
      refine ⟨Line.allocMismatch, ?_, rfl⟩
      rw [if_pos hal]
      simp
  · refine ⟨Line.escaped b (NEXT_BLKP m b), ?_, rfl⟩
    rw [if_pos h1]
    simp

/-- The checker passes on a heap with the coverage, tag consistency and
coalescing invariants whose walked blocks are aligned. -/
theorem passes_of_invariants (h : Heap) (hc : Coverage h) (ht : TagConsistency h)
    (hn : NoAdjacentFree h) (ha : AlignedWalk h) : Passes h := by
  obtain ⟨us, hw, hp1, hp2, he1, he2, _, _⟩ := hc
  refine ⟨(h.prologue :: (headBlocks h.segList ++ us)).length + 1, ?_⟩
  intro fuel hfuel
  have hvis : ∀ b, b ∈ h.prologue :: (headBlocks h.segList ++ us) →
      Visited h.mem h.prologue b := fun b hb => ⟨_, _, hw, hb⟩
  have hblk : ∀ b, b ∈ h.prologue :: (headBlocks h.segList ++ us) → checkblock h.mem b = [] :=
    fun b hb => checkblock_nil h.mem b (ha b (hvis b hb)) (ht b (hvis b hb)) (hn b (hvis b hb))
  rw [mm_checkheap_eq h 0 _ _ hw he1 fuel (by omega)]
  have h2 : ¬ (GET_SIZE h.mem h.prologue ≠ HSIZE ∨ GET_ALLOC h.mem h.prologue = 0) := by
    rw [hp1, hp2]; decide
  have h6 : ¬ (GET_SIZE h.mem h.epilogue ≠ 0 ∨ GET_ALLOC h.mem h.epilogue = 0) := by
    rw [he1, he2]; decide
  have hb0 : (headBlocks h.segList ++ us).flatMap
      (fun b => (if (0 : Nat) ≠ 0 then printblock h.mem b else []) ++ checkblock h.mem b) = [] := by
    rw [List.flatMap_eq_nil_iff]
    intro b hb
    rw [hblk b (List.mem_cons_of_mem _ hb)]
    rfl
  rw [if_neg h2, if_neg h6, hblk _ (List.mem_cons_self _ _), List.tail_cons, hb0]
  rfl

/-- The walked blocks of a heap that satisfies the invariant are aligned
when the arena base is. -/
theorem Inv.alignedWalk {h : Heap} {live : List Nat} {bs : List Blk} (hI : Inv h live bs)
    (hbase : h.mem_start_brk % 8 = 0) : AlignedWalk h := by
  intro x hx
  have hpro := hI.pro
  have hseg := hI.seg
  rcases hI.visited hx with h1 | ⟨i, hi, h1⟩ | ⟨b, hb, h1⟩
  · omega
  · omega
  · have := Tiled_align bs _ _ hI.tiled (by omega) b hb
    omega

/-- The checker reports an error on a heap walk with a fault. -/
theorem fault_reported (h : Heap) (v : Nat) (bs : List Nat) (e : Nat)
    (hw : IsWalk h.mem h.prologue bs e) (he : GET_SIZE h.mem e = 0)
    (hf : WalkFault h bs e) (fuel : Nat) (hn : bs.length < fuel) :
    ∃ out, mm_checkheap fuel h v = some (out, h) ∧ ∃ l, l ∈ out ∧ l.isError = true := by
  refine ⟨_, mm_checkheap_eq h v bs e hw he fuel hn, ?_⟩
  rcases hf with h1 | h1 | ⟨b, hb, h1⟩
  · refine ⟨Line.badPrologue, ?_, rfl⟩
    have hc : GET_SIZE h.mem h.prologue ≠ HSIZE ∨ GET_ALLOC h.mem h.prologue = 0 := by
      have := GET_ALLOC_lt h.mem h.prologue
      by_contra hno
      simp only [not_or, not_not] at hno
      apply h1
      refine ⟨hno.1, ?_⟩
      have := hno.2
      omega
    rw [if_pos hc]
    simp
  · have hc : GET_SIZE h.mem e ≠ 0 ∨ GET_ALLOC h.mem e = 0 := by
      have := GET_ALLOC_lt h.mem e
      right
      by_contra hno
      exact h1 ⟨he, by omega⟩
    refine ⟨Line.badEpilogue (GET_SIZE h.mem e) (GET_ALLOC h.mem e), ?_, rfl⟩
    rw [if_pos hc]
    simp
  · obtain ⟨l, hl, hle⟩ := checkblock_error h.mem b h1
    refine ⟨l, ?_, hle⟩
    cases bs with
    | nil => exact absurd hb (List.not_mem_nil b)
    | cons x bs =>
      have hx : x = h.prologue := hw.1
      rcases List.mem_cons.1 hb with hbx | hbt
      · rw [hbx, hx] at hl
        simp only [List.mem_append]
        exact Or.inl (Or.inl (Or.inl (Or.inl (Or.inr hl))))
      · simp only [List.mem_append, List.tail_cons, List.mem_flatMap]
        exact Or.inl (Or.inl (Or.inl (Or.inr ⟨b, hbt, Or.inr hl⟩)))

theorem reach_stOdd : Reachable stOdd :=
  Reachable.init true zeroMem 4296015873 (by decide)

/-- The checker does not pass on a heap walk with a fault. -/
theorem not_passes_of_fault (h : Heap) (bs : List Nat) (e : Nat)
    (hw : IsWalk h.mem h.prologue bs e) (he : GET_SIZE h.mem e = 0)
    (hf : WalkFault h bs e) : ¬ Passes h := by
  rintro ⟨n, hp⟩
  obtain ⟨out, ho, l, hl, _⟩ := fault_reported h 0 bs e hw he hf (n + bs.length + 1) (by omega)
  rw [hp (n + bs.length + 1) (by omega)] at ho
  have : out = [] := by
    have := Option.some.inj ho
    exact (congrArg Prod.fst this).symm
  rw [this] at hl
  exact absurd hl (List.not_mem_nil l)

/-- C22 (amended): soundness of the checker.  On the heap that a successful
`mm_init` leaves in an arena with a base address divisible by 8, and on every
heap that satisfies the coverage, tag consistency and coalescing invariants
(the first with the prologue and epilogue tags) and whose walked blocks all
have a payload address divisible by 8, `mm_checkheap(0)` returns, prints
nothing and leaves the state as it is. -/
theorem checker_sound :
    (∀ (grant : Bool) (m0 : Mem) (base : Nat), base % 8 = 0 →
      (mm_init grant (fresh_heap m0 base)).1 = 0 →
      Passes (mm_init grant (fresh_heap m0 base)).2) ∧
    (∀ h : Heap, Coverage h → TagConsistency h → NoAdjacentFree h → AlignedWalk h →
      Passes h) := by
  refine ⟨?_, passes_of_invariants⟩
  intro grant m0 base hbase h0
  by_cases hg : grant = true ∧ (fresh_heap m0 base).mem_brk + 8192 < 2 ^ 64
  · obtain ⟨_, hs, _, hI⟩ := mm_init_inv grant (fresh_heap m0 base) rfl hg
    have hb : (mm_init grant (fresh_heap m0 base)).2.mem_start_brk % 8 = 0 := by
      rw [hs]; exact hbase
    exact passes_of_invariants _ hI.coverage hI.tags hI.noAdjacentFree (hI.alignedWalk hb)
  · rw [mm_init_fail grant _ hg] at h0
    exact absurd h0 (by show ¬ ((-1 : Int) = 0); decide)

/-- The checker passes right after `mm_init` at the address `4296015872`, and
9 iterations are enough for the loop over the blocks. -/
theorem checker_sound_witness :
    4296015872 % 8 = 0 ∧ (mm_init true (fresh_heap zeroMem 4296015872)).1 = 0 ∧
      Passes stInit.heap ∧ (mm_checkheap 9 stInit.heap 0).map Prod.fst = some [] :=
  ⟨by decide, by decide, checker_sound.1 true zeroMem 4296015872 (by decide) (by decide),
    by decide⟩

/-- C22 fails as stated: the heap that `mm_init` leaves in an arena at the
odd address `4296015873` satisfies the coverage, tag consistency and
coalescing invariants, and `mm_checkheap(0)` prints the alignment error for
each of its eight blocks. -/
theorem checker_sound_counterexample :
    Reachable stOdd ∧ Coverage stOdd.heap ∧ TagConsistency stOdd.heap ∧
      NoAdjacentFree stOdd.heap ∧
      (mm_checkheap 9 stOdd.heap 0).map Prod.fst =
        some [Line.unaligned 4296015873, Line.unaligned 4296015881, Line.unaligned 4296015913,
          Line.unaligned 4296015945, Line.unaligned 4296015977, Line.unaligned 4296016009,
          Line.unaligned 4296016041, Line.unaligned 4296016073] ∧
      ¬ Passes stOdd.heap := by
  obtain ⟨bs, hI⟩ := reachable_inv reach_stOdd (by decide)
  refine ⟨reach_stOdd, hI.coverage, hI.tags, hI.noAdjacentFree, by decide, ?_⟩
  refine not_passes_of_fault _ _ _ hI.walk hI.sent.2.2.1.1 (Or.inr (Or.inr ⟨stOdd.heap.prologue,
    List.mem_cons_self _ _, Or.inl (by decide)⟩))

/-- C23: detection on the block walk.  On every heap on which the walk from
the prologue reaches a block of size 0, `mm_checkheap`, with any value of
`verbose`, returns, leaves the state as it is and prints at least one error
line whenever the prologue header is not (8, allocated), the last block of
the walk is not (0, allocated), or a walked block has a payload address not
divisible by 8, a footer that differs from its header in size or allocated
bit, or is free and followed by a free block. -/
theorem checker_detects (h : Heap) (verbose : Nat) (bs : List Nat) (e : Nat)
    (hw : IsWalk h.mem h.prologue bs e) (he : GET_SIZE h.mem e = 0)
    (hf : WalkFault h bs e) :
    ∃ n, ∀ fuel, n ≤ fuel →
      ∃ out, mm_checkheap fuel h verbose = some (out, h) ∧
        ∃ l, l ∈ out ∧ l.isError = true :=
  ⟨bs.length + 1, fun fuel hfuel => fault_reported h verbose bs e hw he hf fuel (by omega)⟩

/-- The checker on the heap of the run `stMerge`, in which the walk finds the
free block `4296016072` followed by the free block `4296016104`: it prints
the error of the blocks that escaped coalescing, among others. -/
theorem checker_detects_witness :
    IsWalk stMerge.heap.mem stMerge.heap.prologue
      [4296015872, 4296015880, 4296015912, 4296015944, 4296015976, 4296016008, 4296016040,
        4296016072, 4296016104, 4296024056, 5369757896] stMerge.heap.epilogue ∧
    GET_SIZE stMerge.heap.mem stMerge.heap.epilogue = 0 ∧
    (GET_ALLOC stMerge.heap.mem 4296016072 = 0 ∧
      GET_ALLOC stMerge.heap.mem (NEXT_BLKP stMerge.heap.mem 4296016072) = 0) ∧
    (∃ n, ∀ fuel, n ≤ fuel →
      ∃ out, mm_checkheap fuel stMerge.heap 0 = some (out, stMerge.heap) ∧
        ∃ l, l ∈ out ∧ l.isError = true) ∧
    (mm_checkheap 12 stMerge.heap 0).map Prod.fst =
      some [Line.escaped 4296016072 4296016104, Line.sizeMismatch,
        Line.escaped 4296016104 4296024056, Line.sizeMismatch,
        Line.escaped 4296024056 5369757896, Line.sizeMismatch] :=
  have hw : IsWalk stMerge.heap.mem stMerge.heap.prologue
      [4296015872, 4296015880, 4296015912, 4296015944, 4296015976, 4296016008, 4296016040,
        4296016072, 4296016104, 4296024056, 5369757896] stMerge.heap.epilogue := by decide
  have he : GET_SIZE stMerge.heap.mem stMerge.heap.epilogue = 0 := by decide
  have hf : GET_ALLOC stMerge.heap.mem 4296016072 = 0 ∧
      GET_ALLOC stMerge.heap.mem (NEXT_BLKP stMerge.heap.mem 4296016072) = 0 := by decide
  ⟨hw, he, hf,
    checker_detects stMerge.heap 0 _ _ hw he
      (Or.inr (Or.inr ⟨4296016072, by decide, Or.inr (Or.inr hf)⟩)),
    by decide⟩

/-- C24 (code bug): `mm_checkheap` does not examine the free lists, since the
body of `checklist` is commented out.  In the heap `stUnlisted` (the heap
after `mm_init` with the link fields of list head 1 cleared) the walk finds
the free block `4296016072`, all six lists are empty, and `mm_checkheap(0)`
prints nothing. -/
theorem checklist_silent :
    checklist = [] ∧
    Visited stUnlisted.heap.mem stUnlisted.heap.prologue 4296016072 ∧
    GET_ALLOC stUnlisted.heap.mem 4296016072 = 0 ∧
    (∀ i, i < 6 → listHead stUnlisted.heap i = NULL) ∧
    (mm_checkheap 9 stUnlisted.heap 0).map Prod.fst = some [] :=
  have hw : IsWalk stUnlisted.heap.mem stUnlisted.heap.prologue
      [4296015872, 4296015880, 4296015912, 4296015944, 4296015976, 4296016008, 4296016040,
        4296016072] stUnlisted.heap.epilogue := by decide
  ⟨rfl, ⟨_, _, hw, by decide⟩, by decide, by decide, by decide⟩

/-! ## `find_fit` is first fit in scan order -/

theorem Trace_not_stop {next : Nat → Nat} {stop : Nat → Prop} :
    ∀ (l : List Nat) (a e : Nat), Trace next stop a l e → ∀ x, x ∈ l → ¬ stop x := by
  intro l
  induction l with
  | nil => intro a e _ x hx; cases hx
  | cons y l ih =>
    intro a e h x hx
    obtain ⟨hy, hna, hrest⟩ := h
    rcases List.mem_cons.1 hx with h1 | h1
    · rw [h1, hy]; exact hna
    · exact ih _ _ hrest x h1

theorem find_fit_scan_path (m : Mem) (asize : Nat) : ∀ (n : Nat) (l : List Nat) (a : Nat),
    IsPath m a l NULL → find_fit_scan m asize n a = scanList (GET_SIZE m) asize n l := by
  intro n
  induction n with
  | zero => intro l a _; cases l <;> rfl
  | succ n ih =>
    intro l a hp
    cases l with
    | nil =>
      have ha : a = NULL := hp
      unfold find_fit_scan scanList
      rw [if_pos ha]
    | cons x l =>
      obtain ⟨hx, hna, hrest⟩ := hp
      subst hx
      unfold find_fit_scan scanList
      rw [if_neg hna]
      by_cases hsz : GET_SIZE m x ≥ asize
      · rw [if_pos hsz, if_pos hsz]
      · rw [if_neg hsz, if_neg hsz]
        exact ih l _ hrest

theorem find_fit_lists_path (seg : Nat) (m : Mem) (fl : Nat → List Nat) (asize : Nat)
    (hfl : ∀ i, i < 6 → IsPath m (getNext m (seg + MIN_BLOCK_SIZE * i)) (fl i) NULL) :
    ∀ (n i : Nat), i + n ≤ 6 →
      find_fit_lists seg m asize n i = scanLists (GET_SIZE m) fl asize n i := by
  intro n
  induction n with
  | zero => intro i _; rfl
  | succ n ih =>
    intro i hi
    unfold find_fit_lists scanLists
    simp only []
    rw [find_fit_scan_path m asize 12 (fl i) _ (hfl i (by omega)), ih (i + 1) (by omega)]

theorem scanList_find (sz : Nat → Nat) (asize : Nat) : ∀ (n : Nat) (l : List Nat),
    scanList sz asize n l =
      ((l.take n).find? (fun x => decide (asize ≤ sz x))).getD NULL := by
  intro n
  induction n with
  | zero => intro l; cases l <;> rfl
  | succ n ih =>
    intro l
    cases l with
    | nil => rfl
    | cons x l =>
      unfold scanList
      rw [List.take_succ_cons, List.find?_cons]
      by_cases hsz : sz x ≥ asize
      · rw [if_pos hsz]
        have : decide (asize ≤ sz x) = true := decide_eq_true hsz
        rw [this]
        rfl
      · rw [if_neg hsz]
        have : decide (asize ≤ sz x) = false := decide_eq_false hsz
        rw [this]
        exact ih l

theorem scanLists_find (sz : Nat → Nat) (fl : Nat → List Nat) (asize : Nat) :
    ∀ (n i : Nat), (∀ j, i ≤ j → j < i + n → ∀ x, x ∈ fl j → x ≠ NULL) →
      scanLists sz fl asize n i =
        ((((List.range' i n).map (fun j => (fl j).take 12)).flatten).find?
          (fun x => decide (asize ≤ sz x))).getD NULL := by
  intro n
  induction n with
  | zero => intro i _; rfl
  | succ n ih =>
    intro i hnz
    unfold scanLists
    rw [List.range'_succ, List.map_cons, List.flatten_cons, List.find?_append,
      scanList_find sz asize 12 (fl i), ih (i + 1) (fun j h1 h2 => hnz j (by omega) (by omega))]
    cases hf : ((fl i).take 12).find? (fun x => decide (asize ≤ sz x)) with
    | none =>
      rw [if_neg (by simp)]
      rfl
    | some x =>
      have hx : x ∈ fl i := List.mem_of_mem_take (List.mem_of_find?_eq_some hf)
      have hx0 : x ≠ NULL := hnz i (le_refl i) (by omega) x hx
      rw [if_pos (by simpa using hx0)]
      rfl

/-- A member of the scan order lies in one of the six lists. -/
theorem mem_scanOrder {fl : Nat → List Nat} {asize x : Nat} (hx : x ∈ scanOrder fl asize) :
    ∃ i, i < 6 ∧ x ∈ fl i := by
  unfold scanOrder at hx
  rw [List.mem_flatten] at hx
  obtain ⟨l, hl, hxl⟩ := hx
  obtain ⟨j, hj, hjl⟩ := List.mem_map.1 hl
  have hc := calcList_le asize
  rw [List.mem_range'_1] at hj
  refine ⟨j, by simp only [LISTMAX] at hj; omega, ?_⟩
  rw [← hjl] at hxl
  exact List.mem_of_mem_take hxl

/-- With well-formed lists, `find_fit` returns the first block in scan order
that is large enough. -/
theorem find_fit_firstFit (h : Heap) (fl : Nat → List Nat) (hl : ListsWF h fl) (asize : Nat) :
    find_fit h.segList h.mem asize = firstFit h.mem fl asize := by
  have hnz : ∀ j, j < 6 → ∀ x, x ∈ fl j → x ≠ NULL :=
    fun j hj x hx => Trace_not_stop _ _ _ (hl.1 j hj) x hx
  have hc := calcList_le (asize % 2 ^ 32)
  have hc2 := calcList_le asize
  have e1 : find_fit h.segList h.mem asize =
      ((((List.range' (calcList (asize % 2 ^ 32)) (LISTMAX + 1 - calcList (asize % 2 ^ 32))).map
        (fun j => (fl j).take 12)).flatten).find?
          (fun x => decide (asize ≤ GET_SIZE h.mem x))).getD NULL := by
    unfold find_fit
    simp only []
    rw [find_fit_lists_path h.segList h.mem fl asize hl.1 _ _ (by simp only [LISTMAX]; omega),
      scanLists_find _ _ _ _ _ (fun j _ h2 => hnz j (by simp only [LISTMAX] at h2; omega))]
  rw [e1]
  unfold firstFit scanOrder
  by_cases hlt : asize < 2 ^ 32
  · rw [Nat.mod_eq_of_lt hlt]
  · have hnone : ∀ l : List Nat, l.find? (fun x => decide (asize ≤ GET_SIZE h.mem x)) = none := by
      intro l
      rw [List.find?_eq_none]
      intro x _
      have := GET_SIZE_lt h.mem x
      simp only [decide_eq_true_eq]
      omega
    rw [hnone, hnone]

/-- C27: `find_fit`.  In every heap with well-formed lists and for every
`asize`, `find_fit(asize)` returns the first block with a size of at least
`asize` in the scan order of the specification (the classes from
`calcList asize` up to 5, in each the first 12 entries from the head), and
`NULL` exactly when no scanned entry is that large; a non-null result is a
member of a list, marked free, with a size of at least `asize`.  The function
has no store: it maps the arena contents to a pointer. -/
theorem find_fit_first_fit (h : Heap) (fl : Nat → List Nat) (hl : ListsWF h fl) (asize : Nat) :
    find_fit h.segList h.mem asize = firstFit h.mem fl asize ∧
    (find_fit h.segList h.mem asize = NULL ↔
      ∀ x, x ∈ scanOrder fl asize → GET_SIZE h.mem x < asize) ∧
    (find_fit h.segList h.mem asize ≠ NULL →
      (∃ i, i < 6 ∧ find_fit h.segList h.mem asize ∈ fl i) ∧
      GET_ALLOC h.mem (find_fit h.segList h.mem asize) = 0 ∧
      asize ≤ GET_SIZE h.mem (find_fit h.segList h.mem asize)) := by
  have e := find_fit_firstFit h fl hl asize
  have hnz : ∀ x, x ∈ scanOrder fl asize → x ≠ NULL := by
    intro x hx
    obtain ⟨i, hi, hxi⟩ := mem_scanOrder hx
    exact Trace_not_stop _ _ _ (hl.1 i hi) x hxi
  rw [e]
  unfold firstFit
  cases hf : (scanOrder fl asize).find? (fun x => decide (asize ≤ GET_SIZE h.mem x)) with
  | none =>
    refine ⟨rfl, ⟨fun _ => ?_, fun _ => rfl⟩, fun hne => absurd rfl hne⟩
    intro x hx
    have := List.find?_eq_none.1 hf x hx
    simp only [decide_eq_true_eq] at this
    omega
  | some r =>
    have hr : r ∈ scanOrder fl asize := List.mem_of_find?_eq_some hf
    have hp : asize ≤ GET_SIZE h.mem r := by
      have := List.find?_some hf
      simpa using this
    obtain ⟨i, hi, hri⟩ := mem_scanOrder hr
    refine ⟨rfl, ⟨fun h0 => absurd h0 (hnz r hr), fun hall => ?_⟩,
      fun _ => ⟨⟨i, hi, hri⟩, hl.2 i hi r hri, hp⟩⟩
    have := hall r hr
    omega

/-- The theorem on `find_fit` in the state `stFrag`, where list 0 holds 13
blocks: a request for 312 bytes gets the head of the list, and a request for
496 bytes gets `NULL`, the only block of that size being the 13th entry. -/
theorem find_fit_first_fit_witness :
    ListsWF stFrag.heap flFrag ∧
    (find_fit stFrag.heap.segList stFrag.heap.mem 312 = firstFit stFrag.heap.mem flFrag 312 ∧
      firstFit stFrag.heap.mem flFrag 312 = 4296022936) ∧
    (find_fit stFrag.heap.segList stFrag.heap.mem 496 = NULL ∧
      GET_SIZE stFrag.heap.mem 4296023560 = 496 ∧ flFrag 0 = scanOrder flFrag 496 ++ [4296023560]) :=
  have hl : ListsWF stFrag.heap flFrag :=
    ⟨fun i hi => by
      obtain h | h | h | h | h | h : i = 0 ∨ i = 1 ∨ i = 2 ∨ i = 3 ∨ i = 4 ∨ i = 5 := by omega
      all_goals subst h; decide,
     fun i hi => by
      obtain h | h | h | h | h | h : i = 0 ∨ i = 1 ∨ i = 2 ∨ i = 3 ∨ i = 4 ∨ i = 5 := by omega
      all_goals subst h; decide⟩
  ⟨hl, ⟨(find_fit_first_fit stFrag.heap flFrag hl 312).1, by decide⟩,
    ⟨((find_fit_first_fit stFrag.heap flFrag hl 496).2.1).2 (by decide), by decide, by decide⟩⟩

/-! ## The number of bytes asked of `mem_sbrk` -/

/-- In a heap that satisfies the invariant, the size of a free last block is
a multiple of 8. -/
theorem Inv.lastSize_mod {h : Heap} {live : List Nat} {bs : List Blk} (hI : Inv h live bs)
    (hf : endFree h = true) : lastSize h % 8 = 0 := by
  rcases List.eq_nil_or_concat bs with h0 | ⟨l, p, h1⟩
  · subst h0
    rw [hI.endFree_nil] at hf
    exact absurd hf (by decide)
  · rw [List.concat_eq_append] at h1
    subst h1
    have hp : p ∈ l ++ [p] := by simp
    rw [(hI.endFree_snoc).2]
    exact (Tiled_mem_ok _ _ _ hI.tiled p hp).2.2.2.2.2

/-- After `mm_malloc` has found no fit, the arena break is the one that the
call of `mem_sbrk` for `extend_request` bytes leaves. -/
theorem mm_malloc_nofit_brk (grant : Bool) (h : Heap) (size : Nat) (hsz : size ≠ 0)
    (hfit : find_fit h.segList h.mem (adjust_size size) = NULL) :
    (mm_malloc grant h size).2.mem_brk =
      (mem_sbrk grant h (extend_request h size)).2.mem_brk := by
  have hm := mm_malloc_nofit_eq grant h size hsz hfit _ rfl
  have hreq : extend_request h size =
      (if endFree h = true then
        (adjust_size size + 2 ^ 64 - lastSize h) % 2 ^ 64 % 2 ^ 32
        else adjust_size size) / 8 * 8 % 2 ^ 32 := rfl
  generalize (if endFree h = true then
        (adjust_size size + 2 ^ 64 - lastSize h) % 2 ^ 64 % 2 ^ 32
        else adjust_size size) / 8 = words at hm hreq
  generalize extend_request h size = req at hreq
  subst hreq
  have hbrk : (extend_heap grant h words).2.mem_brk =
      (mem_sbrk grant h (words * 8 % 2 ^ 32)).2.mem_brk := by
    unfold extend_heap
    simp only []
    by_cases hz : words * 8 % 2 ^ 32 = 0
    · rw [if_pos hz, hz]
      unfold mem_sbrk
      by_cases hg : grant = true ∧ h.mem_brk + 0 < 2 ^ 64
      · rw [if_pos hg]; rfl
      · rw [if_neg hg]
    · rw [if_neg hz]
      by_cases hf : (mem_sbrk grant h (words * 8 % 2 ^ 32)).1 = SBRK_FAIL
      · rw [if_pos hf]
      · rw [if_neg hf]
  rw [hm, ← hbrk]
  by_cases he : (extend_heap grant h words).1 ≠ 0
  · rw [if_pos he]
  · rw [if_neg he]

theorem reach_stStray : Reachable stStray :=
  Reachable.malloc true _ _ (Reachable.init true strayMem 4296015872 (by decide)) (by decide)

theorem reach_stFull : Reachable stFull :=
  Reachable.malloc true _ _ reach_stInit (by decide)

/-- C29 (amended): the extension amount.  In every reachable state whose
arena is smaller than `2^31 + 208` bytes and for every size other than 0 for
which `find_fit` returns `NULL`, the number of bytes that `mm_malloc` asks of
`mem_sbrk` is the adjusted size when the last block before the epilogue is
allocated, and the adjusted size minus `tail_free`, a positive number, when
that block is free with a size `tail_free` smaller than the adjusted size; the
arena break after `mm_malloc` is the one which that call of `mem_sbrk`
leaves. -/
theorem extension_amount (grant : Bool) (s : St) (hr : Reachable s)
    (hbig : mem_heapsize s.heap < 2 ^ 31 + 208) (size : Nat) (hsz : size ≠ 0)
    (hfit : find_fit s.heap.segList s.heap.mem (adjust_size size) = NULL) :
    (endFree s.heap = false → extend_request s.heap size = adjust_size size) ∧
    (endFree s.heap = true → lastSize s.heap < adjust_size size →
      extend_request s.heap size = adjust_size size - lastSize s.heap ∧
      0 < extend_request s.heap size) ∧
    (mm_malloc grant s.heap size).2.mem_brk =
      (mem_sbrk grant s.heap (extend_request s.heap size)).2.mem_brk := by
  obtain ⟨a1, a2, a3⟩ := adjust_size_spec size
  refine ⟨?_, ?_, mm_malloc_nofit_brk grant s.heap size hsz hfit⟩
  · intro hf
    unfold extend_request
    simp only [hf]
    simp only [Bool.false_eq_true, if_false]
    omega
  · intro hf hlt
    obtain ⟨bs, hI⟩ := reachable_inv hr hbig
    have h8 := hI.lastSize_mod hf
    unfold extend_request
    simp only [hf, if_true]
    omega

/-- The extension amounts for `mm_malloc(9000)` in the state `stOne`, whose
last block is free with 7864 bytes (1152 bytes are asked for), and for
`mm_malloc(100)` in the state `stFull`, whose last block is allocated (120
bytes are asked for). -/
theorem extension_amount_witness :
    (Reachable stOne ∧ mem_heapsize stOne.heap < 2 ^ 31 + 208 ∧ 9000 ≠ 0 ∧
      find_fit stOne.heap.segList stOne.heap.mem (adjust_size 9000) = NULL ∧
      endFree stOne.heap = true ∧ lastSize stOne.heap = 7864 ∧ adjust_size 9000 = 9016 ∧
      extend_request stOne.heap 9000 = 9016 - 7864) ∧
    (Reachable stFull ∧ mem_heapsize stFull.heap < 2 ^ 31 + 208 ∧ 100 ≠ 0 ∧
      find_fit stFull.heap.segList stFull.heap.mem (adjust_size 100) = NULL ∧
      endFree stFull.heap = false ∧ extend_request stFull.heap 100 = adjust_size 100) :=
  have h1 := extension_amount true stOne reach_stOne (by decide) 9000 (by decide) (by decide)
  have h2 := extension_amount true stFull reach_stFull (by decide) 100 (by decide) (by decide)
  have e1 : lastSize stOne.heap = 7864 := by decide
  have e2 : adjust_size 9000 = 9016 := by decide
  ⟨⟨reach_stOne, by decide, by decide, by decide, by decide, e1, e2, by
      have := (h1.2.1 (by decide) (by decide)).1
      rw [e1, e2] at this
      exact this⟩,
    ⟨reach_stFull, by decide, by decide, by decide, by decide, h2.1 (by decide)⟩⟩

/-- C29 fails as stated, in three ways.  In the reachable state `stFrag`
(arena of 8192 bytes) the last block is free with 496 bytes and `find_fit`
returns `NULL` for the adjusted sizes 496 and 416: for `mm_malloc(480)` the
number of bytes to extend by is 0, and for `mm_malloc(400)` it is
`2^32 - 80`.  In the reachable state `stStray` (arena of `2^31 + 224` bytes)
`PREV_BLKP(epilogue)` is a word that holds the size 36 and the allocated bit
0, `find_fit` returns `NULL` for the adjusted size 120 of `mm_malloc(100)`,
and the number of bytes to extend by is 80, not `120 - 36`. -/
theorem extension_amount_counterexample :
    (Reachable stFrag ∧ mem_heapsize stFrag.heap = 8192 ∧
      endFree stFrag.heap = true ∧ lastSize stFrag.heap = 496 ∧
      (adjust_size 480 = 496 ∧
        find_fit stFrag.heap.segList stFrag.heap.mem (adjust_size 480) = NULL ∧
        extend_request stFrag.heap 480 = 0) ∧
      (adjust_size 400 = 416 ∧
        find_fit stFrag.heap.segList stFrag.heap.mem (adjust_size 400) = NULL ∧
        extend_request stFrag.heap 400 = 2 ^ 32 - 80)) ∧
    (Reachable stStray ∧ mem_heapsize stStray.heap = 2 ^ 31 + 224 ∧
      endFree stStray.heap = true ∧ lastSize stStray.heap = 36 ∧
      adjust_size 100 = 120 ∧
      find_fit stStray.heap.segList stStray.heap.mem (adjust_size 100) = NULL ∧
      extend_request stStray.heap 100 = 80 ∧
      extend_request stStray.heap 100 ≠ adjust_size 100 - lastSize stStray.heap) :=
  ⟨⟨reach_stFrag, by decide, by decide, by decide, ⟨by decide, by decide, by decide⟩,
      ⟨by decide, by decide, by decide⟩⟩,
    ⟨reach_stStray, by decide, by decide, by decide, by decide, by decide, by decide,
      by decide⟩⟩

/-! ## The result of `place` in terms of heap walk and list traversals -/

/-- Tag words of visited blocks outside the range `[lo, hi)` are kept by an
operation that writes only in that range and in link words. -/
theorem Inv.tags_kept {h : Heap} {live : List Nat} {bs : List Blk} (hI : Inv h live bs)
    {m2 : Mem} {lo hi : Nat} (hlo : h.segList + 192 ≤ lo)
    (hfr : ∀ x, LinkFree h.segList (FreeIn bs) x → (x < lo ∨ hi ≤ x) → m2.rd x = h.mem.rd x)
    {x : Nat} (hx : Visited h.mem h.prologue x)
    (hout : ∀ c, c ∈ bs → c.addr = x → c.addr + c.size ≤ lo ∨ hi ≤ c.addr) :
    m2.rd x = h.mem.rd x ∧ m2.rd (FTRP h.mem x) = h.mem.rd (FTRP h.mem x) := by
  have hfree_ge : ∀ y, FreeIn bs y → h.segList + 192 ≤ y := by
    intro y hy
    exact (FreeIn_left hI.tiled hy).1
  have hpro := hI.seg
  have h8s := hI.sent.2.2.2
  rcases hI.visited hx with h1 | ⟨i, hi, h1⟩ | ⟨c, hc, h1⟩
  · have hsz : GET_SIZE h.mem x = 8 := by
      rw [h1]
      have := hI.sent.1.1
      have e : h.segList - 8 = h.prologue := by omega
      rw [e] at this; exact this
    have hft : FTRP h.mem x = x := by unfold FTRP HDRP HSIZE; rw [hsz]; omega
    rw [hft]
    have : m2.rd x = h.mem.rd x := by
      refine hfr x ⟨?_, ?_⟩ (Or.inl (by omega))
      · intro y hy; have := hfree_ge y hy; omega
      · intro i hi; omega
    exact ⟨this, this⟩
  · have hsz : GET_SIZE h.mem x = 32 := by
      rw [h1]; exact (hI.sent.2.1 i hi).1
    have hft : FTRP h.mem x = x + 24 := by unfold FTRP HDRP HSIZE; rw [hsz]; omega
    rw [hft]
    constructor
    · refine hfr x ⟨?_, ?_⟩ (Or.inl (by omega))
      · intro y hy; have := hfree_ge y hy; omega
      · intro j hj; omega
    · refine hfr (x + 24) ⟨?_, ?_⟩ (Or.inl (by omega))
      · intro y hy; have := hfree_ge y hy; omega
      · intro j hj; omega
  · have hcok := Tiled_mem_ok _ _ _ hI.tiled c hc
    have hcb := (Tiled_bounds _ _ _ hI.tiled).2 c hc
    have hlf := tag_linkfree (A := FreeIn bs) hI.tiled
      (fun y hy => by obtain ⟨d, hd, hdy, _⟩ := hy; exact ⟨d, hd, hdy⟩) hc
    have hft : FTRP h.mem x = c.addr + c.size - 8 := by
      unfold FTRP HDRP HSIZE; rw [← h1, hcok.1]
    have h32 := hcok.2.2.2.2.1
    rw [hft, ← h1]
    rcases hout c hc h1 with ho | ho
    · exact ⟨hfr _ hlf.1 (Or.inl (by omega)), hfr _ hlf.2 (Or.inl (by omega))⟩
    · exact ⟨hfr _ hlf.1 (Or.inr (by omega)), hfr _ hlf.2 (Or.inr (by omega))⟩

/-- The result of `place` in a free block of a heap that satisfies the
invariant. -/
theorem Inv.placeResult_holds {h : Heap} {live : List Nat} {l1 l2 : List Blk} {r : Blk}
    (hI : Inv h live (l1 ++ r :: l2)) (hr0 : r.alloc = 0) {asize : Nat}
    (ha1 : 32 ≤ asize) (ha2 : asize % 8 = 0) (ha3 : asize ≤ r.size) :
    PlaceResult h r.addr asize := by
  obtain ⟨fl, hfl⟩ := hI.lists
  have hr : r ∈ l1 ++ r :: l2 := by simp
  have hrok := Tiled_mem_ok _ _ _ hI.tiled r hr
  have hrb := (Tiled_bounds _ _ _ hI.tiled).2 r hr
  have hfr := place_frame hI.tiled hI.sent hI.lists hr hr0 ha1 ha2 ha3
  unfold PlaceResult
  simp only [hrok.1]
  refine ⟨?_, ?_, ?_⟩
  · -- no split
    intro hw
    obtain ⟨hI2, hfl2⟩ := inv_place_whole hI hfl hr0 ha3 hw
    have hr2 : (⟨r.addr, r.size, 1⟩ : Blk) ∈ l1 ++ ⟨r.addr, r.size, 1⟩ :: l2 := by simp
    have hok2 := Tiled_mem_ok _ _ _ hI2.tiled _ hr2
    refine ⟨⟨hok2.1, hok2.2.1, ?_, ?_⟩, ?_, ?_⟩
    · unfold FTRP HDRP HSIZE; rw [hok2.1]; exact hok2.2.2.1
    · unfold FTRP HDRP HSIZE; rw [hok2.1]; exact hok2.2.2.2.1
    · intro i hi l hl
      have e1 := ListsAt.path_unique hfl i hi hl
      rw [e1]
      exact ListsAt.path hfl2 i hi
    · intro x
      rw [hI2.visited_iff x, hI.visited_iff x]
      simp only [List.mem_append, List.mem_cons]
      constructor
      · rintro (h1 | h1 | ⟨c, hc | hc | hc, h1⟩)
        · exact Or.inl h1
        · exact Or.inr (Or.inl h1)
        · exact Or.inr (Or.inr ⟨c, Or.inl hc, h1⟩)
        · exact Or.inr (Or.inr ⟨r, Or.inr (Or.inl rfl), by rw [← h1, hc]⟩)
        · exact Or.inr (Or.inr ⟨c, Or.inr (Or.inr hc), h1⟩)
      · rintro (h1 | h1 | ⟨c, hc | hc | hc, h1⟩)
        · exact Or.inl h1
        · exact Or.inr (Or.inl h1)
        · exact Or.inr (Or.inr ⟨c, Or.inl hc, h1⟩)
        · exact Or.inr (Or.inr ⟨⟨r.addr, r.size, 1⟩, Or.inr (Or.inl rfl), by rw [← h1, hc]⟩)
        · exact Or.inr (Or.inr ⟨c, Or.inr (Or.inr hc), h1⟩)
  · -- split
    intro hw
    have hw' : ¬ r.size - asize < 32 := by omega
    obtain ⟨hI2, hfl2⟩ := inv_place_split hI hfl hr0 ha1 ha2 ha3 hw'
    have hr2 : (⟨r.addr, asize, 1⟩ : Blk) ∈
        l1 ++ ⟨r.addr, asize, 1⟩ :: ⟨r.addr + asize, r.size - asize, 0⟩ :: l2 := by simp
    have hs2 : (⟨r.addr + asize, r.size - asize, 0⟩ : Blk) ∈
        l1 ++ ⟨r.addr, asize, 1⟩ :: ⟨r.addr + asize, r.size - asize, 0⟩ :: l2 := by simp
    have hok2 := Tiled_mem_ok _ _ _ hI2.tiled _ hr2
    have hok3 := Tiled_mem_ok _ _ _ hI2.tiled _ hs2
    refine ⟨⟨hok2.1, hok2.2.1, ?_, ?_⟩, ⟨hok3.1, hok3.2.1, ?_, ?_⟩, ?_, ?_, ?_, ?_⟩
    · unfold FTRP HDRP HSIZE; rw [hok2.1]; exact hok2.2.2.1
    · unfold FTRP HDRP HSIZE; rw [hok2.1]; exact hok2.2.2.2.1
    · unfold FTRP HDRP HSIZE; rw [hok3.1]; exact hok3.2.2.1
    · unfold FTRP HDRP HSIZE; rw [hok3.1]; exact hok3.2.2.2.1
    · unfold NEXT_BLKP
      rw [hok3.1, hrok.1]
      show r.addr + asize + (r.size - asize) = r.addr + r.size
      omega
    · have hi := calcList_lt (r.size - asize)
      have := (hfl2.1 _ hi).1
      unfold listHead
      show getNext _ (h.segList + 32 * _) = _
      rw [this]
      simp
    · intro i hi l hl
      have e1 := ListsAt.path_unique hfl i hi hl
      rw [e1]
      exact ListsAt.path hfl2 i hi
    · intro x
      rw [hI2.visited_iff x, hI.visited_iff x]
      simp only [List.mem_append, List.mem_cons]
      constructor
      · rintro (h1 | h1 | ⟨c, hc | hc | hc | hc, h1⟩)
        · exact Or.inl (Or.inl h1)
        · exact Or.inl (Or.inr (Or.inl h1))
        · exact Or.inl (Or.inr (Or.inr ⟨c, Or.inl hc, h1⟩))
        · exact Or.inl (Or.inr (Or.inr ⟨r, Or.inr (Or.inl rfl), by rw [← h1, hc]⟩))
        · right; rw [← h1, hc]
        · exact Or.inl (Or.inr (Or.inr ⟨c, Or.inr (Or.inr hc), h1⟩))
      · rintro ((h1 | h1 | ⟨c, hc | hc | hc, h1⟩) | h1)
        · exact Or.inl h1
        · exact Or.inr (Or.inl h1)
        · exact Or.inr (Or.inr ⟨c, Or.inl hc, h1⟩)
        · exact Or.inr (Or.inr ⟨⟨r.addr, asize, 1⟩, Or.inr (Or.inl rfl), by rw [← h1, hc]⟩)
        · exact Or.inr (Or.inr ⟨c, Or.inr (Or.inr (Or.inr hc)), h1⟩)
        · exact Or.inr (Or.inr ⟨⟨r.addr + asize, r.size - asize, 0⟩,
            Or.inr (Or.inr (Or.inl rfl)), h1.symm⟩)
  · -- the other blocks
    intro x hx hxB
    refine @Inv.tags_kept _ _ _ hI _ r.addr (r.addr + r.size) (by omega) hfr _ hx ?_
    intro c hc hcx
    rcases Tiled_disjoint _ _ _ hI.tiled c r hc hr with e | e | e
    · exact absurd (by rw [← hcx, e]) hxB
    · exact Or.inl e
    · exact Or.inr e

/-! ## The result of `extend_heap` -/

/-- What `extend_heap` leaves when `mem_sbrk` grants the request: the arena
break and the epilogue move up by the number of bytes asked for, the returned
block is the new block merged with a free last block, the invariant holds for
the merged block sequence, and the returned block is the head of the list of
its class. -/
theorem extend_heap_granted {h : Heap} {live : List Nat} {bs : List Blk} (hI : Inv h live bs)
    (grant : Bool) (words : Nat)
    (hsmall : 32 ≤ words * 8 % 2 ^ 32 ∨ ∃ l p, bs = l ++ [p] ∧ p.alloc = 0)
    (hbig : mem_heapsize (extend_heap grant h words).2 < 2 ^ 31 + 208)
    (hz : words * 8 % 2 ^ 32 ≠ 0)
    (hg : grant = true ∧ h.mem_brk + words * 8 % 2 ^ 32 < 2 ^ 64) :
    (extend_heap grant h words).1 = h.epilogue - absorbPrev bs ∧
    (extend_heap grant h words).2.mem_brk = h.mem_brk + words * 8 % 2 ^ 32 ∧
    (extend_heap grant h words).2.epilogue = h.epilogue + words * 8 % 2 ^ 32 ∧
    (extend_heap grant h words).2.segList = h.segList ∧
    (extend_heap grant h words).2.prologue = h.prologue ∧
    Inv (extend_heap grant h words).2 live
      (mergedSeq bs ⟨h.epilogue, words * 8 % 2 ^ 32, 0⟩ []) ∧
    getNext (extend_heap grant h words).2.mem
      (h.segList + 32 * calcList (words * 8 % 2 ^ 32 + absorbPrev bs)) =
        h.epilogue - absorbPrev bs ∧
    (extend_heap grant h words).2.mem =
      (coalesce h.segList (extend_heap_written grant h words) h.epilogue).1 ∧
    (extend_heap grant h words).1 =
      (coalesce h.segList (extend_heap_written grant h words) h.epilogue).2 ∧
    (GET_SIZE (extend_heap_written grant h words) h.epilogue = words * 8 % 2 ^ 32 ∧
      GET_ALLOC (extend_heap_written grant h words) h.epilogue = 0 ∧
      GET_SIZE (extend_heap_written grant h words) (h.epilogue + words * 8 % 2 ^ 32 - 8) =
        words * 8 % 2 ^ 32 ∧
      GET_ALLOC (extend_heap_written grant h words) (h.epilogue + words * 8 % 2 ^ 32 - 8) = 0 ∧
      GET_SIZE (extend_heap_written grant h words) (h.epilogue + words * 8 % 2 ^ 32) = 0 ∧
      GET_ALLOC (extend_heap_written grant h words) (h.epilogue + words * 8 % 2 ^ 32) = 1) := by
  have hwr : extend_heap_written grant h words =
      PACK (PACK_FTRP (PACK h.mem (h.mem_brk - 8) (words * 8 % 2 ^ 32) 0) (h.mem_brk - 8)
        (words * 8 % 2 ^ 32) 0)
        (NEXT_BLKP (PACK_FTRP (PACK h.mem (h.mem_brk - 8) (words * 8 % 2 ^ 32) 0) (h.mem_brk - 8)
          (words * 8 % 2 ^ 32) 0) (h.mem_brk - 8)) 0 1 := by
    unfold extend_heap_written
    simp only [mem_sbrk, if_pos hg, HSIZE, HDRP, FREE, ALLOC]
  generalize hszdef : words * 8 % 2 ^ 32 = sz at hsmall hz hg hwr
  have hsz8 : sz % 8 = 0 := by omega
  have hbe := hI.brk
  have hpro := hI.pro
  have hseg := hI.seg
  have hTb := Tiled_bounds _ _ _ hI.tiled
  have h8s := hI.sent.2.2.2
  have hne : h.mem_brk ≠ 2 ^ 64 - 1 := by omega
  have hsz31 : sz < 2 ^ 31 := by
    have e0 : (extend_heap grant h words).2.mem_brk = h.mem_brk + sz ∧
        (extend_heap grant h words).2.mem_start_brk = h.mem_start_brk := by
      unfold extend_heap
      simp only [hszdef, if_neg hz, mem_sbrk, if_pos hg, SBRK_FAIL, if_neg hne]
      refine ⟨?_, ?_⟩ <;> first | rfl | trivial
    unfold mem_heapsize at hbig
    rw [e0.1, e0.2] at hbig
    omega
  have hm : extend_heap grant h words =
      ((coalesce h.segList (PACK (PACK (PACK h.mem h.epilogue sz 0) (h.epilogue + sz - 8) sz 0)
          (h.epilogue + sz) 0 1) h.epilogue).2,
        { h with mem_brk := h.mem_brk + sz
                 mem := (coalesce h.segList
                   (PACK (PACK (PACK h.mem h.epilogue sz 0) (h.epilogue + sz - 8) sz 0)
                     (h.epilogue + sz) 0 1) h.epilogue).1
                 epilogue := h.epilogue + sz }) := by
    have e1 : h.mem_brk - 8 = h.epilogue := by omega
    have hmod : sz % 2 ^ 31 = sz := Nat.mod_eq_of_lt hsz31
    have e2 : GET_SIZE (PACK h.mem h.epilogue sz 0) h.epilogue = sz := by
      rw [GET_SIZE_PACK, if_pos rfl, hmod]
    have e3 : PACK_FTRP (PACK h.mem h.epilogue sz 0) h.epilogue sz 0 =
        PACK (PACK h.mem h.epilogue sz 0) (h.epilogue + sz - 8) sz 0 := by
      rw [PACK_FTRP_eq _ _ _ _ (Or.inr (by rw [e2, hmod])), e2]
    have e4 : NEXT_BLKP (PACK (PACK h.mem h.epilogue sz 0) (h.epilogue + sz - 8) sz 0)
        h.epilogue = h.epilogue + sz := by
      unfold NEXT_BLKP
      rw [GET_SIZE_PACK]
      split_ifs
      · rw [hmod]
      · rw [e2]
    unfold extend_heap
    simp only [hszdef, if_neg hz, mem_sbrk, if_pos hg, SBRK_FAIL, if_neg hne, HSIZE, HDRP, FREE,
      ALLOC, e1, e3, e4]
  rw [hm]
  generalize hm3def : PACK (PACK (PACK h.mem h.epilogue sz 0) (h.epilogue + sz - 8) sz 0)
      (h.epilogue + sz) 0 1 = m3
  have hmod : sz % 2 ^ 31 = sz := Nat.mod_eq_of_lt hsz31
  have hrd : ∀ x, x < h.epilogue → m3.rd x = h.mem.rd x := by
    intro x hx
    rw [← hm3def, rd_PACK _ _ _ _ _ (by omega), rd_PACK _ _ _ _ _ (by omega),
      rd_PACK _ _ _ _ _ (by omega)]
  have htags : GET_SIZE m3 h.epilogue = sz ∧ GET_ALLOC m3 h.epilogue = 0 ∧
      GET_SIZE m3 (h.epilogue + sz - 8) = sz ∧ GET_ALLOC m3 (h.epilogue + sz - 8) = 0 ∧
      GET_SIZE m3 (h.epilogue + sz) = 0 ∧ GET_ALLOC m3 (h.epilogue + sz) = 1 := by
    rw [← hm3def]
    simp only [GET_SIZE_PACK, GET_ALLOC_PACK, hmod]
    refine ⟨?_, ?_, ?_, ?_, ?_, ?_⟩ <;> split_ifs <;> first | rfl | omega
  have H : CoalIn h.segList m3 bs h.epilogue sz [] (h.epilogue + sz)
      (fun x => FreeIn bs x ∨ FreeIn [] x) := by
    refine ⟨?_, htags.1, htags.2.1, htags.2.2.1, htags.2.2.2.1, by omega, hsz8, rfl, ?_, ?_,
      fun y hy => hy, ?_⟩
    · refine Tiled_congr bs _ _ ?_ hI.tiled
      intro c hc
      have := hTb.2 c hc
      have := (Tiled_mem_ok _ _ _ hI.tiled c hc).2.2.2.2.1
      exact ⟨hrd _ (by omega), hrd _ (by omega)⟩
    · have hS := hI.sent
      refine ⟨?_, ?_, ⟨htags.2.2.2.2.1, htags.2.2.2.2.2⟩, hS.2.2.2⟩
      · rw [GET_SIZE_congr (hrd _ (by omega)), GET_ALLOC_congr (hrd _ (by omega))]
        exact hS.1
      · intro i hi
        rw [GET_SIZE_congr (hrd _ (by omega)), GET_ALLOC_congr (hrd _ (by omega)),
          GET_SIZE_congr (hrd _ (by omega)), GET_ALLOC_congr (hrd _ (by omega))]
        exact hS.2.1 i hi
    · have hL0 : Lists h.segList h.mem (fun x => FreeIn bs x ∨ FreeIn [] x) := by
        refine Lists_pred ?_ hI.lists
        intro x
        rw [FreeIn_nil]; simp
      refine Lists_congr ?_ ?_ hL0
      · intro x hx
        have : x + 32 ≤ h.epilogue := by
          rcases hx with hx | hx
          · exact (FreeIn_left hI.tiled hx).2
          · exact absurd hx (by rw [FreeIn_nil]; exact id)
        exact ⟨GET_SIZE_congr (hrd _ (by omega)), hrd _ (by omega), hrd _ (by omega)⟩
      · intro i hi
        exact ⟨hrd _ (by omega), hrd _ (by omega)⟩
    · unfold mem_heapsize at hbig
      rw [hm] at hbig
      simp only [] at hbig
      omega
  have hfl0 : ∃ fl, ListsAt h.segList m3 fl (fun x => FreeIn bs x ∨ FreeIn [] x) := H.lists
  obtain ⟨fl, hfl⟩ := hfl0
  obtain ⟨c1, c2, c3, c4, c5, c6⟩ :=
    coalesce_full H hfl hI.noadj trivial (by
      rcases hsmall with h1 | h1
      · exact Or.inl h1
      · exact Or.inr ⟨rfl, h1⟩)
  have hmem : ∀ c : Blk, c.alloc = 1 → (c ∈ mergedSeq bs ⟨h.epilogue, sz, 0⟩ [] ↔ c ∈ bs) := by
    intro c hc
    rw [mem_mergedSeq_alloc bs [] _ c hc]
    simp
  have hwr3 : extend_heap_written grant h words = m3 := by
    rw [hwr, ← hm3def]
    have e1 : h.mem_brk - 8 = h.epilogue := by omega
    have e2 : GET_SIZE (PACK h.mem h.epilogue sz 0) h.epilogue = sz := by
      rw [GET_SIZE_PACK, if_pos rfl, hmod]
    have e3 : PACK_FTRP (PACK h.mem h.epilogue sz 0) h.epilogue sz 0 =
        PACK (PACK h.mem h.epilogue sz 0) (h.epilogue + sz - 8) sz 0 := by
      rw [PACK_FTRP_eq _ _ _ _ (Or.inr (by rw [e2, hmod])), e2]
    have e4 : NEXT_BLKP (PACK (PACK h.mem h.epilogue sz 0) (h.epilogue + sz - 8) sz 0)
        h.epilogue = h.epilogue + sz := by
      unfold NEXT_BLKP
      rw [GET_SIZE_PACK]
      split_ifs
      · rw [hmod]
      · rw [e2]
    rw [e1, e3, e4]
  have hInv : Inv { h with mem_brk := h.mem_brk + sz
                           mem := (coalesce h.segList m3 h.epilogue).1
                           epilogue := h.epilogue + sz } live
      (mergedSeq bs ⟨h.epilogue, sz, 0⟩ []) :=
    { pro := hI.pro, seg := hI.seg, sent := c3, tiled := c2,
            brk := by show h.mem_brk + sz = h.epilogue + sz + 8; omega,
            noadj := c5, lists := ⟨_, c4⟩,
            live_iff := by
              intro q
              rw [hI.live_iff]
              constructor
              · rintro ⟨c, hc, hca, hq⟩
                exact ⟨c, (hmem c hca).2 hc, hca, hq⟩
              · rintro ⟨c, hc, hca, hq⟩
                exact ⟨c, (hmem c hca).1 hc, hca, hq⟩,
            nodup := hI.nodup }
  have hhead := (c4.1 _ (calcList_lt (sz + (absorbPrev bs + absorbNext [])))).1
  refine ⟨c1, rfl, rfl, rfl, rfl, hInv, ?_, ?_, by rw [hwr3], ?_⟩
  · show getNext (coalesce h.segList m3 h.epilogue).1 _ = _
    have e0 : sz + (absorbPrev bs + absorbNext []) = sz + absorbPrev bs := by
      show sz + (absorbPrev bs + 0) = sz + absorbPrev bs
      omega
    rw [e0] at hhead
    rw [hhead]
    unfold mergedLists
    rw [if_pos (by rw [e0])]
    rfl
  · rw [hwr3]
  · rw [hwr3]
    exact htags

/-- In a heap that satisfies the invariant, the size of the last block if it
is free, as `endFree` and `lastSize` read it, is that of the block
sequence. -/
theorem Inv.tail_free {h : Heap} {live : List Nat} {bs : List Blk} (hI : Inv h live bs) :
    (if endFree h = true then lastSize h else 0) = absorbPrev bs := by
  rcases snoc_cases bs with h0 | ⟨l, p, h1⟩
  · subst h0
    rw [hI.endFree_nil]
    rfl
  · subst h1
    obtain ⟨e1, e2⟩ := hI.endFree_snoc
    rw [e1, e2, absorbPrev_snoc]
    by_cases hp : p.alloc = 0
    · rw [if_pos hp, if_pos (decide_eq_true hp)]
    · rw [if_neg hp, if_neg (by simpa using hp)]

/-- In a heap that satisfies the invariant, a free last block is the last
block of the sequence. -/
theorem Inv.tail_block {h : Heap} {live : List Nat} {bs : List Blk} (hI : Inv h live bs)
    (hf : endFree h = true) : ∃ l p, bs = l ++ [p] ∧ p.alloc = 0 := by
  rcases snoc_cases bs with h0 | ⟨l, p, h1⟩
  · subst h0
    rw [hI.endFree_nil] at hf
    exact absurd hf (by decide)
  · subst h1
    obtain ⟨e1, _⟩ := hI.endFree_snoc
    rw [e1] at hf
    exact ⟨l, p, rfl, of_decide_eq_true hf⟩

theorem mem_sbrk_granted (grant : Bool) (h : Heap) (incr : Nat)
    (hf : (mem_sbrk grant h incr).1 ≠ SBRK_FAIL) :
    grant = true ∧ h.mem_brk + incr < 2 ^ 64 := by
  by_contra hg
  unfold mem_sbrk at hf
  rw [if_neg hg] at hf
  exact hf rfl

theorem extend_heap_brk_granted (grant : Bool) (h : Heap) (words : Nat)
    (hz : words * 8 % 2 ^ 32 ≠ 0)
    (hg : grant = true ∧ h.mem_brk + words * 8 % 2 ^ 32 < 2 ^ 64) :
    (extend_heap grant h words).2.mem_brk = h.mem_brk + words * 8 % 2 ^ 32 ∧
    (extend_heap grant h words).2.mem_start_brk = h.mem_start_brk := by
  have hne : h.mem_brk ≠ 2 ^ 64 - 1 := by omega
  unfold extend_heap
  simp only [if_neg hz, mem_sbrk, if_pos hg, SBRK_FAIL, if_neg hne]
  refine ⟨?_, ?_⟩ <;> first | rfl | trivial

/-- The result of `extend_heap` in a heap that satisfies the invariant. -/
theorem Inv.extendResult_holds {h : Heap} {live : List Nat} {bs : List Blk} (hI : Inv h live bs)
    (grant : Bool) (words : Nat) (hw : 0 < words)
    (hsmall : 32 ≤ 8 * words ∨ endFree h = true)
    (hbig : mem_heapsize h + 8 * words < 2 ^ 31 + 208)
    (hok : (mem_sbrk grant h (8 * words)).1 ≠ SBRK_FAIL) :
    ExtendResult grant h words := by
  have hsz : words * 8 % 2 ^ 32 = 8 * words := by omega
  have hz : words * 8 % 2 ^ 32 ≠ 0 := by omega
  have hg : grant = true ∧ h.mem_brk + words * 8 % 2 ^ 32 < 2 ^ 64 := by
    rw [hsz]; exact mem_sbrk_granted grant h _ hok
  have hbrk := extend_heap_brk_granted grant h words hz hg
  have hbig2 : mem_heapsize (extend_heap grant h words).2 < 2 ^ 31 + 208 := by
    unfold mem_heapsize at hbig ⊢
    rw [hbrk.1, hbrk.2, hsz]
    have := hI.brk
    have := hI.pro
    have := hI.seg
    have := (Tiled_bounds _ _ _ hI.tiled).1
    omega
  have hsm : 32 ≤ words * 8 % 2 ^ 32 ∨ ∃ l p, bs = l ++ [p] ∧ p.alloc = 0 := by
    rcases hsmall with h1 | h1
    · left; omega
    · right; exact hI.tail_block h1
  obtain ⟨r1, r2, r3, r4, r5, hI2, hhd, hmem, hret, htags⟩ :=
    extend_heap_granted hI grant words hsm hbig2 hz hg
  rw [hsz] at r2 r3 hI2 hhd htags
  have ht := hI.tail_free
  have hTb := Tiled_bounds _ _ _ hI.tiled
  have hale : absorbPrev bs ≤ h.epilogue ∧ h.segList + 192 ≤ h.epilogue - absorbPrev bs := by
    rcases absorbPrev_spec hI.tiled with h0 | ⟨q, hq, _, hqe, hqa⟩
    · rw [h0]; omega
    · have := hTb.2 q hq
      omega
  have hm : (⟨h.epilogue - absorbPrev bs, 8 * words + (absorbPrev bs + absorbNext []), 0⟩ : Blk) ∈
      mergedSeq bs ⟨h.epilogue, 8 * words, 0⟩ [] := by
    unfold mergedSeq
    simp
  have hok2 := Tiled_mem_ok _ _ _ hI2.tiled _ hm
  have e0 : 8 * words + (absorbPrev bs + absorbNext []) = 8 * words + absorbPrev bs := by
    show 8 * words + (absorbPrev bs + 0) = 8 * words + absorbPrev bs
    omega
  rw [e0] at hok2
  have hok2 : GET_SIZE (extend_heap grant h words).2.mem (h.epilogue - absorbPrev bs) =
        8 * words + absorbPrev bs ∧
      GET_ALLOC (extend_heap grant h words).2.mem (h.epilogue - absorbPrev bs) = 0 ∧
      GET_SIZE (extend_heap grant h words).2.mem
        (h.epilogue - absorbPrev bs + (8 * words + absorbPrev bs) - 8) =
        8 * words + absorbPrev bs ∧
      GET_ALLOC (extend_heap grant h words).2.mem
        (h.epilogue - absorbPrev bs + (8 * words + absorbPrev bs) - 8) = 0 :=
    ⟨hok2.1, hok2.2.1, hok2.2.2.1, hok2.2.2.2.1⟩
  have hep := hI2.sent.2.2.1
  unfold ExtendResult
  simp only [ht]
  refine ⟨htags, ⟨r2, r3, ?_, hep.1, hep.2⟩, ⟨hmem, hret⟩, r1, ?_, ?_, ?_, ?_, ?_, ?_⟩
  · rw [r2, r3]
    have := hI.brk
    omega
  · rw [r1]; exact hok2.1
  · rw [r1]; exact hok2.2.1
  · rw [r1]; unfold FTRP HDRP HSIZE; rw [hok2.1]; exact hok2.2.2.1
  · rw [r1]; unfold FTRP HDRP HSIZE; rw [hok2.1]; exact hok2.2.2.2
  · rw [r1, r3]; unfold NEXT_BLKP; rw [hok2.1]; omega
  · rw [r1]
    unfold listHead
    rw [r4]
    exact hhd

/-- The result of `mm_malloc` when it extends the arena over a free last
block, in a heap that satisfies the invariant. -/
theorem extendOverTail_of_inv {h : Heap} {live : List Nat} {bs : List Blk}
    (hI : Inv h live bs) (grant : Bool) (size : Nat) (hsz : size ≠ 0)
    (hfit : find_fit h.segList h.mem (adjust_size size) = NULL)
    (hf : endFree h = true) (hlt : lastSize h < adjust_size size)
    (hok : (mem_sbrk grant h (adjust_size size - lastSize h)).1 ≠ SBRK_FAIL)
    (hbig : mem_heapsize h + (adjust_size size - lastSize h) < 2 ^ 31 + 208) :
    ExtendOverTail grant h size := by
  obtain ⟨a1, a2, a3⟩ := adjust_size_spec size
  have h8 := hI.lastSize_mod hf
  have ht : lastSize h = absorbPrev bs := by
    have := hI.tail_free
    rw [if_pos hf] at this
    exact this
  have hm := mm_malloc_nofit_eq grant h size hsz hfit _ rfl
  rw [if_pos hf] at hm
  have hW : (adjust_size size + 2 ^ 64 - lastSize h) % 2 ^ 64 % 2 ^ 32 / 8 =
      (adjust_size size - lastSize h) / 8 := by omega
  rw [hW] at hm
  generalize hWdef : (adjust_size size - lastSize h) / 8 = W at hm
  have hW8 : 8 * W = adjust_size size - lastSize h := by omega
  have hsz' : W * 8 % 2 ^ 32 = 8 * W := by omega
  have hz : W * 8 % 2 ^ 32 ≠ 0 := by omega
  have hg : grant = true ∧ h.mem_brk + W * 8 % 2 ^ 32 < 2 ^ 64 := by
    rw [hsz', hW8]; exact mem_sbrk_granted grant h _ hok
  have hbrk := extend_heap_brk_granted grant h W hz hg
  have hTb := Tiled_bounds _ _ _ hI.tiled
  have hbig2 : mem_heapsize (extend_heap grant h W).2 < 2 ^ 31 + 208 := by
    unfold mem_heapsize at hbig ⊢
    rw [hbrk.1, hbrk.2, hsz', hW8]
    have := hI.brk
    have := hI.pro
    have := hI.seg
    omega
  obtain ⟨r1, r2, r3, r4, r5, hI2, _, _, _, _⟩ :=
    extend_heap_granted hI grant W (Or.inr (hI.tail_block hf)) hbig2 hz hg
  rw [hsz', hW8] at r2 r3 hI2
  have hale : absorbPrev bs ≤ h.epilogue ∧ h.segList + 192 ≤ h.epilogue - absorbPrev bs := by
    rcases absorbPrev_spec hI.tiled with h0 | ⟨q, hq, _, hqe, hqa⟩
    · rw [h0]; omega
    · have := hTb.2 q hq
      omega
  have hI3 : Inv (extend_heap grant h W).2 live
      (keepPrev bs ++ ⟨h.epilogue - absorbPrev bs,
        adjust_size size - lastSize h + (absorbPrev bs + 0), 0⟩ :: []) := hI2
  generalize hEdef : extend_heap grant h W = E at hm r1 r2 r3 r4 r5 hI3
  have hne : E.1 ≠ 0 := by rw [r1]; have := hI.sent.2.2.2; omega
  rw [if_pos hne] at hm
  obtain ⟨fl2, hfl2⟩ := hI3.lists
  have hsize : adjust_size size - lastSize h + (absorbPrev bs + 0) = adjust_size size := by
    omega
  rw [hsize] at hI3 hfl2
  obtain ⟨hI4, _⟩ := inv_place_whole (r := ⟨h.epilogue - absorbPrev bs, adjust_size size, 0⟩)
    hI3 hfl2 rfl (le_refl _) (by show adjust_size size - adjust_size size < 32; omega)
  have hmem : (⟨h.epilogue - absorbPrev bs, adjust_size size, 1⟩ : Blk) ∈
      keepPrev bs ++ ⟨h.epilogue - absorbPrev bs, adjust_size size, 1⟩ :: [] := by simp
  have hok4 := Tiled_mem_ok _ _ _ hI4.tiled _ hmem
  have hok4 : GET_SIZE (place E.2.segList E.2.mem (h.epilogue - absorbPrev bs)
        (adjust_size size)) (h.epilogue - absorbPrev bs) = adjust_size size ∧
      GET_ALLOC (place E.2.segList E.2.mem (h.epilogue - absorbPrev bs)
        (adjust_size size)) (h.epilogue - absorbPrev bs) = 1 ∧
      GET_SIZE (place E.2.segList E.2.mem (h.epilogue - absorbPrev bs)
        (adjust_size size)) (h.epilogue - absorbPrev bs + adjust_size size - 8) =
        adjust_size size ∧
      GET_ALLOC (place E.2.segList E.2.mem (h.epilogue - absorbPrev bs)
        (adjust_size size)) (h.epilogue - absorbPrev bs + adjust_size size - 8) = 1 :=
    ⟨hok4.1, hok4.2.1, hok4.2.2.1, hok4.2.2.2.1⟩
  have hep := hI4.sent.2.2.1
  have hep : GET_SIZE (place E.2.segList E.2.mem (h.epilogue - absorbPrev bs)
        (adjust_size size)) E.2.epilogue = 0 ∧
      GET_ALLOC (place E.2.segList E.2.mem (h.epilogue - absorbPrev bs)
        (adjust_size size)) E.2.epilogue = 1 := hep
  unfold ExtendOverTail
  simp only [hm, r1, ht]
  rw [ht] at hlt
  refine ⟨trivial, hok4.1, hok4.2.1, ?_, ?_, ?_, ?_, hep.1, hep.2⟩
  · unfold FTRP HDRP HSIZE; rw [hok4.1]; exact hok4.2.2.1
  · unfold FTRP HDRP HSIZE; rw [hok4.1]; exact hok4.2.2.2
  · unfold NEXT_BLKP; rw [hok4.1, r3, ht]; omega
  · rw [r3, ht]

/-- C28: `place`.  In a well-formed heap, for every block `B` that is a
member of a list and every `asize` that is a multiple of 8 with
`32 <= asize <= size(B)`, with `r = size(B) - asize`: if `r < 32`, `place`
takes `B` out of its list and writes `(size(B), allocated)` to its header and
footer, and the heap walk visits the same blocks; if `r >= 32`, it takes `B`
out of its list, writes `(asize, allocated)` to its header and footer, and the
block at `B + asize` has header and footer `(r, free)`, ends where `B` ended
and is the head of the list of class `calcList r`; the tag words of the other
blocks are unchanged and the lists keep their other members. -/
theorem place_result (s : St) (hw : WellFormed s) (B asize : Nat) (hB : Listed s.heap B)
    (ha1 : 32 ≤ asize) (ha2 : asize % 8 = 0) (ha3 : asize ≤ GET_SIZE s.heap.mem B) :
    PlaceResult s.heap B asize := by
  obtain ⟨bs, hI⟩ := hw
  obtain ⟨fl, hfl⟩ := hI.lists
  obtain ⟨i, hi, l, hl, hBl⟩ := hB
  have e1 := ListsAt.path_unique hfl i hi hl
  rw [e1] at hBl
  obtain ⟨r, hr, hra, hr0⟩ := ((hfl.2.2.1 i hi B).1 hBl).1
  obtain ⟨l1, l2, hsplit⟩ := List.append_of_mem hr
  subst hsplit
  subst hra
  rw [(Tiled_mem_ok _ _ _ hI.tiled r hr).1] at ha3
  exact hI.placeResult_holds hr0 ha1 ha2 ha3

/-- The theorem on `place` applied right after `mm_init` to the free block
`4296016072` of 7984 bytes: with `asize = 120` the block is split and the rest
is a free block of 7864 bytes at `4296016192`; with `asize = 7960` the block
is allocated whole. -/
theorem place_result_witness :
    WellFormed stInit ∧ Listed stInit.heap 4296016072 ∧
    GET_SIZE stInit.heap.mem 4296016072 = 7984 ∧
    (PlaceResult stInit.heap 4296016072 120 ∧
      GET_SIZE (place stInit.heap.segList stInit.heap.mem 4296016072 120) 4296016192 = 7864) ∧
    (PlaceResult stInit.heap 4296016072 7960 ∧
      GET_SIZE (place stInit.heap.segList stInit.heap.mem 4296016072 7960) 4296016072 = 7984) :=
  have hw : WellFormed stInit := reachable_inv reach_stInit (by decide)
  have hB : Listed stInit.heap 4296016072 := ⟨1, by decide, [4296016072], by decide, by decide⟩
  ⟨hw, hB, by decide,
    ⟨place_result stInit hw 4296016072 120 hB (by decide) (by decide) (by decide), by decide⟩,
    ⟨place_result stInit hw 4296016072 7960 hB (by decide) (by decide) (by decide), by decide⟩⟩

/-- C30 (amended): `extend_heap`.  In a well-formed heap, for `words > 0`
with `8 * words >= 32` or a free last block, when `mem_sbrk` grants
`8 * words` bytes and the grown arena is smaller than `2^31 + 208` bytes:
`extend_heap` writes header and footer `(8 * words, free)` of a block whose
header is the old epilogue header, writes the new epilogue header (0,
allocated) into the last 8 bytes of the grown arena and moves the global
`epilogue` there, then coalesces; the returned block is free, ends at the new
epilogue, is the head of the list of its class and has `8 * words + t` bytes,
`t` the size of a free last block or 0.  When `mm_malloc` extends over a free
last block of `t` bytes, `t` smaller than the adjusted size, the block of the
returned payload starts at the old last block, has the adjusted size, is
allocated and ends at the new epilogue. -/
theorem extend_heap_result (grant : Bool) (s : St) (hw : WellFormed s) :
    (∀ words, 0 < words → (32 ≤ 8 * words ∨ endFree s.heap = true) →
      mem_heapsize s.heap + 8 * words < 2 ^ 31 + 208 →
      (mem_sbrk grant s.heap (8 * words)).1 ≠ SBRK_FAIL →
      ExtendResult grant s.heap words) ∧
    (∀ size, size ≠ 0 → find_fit s.heap.segList s.heap.mem (adjust_size size) = NULL →
      endFree s.heap = true → lastSize s.heap < adjust_size size →
      (mem_sbrk grant s.heap (adjust_size size - lastSize s.heap)).1 ≠ SBRK_FAIL →
      mem_heapsize s.heap + (adjust_size size - lastSize s.heap) < 2 ^ 31 + 208 →
      ExtendOverTail grant s.heap size) := by
  obtain ⟨bs, hI⟩ := hw
  exact ⟨fun words h0 hsm hbig hok => hI.extendResult_holds grant words h0 hsm hbig hok,
    fun size hsz hfit hf hlt hok hbig =>
      extendOverTail_of_inv hI grant size hsz hfit hf hlt hok hbig⟩

/-- The theorem on `extend_heap` in the state `stOne`, whose last block is
free with 7864 bytes: `extend_heap(144)` returns a free block of
`1152 + 7864` bytes at `4296016192`, and `mm_malloc(9000)` returns the payload
`4296016200` of a block of 9016 bytes that ends at the new epilogue; and in
the state `stFull`, whose last block is allocated, for `extend_heap(4)`. -/
theorem extend_heap_result_witness :
    WellFormed stOne ∧ WellFormed stFull ∧
    (ExtendResult true stOne.heap 144 ∧
      (extend_heap true stOne.heap 144).1 = 4296016192 ∧
      GET_SIZE (extend_heap true stOne.heap 144).2.mem 4296016192 = 1152 + 7864) ∧
    (ExtendOverTail true stOne.heap 9000 ∧ (mm_malloc true stOne.heap 9000).1 = 4296016200 ∧
      GET_SIZE (mm_malloc true stOne.heap 9000).2.mem 4296016192 = 9016) ∧
    ExtendResult true stFull.heap 4 :=
  have hw : WellFormed stOne := reachable_inv reach_stOne (by decide)
  have hw2 : WellFormed stFull := reachable_inv reach_stFull (by decide)
  ⟨hw, hw2,
    ⟨(extend_heap_result true stOne hw).1 144 (by decide) (by decide) (by decide) (by decide),
      by decide, by decide⟩,
    ⟨(extend_heap_result true stOne hw).2 9000 (by decide) (by decide) (by decide) (by decide)
      (by decide) (by decide), by decide, by decide⟩,
    (extend_heap_result true stFull hw2).1 4 (by decide) (by decide) (by decide) (by decide)⟩

/-- C30 fails as stated, in two ways.  In the well-formed heap `stFull`
(arena of 8192 bytes, last block allocated) `extend_heap(3)` writes a block of
24 bytes at the old epilogue `4296024056`, and `insertBlock` stores its
`prev` link in the word `4296024072`, the footer of the block, which then
holds the size 0, not 24.  Right after `mm_init`, `extend_heap(2^28)` grows
the arena to `2^31 + 8192` bytes, the size field of the new block holds 0,
not `2^31`, and the global `epilogue` stays at `4296024056`. -/
theorem extend_heap_counterexample :
    (WellFormed stFull ∧ mem_heapsize stFull.heap = 8192 ∧ endFree stFull.heap = false ∧
      (mem_sbrk true stFull.heap (8 * 3)).1 ≠ SBRK_FAIL ∧
      (extend_heap true stFull.heap 3).1 = 4296024056 ∧
      GET_SIZE (extend_heap true stFull.heap 3).2.mem 4296024056 = 24 ∧
      FTRP (extend_heap true stFull.heap 3).2.mem 4296024056 = 4296024072 ∧
      GET_SIZE (extend_heap true stFull.heap 3).2.mem 4296024072 = 0 ∧
      ¬ ExtendResult true stFull.heap 3) ∧
    (WellFormed stInit ∧ (mem_sbrk true stInit.heap (8 * 2 ^ 28)).1 ≠ SBRK_FAIL ∧
      mem_heapsize (extend_heap true stInit.heap (2 ^ 28)).2 = 2 ^ 31 + 8192 ∧
      stInit.heap.epilogue = 4296024056 ∧
      (extend_heap true stInit.heap (2 ^ 28)).2.epilogue = 4296024056 ∧
      GET_SIZE (extend_heap true stInit.heap (2 ^ 28)).2.mem
        (extend_heap true stInit.heap (2 ^ 28)).1 = 0 ∧
      ¬ ExtendResult true stInit.heap (2 ^ 28)) :=
  ⟨⟨reachable_inv reach_stFull (by decide), by decide, by decide, by decide, by decide,
      by decide, by decide, by decide,
      fun h => absurd h.2.2.2.2.2.2.1 (by decide)⟩,
    ⟨reachable_inv reach_stInit (by decide), by decide, by decide, by decide, by decide,
      by decide, fun h => absurd h.2.1.2.1 (by decide)⟩⟩

/-! ## Tag words, size classes and the probes of `find_fit` -/

/-- The word that `PACK(p, size, alloc)` leaves at `p`. -/
theorem PACK_word (m : Mem) (p size alloc : Nat) :
    (PACK m p size alloc).rd p =
      m.rd p / 2 ^ 32 * 2 ^ 32 + size % 2 ^ 31 * 2 + alloc % 2 := by
  unfold PACK set_allocated set_block_size
  simp only [rd_wr, if_true]
  omega

/-- `calcList` is monotone. -/
theorem calcList_mono {s t : Nat} (h : s ≤ t) : calcList s ≤ calcList t := by
  rw [calcList_eq s, calcList_eq t]
  split_ifs <;> omega

/-- The bound of the class that `calcList` returns, when there is one. -/
theorem calcList_bound (s : Nat) (h : s ≤ 128000) : s ≤ 4000 * 2 ^ calcList s := by
  rw [calcList_eq s]
  split_ifs <;> simp <;> omega

/-- No class below the one that `calcList` returns has a bound that fits. -/
theorem calcList_least (s j : Nat) (h : j < calcList s) : 4000 * 2 ^ j < s := by
  rw [calcList_eq s] at h
  have h5 : j < 5 := by split_ifs at h <;> omega
  obtain h0 | h0 | h0 | h0 | h0 : j = 0 ∨ j = 1 ∨ j = 2 ∨ j = 3 ∨ j = 4 := by omega
  all_goals subst h0; simp; split_ifs at h <;> omega

/-- The address computed from `calcList` is that of a list head. -/
theorem calcList_headBlocks (segList s : Nat) :
    segList + MIN_BLOCK_SIZE * calcList s ∈ headBlocks segList := by
  unfold headBlocks
  rw [List.mem_map]
  exact ⟨calcList s, List.mem_range.2 (by have := calcList_lt s; simp only [LISTMAX]; omega), rfl⟩

/-- The inner loop of `find_fit` ends within 13 iterations and reads at most
12 sizes. -/
theorem find_fit_while_eq (m : Mem) (asize : Nat) : ∀ (n m_root count : Nat), count + n = 12 →
    ∃ ps : List Nat, ps.length ≤ n ∧
      ∀ fuel, n < fuel →
        find_fit_while m asize fuel m_root count = some (find_fit_scan m asize n m_root, ps) := by
  intro n
  induction n with
  | zero =>
    intro m_root count hc
    refine ⟨[], le_refl _, ?_⟩
    intro fuel hf
    obtain ⟨f, rfl⟩ : ∃ f, fuel = f + 1 := ⟨fuel - 1, by omega⟩
    unfold find_fit_while find_fit_scan
    rw [if_neg (by omega)]
  | succ n ih =>
    intro m_root count hc
    by_cases h0 : m_root = NULL
    · refine ⟨[], Nat.zero_le _, ?_⟩
      intro fuel hf
      obtain ⟨f, rfl⟩ : ∃ f, fuel = f + 1 := ⟨fuel - 1, by omega⟩
      unfold find_fit_while find_fit_scan
      rw [if_neg (fun h => h.1 h0), if_pos h0]
    · by_cases hsz : GET_SIZE m m_root ≥ asize
      · refine ⟨[m_root], by simp, ?_⟩
        intro fuel hf
        obtain ⟨f, rfl⟩ : ∃ f, fuel = f + 1 := ⟨fuel - 1, by omega⟩
        unfold find_fit_while find_fit_scan
        rw [if_pos ⟨h0, by omega⟩, if_pos hsz, if_neg h0, if_pos hsz]
      · obtain ⟨ps, hps, hrun⟩ := ih (getNext m m_root) (count + 1) (by omega)
        refine ⟨m_root :: ps, by simp; omega, ?_⟩
        intro fuel hf
        obtain ⟨f, rfl⟩ : ∃ f, fuel = f + 1 := ⟨fuel - 1, by omega⟩
        unfold find_fit_while find_fit_scan
        rw [if_pos ⟨h0, by omega⟩, if_neg hsz, if_neg h0, if_neg hsz, hrun f (by omega)]
        rfl

/-- The outer loop of `find_fit` ends, and it reads at most 12 sizes in each
of the classes from `i` on. -/
theorem find_fit_for_eq (segList : Nat) (m : Mem) (asize : Nat) : ∀ (n i : Nat), i + n = 6 →
    ∃ ps : List (Nat × Nat),
      (∀ fuel, n + 13 ≤ fuel →
        find_fit_for segList m asize fuel i = some (find_fit_lists segList m asize n i, ps)) ∧
      (∀ p, p ∈ ps → i ≤ p.1 ∧ p.1 ≤ 5) ∧
      (∀ j, (ps.filter (fun p => decide (p.1 = j))).length ≤ 12) ∧
      ps.length ≤ 12 * n := by
  intro n
  induction n with
  | zero =>
    intro i hi
    refine ⟨[], ?_, ?_, ?_, ?_⟩
    · intro fuel hf
      obtain ⟨f, rfl⟩ : ∃ f, fuel = f + 1 := ⟨fuel - 1, by omega⟩
      unfold find_fit_for find_fit_lists
      rw [if_neg (by simp only [LISTMAX]; omega)]
    · intro p hp; cases hp
    · intro j; simp
    · simp
  | succ n ih =>
    intro i hi
    obtain ⟨ps1, hlen1, hrun1⟩ :=
      find_fit_while_eq m asize 12 (getNext m (segList + MIN_BLOCK_SIZE * i)) 0 (by omega)
    by_cases hr : find_fit_scan m asize 12 (getNext m (segList + MIN_BLOCK_SIZE * i)) ≠ NULL
    · refine ⟨ps1.map (fun x => (i, x)), ?_, ?_, ?_, ?_⟩
      · intro fuel hf
        obtain ⟨f, rfl⟩ : ∃ f, fuel = f + 1 := ⟨fuel - 1, by omega⟩
        unfold find_fit_for find_fit_lists
        rw [if_pos (by simp only [LISTMAX]; omega)]
        simp only [hrun1 f (by omega), if_pos hr]
      · intro p hp
        obtain ⟨x, _, rfl⟩ := List.mem_map.1 hp
        exact ⟨le_refl _, by omega⟩
      · intro j
        exact le_trans (List.length_filter_le _ _) (by rw [List.length_map]; exact hlen1)
      · rw [List.length_map]; omega
    · obtain ⟨ps2, hrun2, hcls2, hcnt2, hlen2⟩ := ih (i + 1) (by omega)
      refine ⟨ps1.map (fun x => (i, x)) ++ ps2, ?_, ?_, ?_, ?_⟩
      · intro fuel hf
        obtain ⟨f, rfl⟩ : ∃ f, fuel = f + 1 := ⟨fuel - 1, by omega⟩
        unfold find_fit_for find_fit_lists
        rw [if_pos (by simp only [LISTMAX]; omega)]
        simp only [hrun1 f (by omega), if_neg hr, hrun2 f (by omega)]
        rfl
      · intro p hp
        rcases List.mem_append.1 hp with h1 | h1
        · obtain ⟨x, _, rfl⟩ := List.mem_map.1 h1
          exact ⟨le_refl _, by omega⟩
        · have := hcls2 p h1
          exact ⟨by omega, this.2⟩
      · intro j
        rw [List.filter_append, List.length_append]
        by_cases hj : j = i
        · have e2 : ps2.filter (fun p => decide (p.1 = j)) = [] := by
            rw [List.filter_eq_nil_iff]
            intro p hp
            have := hcls2 p hp
            simp only [decide_eq_true_eq]
            omega
          rw [e2, List.length_nil, Nat.add_zero]
          exact le_trans (List.length_filter_le _ _) (by rw [List.length_map]; exact hlen1)
        · have e1 : (ps1.map (fun x => (i, x))).filter (fun p => decide (p.1 = j)) = [] := by
            rw [List.filter_eq_nil_iff]
            intro p hp
            obtain ⟨x, _, rfl⟩ := List.mem_map.1 hp
            simp only [decide_eq_true_eq]
            exact fun h => hj h.symm
          rw [e1, List.length_nil, Nat.zero_add]
          exact hcnt2 j
      · rw [List.length_append, List.length_map]; omega

/-- `find_fit` ends within 19 iterations of each loop, returns the value of
the function without the record, and reads at most 12 sizes in each class and
at most 72 in all. -/
theorem find_fit_probes_eq (segList : Nat) (m : Mem) (asize : Nat) :
    ∃ ps : List (Nat × Nat),
      (∀ fuel, 19 ≤ fuel →
        find_fit_probes fuel segList m asize = some (find_fit segList m asize, ps)) ∧
      (∀ p, p ∈ ps → calcList (asize % 2 ^ 32) ≤ p.1 ∧ p.1 ≤ 5) ∧
      (∀ j, (ps.filter (fun p => decide (p.1 = j))).length ≤ 12) ∧
      ps.length ≤ 72 := by
  have hc := calcList_le (asize % 2 ^ 32)
  obtain ⟨ps, h1, h2, h3, h4⟩ :=
    find_fit_for_eq segList m asize (LISTMAX + 1 - calcList (asize % 2 ^ 32))
      (calcList (asize % 2 ^ 32)) (by simp only [LISTMAX]; omega)
  refine ⟨ps, ?_, h2, h3, ?_⟩
  · intro fuel hf
    unfold find_fit_probes find_fit
    exact h1 fuel (by simp only [LISTMAX]; omega)
  · simp only [LISTMAX] at h4
    omega

/-! ## Completeness of `find_fit` on short lists -/

/-- With link integrity every list is traversed from its head to `NULL`. -/
theorem LinkIntegrity.has_path {h : Heap} (hl : LinkIntegrity h) (i : Nat) (hi : i < 6) :
    ∃ l, IsPath h.mem (listHead h i) l NULL := by
  by_cases h0 : listHead h i = NULL
  · exact ⟨[], h0⟩
  · obtain ⟨_, _, l, hp, _⟩ := (hl i hi).2 h0
    exact ⟨l, hp⟩

/-- On lists of at most 12 members in their classes, `find_fit` returns
`NULL` exactly when no member is large enough, and the classes below that of
the request hold no block that is large enough. -/
theorem find_fit_short (h : Heap) (asize : Nat) (hc : ClassPlacement h) (hl : LinkIntegrity h)
    (hshort : ∀ i, i < 6 → ∀ l, IsPath h.mem (listHead h i) l NULL → l.length ≤ 12) :
    (find_fit h.segList h.mem asize = NULL ↔
      ∀ i, i < 6 → ∀ l, IsPath h.mem (listHead h i) l NULL →
        ∀ x, x ∈ l → GET_SIZE h.mem x < asize) ∧
    (∀ i, i < calcList (asize % 2 ^ 32) → ∀ l, IsPath h.mem (listHead h i) l NULL →
      ∀ x, x ∈ l → GET_SIZE h.mem x < asize) := by
  have hlow : ∀ i, i < calcList (asize % 2 ^ 32) → ∀ l, IsPath h.mem (listHead h i) l NULL →
      ∀ x, x ∈ l → GET_SIZE h.mem x < asize := by
    intro i hi l hp x hx
    have hi6 : i < 6 := by have := calcList_le (asize % 2 ^ 32); omega
    have hcl := hc i hi6 l NULL hp x hx
    by_contra hge
    have hle : asize % 2 ^ 32 ≤ GET_SIZE h.mem x := by
      have := Nat.mod_le asize (2 ^ 32)
      omega
    have := calcList_mono hle
    omega
  refine ⟨?_, hlow⟩
  have hex : ∀ i, ∃ l, i < 6 → IsPath h.mem (listHead h i) l NULL := by
    intro i
    by_cases hi : i < 6
    · obtain ⟨l, hp⟩ := hl.has_path i hi
      exact ⟨l, fun _ => hp⟩
    · exact ⟨[], fun h6 => absurd h6 hi⟩
  choose fl hfl using hex
  have hnz : ∀ j, j < 6 → ∀ x, x ∈ fl j → x ≠ NULL :=
    fun j hj x hx => Trace_not_stop _ _ _ (hfl j hj) x hx
  have hcl := calcList_le (asize % 2 ^ 32)
  have e1 : find_fit h.segList h.mem asize =
      ((((List.range' (calcList (asize % 2 ^ 32)) (LISTMAX + 1 - calcList (asize % 2 ^ 32))).map
        (fun j => (fl j).take 12)).flatten).find?
          (fun x => decide (asize ≤ GET_SIZE h.mem x))).getD NULL := by
    unfold find_fit
    simp only []
    rw [find_fit_lists_path h.segList h.mem fl asize hfl _ _ (by simp only [LISTMAX]; omega),
      scanLists_find _ _ _ _ _ (fun j _ h2 => hnz j (by simp only [LISTMAX] at h2; omega))]
  rw [e1]
  constructor
  · intro hnull i hi l hp x hx
    by_cases hlo : i < calcList (asize % 2 ^ 32)
    · exact hlow i hlo l hp x hx
    · have hleq : l = fl i := Trace_unique _ _ _ _ _ hp (hfl i hi) rfl rfl
      have hxs : x ∈ ((List.range' (calcList (asize % 2 ^ 32))
          (LISTMAX + 1 - calcList (asize % 2 ^ 32))).map (fun j => (fl j).take 12)).flatten := by
        rw [List.mem_flatten]
        refine ⟨(fl i).take 12, List.mem_map.2 ⟨i, ?_, rfl⟩, ?_⟩
        · rw [List.mem_range'_1]
          simp only [LISTMAX]
          omega
        · rw [List.take_of_length_le (hshort i hi (fl i) (hfl i hi)), ← hleq]
          exact hx
      cases hf : (((List.range' (calcList (asize % 2 ^ 32))
          (LISTMAX + 1 - calcList (asize % 2 ^ 32))).map (fun j => (fl j).take 12)).flatten).find?
            (fun x => decide (asize ≤ GET_SIZE h.mem x)) with
      | none =>
        have := List.find?_eq_none.1 hf x hxs
        simp only [decide_eq_true_eq] at this
        omega
      | some r =>
        rw [hf] at hnull
        have hr := List.mem_of_find?_eq_some hf
        rw [List.mem_flatten] at hr
        obtain ⟨l2, hl2, hrl2⟩ := hr
        obtain ⟨j, hj, rfl⟩ := List.mem_map.1 hl2
        rw [List.mem_range'_1] at hj
        have hr0 := hnz j (by simp only [LISTMAX] at hj; omega) r (List.mem_of_mem_take hrl2)
        exact absurd hnull hr0
  · intro hall
    have hnone : (((List.range' (calcList (asize % 2 ^ 32))
        (LISTMAX + 1 - calcList (asize % 2 ^ 32))).map (fun j => (fl j).take 12)).flatten).find?
          (fun x => decide (asize ≤ GET_SIZE h.mem x)) = none := by
      rw [List.find?_eq_none]
      intro x hx
      rw [List.mem_flatten] at hx
      obtain ⟨l2, hl2, hxl2⟩ := hx
      obtain ⟨j, hj, rfl⟩ := List.mem_map.1 hl2
      rw [List.mem_range'_1] at hj
      have hj6 : j < 6 := by simp only [LISTMAX] at hj; omega
      have := hall j hj6 (fl j) (hfl j hj6) x (List.mem_of_mem_take hxl2)
      simp only [decide_eq_true_eq]
      omega
    rw [hnone]
    rfl

/-- C34: the bounded scan of `find_fit` can miss a fit.  There is a state
reachable from `mm_init` by calls of `mm_malloc` and `mm_free` on live
payloads, in an arena of less than `2^31 + 208` bytes, a request `asize` and a
block `x` such that `x` is met on the traversal of the list of its class from
the head to `NULL`, is marked free and has a size of at least `asize`, its
class is not below that of `asize`, at least 12 entries of the list come
before it, and `find_fit(asize)` returns `NULL`. -/
theorem bounded_scan_miss :
    ∃ (s : St) (asize x : Nat) (l1 l2 : List Nat),
      Reachable s ∧ mem_heapsize s.heap < 2 ^ 31 + 208 ∧
      IsPath s.heap.mem (listHead s.heap (calcList (GET_SIZE s.heap.mem x))) (l1 ++ x :: l2) NULL ∧
      GET_ALLOC s.heap.mem x = 0 ∧ asize ≤ GET_SIZE s.heap.mem x ∧
      calcList (asize % 2 ^ 32) ≤ calcList (GET_SIZE s.heap.mem x) ∧
      12 ≤ l1.length ∧
      find_fit s.heap.segList s.heap.mem asize = NULL :=
  ⟨stFrag, 496, 4296023560, (flFrag 0).take 12, [], reach_stFrag, by decide, by decide, by decide,
    by decide, by decide, by decide, by decide⟩

/-- C35: probe limit of `find_fit`.  For every heap state, whatever its list
links are (cyclic, or a list longer than 12), and every `asize`, `find_fit`
returns: run with 19 or more iterations allowed to each loop it gives the
value of `find_fit(asize)`, and on the way it reads the size of at most 12
blocks in each class, only in classes from `calcList(asize)` to 5, and of at
most 72 blocks in total. -/
theorem probe_limit (h : Heap) (asize : Nat) :
    ∃ ps : List (Nat × Nat),
      (∀ fuel, 19 ≤ fuel →
        find_fit_probes fuel h.segList h.mem asize =
          some (find_fit h.segList h.mem asize, ps)) ∧
      (∀ p, p ∈ ps → calcList (asize % 2 ^ 32) ≤ p.1 ∧ p.1 ≤ 5) ∧
      (∀ i, (ps.filter (fun p => decide (p.1 = i))).length ≤ 12) ∧
      ps.length ≤ 72 :=
  find_fit_probes_eq h.segList h.mem asize

/-- The probe limit in the heap `heapCyclic`, whose list 1 is the cycle of
the block `4296016072` (7984 bytes): a request for 8000 bytes reads the size of
this block 12 times and returns `NULL`. -/
theorem probe_limit_witness :
    getNext heapCyclic.mem 4296016072 = 4296016072 ∧
    find_fit_probes 19 heapCyclic.segList heapCyclic.mem 8000 =
      some (NULL, List.replicate 12 (1, 4296016072)) ∧
    ∃ ps : List (Nat × Nat),
      (∀ fuel, 19 ≤ fuel →
        find_fit_probes fuel heapCyclic.segList heapCyclic.mem 8000 =
          some (find_fit heapCyclic.segList heapCyclic.mem 8000, ps)) ∧
      (∀ p, p ∈ ps → calcList (8000 % 2 ^ 32) ≤ p.1 ∧ p.1 ≤ 5) ∧
      (∀ i, (ps.filter (fun p => decide (p.1 = i))).length ≤ 12) ∧
      ps.length ≤ 72 :=
  ⟨by decide, by decide, probe_limit heapCyclic 8000⟩

/-- C36: boundary tag encoding.  For every arena, every tag word at `p`,
every `size < 2^31` and `alloc` in {0, 1}: after `PACK(p, size, alloc)`,
`GET_SIZE(p) = size` and `GET_ALLOC(p) = alloc`, the low 32 bits of the word
are `2 * size + alloc`, the upper 32 bits are what they were, and no other
word has changed. -/
theorem pack_encoding (m : Mem) (p size alloc : Nat) (hs : size < 2 ^ 31)
    (ha : alloc = 0 ∨ alloc = 1) :
    GET_SIZE (PACK m p size alloc) p = size ∧
    GET_ALLOC (PACK m p size alloc) p = alloc ∧
    (PACK m p size alloc).rd p % 2 ^ 32 = 2 * size + alloc ∧
    (PACK m p size alloc).rd p / 2 ^ 32 = m.rd p / 2 ^ 32 ∧
    (∀ q, q ≠ p → (PACK m p size alloc).rd q = m.rd q) := by
  have hw := PACK_word m p size alloc
  refine ⟨?_, ?_, ?_, ?_, fun q hq => rd_PACK m p size alloc q hq⟩
  · unfold GET_SIZE; rw [hw]; omega
  · unfold GET_ALLOC; rw [hw]; omega
  · rw [hw]; omega
  · rw [hw]; omega

/-- The tag encoding on the word `7 * 2^32 + 81` (size 40, allocated, upper
half 7), packed with size 48 and the allocated bit 0: the word becomes
`7 * 2^32 + 96`. -/
theorem pack_encoding_witness :
    (PACK (wr zeroMem 64 (7 * 2 ^ 32 + 81)) 64 48 0).rd 64 = 7 * 2 ^ 32 + 96 ∧
    (GET_SIZE (PACK (wr zeroMem 64 (7 * 2 ^ 32 + 81)) 64 48 0) 64 = 48 ∧
      GET_ALLOC (PACK (wr zeroMem 64 (7 * 2 ^ 32 + 81)) 64 48 0) 64 = 0 ∧
      (PACK (wr zeroMem 64 (7 * 2 ^ 32 + 81)) 64 48 0).rd 64 % 2 ^ 32 = 2 * 48 + 0 ∧
      (PACK (wr zeroMem 64 (7 * 2 ^ 32 + 81)) 64 48 0).rd 64 / 2 ^ 32 =
        (wr zeroMem 64 (7 * 2 ^ 32 + 81)).rd 64 / 2 ^ 32 ∧
      (∀ q, q ≠ 64 → (PACK (wr zeroMem 64 (7 * 2 ^ 32 + 81)) 64 48 0).rd q =
        (wr zeroMem 64 (7 * 2 ^ 32 + 81)).rd q)) :=
  ⟨by decide, pack_encoding (wr zeroMem 64 (7 * 2 ^ 32 + 81)) 64 48 0 (by decide) (Or.inl rfl)⟩

/-- C39: completeness of `find_fit` on short lists.  In every heap state
with class placement and link integrity in which each of the six lists, traversed
from its head to `NULL`, has at most 12 members, and for every `asize`:
`find_fit(asize)` returns `NULL` exactly when no member of any of the six
lists has a size of at least `asize`; and every member of a class below
`calcList(asize)`, the classes that the search skips, has a size below
`asize`. -/
theorem find_fit_complete (h : Heap) (asize : Nat) (hc : ClassPlacement h)
    (hl : LinkIntegrity h)
    (hshort : ∀ i, i < 6 → ∀ l, IsPath h.mem (listHead h i) l NULL → l.length ≤ 12) :
    (find_fit h.segList h.mem asize = NULL ↔
      ∀ i, i < 6 → ∀ l, IsPath h.mem (listHead h i) l NULL →
        ∀ x, x ∈ l → GET_SIZE h.mem x < asize) ∧
    (∀ i, i < calcList (asize % 2 ^ 32) → ∀ l, IsPath h.mem (listHead h i) l NULL →
      ∀ x, x ∈ l → GET_SIZE h.mem x < asize) :=
  find_fit_short h asize hc hl hshort

/-- Completeness of `find_fit` in the state `stFrag` with the 13th entry of
list 0 taken out of reach, that is in the state after `mm_init`, whose list 1
holds the block of 7984 bytes alone: a request for 8000 bytes gets `NULL` and
no member is that large, a request for 100 bytes gets the block. -/
theorem find_fit_complete_witness :
    ((find_fit stInit.heap.segList stInit.heap.mem 8000 = NULL ↔
      ∀ i, i < 6 → ∀ l, IsPath stInit.heap.mem (listHead stInit.heap i) l NULL →
        ∀ x, x ∈ l → GET_SIZE stInit.heap.mem x < 8000) ∧
    (∀ i, i < calcList (8000 % 2 ^ 32) →
      ∀ l, IsPath stInit.heap.mem (listHead stInit.heap i) l NULL →
        ∀ x, x ∈ l → GET_SIZE stInit.heap.mem x < 8000)) ∧
    find_fit stInit.heap.segList stInit.heap.mem 8000 = NULL ∧
    find_fit stInit.heap.segList stInit.heap.mem 100 = 4296016072 ∧
    IsPath stInit.heap.mem (listHead stInit.heap 1) [4296016072] NULL :=
  have hI : ∃ bs, Inv stInit.heap stInit.live bs := reachable_inv reach_stInit (by decide)
  have hc : ClassPlacement stInit.heap := by
    obtain ⟨bs, hb⟩ := hI
    exact hb.classPlacement
  have hl : LinkIntegrity stInit.heap := by
    obtain ⟨bs, hb⟩ := hI
    exact hb.linkIntegrity
  have hp : ∀ i, i < 6 →
      IsPath stInit.heap.mem (listHead stInit.heap i) (if i = 1 then [4296016072] else []) NULL := by
    intro i hi
    obtain h | h | h | h | h | h : i = 0 ∨ i = 1 ∨ i = 2 ∨ i = 3 ∨ i = 4 ∨ i = 5 := by omega
    all_goals subst h; decide
  have hshort : ∀ i, i < 6 → ∀ l, IsPath stInit.heap.mem (listHead stInit.heap i) l NULL →
      l.length ≤ 12 := by
    intro i hi l hpl
    have e : l = if i = 1 then [4296016072] else [] :=
      Trace_unique _ _ _ _ _ hpl (hp i hi) rfl rfl
    rw [e]
    split_ifs <;> simp
  ⟨find_fit_complete stInit.heap 8000 hc hl hshort, by decide, by decide, by decide⟩

/-- C40: exact behaviour of `calcList`.  For every size `s`: `calcList(s)` is
at most 5; if some `i` in {0, ..., 5} has `s <= 4000 * 2^i`, then
`calcList(s)` is the least such `i`; if there is none, `calcList(s) = 5`;
`segList + 32 * calcList(s)` is the address of one of the six list-head
blocks; and `calcList` is monotone. -/
theorem calcList_exact (s : Nat) :
    calcList s ≤ 5 ∧
    (∀ i, i ≤ 5 → s ≤ 4000 * 2 ^ i → s ≤ 4000 * 2 ^ calcList s ∧ calcList s ≤ i) ∧
    ((∀ i, i ≤ 5 → 4000 * 2 ^ i < s) → calcList s = 5) ∧
    (∀ segList, segList + MIN_BLOCK_SIZE * calcList s ∈ headBlocks segList) ∧
    (∀ t, s ≤ t → calcList s ≤ calcList t) := by
  refine ⟨calcList_le s, ?_, ?_, fun segList => calcList_headBlocks segList s,
    fun t ht => calcList_mono ht⟩
  · intro i hi hs
    have hpow : 2 ^ i ≤ 2 ^ 5 := Nat.pow_le_pow_right (by omega) hi
    refine ⟨calcList_bound s (by omega), ?_⟩
    by_contra hlt
    have := calcList_least s i (by omega)
    omega
  · intro hnone
    have h5 := hnone 5 (le_refl 5)
    rw [calcList_eq s]
    split_ifs <;> omega

/-! ## `V3/updatedPlace.c` and `version1/mm.c` -/

/-- The arena grows by `words << 4` bytes, taken modulo `2^32`, when
`extend_heap(words)` of `version1/mm.c` is granted its request. -/
theorem v1_extend_heap_brk (grant : Bool) (h : Version1.Heap) (words : Nat)
    (hw : words * 16 % 2 ^ 32 ≠ 0)
    (hg : grant = true ∧ h.mem_brk + words * 16 % 2 ^ 32 < 2 ^ 64) :
    (Version1.extend_heap grant h words).2.mem_brk = h.mem_brk + words * 16 % 2 ^ 32 := by
  have e : words * 2 ^ 4 % 2 ^ 64 % 2 ^ 32 = words * 16 % 2 ^ 32 := by omega
  have hne : h.mem_brk ≠ 2 ^ 64 - 1 := by omega
  unfold Version1.extend_heap
  simp only [e, if_neg hw, Version1.mem_sbrk, if_pos hg, SBRK_FAIL, if_neg hne]

/-- C37: `place` of `V3/updatedPlace.c` in the split case, evaluated in the
heap after `mm_init` for the listed free block `4296016072` of 7984 bytes and
`asize = 32` (so that `size - asize = 7952 >= 32`).  The block marked
allocated, of 32 bytes, starts at `block + 7952`, the end of the original
block, and the passed block stays free with 7952 bytes and stays the head of
list 1.  `place` of `V3/build4.c` marks the 32 bytes at `block` allocated and
lists the remainder at `block + 32`: the two functions leave different
heaps. -/
theorem updated_place_split :
    (GET_SIZE stInit.heap.mem 4296016072 = 7984 ∧ GET_ALLOC stInit.heap.mem 4296016072 = 0 ∧
      listHead stInit.heap 1 = 4296016072) ∧
    (GET_SIZE (UpdatedPlace.place stInit.heap.segList stInit.heap.mem 4296016072 32)
        4296016072 = 7952 ∧
      GET_ALLOC (UpdatedPlace.place stInit.heap.segList stInit.heap.mem 4296016072 32)
        4296016072 = 0 ∧
      GET_SIZE (UpdatedPlace.place stInit.heap.segList stInit.heap.mem 4296016072 32)
        (4296016072 + 7952) = 32 ∧
      GET_ALLOC (UpdatedPlace.place stInit.heap.segList stInit.heap.mem 4296016072 32)
        (4296016072 + 7952) = 1 ∧
      getNext (UpdatedPlace.place stInit.heap.segList stInit.heap.mem 4296016072 32)
        (stInit.heap.segList + MIN_BLOCK_SIZE * 1) = 4296016072) ∧
    (GET_SIZE (place stInit.heap.segList stInit.heap.mem 4296016072 32) 4296016072 = 32 ∧
      GET_ALLOC (place stInit.heap.segList stInit.heap.mem 4296016072 32) 4296016072 = 1 ∧
      GET_SIZE (place stInit.heap.segList stInit.heap.mem 4296016072 32)
        (4296016072 + 32) = 7952 ∧
      GET_ALLOC (place stInit.heap.segList stInit.heap.mem 4296016072 32)
        (4296016072 + 32) = 0 ∧
      getNext (place stInit.heap.segList stInit.heap.mem 4296016072 32)
        (stInit.heap.segList + MIN_BLOCK_SIZE * 1) = 4296016072 + 32) ∧
    (UpdatedPlace.place stInit.heap.segList stInit.heap.mem 4296016072 32).rd 4296016072 ≠
      (place stInit.heap.segList stInit.heap.mem 4296016072 32).rd 4296016072 := by
  refine ⟨⟨?_, ?_, ?_⟩, ⟨?_, ?_, ?_, ?_, ?_⟩, ⟨?_, ?_, ?_, ?_, ?_⟩, ?_⟩ <;> decide

/-- C38: `extend_heap` and `mm_malloc` of `version1/mm.c`, evaluated.  In the
heap after `mm_init` and `mm_malloc(65504)`, whose last block is allocated,
`extend_heap(1)` moves the break up by 16 bytes, not 8, and the free block it
returns, at the old epilogue `4296081400`, has 16 bytes.  In the heap after
`mm_init`, `mm_malloc(65520)` has `asize = 65536`, finds no fit, has
`MAX(asize, CHUNKSIZE) = 65536`, and moves the break up by 131072 bytes. -/
theorem version1_extension :
    ((Version1.mm_malloc 2 true Version1.heapInit 65504).map (fun r => r.1) = some 4296015888 ∧
      GET_ALLOC Version1.heapFull.mem 4296015880 = 1 ∧
      GET_SIZE Version1.heapFull.mem 4296015880 = 65520 ∧
      Version1.heapFull.mem_brk = 4296015880 + 65520 + 8) ∧
    ((Version1.extend_heap true Version1.heapFull 1).1 = 4296081400 ∧
      (Version1.extend_heap true Version1.heapFull 1).2.mem_brk =
        Version1.heapFull.mem_brk + 16 ∧
      GET_SIZE (Version1.extend_heap true Version1.heapFull 1).2.mem 4296081400 = 16 ∧
      GET_ALLOC (Version1.extend_heap true Version1.heapFull 1).2.mem 4296081400 = 0 ∧
      GET_SIZE (Version1.extend_heap true Version1.heapFull 1).2.mem (4296081400 + 16) = 0 ∧
      GET_ALLOC (Version1.extend_heap true Version1.heapFull 1).2.mem (4296081400 + 16) = 1) ∧
    (adjust_size 65520 = 65536 ∧
      Version1.find_fit Version1.heapInit.mem 65536 2
        (NEXT_BLKP Version1.heapInit.mem Version1.heapInit.prologue) = some NULL ∧
      Version1.extendsize 65536 = 65536 ∧
      (Version1.mm_malloc 3 true Version1.heapInit 65520).map (fun r => (r.1, r.2.mem_brk)) =
        some (4296015888, Version1.heapInit.mem_brk + 131072)) := by
  refine ⟨⟨?_, ?_, ?_, ?_⟩, ⟨?_, ?_, ?_, ?_, ?_, ?_⟩, ⟨?_, ?_, ?_, ?_⟩⟩ <;> decide

/-! ## Well-formed lists and the early returns of the list operations -/

/-- A list without repetition whose first and last entry coincide has one
entry. -/
theorem head_last_single (l : List Nat) (d : Nat) (hnd : l.Nodup) (hne : l ≠ [])
    (h : l.headD d = l.getLastD d) : ∃ x, l = [x] := by
  cases l with
  | nil => exact absurd rfl hne
  | cons a t =>
    cases t with
    | nil => exact ⟨a, rfl⟩
    | cons b u =>
      exfalso
      simp only [List.headD_cons, List.getLastD_cons] at h
      have hm : u.getLastD b ∈ b :: u := getLastD_mem b u
      rw [← h] at hm
      exact (List.nodup_cons.1 hnd).1 hm

/-- The head and tail pointer of a stored list are null together, and when
they are not, the head has no predecessor and the tail no successor. -/
theorem ListOK_wf {m : Mem} {node : Nat} {l : List Nat} (hok : ListOK m node l)
    (hnz : ∀ x, x ∈ l → x ≠ NULL) :
    (getNext m node = NULL ↔ getPrev m node = NULL) ∧
    (getNext m node ≠ NULL →
      getPrev m (getNext m node) = NULL ∧ getNext m (getPrev m node) = NULL) := by
  obtain ⟨hroot, htail, hseg⟩ := hok
  by_cases hne : l = []
  · subst hne
    simp only [List.headD_nil, List.getLastD_nil] at hroot htail
    rw [hroot, htail]
    exact ⟨Iff.rfl, fun h => absurd rfl h⟩
  · have h1 : l.headD NULL ≠ NULL := hnz _ (headD_mem l _ hne)
    have h2 : l.getLastD NULL ≠ NULL := hnz _ (getLastD_mem_ne l _ hne)
    rw [hroot, htail]
    refine ⟨⟨fun h => absurd h h1, fun h => absurd h h2⟩, fun _ => ?_⟩
    exact ⟨Seg_head_prev l NULL NULL hseg hne, Seg_last_next l NULL NULL hseg hne⟩

/-- A listed block passed to `removeBlock` takes no early return, and it is
met on the traversal of the list of its class. -/
theorem removeBlock_error_none {seg : Nat} {m : Mem} {fl : Nat → List Nat} {L : Nat → Prop}
    {B : Nat} (hL : ListsAt seg m fl L) (hB : L B) :
    removeBlock_error seg m B = none ∧ (Call.removeBlock seg m B).ok := by
  obtain ⟨hok, hnd, hmem, hge, hsp⟩ := hL
  have hc : calcList (GET_SIZE m B) < 6 := calcList_lt _
  generalize hcdef : calcList (GET_SIZE m B) = c at hc
  have hBc : B ∈ fl c := (hmem c hc B).2 ⟨hB, hcdef⟩
  obtain ⟨hroot, htail, hseg⟩ := hok c hc
  have hB0 : B ≠ NULL := by
    have := hge B hB
    show B ≠ 0
    omega
  have hnz : ∀ x, x ∈ fl c → x ≠ NULL := by
    intro x hx
    have := hge x ((hmem c hc x).1 hx).1
    show x ≠ 0
    omega
  have hne : fl c ≠ [] := List.ne_nil_of_mem hBc
  have hr0 : (fl c).headD NULL ≠ NULL := hnz _ (headD_mem _ _ hne)
  constructor
  · unfold removeBlock_error
    simp only [hcdef, MIN_BLOCK_SIZE, hroot, htail, if_neg hB0, if_neg hr0]
    by_cases hrt : (fl c).headD NULL = (fl c).getLastD NULL
    · obtain ⟨x, hx⟩ := head_last_single (fl c) NULL (hnd c hc) hne hrt
      rw [hx] at hBc ⊢
      have hBx : B = x := List.mem_singleton.1 hBc
      subst hBx
      simp
    · rw [if_neg hrt]
  · refine ⟨hB0, fl c, ?_, ?_⟩
    · have hp := Seg_path (fl c) NULL NULL hseg hnz
      rw [hcdef]
      show Trace (getNext m) (fun x => x = NULL) (getNext m (seg + 32 * c)) (fl c) NULL
      rw [hroot]
      exact hp
    · exact hBc

/-- With well-formed lists `insertBlock` takes no early return: the head and
the tail pointer of each list are null together. -/
theorem insertBlock_error_none {seg : Nat} {m : Mem} {fl : Nat → List Nat} {L : Nat → Prop}
    (hL : ListsAt seg m fl L) (B : Nat) :
    insertBlock_error seg m B = none ∧ (Call.insertBlock seg m B).ok := by
  obtain ⟨hok, hnd, hmem, hge, hsp⟩ := hL
  have hc : calcList (GET_SIZE m B) < 6 := calcList_lt _
  generalize hcdef : calcList (GET_SIZE m B) = c at hc
  have hnz : ∀ x, x ∈ fl c → x ≠ NULL := by
    intro x hx
    have := hge x ((hmem c hc x).1 hx).1
    show x ≠ 0
    omega
  have hwf := (ListOK_wf (hok c hc) hnz).1
  constructor
  · unfold insertBlock_error
    simp only [hcdef, MIN_BLOCK_SIZE]
    by_cases hr : getNext m (seg + 32 * c) = NULL
    · rw [if_pos hr, if_neg (not_not.2 (hwf.1 hr))]
    · rw [if_neg hr]
  · show (getNext m (seg + MIN_BLOCK_SIZE * calcList (GET_SIZE m B)) = NULL ↔
      getPrev m (seg + MIN_BLOCK_SIZE * calcList (GET_SIZE m B)) = NULL)
    rw [hcdef]
    exact hwf

/-- When `removeBlock` takes no early return, it clears both links of the
block. -/
theorem removeBlock_clears (seg : Nat) (m : Mem) (B : Nat)
    (h : removeBlock_error seg m B = none) :
    getNext (removeBlock seg m B) B = NULL ∧ getPrev (removeBlock seg m B) B = NULL := by
  unfold removeBlock_error at h
  unfold removeBlock
  by_cases hB : B = NULL
  · rw [if_pos hB] at h; cases h
  · rw [if_neg hB] at h ⊢
    simp only [] at h ⊢
    by_cases hr : getNext m (seg + MIN_BLOCK_SIZE * calcList (GET_SIZE m B)) = NULL
    · rw [if_pos hr] at h
      split_ifs at h
    · rw [if_neg hr] at h ⊢
      by_cases hrt : getNext m (seg + MIN_BLOCK_SIZE * calcList (GET_SIZE m B)) =
          getPrev m (seg + MIN_BLOCK_SIZE * calcList (GET_SIZE m B))
      · rw [if_pos hrt] at h ⊢
        by_cases hb : B ≠ getNext m (seg + MIN_BLOCK_SIZE * calcList (GET_SIZE m B)) ∨
            B ≠ getPrev m (seg + MIN_BLOCK_SIZE * calcList (GET_SIZE m B))
        · rw [if_pos hb] at h; cases h
        · rw [if_neg hb]
          simp [getNext, getPrev, NEXT, PREV]
      · rw [if_neg hrt]
        split_ifs <;> simp [getNext, getPrev, NEXT, PREV]

/-! ## The list of `V2/mallocTester.c` -/

/-- Taking `B` out of a doubly linked run: when the links of `B` are cleared,
the `next` link of its predecessor and the `prev` link of its successor are
redirected, and no other word changes, the run without `B` is linked. -/
theorem Seg_unlink {m m2 : Mem} (B : Nat) (l1 l2 : List Nat)
    (hseg : Seg m NULL (l1 ++ B :: l2) NULL) (hnd : (l1 ++ B :: l2).Nodup)
    (hsp : ∀ x y, x ∈ l1 ++ B :: l2 → y ∈ l1 ++ B :: l2 → x = y ∨ x + 24 ≤ y ∨ y + 24 ≤ x)
    (hrd : ∀ w, m2.rd w =
      if w = B + 8 ∨ w = B + 16 then 0
      else if l1 ≠ [] ∧ w = l1.getLastD 0 + 8 then l2.headD 0
      else if l2 ≠ [] ∧ w = l2.headD 0 + 16 then l1.getLastD 0
      else m.rd w) :
    Seg m2 NULL (l1 ++ l2) NULL := by
  rw [Seg_append] at hseg ⊢
  obtain ⟨hseg1, hBp, hBn, hseg2⟩ := hseg
  simp only [List.headD_cons] at hseg1
  have hndl := List.nodup_append.1 hnd
  have hBl1 : B ∉ l1 := fun h => hndl.2.2 h (List.mem_cons_self B l2)
  have hBl2 : B ∉ l2 := (List.nodup_cons.1 hndl.2.1).1
  have hBm : B ∈ l1 ++ B :: l2 := by simp
  have hpm : l1 ≠ [] → l1.getLastD 0 ∈ l1 ++ B :: l2 := fun hne =>
    List.mem_append_left _ (getLastD_mem_ne l1 0 hne)
  have hsm : l2 ≠ [] → l2.headD 0 ∈ l1 ++ B :: l2 := fun hne =>
    List.mem_append_right _ (List.mem_cons_of_mem B (headD_mem l2 0 hne))
  have hother : ∀ x, x ∈ l1 ++ B :: l2 → x ≠ B → (l1 ≠ [] → x ≠ l1.getLastD 0) →
      (l2 ≠ [] → x ≠ l2.headD 0) →
      m2.rd (x + 8) = m.rd (x + 8) ∧ m2.rd (x + 16) = m.rd (x + 16) := by
    intro x hx hxB hxp hxs
    have h1 := hsp x B hx hBm
    have hp : l1 ≠ [] → (x + 24 ≤ l1.getLastD 0 ∨ l1.getLastD 0 + 24 ≤ x) := by
      intro hne
      have := hsp x _ hx (hpm hne)
      have := hxp hne
      omega
    have hs : l2 ≠ [] → (x + 24 ≤ l2.headD 0 ∨ l2.headD 0 + 24 ≤ x) := by
      intro hne
      have := hsp x _ hx (hsm hne)
      have := hxs hne
      omega
    constructor
    · rw [hrd, if_neg (by omega), if_neg (fun hh => by have := hp hh.1; have := hh.2; omega),
        if_neg (fun hh => by have := hs hh.1; have := hh.2; omega)]
    · rw [hrd, if_neg (by omega), if_neg (fun hh => by have := hp hh.1; have := hh.2; omega),
        if_neg (fun hh => by have := hs hh.1; have := hh.2; omega)]
  constructor
  · rcases list_snoc_cases l1 with h1 | ⟨l1a, pred, h1⟩
    · subst h1; trivial
    · subst h1
      rw [Seg_snoc] at hseg1 ⊢
      have hne1 : l1a ++ [pred] ≠ [] := by simp
      have hpl : (l1a ++ [pred]).getLastD 0 = pred := List.getLastD_concat 0 pred l1a
      have hpm2 : pred ∈ (l1a ++ [pred]) ++ B :: l2 := by simp
      have hpB := hsp pred B hpm2 hBm
      have hpB2 : pred ≠ B := fun h => hBl1 (by rw [← h]; simp)
      have hpl1a : pred ∉ l1a := by
        intro h
        exact (List.nodup_append.1 hndl.1).2.2 h (List.mem_singleton_self pred)
      have hps : l2 ≠ [] → pred ≠ l2.headD 0 := by
        intro hne h
        exact hndl.2.2 (show pred ∈ l1a ++ [pred] by simp)
          (List.mem_cons_of_mem B (h ▸ headD_mem l2 0 hne))
      refine ⟨?_, ?_, ?_⟩
      · refine Seg_congr l1a 0 pred ?_ hseg1.1
        intro x hx
        have hxm : x ∈ l1a ++ [pred] := List.mem_append_left _ hx
        refine hother x (List.mem_append_left _ hxm) (fun h => hBl1 (h ▸ hxm)) ?_ ?_
        · intro _; rw [hpl]; intro h; exact hpl1a (h ▸ hx)
        · intro hne h
          exact hndl.2.2 hxm (List.mem_cons_of_mem B (h ▸ headD_mem l2 0 hne))
      · show m2.rd (pred + 8 + 8) = _
        rw [hrd, if_neg (by omega), if_neg (fun hh => by have := hh.2; rw [hpl] at this; omega),
          if_neg (fun hh => by
            have := hh.2
            have := hps hh.1
            have := hsp pred _ hpm2 (hsm hh.1)
            omega)]
        exact hseg1.2.1
      · show m2.rd (pred + 8) = _
        rw [hrd, if_neg (by omega), if_pos ⟨hne1, by rw [hpl]⟩]
  · cases l2 with
    | nil => trivial
    | cons succ l2a =>
      have hne2 : succ :: l2a ≠ [] := List.cons_ne_nil _ _
      have hsm2 : succ ∈ l1 ++ B :: succ :: l2a := by simp
      have hsB := hsp succ B hsm2 hBm
      have hsB2 : succ ≠ B := fun h => hBl2 (h ▸ List.mem_cons_self succ l2a)
      have hnd2 : (succ :: l2a).Nodup := (List.nodup_cons.1 hndl.2.1).2
      have hsp1 : l1 ≠ [] → succ ≠ l1.getLastD 0 := by
        intro hne h
        exact hndl.2.2 (h ▸ getLastD_mem_ne l1 0 hne)
          (List.mem_cons_of_mem B (List.mem_cons_self succ l2a))
      obtain ⟨hsprev, hsnext, hsrest⟩ := hseg2
      refine ⟨?_, ?_, ?_⟩
      · show m2.rd (succ + 8 + 8) = _
        rw [hrd, if_neg (by omega), if_neg (fun hh => by
            have := hh.2
            have := hsp1 hh.1
            have := hsp succ _ hsm2 (hpm hh.1)
            omega),
          if_pos ⟨hne2, rfl⟩]
      · show m2.rd (succ + 8) = _
        rw [hrd, if_neg (by omega), if_neg (fun hh => by
            have := hh.2
            have := hsp1 hh.1
            omega),
          if_neg (fun hh => by have := hh.2; simp only [List.headD_cons] at this; omega)]
        exact hsnext
      · refine Seg_congr l2a succ 0 ?_ hsrest
        intro x hx
        have hxm : x ∈ succ :: l2a := List.mem_cons_of_mem _ hx
        refine hother x (List.mem_append_right _ (List.mem_cons_of_mem B hxm))
          (fun h => hBl2 (h ▸ hxm)) ?_ ?_
        · intro hne h
          exact hndl.2.2 (h ▸ getLastD_mem_ne l1 0 hne) (List.mem_cons_of_mem B hxm)
        · intro _ h
          simp only [List.headD_cons] at h
          exact (List.nodup_cons.1 hnd2).1 (h ▸ hx)

/-- The state that `removeBlock` of `mallocTester.c` leaves when it takes the
member `B` out of the list `l1 ++ B :: l2`. -/
theorem tester_removeBlock_rd (s : MallocTester.State) (B : Nat) (l1 l2 : List Nat)
    (hok : MallocTester.ListOK s (l1 ++ B :: l2)) :
    (MallocTester.removeBlock s B).m_root = (l1 ++ l2).headD NULL ∧
    (MallocTester.removeBlock s B).m_tail = (l1 ++ l2).getLastD NULL ∧
    ∀ w, (MallocTester.removeBlock s B).mem.rd w =
      if w = B + 8 ∨ w = B + 16 then 0
      else if l1 ≠ [] ∧ w = l1.getLastD 0 + 8 then l2.headD 0
      else if l2 ≠ [] ∧ w = l2.headD 0 + 16 then l1.getLastD 0
      else s.mem.rd w := by
  obtain ⟨hroot, htail, hseg, hnd, hnz, hsp⟩ := hok
  have hBm : B ∈ l1 ++ B :: l2 := by simp
  have hB0 : B ≠ 0 := hnz B hBm
  rw [getLastD_append_cons] at htail
  rw [Seg_append] at hseg
  obtain ⟨hseg1, hBp, hBn, hseg2⟩ := hseg
  have hndl := List.nodup_append.1 hnd
  have hBl1 : B ∉ l1 := fun h => hndl.2.2 h (List.mem_cons_self B l2)
  have hBl2 : B ∉ l2 := (List.nodup_cons.1 hndl.2.1).1
  rcases list_snoc_cases l1 with h1 | ⟨l1a, pred, h1⟩
  · subst h1
    simp only [List.nil_append, List.headD_cons] at hroot
    simp only [List.getLastD_nil] at hBp
    cases l2 with
    | nil =>
      simp only [List.getLastD_nil] at htail
      have hm : MallocTester.removeBlock s B =
          { mem := wr (wr s.mem (B + 16) 0) (B + 8) 0, m_root := 0, m_tail := 0 } := by
        unfold MallocTester.removeBlock
        simp only [hroot, htail, NEXT, PREV, NULL, HSIZE, if_neg hB0, if_true, ne_eq,
          not_true_eq_false, or_self, if_false]
      rw [hm]
      refine ⟨rfl, rfl, ?_⟩
      intro w
      simp only [rd_wr, ne_eq, not_true_eq_false, false_and, if_false]
      split_ifs <;> first | rfl | omega
    | cons succ l2a =>
      rw [List.getLastD_cons] at htail
      simp only [List.headD_cons] at hBn
      have htm : l2a.getLastD succ ∈ succ :: l2a := getLastD_mem succ l2a
      have htB : l2a.getLastD succ ≠ B := fun h => hBl2 (h ▸ htm)
      have hsm : succ ∈ [] ++ B :: succ :: l2a := by simp
      have hsB := hsp _ _ hsm hBm
      have hsB2 : succ ≠ B := fun h => hBl2 (h ▸ List.mem_cons_self succ l2a)
      have hm : MallocTester.removeBlock s B =
          { mem := wr (wr (wr s.mem (succ + 16) 0) (B + 16) 0) (B + 8) 0, m_root := succ,
            m_tail := l2a.getLastD succ } := by
        unfold MallocTester.removeBlock
        simp only [hroot, htail, hBn, NEXT, PREV, NULL, HSIZE, if_neg hB0, if_true,
          if_neg (Ne.symm htB)]
      rw [hm]
      refine ⟨rfl, ?_, ?_⟩
      · show l2a.getLastD succ = (succ :: l2a).getLastD NULL
        rw [List.getLastD_cons]
      · intro w
        simp only [rd_wr, ne_eq, not_true_eq_false, false_and, if_false, List.headD_cons,
          List.getLastD_nil, List.cons_ne_nil, not_false_eq_true, true_and]
        split_ifs <;> first | rfl | omega
  · subst h1
    have hne1 : l1a ++ [pred] ≠ [] := by simp
    have hpl : (l1a ++ [pred]).getLastD 0 = pred := List.getLastD_concat 0 pred l1a
    have hpm : pred ∈ (l1a ++ [pred]) ++ B :: l2 := by simp
    have hrm : (l1a ++ [pred]).headD 0 ∈ l1a ++ [pred] := headD_mem _ 0 hne1
    have hrB : (l1a ++ [pred]).headD 0 ≠ B := fun h => hBl1 (h ▸ hrm)
    have hr0 : (l1a ++ [pred]).headD 0 ≠ 0 := hnz _ (List.mem_append_left _ hrm)
    have hpB := hsp _ _ hpm hBm
    have hpB2 : pred ≠ B := fun h => hBl1 (by rw [← h]; simp)
    rw [headD_append_ne _ _ _ hne1] at hroot
    have hBp2 : getPrev s.mem B = pred := by rw [hBp]; exact hpl
    cases l2 with
    | nil =>
      simp only [List.getLastD_nil] at htail
      have hm : MallocTester.removeBlock s B =
          { mem := wr (wr (wr s.mem (pred + 8) 0) (B + 16) 0) (B + 8) 0,
            m_root := (l1a ++ [pred]).headD 0, m_tail := pred } := by
        unfold MallocTester.removeBlock
        simp only [hroot, htail, hBp2, NEXT, PREV, NULL, HSIZE, if_neg hB0, if_neg hr0,
          if_neg hrB, if_neg (Ne.symm hrB), if_true]
      rw [hm]
      refine ⟨?_, ?_, ?_⟩
      · show (l1a ++ [pred]).headD 0 = ((l1a ++ [pred]) ++ []).headD NULL
        rw [List.append_nil]
      · show pred = ((l1a ++ [pred]) ++ []).getLastD NULL
        rw [List.append_nil]
        exact hpl.symm
      · intro w
        simp only [rd_wr, hpl, ne_eq, not_true_eq_false, false_and, if_false, List.headD_nil,
          hne1, not_false_eq_true, true_and]
        split_ifs <;> first | rfl | omega
    | cons succ l2a =>
      rw [List.getLastD_cons] at htail
      simp only [List.headD_cons] at hBn
      have hsm : succ ∈ (l1a ++ [pred]) ++ B :: succ :: l2a := by simp
      have htm2 : l2a.getLastD succ ∈ succ :: l2a := getLastD_mem succ l2a
      have htB : l2a.getLastD succ ≠ B := fun h => hBl2 (h ▸ htm2)
      have hrt : (l1a ++ [pred]).headD 0 ≠ l2a.getLastD succ := by
        intro h
        exact hndl.2.2 hrm (List.mem_cons_of_mem B (h ▸ htm2))
      have hsB := hsp _ _ hsm hBm
      have hsp2 := hsp _ _ hsm hpm
      have hsB2 : succ ≠ B := fun h => hBl2 (h ▸ List.mem_cons_self succ l2a)
      have hps : succ ≠ pred := by
        intro h
        exact hndl.2.2 (show pred ∈ l1a ++ [pred] by simp)
          (List.mem_cons_of_mem B (h ▸ List.mem_cons_self succ l2a))
      have hm : MallocTester.removeBlock s B =
          { mem := wr (wr (wr (wr s.mem (pred + 8) succ) (succ + 16) pred) (B + 8) 0) (B + 16) 0,
            m_root := (l1a ++ [pred]).headD 0, m_tail := l2a.getLastD succ } := by
        unfold MallocTester.removeBlock
        simp only [hroot, htail, hBp2, hBn, NEXT, PREV, NULL, HSIZE, if_neg hB0, if_neg hr0,
          if_neg hrB, if_neg (Ne.symm hrB), if_neg hrt, if_neg (Ne.symm htB)]
      rw [hm]
      refine ⟨?_, ?_, ?_⟩
      · show (l1a ++ [pred]).headD 0 = ((l1a ++ [pred]) ++ succ :: l2a).headD NULL
        rw [headD_append_ne _ _ _ hne1]
      · show l2a.getLastD succ = ((l1a ++ [pred]) ++ succ :: l2a).getLastD NULL
        rw [getLastD_append_cons]
      · intro w
        simp only [rd_wr, hpl, ne_eq, List.headD_cons, hne1, not_false_eq_true, true_and,
          List.cons_ne_nil]
        split_ifs <;> first | rfl | omega

/-- `removeBlock` of `mallocTester.c` on a member `B` of a well-formed list:
the list is the old sequence without `B`, well formed again, both links of
`B` are null, and only link words of members are written. -/
theorem tester_removeBlock_spec (s : MallocTester.State) (l : List Nat) (B : Nat)
    (hok : MallocTester.ListOK s l) (hB : B ∈ l) :
    MallocTester.ListOK (MallocTester.removeBlock s B) (l.erase B) ∧
    (∃ l1 l2, l = l1 ++ B :: l2 ∧ l.erase B = l1 ++ l2) ∧
    getNext (MallocTester.removeBlock s B).mem B = NULL ∧
    getPrev (MallocTester.removeBlock s B).mem B = NULL ∧
    (∀ w, (∀ x, x ∈ l → w ≠ x + 8 ∧ w ≠ x + 16) →
      (MallocTester.removeBlock s B).mem.rd w = s.mem.rd w) := by
  obtain ⟨l1, l2, hsplit⟩ := List.append_of_mem hB
  subst hsplit
  obtain ⟨k1, k2, k3⟩ := tester_removeBlock_rd s B l1 l2 hok
  obtain ⟨hroot, htail, hseg, hnd, hnz, hsp⟩ := hok
  have hndl := List.nodup_append.1 hnd
  have hBl1 : B ∉ l1 := fun h => hndl.2.2 h (List.mem_cons_self B l2)
  have hBl2 : B ∉ l2 := (List.nodup_cons.1 hndl.2.1).1
  have he : (l1 ++ B :: l2).erase B = l1 ++ l2 := by
    rw [List.erase_append_right _ hBl1, List.erase_cons_head]
  have hsub : ∀ x, x ∈ l1 ++ l2 → x ∈ l1 ++ B :: l2 := by
    intro x hx
    rcases List.mem_append.1 hx with h | h
    · exact List.mem_append_left _ h
    · exact List.mem_append_right _ (List.mem_cons_of_mem B h)
  rw [he]
  refine ⟨⟨k1, k2, Seg_unlink B l1 l2 hseg hnd hsp k3, ?_, fun x hx => hnz x (hsub x hx),
    fun x y hx hy => hsp x y (hsub x hx) (hsub y hy)⟩, ⟨l1, l2, rfl, rfl⟩, ?_, ?_, ?_⟩
  · exact List.nodup_append.2 ⟨hndl.1, (List.nodup_cons.1 hndl.2.1).2,
      fun x h1 h2 => hndl.2.2 h1 (List.mem_cons_of_mem B h2)⟩
  · show (MallocTester.removeBlock s B).mem.rd (B + 8) = 0
    rw [k3, if_pos (Or.inl rfl)]
  · show (MallocTester.removeBlock s B).mem.rd (B + 8 + 8) = 0
    rw [k3, if_pos (Or.inr rfl)]
  · intro w hw
    have hwB := hw B (by simp)
    rw [k3, if_neg (by omega),
      if_neg (fun hh => (hw _ (List.mem_append_left _ (getLastD_mem_ne l1 0 hh.1))).1 hh.2),
      if_neg (fun hh => (hw _ (List.mem_append_right _
        (List.mem_cons_of_mem B (headD_mem l2 0 hh.1)))).2 hh.2)]

/-- A well-formed list of `mallocTester.c` stays well formed when words that
are no link words of its members change. -/
theorem tester_ListOK_congr {s : MallocTester.State} {l : List Nat} {m2 : Mem}
    (hok : MallocTester.ListOK s l)
    (h : ∀ x, x ∈ l → m2.rd (x + 8) = s.mem.rd (x + 8) ∧ m2.rd (x + 16) = s.mem.rd (x + 16)) :
    MallocTester.ListOK { mem := m2, m_root := s.m_root, m_tail := s.m_tail } l := by
  obtain ⟨hroot, htail, hseg, hnd, hnz, hsp⟩ := hok
  exact ⟨hroot, htail, Seg_congr l _ _ h hseg, hnd, hnz, hsp⟩

/-- `insertBlock` of `mallocTester.c` on a block that is not in the list:
the block becomes the first member, and only its two link words and the
`prev` link of the old first member are written. -/
theorem tester_insertBlock_spec (s : MallocTester.State) (l : List Nat) (B : Nat)
    (hok : MallocTester.ListOK s l) (hB0 : B ≠ NULL) (hBl : B ∉ l)
    (hsep : ∀ x, x ∈ l → x + 24 ≤ B ∨ B + 24 ≤ x) :
    MallocTester.ListOK (MallocTester.insertBlock s B) (B :: l) ∧
    (∀ w, w ≠ B + 8 → w ≠ B + 16 → (l ≠ [] → w ≠ l.headD 0 + 16) →
      (MallocTester.insertBlock s B).mem.rd w = s.mem.rd w) := by
  obtain ⟨hroot, htail, hseg, hnd, hnz, hsp⟩ := hok
  have hnd2 : (B :: l).Nodup := List.nodup_cons.2 ⟨hBl, hnd⟩
  have hnz2 : ∀ x, x ∈ B :: l → x ≠ NULL := by
    intro x hx
    rcases List.mem_cons.1 hx with h | h
    · rw [h]; exact hB0
    · exact hnz x h
  have hsp2 : ∀ x y, x ∈ B :: l → y ∈ B :: l → x = y ∨ x + 24 ≤ y ∨ y + 24 ≤ x := by
    intro x y hx hy
    rcases List.mem_cons.1 hx with h1 | h1 <;> rcases List.mem_cons.1 hy with h2 | h2
    · left; rw [h1, h2]
    · have := hsep y h2; rw [h1]; omega
    · have := hsep x h1; rw [h2]; omega
    · exact hsp x y h1 h2
  cases l with
  | nil =>
    simp only [List.headD_nil, List.getLastD_nil] at hroot htail
    have hm : MallocTester.insertBlock s B =
        { mem := wr (wr s.mem (B + 16) 0) (B + 8) 0, m_root := B, m_tail := B } := by
      unfold MallocTester.insertBlock
      simp only [hroot, htail, NEXT, PREV, NULL, HSIZE, if_true, ne_eq, not_true_eq_false,
        if_false]
    rw [hm]
    refine ⟨⟨rfl, rfl, ⟨?_, ?_, trivial⟩, hnd2, hnz2, hsp2⟩, ?_⟩
    · show (wr (wr s.mem (B + 16) 0) (B + 8) 0).rd (B + 8 + 8) = 0
      simp only [rd_wr]
      split_ifs <;> first | rfl | omega
    · show (wr (wr s.mem (B + 16) 0) (B + 8) 0).rd (B + 8) = 0
      simp only [rd_wr, if_true]
    · intro w a1 a2 _
      simp only [rd_wr, if_neg a1, if_neg a2]
  | cons a t =>
    simp only [List.headD_cons] at hroot
    rw [List.getLastD_cons] at htail
    have ha0 : a ≠ 0 := hnz a (List.mem_cons_self a t)
    have haB := hsep a (List.mem_cons_self a t)
    obtain ⟨haprev, hanext, harest⟩ := hseg
    have hm : MallocTester.insertBlock s B =
        { mem := wr (wr (wr s.mem (a + 16) B) (B + 8) a) (B + 16) 0, m_root := B,
          m_tail := s.m_tail } := by
      unfold MallocTester.insertBlock
      simp only [hroot, NEXT, PREV, NULL, HSIZE, if_neg ha0]
    rw [hm]
    refine ⟨⟨rfl, ?_, ⟨?_, ?_, ?_, ?_, ?_⟩, hnd2, hnz2, hsp2⟩, ?_⟩
    · show s.m_tail = (B :: a :: t).getLastD NULL
      rw [List.getLastD_cons, List.getLastD_cons]
      exact htail
    · show (wr (wr (wr s.mem (a + 16) B) (B + 8) a) (B + 16) 0).rd (B + 8 + 8) = 0
      simp only [rd_wr, if_true]
    · show (wr (wr (wr s.mem (a + 16) B) (B + 8) a) (B + 16) 0).rd (B + 8) = a
      simp only [rd_wr]
      split_ifs <;> first | rfl | omega
    · show (wr (wr (wr s.mem (a + 16) B) (B + 8) a) (B + 16) 0).rd (a + 8 + 8) = B
      simp only [rd_wr]
      split_ifs <;> first | rfl | omega
    · show (wr (wr (wr s.mem (a + 16) B) (B + 8) a) (B + 16) 0).rd (a + 8) = t.headD NULL
      simp only [rd_wr]
      split_ifs <;> first | exact hanext | omega
    · refine Seg_congr t a NULL ?_ harest
      intro x hx
      have hxB := hsep x (List.mem_cons_of_mem a hx)
      have hxa := hsp x a (List.mem_cons_of_mem a hx) (List.mem_cons_self a t)
      have hxa2 : x ≠ a := fun h => (List.nodup_cons.1 hnd).1 (h ▸ hx)
      simp only [rd_wr]
      constructor <;> (split_ifs <;> first | rfl | omega)
    · intro w a1 a2 a3
      have a3 := a3 (List.cons_ne_nil _ _)
      simp only [List.headD_cons] at a3
      simp only [rd_wr, if_neg a1, if_neg a2, if_neg a3]

/-- One step of `main` of `mallocTester.c`: the two tag fields of a fresh
block are set and the block is inserted. -/
theorem tester_step (s : MallocTester.State) (l : List Nat) (B k : Nat)
    (hok : MallocTester.ListOK s l) (hB0 : B ≠ NULL) (hBl : B ∉ l)
    (hsep : ∀ x, x ∈ l → x + 24 ≤ B ∨ B + 24 ≤ x) :
    MallocTester.ListOK (MallocTester.insertBlock
      { mem := set_block_size (set_allocated s.mem B 0) B k, m_root := s.m_root,
        m_tail := s.m_tail } B) (B :: l) ∧
    GET_SIZE (MallocTester.insertBlock
      { mem := set_block_size (set_allocated s.mem B 0) B k, m_root := s.m_root,
        m_tail := s.m_tail } B).mem B = k % 2 ^ 31 ∧
    GET_ALLOC (MallocTester.insertBlock
      { mem := set_block_size (set_allocated s.mem B 0) B k, m_root := s.m_root,
        m_tail := s.m_tail } B).mem B = 0 ∧
    (∀ x, x ∈ l → (MallocTester.insertBlock
      { mem := set_block_size (set_allocated s.mem B 0) B k, m_root := s.m_root,
        m_tail := s.m_tail } B).mem.rd x = s.mem.rd x) := by
  have hc : MallocTester.ListOK
      { mem := set_block_size (set_allocated s.mem B 0) B k, m_root := s.m_root,
        m_tail := s.m_tail } l := by
    refine tester_ListOK_congr hok ?_
    intro x hx
    have := hsep x hx
    constructor
    · rw [rd_set_block_size _ _ _ _ (by omega), rd_set_allocated _ _ _ _ (by omega)]
    · rw [rd_set_block_size _ _ _ _ (by omega), rd_set_allocated _ _ _ _ (by omega)]
  obtain ⟨k1, f1⟩ := tester_insertBlock_spec _ l B hc hB0 hBl hsep
  have hfr : ∀ x, x ∈ B :: l → (MallocTester.insertBlock
      { mem := set_block_size (set_allocated s.mem B 0) B k, m_root := s.m_root,
        m_tail := s.m_tail } B).mem.rd x = (set_block_size (set_allocated s.mem B 0) B k).rd x := by
    intro x hx
    have hxB : x = B ∨ x + 24 ≤ B ∨ B + 24 ≤ x := by
      rcases List.mem_cons.1 hx with h | h
      · exact Or.inl h
      · exact Or.inr (hsep x h)
    refine f1 x (by omega) (by omega) ?_
    intro hne
    have hh := headD_mem l 0 hne
    have h1 := hsep _ hh
    obtain ⟨_, _, _, _, _, hsp⟩ := hok
    rcases List.mem_cons.1 hx with h | h
    · omega
    · have := hsp x _ h hh
      omega
  refine ⟨k1, ?_, ?_, ?_⟩
  · rw [GET_SIZE_congr (hfr B (List.mem_cons_self B l)), GET_SIZE_set_block_size, if_pos rfl]
  · rw [GET_ALLOC_congr (hfr B (List.mem_cons_self B l)), GET_ALLOC_set_block_size,
      GET_ALLOC_set_allocated, if_pos rfl]
  · intro x hx
    have := hsep x hx
    rw [hfr x (List.mem_cons_of_mem B hx), rd_set_block_size _ _ _ _ (by omega),
      rd_set_allocated _ _ _ _ (by omega)]

/-- The run of `main` of `mallocTester.c` for any three distinct blocks: the
blocks of size 1, 2 and 3 are inserted, the blocks of size 3 and 1 are
removed, and the list holds the block of size 2 alone, as root and tail. -/
theorem tester_main_spec (m0 : Mem) (a b c : Nat) (ha : a ≠ NULL) (hb : b ≠ NULL)
    (hc : c ≠ NULL) (hab : a + 24 ≤ b ∨ b + 24 ≤ a) (hac : a + 24 ≤ c ∨ c + 24 ≤ a)
    (hbc : b + 24 ≤ c ∨ c + 24 ≤ b) :
    MallocTester.ListOK (MallocTester.main_state m0 a b c) [b] ∧
    GET_SIZE (MallocTester.main_state m0 a b c).mem b = 2 ∧
    GET_ALLOC (MallocTester.main_state m0 a b c).mem b = 0 := by
  have k0 : MallocTester.ListOK { mem := m0, m_root := NULL, m_tail := NULL } [] :=
    ⟨rfl, rfl, trivial, List.nodup_nil, fun x hx => absurd hx (List.not_mem_nil x),
      fun x y hx _ => absurd hx (List.not_mem_nil x)⟩
  obtain ⟨k1, _, _, _⟩ := tester_step _ [] a 1 k0 ha (List.not_mem_nil a)
    (fun x hx => absurd hx (List.not_mem_nil x))
  obtain ⟨k2, t2, v2, _⟩ := tester_step _ [a] b 2 k1 hb (by simp; omega)
    (fun x hx => by rw [List.mem_singleton.1 hx]; exact hab)
  obtain ⟨k3, _, _, u3⟩ := tester_step _ [b, a] c 3 k2 hc (by simp; omega)
    (fun x hx => by
      rcases List.mem_cons.1 hx with h | h
      · rw [h]; exact hbc
      · rw [List.mem_singleton.1 h]; exact hac)
  obtain ⟨k4, _, _, _, f4⟩ := tester_removeBlock_spec _ [c, b, a] c k3 (by simp)
  rw [List.erase_cons_head] at k4
  obtain ⟨k5, _, _, _, f5⟩ := tester_removeBlock_spec _ [b, a] a k4 (by simp)
  have e5 : [b, a].erase a = [b] := by
    have hba : b ≠ a := by omega
    simp [List.erase_cons, hba]
  rw [e5] at k5
  have hrd : (MallocTester.main_state m0 a b c).mem.rd b = _ :=
    (f5 b (by
      intro x hx
      rcases List.mem_cons.1 hx with h | h
      · rw [h]; omega
      · rw [List.mem_singleton.1 h]; omega)).trans
    ((f4 b (by
      intro x hx
      rcases List.mem_cons.1 hx with h | h
      · rw [h]; omega
      · rcases List.mem_cons.1 h with h | h
        · rw [h]; omega
        · rw [List.mem_singleton.1 h]; omega)).trans (u3 b (List.mem_cons_self b [a])))
  exact ⟨k5, by rw [GET_SIZE_congr hrd]; exact t2, by rw [GET_ALLOC_congr hrd]; exact v2⟩

/-- The lines that `checklist` prints at the end of `main` of
`mallocTester.c`. -/
theorem tester_main_out (m0 : Mem) (a b c : Nat) (ha : a ≠ NULL) (hb : b ≠ NULL)
    (hc : c ≠ NULL) (hab : a + 24 ≤ b ∨ b + 24 ≤ a) (hac : a + 24 ≤ c ∨ c + 24 ≤ a)
    (hbc : b + 24 ≤ c ∨ c + 24 ≤ b) (fuel : Nat) (hf : 1 ≤ fuel) :
    MallocTester.main fuel m0 a b c =
      some (MallocTester.main_state m0 a b c,
        [MallocTester.Out.root 2 0, MallocTester.Out.node 2 0, MallocTester.Out.tail 2 0]) := by
  obtain ⟨⟨hroot, htail, hseg, _, _, _⟩, hs, hal⟩ := tester_main_spec m0 a b c ha hb hc hab hac hbc
  simp only [List.headD_cons, List.getLastD_cons, List.getLastD_nil] at hroot htail
  obtain ⟨hp, hn, _⟩ := hseg
  simp only [List.headD_nil] at hn
  obtain ⟨f, rfl⟩ : ∃ f, fuel = f + 1 := ⟨fuel - 1, by omega⟩
  unfold MallocTester.main MallocTester.checklist
  generalize MallocTester.main_state m0 a b c = s at hroot htail hp hn hs hal
  have hloop : MallocTester.checklist_loop s (f + 1) b = some ([], b) := by
    unfold MallocTester.checklist_loop
    rw [htail, if_neg (not_not.2 rfl)]
  simp only [hroot, htail, hloop, hp, hn, hs, hal]
  simp [hb]

/-! ## The two list operations on a well-formed directory -/

/-- The root and the tail of a well-formed list of `mallocTester.c` are null
together, and when they are not, the root has no predecessor and the tail no
successor. -/
theorem tester_ListOK_wf {s : MallocTester.State} {l : List Nat}
    (hok : MallocTester.ListOK s l) :
    (s.m_root = NULL ↔ s.m_tail = NULL) ∧
    (s.m_root ≠ NULL → getPrev s.mem s.m_root = NULL ∧ getNext s.mem s.m_tail = NULL) := by
  obtain ⟨hroot, htail, hseg, _, hnz, _⟩ := hok
  by_cases hne : l = []
  · subst hne
    simp only [List.headD_nil, List.getLastD_nil] at hroot htail
    rw [hroot, htail]
    exact ⟨Iff.rfl, fun h => absurd rfl h⟩
  · have h1 : l.headD NULL ≠ NULL := hnz _ (headD_mem l _ hne)
    have h2 : l.getLastD NULL ≠ NULL := hnz _ (getLastD_mem_ne l _ hne)
    rw [hroot, htail]
    refine ⟨⟨fun h => absurd h h1, fun h => absurd h h2⟩, fun _ => ?_⟩
    exact ⟨Seg_head_prev l NULL NULL hseg hne, Seg_last_next l NULL NULL hseg hne⟩

/-- `insertBlock` on a well-formed directory and a block in no list: the
block is prepended to the list of its class, the other lists keep their
sequences, and the head, tail and link fields are as the specification
says. -/
theorem insertBlock_full (seg : Nat) (m : Mem) (fl : Nat → List Nat) (L : Nat → Prop) (B : Nat)
    (hL : ListsAt seg m fl L) (hB : ¬ L B) (hlo : seg + 192 ≤ B)
    (hsep : ∀ x, L x → x + 32 ≤ B ∨ B + 32 ≤ x) :
    ListsAt seg (insertBlock seg m B)
      (fun i => if i = calcList (GET_SIZE m B) then B :: fl i else fl i)
      (fun x => L x ∨ x = B) ∧
    getNext (insertBlock seg m B) (seg + MIN_BLOCK_SIZE * calcList (GET_SIZE m B)) = B ∧
    getPrev (insertBlock seg m B) B = NULL ∧
    getNext (insertBlock seg m B) B =
      getNext m (seg + MIN_BLOCK_SIZE * calcList (GET_SIZE m B)) ∧
    (getNext m (seg + MIN_BLOCK_SIZE * calcList (GET_SIZE m B)) = NULL →
      getPrev (insertBlock seg m B) (seg + MIN_BLOCK_SIZE * calcList (GET_SIZE m B)) = B ∧
      getNext (insertBlock seg m B) B = NULL) ∧
    (getNext m (seg + MIN_BLOCK_SIZE * calcList (GET_SIZE m B)) ≠ NULL →
      getPrev (insertBlock seg m B)
        (getNext m (seg + MIN_BLOCK_SIZE * calcList (GET_SIZE m B))) = B ∧
      getPrev (insertBlock seg m B) (seg + MIN_BLOCK_SIZE * calcList (GET_SIZE m B)) =
        getPrev m (seg + MIN_BLOCK_SIZE * calcList (GET_SIZE m B))) ∧
    (∀ x, LinkFree seg (fun y => L y ∨ y = B) x → (insertBlock seg m B).rd x = m.rd x) := by
  obtain ⟨k1, k2⟩ := insertBlock_seq seg m fl L B hL hB hlo hsep
  obtain ⟨hok, hnd, hmem, hge, hsp⟩ := hL
  have hc : calcList (GET_SIZE m B) < 6 := calcList_lt _
  generalize hcdef : calcList (GET_SIZE m B) = c at hc k1 ⊢
  have hnz : ∀ x, x ∈ fl c → x ≠ NULL := by
    intro x hx
    have := hge x ((hmem c hc x).1 hx).1
    show x ≠ 0
    omega
  obtain ⟨oroot, otail, _⟩ := hok c hc
  have hnew := k1.1 c hc
  simp only [if_true] at hnew
  obtain ⟨nroot, ntail, nprev, nnext, nseg⟩ := hnew
  simp only [List.headD_cons] at nroot
  rw [List.getLastD_cons] at ntail
  show _ ∧ getNext (insertBlock seg m B) (seg + 32 * c) = B ∧ _ ∧
    getNext (insertBlock seg m B) B = getNext m (seg + 32 * c) ∧
    (getNext m (seg + 32 * c) = NULL →
      getPrev (insertBlock seg m B) (seg + 32 * c) = B ∧ _) ∧
    (getNext m (seg + 32 * c) ≠ NULL →
      getPrev (insertBlock seg m B) (getNext m (seg + 32 * c)) = B ∧
      getPrev (insertBlock seg m B) (seg + 32 * c) = getPrev m (seg + 32 * c)) ∧ _
  rw [oroot, otail]
  refine ⟨k1, nroot, nprev, nnext, ?_, ?_, k2⟩
  · intro h0
    have hnil : fl c = [] := by
      by_contra hne
      exact hnz _ (headD_mem _ _ hne) h0
    rw [hnil] at ntail nnext
    exact ⟨ntail, nnext⟩
  · intro h0
    have hne : fl c ≠ [] := by
      intro hnil
      rw [hnil] at h0
      exact h0 rfl
    obtain ⟨a, t, hat⟩ := List.exists_cons_of_ne_nil hne
    rw [hat] at nseg ntail ⊢
    simp only [List.headD_cons]
    rw [List.getLastD_cons] at ntail ⊢
    exact ⟨nseg.1, ntail⟩

/-- `removeBlock` on a well-formed directory and a member of it: the member
is deleted from the sequence of its list, the other lists keep their
sequences, every list is well formed, the links of the block are null, and
only link words are written. -/
theorem removeBlock_full (seg : Nat) (m : Mem) (fl : Nat → List Nat) (L : Nat → Prop) (B : Nat)
    (hL : ListsAt seg m fl L) (hB : L B) :
    ListsAt seg (removeBlock seg m B) (fun i => (fl i).erase B) (fun x => L x ∧ x ≠ B) ∧
    (∃ l1 l2, fl (calcList (GET_SIZE m B)) = l1 ++ B :: l2 ∧
      (fl (calcList (GET_SIZE m B))).erase B = l1 ++ l2) ∧
    (∀ i, i < 6 → i ≠ calcList (GET_SIZE m B) → (fl i).erase B = fl i) ∧
    (∀ i, i < 6 →
      (getNext (removeBlock seg m B) (seg + 32 * i) = NULL ↔
        getPrev (removeBlock seg m B) (seg + 32 * i) = NULL) ∧
      (getNext (removeBlock seg m B) (seg + 32 * i) ≠ NULL →
        getPrev (removeBlock seg m B) (getNext (removeBlock seg m B) (seg + 32 * i)) = NULL ∧
        getNext (removeBlock seg m B) (getPrev (removeBlock seg m B) (seg + 32 * i)) = NULL)) ∧
    getNext (removeBlock seg m B) B = NULL ∧
    getPrev (removeBlock seg m B) B = NULL ∧
    (∀ x, LinkFree seg L x → (removeBlock seg m B).rd x = m.rd x) := by
  obtain ⟨k1, k2⟩ := removeBlock_seq seg m fl L B hL hB
  obtain ⟨c1, c2⟩ := removeBlock_clears seg m B (removeBlock_error_none hL hB).1
  obtain ⟨hok, hnd, hmem, hge, hsp⟩ := hL
  have hc : calcList (GET_SIZE m B) < 6 := calcList_lt _
  refine ⟨k1, ?_, ?_, ?_, c1, c2, k2⟩
  · have hBc : B ∈ fl (calcList (GET_SIZE m B)) := (hmem _ hc B).2 ⟨hB, rfl⟩
    obtain ⟨l1, l2, hsplit⟩ := List.append_of_mem hBc
    refine ⟨l1, l2, hsplit, ?_⟩
    have hndc := hnd _ hc
    rw [hsplit] at hndc ⊢
    have hBl1 : B ∉ l1 := fun h =>
      (List.nodup_append.1 hndc).2.2 h (List.mem_cons_self B l2)
    rw [List.erase_append_right _ hBl1, List.erase_cons_head]
  · intro i hi hic
    refine List.erase_of_not_mem ?_
    intro hBi
    exact hic ((hmem i hi B).1 hBi).2.symm
  · intro i hi
    refine ListOK_wf (k1.1 i hi) ?_
    intro x hx
    have := k1.2.2.2.1 x ((k1.2.2.1 i hi x).1 hx).1
    show x ≠ 0
    omega

/-- The six lists of the state `stFrag` are the sequences `flFrag`. -/
theorem listsAt_stFrag :
    ListsAt stFrag.heap.segList stFrag.heap.mem flFrag (fun x => x ∈ flFrag 0) := by
  have hcls : ∀ x, x ∈ flFrag 0 → calcList (GET_SIZE stFrag.heap.mem x) = 0 := by decide
  refine ⟨?_, ?_, ?_, ?_, ?_⟩
  · intro i hi
    obtain h | h | h | h | h | h : i = 0 ∨ i = 1 ∨ i = 2 ∨ i = 3 ∨ i = 4 ∨ i = 5 := by omega
    all_goals subst h; exact ⟨by decide, by decide, by decide⟩
  · intro i hi
    obtain h | h | h | h | h | h : i = 0 ∨ i = 1 ∨ i = 2 ∨ i = 3 ∨ i = 4 ∨ i = 5 := by omega
    all_goals subst h; decide
  · intro i hi x
    by_cases h0 : i = 0
    · subst h0
      exact ⟨fun h => ⟨h, hcls x h⟩, fun h => h.1⟩
    · have e : flFrag i = [] := by
        unfold flFrag
        rw [if_neg h0]
      rw [e]
      constructor
      · intro h; cases h
      · rintro ⟨h1, h2⟩
        exact absurd ((hcls x h1).symm.trans h2).symm h0
  · decide
  · have h : ∀ x, x ∈ flFrag 0 → ∀ y, y ∈ flFrag 0 → x = y ∨ x + 32 ≤ y ∨ y + 32 ≤ x := by
      decide
    intro x y hx hy
    exact h x hx y hy

/-- C31: `insertBlock`.  For every well-formed list directory (the six lists
are the sequences `fl 0`, ..., `fl 5`, each block in the list of its class,
the blocks not overlapping and after the list heads) and every block `B` that
is in no list and overlaps no listed block: `insertBlock(B)` prepends `B` to
the list of class `calcList(size(B))` and leaves the other sequences as they
are; afterwards `B` is the head of that list, `B.prev` is null and `B.next` is
the old head; if the list was empty, the tail is `B` too and `B.next` is null;
otherwise the `prev` link of the old head is `B` and the tail pointer is
unchanged; and every word that is no link field of a list head, of a listed
block or of `B` is unchanged. -/
theorem insertBlock_prepends (seg : Nat) (m : Mem) (fl : Nat → List Nat) (L : Nat → Prop)
    (B : Nat) (hL : ListsAt seg m fl L) (hB : ¬ L B) (hlo : seg + 192 ≤ B)
    (hsep : ∀ x, L x → x + 32 ≤ B ∨ B + 32 ≤ x) :
    ListsAt seg (insertBlock seg m B)
      (fun i => if i = calcList (GET_SIZE m B) then B :: fl i else fl i)
      (fun x => L x ∨ x = B) ∧
    getNext (insertBlock seg m B) (seg + MIN_BLOCK_SIZE * calcList (GET_SIZE m B)) = B ∧
    getPrev (insertBlock seg m B) B = NULL ∧
    getNext (insertBlock seg m B) B =
      getNext m (seg + MIN_BLOCK_SIZE * calcList (GET_SIZE m B)) ∧
    (getNext m (seg + MIN_BLOCK_SIZE * calcList (GET_SIZE m B)) = NULL →
      getPrev (insertBlock seg m B) (seg + MIN_BLOCK_SIZE * calcList (GET_SIZE m B)) = B ∧
      getNext (insertBlock seg m B) B = NULL) ∧
    (getNext m (seg + MIN_BLOCK_SIZE * calcList (GET_SIZE m B)) ≠ NULL →
      getPrev (insertBlock seg m B)
        (getNext m (seg + MIN_BLOCK_SIZE * calcList (GET_SIZE m B))) = B ∧
      getPrev (insertBlock seg m B) (seg + MIN_BLOCK_SIZE * calcList (GET_SIZE m B)) =
        getPrev m (seg + MIN_BLOCK_SIZE * calcList (GET_SIZE m B))) ∧
    (∀ x, LinkFree seg (fun y => L y ∨ y = B) x → (insertBlock seg m B).rd x = m.rd x) :=
  insertBlock_full seg m fl L B hL hB hlo hsep

/-- The theorem on `insertBlock` in the state `stFrag`, whose list 0 holds 13
blocks, for the allocated block `4296016384` of 312 bytes: the block becomes
the head of list 0 in front of the old head `4296022936`, whose `prev` link is
now the block; the tail `4296023560` stays. -/
theorem insertBlock_prepends_witness :
    ListsAt stFrag.heap.segList (insertBlock stFrag.heap.segList stFrag.heap.mem 4296016384)
      (fun i => if i = calcList (GET_SIZE stFrag.heap.mem 4296016384)
        then 4296016384 :: flFrag i else flFrag i)
      (fun x => x ∈ flFrag 0 ∨ x = 4296016384) ∧
    calcList (GET_SIZE stFrag.heap.mem 4296016384) = 0 ∧
    getNext stFrag.heap.mem (stFrag.heap.segList + MIN_BLOCK_SIZE * 0) = 4296022936 ∧
    getNext (insertBlock stFrag.heap.segList stFrag.heap.mem 4296016384)
      (stFrag.heap.segList + MIN_BLOCK_SIZE * 0) = 4296016384 ∧
    getNext (insertBlock stFrag.heap.segList stFrag.heap.mem 4296016384) 4296016384 =
      4296022936 ∧
    getPrev (insertBlock stFrag.heap.segList stFrag.heap.mem 4296016384) 4296022936 =
      4296016384 ∧
    getPrev (insertBlock stFrag.heap.segList stFrag.heap.mem 4296016384)
      (stFrag.heap.segList + MIN_BLOCK_SIZE * 0) = 4296023560 :=
  ⟨(insertBlock_prepends stFrag.heap.segList stFrag.heap.mem flFrag (fun x => x ∈ flFrag 0)
      4296016384 listsAt_stFrag (by decide) (by decide) (by decide)).1,
    by decide, by decide, by decide, by decide, by decide, by decide⟩

/-- C32: `removeBlock`.  In `V3/build4.c`: for every well-formed list
directory and every member `B` of a list, `removeBlock(B)` leaves the list of
`B` equal to the old sequence `l1 ++ B :: l2` with `B` deleted, `l1 ++ l2`,
whatever `l1` and `l2` are (both empty: `B` the only element; `l1` empty: the
head; `l2` empty: the tail; else a middle element), leaves the other
sequences as they are, keeps every list well formed (head null exactly when
tail null, else `head.prev` and `tail.next` null), sets `B.next` and `B.prev`
to null, and writes link words only.  In `V2/mallocTester.c`: the same for its
single list with the globals `m_root` and `m_tail`.  And `main` of
`mallocTester.c`, for any three distinct blocks that `malloc` returns: after
the blocks of size 1, 2, 3 are inserted and those of size 3 and 1 removed, the
list is the block of size 2 alone, root and tail, and `checklist` prints this
block as root, as the one node and as tail. -/
theorem removeBlock_deletes :
    (∀ (seg : Nat) (m : Mem) (fl : Nat → List Nat) (L : Nat → Prop) (B : Nat),
      ListsAt seg m fl L → L B →
      ListsAt seg (removeBlock seg m B) (fun i => (fl i).erase B) (fun x => L x ∧ x ≠ B) ∧
      (∃ l1 l2, fl (calcList (GET_SIZE m B)) = l1 ++ B :: l2 ∧
        (fl (calcList (GET_SIZE m B))).erase B = l1 ++ l2) ∧
      (∀ i, i < 6 → i ≠ calcList (GET_SIZE m B) → (fl i).erase B = fl i) ∧
      (∀ i, i < 6 →
        (getNext (removeBlock seg m B) (seg + 32 * i) = NULL ↔
          getPrev (removeBlock seg m B) (seg + 32 * i) = NULL) ∧
        (getNext (removeBlock seg m B) (seg + 32 * i) ≠ NULL →
          getPrev (removeBlock seg m B) (getNext (removeBlock seg m B) (seg + 32 * i)) = NULL ∧
          getNext (removeBlock seg m B) (getPrev (removeBlock seg m B) (seg + 32 * i)) =
            NULL)) ∧
      getNext (removeBlock seg m B) B = NULL ∧
      getPrev (removeBlock seg m B) B = NULL ∧
      (∀ x, LinkFree seg L x → (removeBlock seg m B).rd x = m.rd x)) ∧
    (∀ (s : MallocTester.State) (l : List Nat) (B : Nat),
      MallocTester.ListOK s l → B ∈ l →
      MallocTester.ListOK (MallocTester.removeBlock s B) (l.erase B) ∧
      (∃ l1 l2, l = l1 ++ B :: l2 ∧ l.erase B = l1 ++ l2) ∧
      ((MallocTester.removeBlock s B).m_root = NULL ↔
        (MallocTester.removeBlock s B).m_tail = NULL) ∧
      ((MallocTester.removeBlock s B).m_root ≠ NULL →
        getPrev (MallocTester.removeBlock s B).mem (MallocTester.removeBlock s B).m_root = NULL ∧
        getNext (MallocTester.removeBlock s B).mem (MallocTester.removeBlock s B).m_tail =
          NULL) ∧
      getNext (MallocTester.removeBlock s B).mem B = NULL ∧
      getPrev (MallocTester.removeBlock s B).mem B = NULL ∧
      (∀ w, (∀ x, x ∈ l → w ≠ x + 8 ∧ w ≠ x + 16) →
        (MallocTester.removeBlock s B).mem.rd w = s.mem.rd w)) ∧
    (∀ (m0 : Mem) (first m_branch second : Nat),
      first ≠ NULL → m_branch ≠ NULL → second ≠ NULL →
      (first + 24 ≤ m_branch ∨ m_branch + 24 ≤ first) →
      (first + 24 ≤ second ∨ second + 24 ≤ first) →
      (m_branch + 24 ≤ second ∨ second + 24 ≤ m_branch) →
      MallocTester.ListOK (MallocTester.main_state m0 first m_branch second) [m_branch] ∧
      (MallocTester.main_state m0 first m_branch second).m_root = m_branch ∧
      (MallocTester.main_state m0 first m_branch second).m_tail = m_branch ∧
      GET_SIZE (MallocTester.main_state m0 first m_branch second).mem m_branch = 2 ∧
      ∀ fuel, 1 ≤ fuel →
        MallocTester.main fuel m0 first m_branch second =
          some (MallocTester.main_state m0 first m_branch second,
            [MallocTester.Out.root 2 0, MallocTester.Out.node 2 0,
              MallocTester.Out.tail 2 0])) := by
  refine ⟨?_, ?_, ?_⟩
  · intro seg m fl L B hL hB
    exact removeBlock_full seg m fl L B hL hB
  · intro s l B hok hB
    obtain ⟨k1, k2, k3, k4, k5⟩ := tester_removeBlock_spec s l B hok hB
    obtain ⟨w1, w2⟩ := tester_ListOK_wf k1
    exact ⟨k1, k2, w1, w2, k3, k4, k5⟩
  · intro m0 a b c ha hb hc hab hac hbc
    obtain ⟨k1, k2, _⟩ := tester_main_spec m0 a b c ha hb hc hab hac hbc
    exact ⟨k1, k1.1, k1.2.1, k2,
      fun fuel hf => tester_main_out m0 a b c ha hb hc hab hac hbc fuel hf⟩

/-- The theorem on `removeBlock` at concrete inputs.  In the state `stFrag`,
the third entry `4296021688` of list 0 is removed: its neighbours
`4296022312` and `4296021064` are linked to each other.  In the list of
`mallocTester.c` that `main` leaves, the block at `2000` is removed: the list
is empty.  And `main` with the blocks at `1000`, `2000` and `3000` ends with
the block at `2000` as root and tail. -/
theorem removeBlock_deletes_witness :
    (ListsAt stFrag.heap.segList (removeBlock stFrag.heap.segList stFrag.heap.mem 4296021688)
        (fun i => (flFrag i).erase 4296021688)
        (fun x => x ∈ flFrag 0 ∧ x ≠ 4296021688) ∧
      (flFrag 0).erase 4296021688 =
        [4296022936, 4296022312, 4296021064, 4296020440, 4296019816, 4296019192, 4296018568,
          4296017944, 4296017320, 4296016696, 4296016072, 4296023560] ∧
      getNext (removeBlock stFrag.heap.segList stFrag.heap.mem 4296021688) 4296022312 =
        4296021064 ∧
      getPrev (removeBlock stFrag.heap.segList stFrag.heap.mem 4296021688) 4296021064 =
        4296022312 ∧
      getNext (removeBlock stFrag.heap.segList stFrag.heap.mem 4296021688) 4296021688 = NULL ∧
      getPrev (removeBlock stFrag.heap.segList stFrag.heap.mem 4296021688) 4296021688 =
        NULL) ∧
    (MallocTester.ListOK
        (MallocTester.removeBlock (MallocTester.main_state zeroMem 1000 2000 3000) 2000)
        ([2000].erase 2000) ∧
      (MallocTester.removeBlock (MallocTester.main_state zeroMem 1000 2000 3000) 2000).m_root =
        NULL) ∧
    ((MallocTester.main_state zeroMem 1000 2000 3000).m_root = 2000 ∧
      (MallocTester.main_state zeroMem 1000 2000 3000).m_tail = 2000 ∧
      GET_SIZE (MallocTester.main_state zeroMem 1000 2000 3000).mem 2000 = 2 ∧
      MallocTester.main 1 zeroMem 1000 2000 3000 =
        some (MallocTester.main_state zeroMem 1000 2000 3000,
          [MallocTester.Out.root 2 0, MallocTester.Out.node 2 0,
            MallocTester.Out.tail 2 0])) :=
  have h1 := removeBlock_deletes.1 stFrag.heap.segList stFrag.heap.mem flFrag
    (fun x => x ∈ flFrag 0) 4296021688 listsAt_stFrag (by decide)
  have h3 := removeBlock_deletes.2.2 zeroMem 1000 2000 3000 (by decide) (by decide) (by decide)
    (by decide) (by decide) (by decide)
  have h2 := removeBlock_deletes.2.1 (MallocTester.main_state zeroMem 1000 2000 3000) [2000]
    2000 h3.1 (by decide)
  ⟨⟨h1.1, by decide, by decide, by decide, h1.2.2.2.2.1, h1.2.2.2.2.2.1⟩,
    ⟨h2.1, by decide⟩, ⟨h3.2.1, h3.2.2.1, h3.2.2.2.1, h3.2.2.2.2 1 (le_refl 1)⟩⟩

/-! ## The calls made by `coalesce` -/

/-- With well-formed lists, a call of `insertBlock` takes no early return and
meets a list whose head and tail are null together. -/
theorem insert_call_ok {seg : Nat} {m : Mem} {L : Nat → Prop} (hL : Lists seg m L) (B : Nat) :
    (Call.insertBlock seg m B).ok ∧ (Call.insertBlock seg m B).error = none := by
  obtain ⟨fl, hfl⟩ := hL
  have := insertBlock_error_none hfl B
  exact ⟨this.2, this.1⟩

/-- With well-formed lists, a call of `removeBlock` on a listed block takes
no early return, and the block is a member of the list of its class. -/
theorem remove_call_ok {seg : Nat} {m : Mem} {L : Nat → Prop} (hL : Lists seg m L) {B : Nat}
    (hB : L B) :
    (Call.removeBlock seg m B).ok ∧ (Call.removeBlock seg m B).error = none := by
  obtain ⟨fl, hfl⟩ := hL
  have := removeBlock_error_none hfl hB
  exact ⟨this.2, this.1⟩

/-- The call of `insertBlock` at the end of `coalesce`: the stretch from `P`
to `P + sz` has just been tagged, the lists are those of the blocks around
it. -/
theorem merge_insert_ok (seg : Nat) (m1 m3 : Mem) (lA lB : List Blk) (P sz e : Nat)
    (hTA : Tiled m1 (seg + 192) lA P) (hTB : Tiled m1 (P + sz) lB e)
    (hL : Lists seg m1 (fun x => FreeIn lA x ∨ FreeIn lB x))
    (hfr : ∀ x, (x < P ∨ (P + sz ≤ x ∧ x ≤ e)) → m3.rd x = m1.rd x) :
    (Call.insertBlock seg m3 P).ok ∧ (Call.insertBlock seg m3 P).error = none := by
  have hBA := Tiled_bounds lA _ _ hTA
  have hBB := Tiled_bounds lB _ _ hTB
  have hside : ∀ x, (FreeIn lA x ∨ FreeIn lB x) →
      (seg + 192 ≤ x ∧ x + 32 ≤ P) ∨ (P + sz ≤ x ∧ x + 32 ≤ e) := by
    rintro x (hx | hx)
    · exact Or.inl (FreeIn_left hTA hx)
    · exact Or.inr (FreeIn_left hTB hx)
  have hL3 : Lists seg m3 (fun x => FreeIn lA x ∨ FreeIn lB x) := by
    refine Lists_congr ?_ ?_ hL
    · intro x hx
      have := hside x hx
      exact ⟨GET_SIZE_congr (hfr _ (by omega)), hfr _ (by omega), hfr _ (by omega)⟩
    · intro i hi
      exact ⟨hfr _ (by omega), hfr _ (by omega)⟩
  exact insert_call_ok hL3 P

/-- The call `coalesce(B)` itself: the block is not null. -/
theorem coalesce_call_ok {seg : Nat} {m : Mem} {l1 l2 : List Blk} {B s e : Nat}
    {L : Nat → Prop} (H : CoalIn seg m l1 B s l2 e L) :
    (Call.coalesce seg m B).ok ∧ (Call.coalesce seg m B).error = none := by
  have hb1 := Tiled_bounds l1 _ _ H.t1
  have hB0 : B ≠ NULL := by show B ≠ 0; omega
  refine ⟨hB0, ?_⟩
  show coalesce_error B = none
  unfold coalesce_error
  rw [if_neg hB0]

/-- Case I of `coalesce`: the calls. -/
theorem coalesce_calls_case1 {seg : Nat} {m : Mem} {l1 l2 : List Blk} {B s e : Nat}
    (H : CoalIn seg m l1 B s l2 e (fun x => FreeIn l1 x ∨ FreeIn l2 x))
    (hp : GET_ALLOC m (FTRP m (PREV_BLKP m B)) ≠ 0)
    (hn : GET_ALLOC m (NEXT_BLKP m B) ≠ 0) :
    ∀ c, c ∈ coalesce_calls seg m B → c.ok ∧ c.error = none := by
  have hb1 := Tiled_bounds l1 _ _ H.t1
  have hc : coalesce_calls seg m B = [Call.coalesce seg m B, Call.insertBlock seg m B] := by
    unfold coalesce_calls
    rw [if_neg (show ¬ B = NULL from (by show ¬ B = 0; omega))]
    simp only [HDRP]
    rw [if_pos ⟨hp, hn⟩]
  rw [hc]
  intro c hcm
  rcases List.mem_cons.1 hcm with h | h
  · rw [h]; exact coalesce_call_ok H
  · rw [List.mem_singleton.1 h]; exact insert_call_ok H.lists B

/-- Case II of `coalesce`: the calls. -/
theorem coalesce_calls_case2 {seg : Nat} {m : Mem} {l1 l2 : List Blk} {n : Blk} {B s e : Nat}
    (H : CoalIn seg m l1 B s (n :: l2) e (fun x => FreeIn l1 x ∨ FreeIn (n :: l2) x))
    (hp : GET_ALLOC m (FTRP m (PREV_BLKP m B)) ≠ 0)
    (hn : n.alloc = 0) :
    ∀ c, c ∈ coalesce_calls seg m B → c.ok ∧ c.error = none := by
  have hb1 := Tiled_bounds l1 _ _ H.t1
  have hb2 := Tiled_bounds _ _ _ H.t2
  obtain ⟨hnx, hna, hnok⟩ := next_read_cons H.s1 H.t2
  have hnaddr : n.addr = B + s := H.t2.1
  have hLn : (fun x => FreeIn l1 x ∨ FreeIn (n :: l2) x) n.addr :=
    Or.inr ⟨n, List.mem_cons_self n l2, rfl, hn⟩
  have hrem := remove_call_ok H.lists hLn
  have H1 := H.remove n.addr hLn
  generalize hm1 : removeBlock seg m n.addr = m1 at H1
  have hn1 := H1.t2
  obtain ⟨_, hnok1, hT2r⟩ := hn1
  have hnsz : n.size < 2 ^ 31 := by
    have := GET_SIZE_lt m n.addr; rw [hnok.1] at this; exact this
  have hbn := (hb2.2 n (List.mem_cons_self n l2))
  have hn32 := hnok.2.2.2.2.1
  have hbig := H.big
  have h8 := H.h8
  have hmod : (s + n.size) % 2 ^ 31 = s + n.size := Nat.mod_eq_of_lt (by omega)
  have hc : coalesce_calls seg m B = [Call.coalesce seg m B, Call.removeBlock seg m n.addr,
      Call.insertBlock seg
        (PACK (PACK m1 B (s + n.size) 0) (B + (s + n.size) - 8) (s + n.size) 0) B] := by
    unfold coalesce_calls
    rw [if_neg (show ¬ B = NULL from (by show ¬ B = 0; omega))]
    simp only [HDRP]
    rw [if_neg (by rw [hna, hn]; simp), if_pos (by rw [hna, hn]; simp [hp])]
    simp only [hnx, hm1, hnok1.1, H.s1, FREE]
    rw [PACK_FTRP_eq _ _ _ _ (Or.inl (by rw [GET_SIZE_PACK, if_pos rfl, hmod]; omega))]
    simp only [GET_SIZE_PACK, if_true, hmod]
  have hL1 : Lists seg m1 (fun x => FreeIn l1 x ∨ FreeIn l2 x) := by
    refine Lists_pred ?_ H1.lists
    intro x
    simp only [FreeIn_cons]
    constructor
    · rintro ⟨h | ⟨h, _⟩ | h, hne⟩
      · exact Or.inl h
      · exact absurd h.symm hne
      · exact Or.inr h
    · rintro (h | h)
      · have := FreeIn_left H.t1 h
        exact ⟨Or.inl h, by omega⟩
      · have := FreeIn_left hT2r h
        exact ⟨Or.inr (Or.inr h), by omega⟩
  have hTB : Tiled m1 (B + (s + n.size)) l2 e := by
    have e1 : B + (s + n.size) = B + s + n.size := by omega
    rw [e1]; exact hT2r
  have hins := merge_insert_ok seg m1
    (PACK (PACK m1 B (s + n.size) 0) (B + (s + n.size) - 8) (s + n.size) 0)
    l1 l2 B (s + n.size) e H1.t1 hTB hL1
    (by
      intro x hx
      rw [rd_PACK _ _ _ _ _ (by omega), rd_PACK _ _ _ _ _ (by omega)])
  rw [hc]
  intro c hcm
  rcases List.mem_cons.1 hcm with h | h
  · rw [h]; exact coalesce_call_ok H
  · rcases List.mem_cons.1 h with h | h
    · rw [h]; exact hrem
    · rw [List.mem_singleton.1 h]; exact hins

/-- Case III of `coalesce`: the calls. -/
theorem coalesce_calls_case3 {seg : Nat} {m : Mem} {l1 l2 : List Blk} {p : Blk} {B s e : Nat}
    (H : CoalIn seg m (l1 ++ [p]) B s l2 e (fun x => FreeIn (l1 ++ [p]) x ∨ FreeIn l2 x))
    (hp : p.alloc = 0)
    (hn : GET_ALLOC m (NEXT_BLKP m B) ≠ 0) (h32 : 32 ≤ s ∨ l2 = []) :
    ∀ c, c ∈ coalesce_calls seg m B → c.ok ∧ c.error = none := by
  have hb1 := Tiled_bounds _ _ _ H.t1
  have hb2 := Tiled_bounds _ _ _ H.t2
  obtain ⟨hpx, hpa, hpB, hpok⟩ := prev_read_snoc H.t1
  have hLp : (fun x => FreeIn (l1 ++ [p]) x ∨ FreeIn l2 x) p.addr :=
    Or.inl ⟨p, by simp, rfl, hp⟩
  have hrem := remove_call_ok H.lists hLp
  have H1 := H.remove p.addr hLp
  generalize hm1 : removeBlock seg m p.addr = m1 at H1
  have hp1 := H1.t1
  rw [Tiled_snoc] at hp1
  obtain ⟨hT1r, hpok1, _⟩ := hp1
  have hbp := (hb1.2 p (by simp))
  have hp32 := hpok.2.2.2.2.1
  have hbig := H.big
  have h8 := H.h8
  have hmod : (s + p.size) % 2 ^ 31 = s + p.size := Nat.mod_eq_of_lt (by omega)
  have hc : coalesce_calls seg m B = [Call.coalesce seg m B, Call.removeBlock seg m p.addr,
      Call.insertBlock seg
        (PACK (PACK_FTRP m1 B (s + p.size) 0) p.addr (s + p.size) 0) p.addr] := by
    unfold coalesce_calls
    rw [if_neg (show ¬ B = NULL from (by show ¬ B = 0; omega))]
    simp only [HDRP]
    rw [if_neg (by rw [hpa, hp]; simp), if_neg (by rw [hpa, hp]; simp),
      if_pos (by rw [hpa, hp]; simp [hn])]
    simp only [hpx, hm1, hpok1.1, H.s1, FREE]
  obtain ⟨hf1, hf2, hf3⟩ := PACK_FTRP_free m1 B s (s + p.size) H1.s1 H1.a2 (by omega) h8
  have hL1 : Lists seg m1 (fun x => FreeIn l1 x ∨ FreeIn l2 x) := by
    refine Lists_pred ?_ H1.lists
    intro x
    simp only [FreeIn_append, FreeIn_cons, FreeIn_nil, or_false]
    constructor
    · rintro ⟨(h | ⟨h, _⟩) | h, hne⟩
      · exact Or.inl h
      · exact absurd h.symm hne
      · exact Or.inr h
    · rintro (h | h)
      · have := FreeIn_left hT1r h
        exact ⟨Or.inl (Or.inl h), by omega⟩
      · have := FreeIn_left H.t2 h
        exact ⟨Or.inr h, by omega⟩
  have hTB : Tiled m1 (p.addr + (s + p.size)) l2 e := by
    have e1 : p.addr + (s + p.size) = B + s := by omega
    rw [e1]; exact H1.t2
  have hle : l2 = [] → e = B + s := fun h => by
    have := H.t2; rw [h] at this; exact this.symm
  have hins := merge_insert_ok seg m1
    (PACK (PACK_FTRP m1 B (s + p.size) 0) p.addr (s + p.size) 0)
    l1 l2 p.addr (s + p.size) e hT1r hTB hL1
    (by
      intro x hx
      rw [rd_PACK _ _ _ _ _ (by omega)]
      refine hf3 x (by omega) ?_
      rcases h32 with h | h
      · left; omega
      · have := hle h; right; omega)
  rw [hc]
  intro c hcm
  rcases List.mem_cons.1 hcm with h | h
  · rw [h]; exact coalesce_call_ok H
  · rcases List.mem_cons.1 h with h | h
    · rw [h]; exact hrem
    · rw [List.mem_singleton.1 h]; exact hins

/-- Case IV of `coalesce`: the calls. -/
theorem coalesce_calls_case4 {seg : Nat} {m : Mem} {l1 l2 : List Blk} {p n : Blk} {B s e : Nat}
    (H : CoalIn seg m (l1 ++ [p]) B s (n :: l2) e
      (fun x => FreeIn (l1 ++ [p]) x ∨ FreeIn (n :: l2) x))
    (hp : p.alloc = 0) (hn : n.alloc = 0) :
    ∀ c, c ∈ coalesce_calls seg m B → c.ok ∧ c.error = none := by
  have hb1 := Tiled_bounds _ _ _ H.t1
  have hb2 := Tiled_bounds _ _ _ H.t2
  obtain ⟨hpx, hpa, hpB, hpok⟩ := prev_read_snoc H.t1
  obtain ⟨hnx, hna, hnok⟩ := next_read_cons H.s1 H.t2
  have hnaddr : n.addr = B + s := H.t2.1
  have hbp := (hb1.2 p (by simp))
  have hbn := (hb2.2 n (List.mem_cons_self n l2))
  have hp32 := hpok.2.2.2.2.1
  have hn32 := hnok.2.2.2.2.1
  have h8 := H.h8
  have hLn : (fun x => FreeIn (l1 ++ [p]) x ∨ FreeIn (n :: l2) x) n.addr :=
    Or.inr ⟨n, List.mem_cons_self n l2, rfl, hn⟩
  have hrem1 := remove_call_ok H.lists hLn
  have H1 := H.remove n.addr hLn
  generalize hm1 : removeBlock seg m n.addr = m1 at H1
  have hLp : (fun x => (fun x => FreeIn (l1 ++ [p]) x ∨ FreeIn (n :: l2) x) x ∧ x ≠ n.addr)
      p.addr := ⟨Or.inl ⟨p, by simp, rfl, hp⟩, by omega⟩
  have hrem2 := remove_call_ok H1.lists hLp
  have H2 := H1.remove p.addr hLp
  generalize hm2 : removeBlock seg m1 p.addr = m2 at H2
  have hp2 := H2.t1
  rw [Tiled_snoc] at hp2
  obtain ⟨hT1r, hpok2, _⟩ := hp2
  obtain ⟨_, hnok2, hT2r⟩ := H2.t2
  have hbig := H.big
  have hmod : (s + (p.size + n.size)) % 2 ^ 31 = s + (p.size + n.size) :=
    Nat.mod_eq_of_lt (by omega)
  have hc : coalesce_calls seg m B = [Call.coalesce seg m B, Call.removeBlock seg m n.addr,
      Call.removeBlock seg m1 p.addr,
      Call.insertBlock seg
        (PACK (PACK m2 (n.addr + n.size - 8) (s + (p.size + n.size)) 0) p.addr
          (s + (p.size + n.size)) 0) p.addr] := by
    unfold coalesce_calls
    rw [if_neg (show ¬ B = NULL from (by show ¬ B = 0; omega))]
    simp only [HDRP]
    rw [if_neg (by rw [hpa, hp]; simp), if_neg (by rw [hpa, hp]; simp),
      if_neg (by rw [hna, hn]; simp)]
    simp only [hpx, hnx, hm1, hm2, hpok2.1, hnok2.1, H.s1, FREE]
    rw [PACK_FTRP_eq _ _ _ _ (Or.inl (by rw [hnok2.1]; omega)), hnok2.1]
  have hL2 : Lists seg m2 (fun x => FreeIn l1 x ∨ FreeIn l2 x) := by
    refine Lists_pred ?_ H2.lists
    intro x
    simp only [FreeIn_append, FreeIn_cons, FreeIn_nil, or_false]
    constructor
    · rintro ⟨⟨(h | ⟨h, _⟩) | (⟨h, _⟩ | h), hne1⟩, hne2⟩
      · exact Or.inl h
      · exact absurd h.symm hne2
      · exact absurd h.symm hne1
      · exact Or.inr h
    · rintro (h | h)
      · have := FreeIn_left hT1r h
        exact ⟨⟨Or.inl (Or.inl h), by omega⟩, by omega⟩
      · have := FreeIn_left hT2r h
        exact ⟨⟨Or.inr (Or.inr h), by omega⟩, by omega⟩
  have hTB : Tiled m2 (p.addr + (s + (p.size + n.size))) l2 e := by
    have e1 : p.addr + (s + (p.size + n.size)) = B + s + n.size := by omega
    rw [e1]; exact hT2r
  have hins := merge_insert_ok seg m2
    (PACK (PACK m2 (n.addr + n.size - 8) (s + (p.size + n.size)) 0) p.addr
        (s + (p.size + n.size)) 0)
    l1 l2 p.addr (s + (p.size + n.size)) e hT1r hTB hL2
    (by
      intro x hx
      rw [rd_PACK _ _ _ _ _ (by omega), rd_PACK _ _ _ _ _ (by omega)])
  rw [hc]
  intro c hcm
  rcases List.mem_cons.1 hcm with h | h
  · rw [h]; exact coalesce_call_ok H
  · rcases List.mem_cons.1 h with h | h
    · rw [h]; exact hrem1
    · rcases List.mem_cons.1 h with h | h
      · rw [h]; exact hrem2
      · rw [List.mem_singleton.1 h]; exact hins

/-- Every call that `coalesce` makes on a block between tiled neighbours:
the blocks removed are members of the list of their class, the lists changed
have head and tail null together, and no early return is taken. -/
theorem coalesce_calls_ok {seg : Nat} {m : Mem} {l1 l2 : List Blk} {B s e : Nat}
    (H : CoalIn seg m l1 B s l2 e (fun x => FreeIn l1 x ∨ FreeIn l2 x))
    (hsmall : 32 ≤ s ∨ l2 = []) :
    ∀ c, c ∈ coalesce_calls seg m B → c.ok ∧ c.error = none := by
  have hb1 := Tiled_bounds _ _ _ H.t1
  have hprev : GET_ALLOC m (FTRP m (PREV_BLKP m B)) ≠ 0 ∨
      (∃ l p, l1 = l ++ [p] ∧ p.alloc = 0) := by
    rcases snoc_cases l1 with h | ⟨l, p, h⟩
    · left
      have hB : seg + 192 = B := by have := H.t1; rw [h] at this; exact this
      rw [← hB, (prev_read_nil H.sent).2]; decide
    · have ht := H.t1
      rw [h] at ht
      obtain ⟨_, hpa, _, hpok⟩ := prev_read_snoc ht
      rcases alloc_cases hpok with h0 | h1
      · right; exact ⟨l, p, h, h0⟩
      · left
        rw [hpa, h1]; decide
  have hnext : GET_ALLOC m (NEXT_BLKP m B) ≠ 0 ∨ (∃ n l, l2 = n :: l ∧ n.alloc = 0) := by
    cases hl2 : l2 with
    | nil =>
      left
      have ht := H.t2
      rw [hl2] at ht
      rw [(next_read_nil H.s1 H.sent ht).2]; decide
    | cons n l =>
      have ht := H.t2
      rw [hl2] at ht
      obtain ⟨_, hna, hnok⟩ := next_read_cons H.s1 ht
      rcases alloc_cases hnok with h0 | h1
      · right; exact ⟨n, l, rfl, h0⟩
      · left
        rw [hna, h1]; decide
  rcases hprev with hp | ⟨l1r, p, hl1, hp0⟩ <;> rcases hnext with hn | ⟨n, l2r, hl2, hn0⟩
  · exact coalesce_calls_case1 H hp hn
  · subst hl2
    exact coalesce_calls_case2 H hp hn0
  · subst hl1
    exact coalesce_calls_case3 H hp0 hn hsmall
  · subst hl1
    subst hl2
    exact coalesce_calls_case4 H hp0 hn0

/-! ## The calls made by `place` -/

/-- Placement without split: the one call of `removeBlock`. -/
theorem place_calls_whole (seg : Nat) (m : Mem) (l1 l2 : List Blk)
    (b : Blk) (e asize : Nat)
    (hT : Tiled m (seg + 192) (l1 ++ b :: l2) e)
    (hS : Sentinels seg m e)
    (hL : Lists seg m (FreeIn (l1 ++ b :: l2)))
    (hb : b.alloc = 0) (ha3 : asize ≤ b.size) (hw : b.size - asize < 32) :
    ∀ c, c ∈ place_calls seg m b.addr asize → c.ok ∧ c.error = none := by
  obtain ⟨fl, hL⟩ := hL
  obtain ⟨hT1, hbok, hT2⟩ := Tiled_split hT
  obtain ⟨hs1, hal1, hs2, hal2, h32, h8⟩ := hbok
  have hlt := GET_SIZE_lt m b.addr
  rw [hs1] at hlt
  have hB1 := (Tiled_bounds l1 _ _ hT1)
  have hB2 := (Tiled_bounds l2 _ _ hT2)
  have h8s := hS.2.2.2
  have hm2 : place_calls seg m b.addr asize =
      [Call.removeBlock seg (PACK (PACK m b.addr b.size 1) (b.addr + b.size - 8) b.size 1)
        b.addr] := by
    unfold place_calls
    simp only [hs1, split_size_eq b.size asize ha3 hlt, if_pos hw, HDRP, ALLOC]
    have e1 : GET_SIZE (PACK m b.addr b.size 1) b.addr = b.size := by
      rw [GET_SIZE_PACK, if_pos rfl]; omega
    rw [PACK_FTRP_eq _ _ _ _ (Or.inl (by rw [e1]; omega)), e1]
  generalize hm2def : PACK (PACK m b.addr b.size 1) (b.addr + b.size - 8) b.size 1 = m2 at hm2
  have hrd : ∀ x, x ≠ b.addr → x ≠ b.addr + b.size - 8 → m2.rd x = m.rd x := by
    intro x h1 h2
    rw [← hm2def, rd_PACK _ _ _ _ _ h2, rd_PACK _ _ _ _ _ h1]
  have hsz : ∀ x, GET_SIZE m2 x = GET_SIZE m x := by
    intro x
    rw [← hm2def]
    simp only [GET_SIZE_PACK]
    by_cases h1 : x = b.addr + b.size - 8
    · rw [if_pos h1, h1, hs2]; omega
    · rw [if_neg h1]
      by_cases h2 : x = b.addr
      · rw [if_pos h2, h2, hs1]; omega
      · rw [if_neg h2]
  have hL' : ListsAt seg m2 fl (FreeIn (l1 ++ b :: l2)) := by
    refine ListsAt_congr ?_ ?_ hL
    · intro x hx
      refine ⟨hsz x, ?_⟩
      rw [FreeIn_append, FreeIn_cons] at hx
      rcases hx with hx | ⟨hx, _⟩ | hx
      · have := FreeIn_left hT1 hx
        exact ⟨hrd _ (by omega) (by omega), hrd _ (by omega) (by omega)⟩
      · exact ⟨hrd _ (by omega) (by omega), hrd _ (by omega) (by omega)⟩
      · have := FreeIn_left hT2 hx
        exact ⟨hrd _ (by omega) (by omega), hrd _ (by omega) (by omega)⟩
    · intro i hi
      exact ⟨hrd _ (by omega) (by omega), hrd _ (by omega) (by omega)⟩
  have hBfree : FreeIn (l1 ++ b :: l2) b.addr :=
    ⟨b, List.mem_append_right l1 (List.mem_cons_self b l2), rfl, hb⟩
  rw [hm2]
  intro c hc
  rw [List.mem_singleton.1 hc]
  exact remove_call_ok ⟨fl, hL'⟩ hBfree

/-- Placement with split: the call of `removeBlock` and the call of
`insertBlock` on the remainder. -/
theorem place_calls_split (seg : Nat) (m : Mem) (l1 l2 : List Blk)
    (b : Blk) (e asize : Nat)
    (hT : Tiled m (seg + 192) (l1 ++ b :: l2) e)
    (hS : Sentinels seg m e)
    (hL : Lists seg m (FreeIn (l1 ++ b :: l2)))
    (hb : b.alloc = 0) (ha1 : 32 ≤ asize) (ha2 : asize % 8 = 0) (ha3 : asize ≤ b.size)
    (hw : ¬ b.size - asize < 32) :
    ∀ c, c ∈ place_calls seg m b.addr asize → c.ok ∧ c.error = none := by
  have hL0 := hL
  obtain ⟨fl, hL⟩ := hL
  obtain ⟨hT1, hbok, hT2⟩ := Tiled_split hT
  obtain ⟨hs1, hal1, hs2, hal2, h32, h8⟩ := hbok
  have hlt := GET_SIZE_lt m b.addr
  rw [hs1] at hlt
  have hB1 := (Tiled_bounds l1 _ _ hT1)
  have hB2 := (Tiled_bounds l2 _ _ hT2)
  have h8s := hS.2.2.2
  have hBfree : FreeIn (l1 ++ b :: l2) b.addr :=
    ⟨b, List.mem_append_right l1 (List.mem_cons_self b l2), rfl, hb⟩
  have hrem := remove_call_ok hL0 hBfree
  obtain ⟨hL1, hfr1⟩ := removeBlock_seq seg m fl _ b.addr hL hBfree
  generalize hm1def : removeBlock seg m b.addr = m1 at hL1 hfr1
  have hmod : asize % 2 ^ 31 = asize := Nat.mod_eq_of_lt (by omega)
  have hmodr : (b.size - asize) % 2 ^ 31 = b.size - asize := Nat.mod_eq_of_lt (by omega)
  have hm : place_calls seg m b.addr asize =
      [Call.removeBlock seg m b.addr,
        Call.insertBlock seg
          (PACK (PACK (PACK (PACK m1 b.addr asize 1) (b.addr + asize - 8) asize 1)
            (b.addr + asize) (b.size - asize) 0) (b.addr + asize + (b.size - asize) - 8)
            (b.size - asize) 0) (b.addr + asize)] := by
    unfold place_calls
    simp only [hs1, split_size_eq b.size asize ha3 hlt, if_neg hw, hm1def, ALLOC, FREE, HSIZE]
    have e0 : ∀ (mm : Mem) (p s a : Nat), set_allocated (set_block_size mm p s) p a =
        PACK mm p s a := fun _ _ _ _ => rfl
    simp only [e0]
    have e1 : get_footer (PACK m1 b.addr asize 1) b.addr = b.addr + asize - 8 := by
      unfold get_footer
      simp only [GET_SIZE_PACK, if_true, hmod, HSIZE]
    rw [e1]
    have e2 : NEXT_BLKP (PACK (PACK m1 b.addr asize 1) (b.addr + asize - 8) asize 1) b.addr =
        b.addr + asize := by
      unfold NEXT_BLKP
      simp only [GET_SIZE_PACK, if_true, hmod]
      rw [if_neg (by omega)]
    rw [e2]
    have e3 : get_footer (PACK (PACK (PACK m1 b.addr asize 1) (b.addr + asize - 8) asize 1)
        (b.addr + asize) (b.size - asize) 0) (b.addr + asize) =
        b.addr + asize + (b.size - asize) - 8 := by
      unfold get_footer
      simp only [GET_SIZE_PACK, if_true, hmodr, HSIZE]
    rw [e3]
  generalize hm9def : PACK (PACK (PACK (PACK m1 b.addr asize 1) (b.addr + asize - 8) asize 1)
        (b.addr + asize) (b.size - asize) 0) (b.addr + asize + (b.size - asize) - 8)
        (b.size - asize) 0 = m9 at hm
  have hrd : ∀ x, x ≠ b.addr → x ≠ b.addr + asize - 8 → x ≠ b.addr + asize →
      x ≠ b.addr + b.size - 8 → m9.rd x = m1.rd x := by
    intro x h1 h2 h3 h4
    rw [← hm9def, rd_PACK _ _ _ _ _ (by omega), rd_PACK _ _ _ _ _ h3, rd_PACK _ _ _ _ _ h2,
      rd_PACK _ _ _ _ _ h1]
  have hside : ∀ x, (FreeIn (l1 ++ b :: l2) x ∧ x ≠ b.addr) →
      (seg + 192 ≤ x ∧ x + 32 ≤ b.addr) ∨ b.addr + b.size ≤ x := by
    rintro x ⟨hx, hne⟩
    rw [FreeIn_append, FreeIn_cons] at hx
    rcases hx with hx | ⟨hx, _⟩ | hx
    · exact Or.inl (FreeIn_left hT1 hx)
    · exact absurd hx.symm hne
    · exact Or.inr (FreeIn_left hT2 hx).1
  have hL9 : ListsAt seg m9 (fun i => (fl i).erase b.addr)
      (fun x => FreeIn (l1 ++ b :: l2) x ∧ x ≠ b.addr) := by
    refine ListsAt_congr ?_ ?_ hL1
    · intro x hx
      have := hside x hx
      exact ⟨GET_SIZE_congr (hrd _ (by omega) (by omega) (by omega) (by omega)),
        hrd _ (by omega) (by omega) (by omega) (by omega),
        hrd _ (by omega) (by omega) (by omega) (by omega)⟩
    · intro i hi
      exact ⟨hrd _ (by omega) (by omega) (by omega) (by omega),
        hrd _ (by omega) (by omega) (by omega) (by omega)⟩
  rw [hm]
  intro c hc
  rcases List.mem_cons.1 hc with h | h
  · rw [h]; exact hrem
  · rw [List.mem_singleton.1 h]
    exact insert_call_ok ⟨_, hL9⟩ (b.addr + asize)

/-- Every call that `place` makes on a listed free block of at least `asize`
bytes: the block removed is a member of the list of its class, the list that
receives the remainder has head and tail null together, and no early return
is taken. -/
theorem place_calls_ok {seg : Nat} {m : Mem} {bs : List Blk} {e asize : Nat}
    (hT : Tiled m (seg + 192) bs e) (hS : Sentinels seg m e)
    (hL : Lists seg m (FreeIn bs))
    {r : Blk} (hr : r ∈ bs) (hr0 : r.alloc = 0)
    (ha1 : 32 ≤ asize) (ha2 : asize % 8 = 0) (ha3 : asize ≤ r.size) :
    ∀ c, c ∈ place_calls seg m r.addr asize → c.ok ∧ c.error = none := by
  obtain ⟨l1, l2, hsplit⟩ := List.append_of_mem hr
  subst hsplit
  by_cases hw : r.size - asize < 32
  · exact place_calls_whole seg m l1 l2 r e asize hT hS hL hr0 ha3 hw
  · exact place_calls_split seg m l1 l2 r e asize hT hS hL hr0 ha1 ha2 ha3 hw

/-! ## The calls made by `mm_init`, `mm_free`, `extend_heap` and `mm_malloc` -/

/-- The one call of `insertBlock` in `mm_init` meets the empty lists that the
loop over the list heads has just written. -/
theorem mm_init_calls_ok (grant : Bool) (h : Heap) :
    ∀ c, c ∈ mm_init_calls grant h → c.ok ∧ c.error = none := by
  by_cases hg : grant = true ∧ h.mem_brk + 8192 < 2 ^ 64
  swap
  · have e : mm_init_calls grant h = [] := by
      unfold mm_init_calls
      simp only [mem_sbrk, CHUNKSIZE, if_neg hg, if_true]
    rw [e]
    intro c hc
    cases hc
  generalize hb : h.mem_brk = b at hg
  have hne : b ≠ 2 ^ 64 - 1 := by omega
  have e1 : GET_SIZE (PACK h.mem b 8 1) b = 8 := by
    rw [GET_SIZE_PACK, if_pos rfl]; rfl
  obtain ⟨ih1, ih2, ih3⟩ := init_heads_spec 6 (PACK h.mem b 8 1) (b + 8) (by omega)
  generalize hmh : init_heads (PACK h.mem b 8 1) 6 (b + 8) = rh at ih1 ih2 ih3
  have e2 : NEXT_BLKP (PACK h.mem b 8 1) b = b + 8 := by
    unfold NEXT_BLKP; rw [e1]
  have e3 : rh.2 = b + 200 := by rw [ih1]
  have e4 : GET_SIZE (PACK rh.1 (b + 200) 7984 0) (b + 200) = 7984 := by
    rw [GET_SIZE_PACK, if_pos rfl]; rfl
  have e5 : PACK_FTRP (PACK rh.1 (b + 200) 7984 0) (b + 200) 7984 0 =
      PACK (PACK rh.1 (b + 200) 7984 0) (b + 8176) 7984 0 := by
    have e8176 : b + 200 + 7984 - 8 = b + 8176 := by omega
    rw [PACK_FTRP_eq _ _ _ _ (Or.inl (by rw [e4]; omega)), e4, e8176]
  generalize hm3 : PACK (PACK rh.1 (b + 200) 7984 0) (b + 8176) 7984 0 = m3 at e5
  have hrd3 : ∀ x, x ≠ b + 200 → x ≠ b + 8176 → m3.rd x = rh.1.rd x := by
    intro x h1 h2
    rw [← hm3, rd_PACK _ _ _ _ _ h2, rd_PACK _ _ _ _ _ h1]
  have hL3 : Lists (b + 8) m3 (fun _ => False) := by
    refine ⟨fun _ => [], ?_, ?_, ?_, ?_, ?_⟩
    · intro i hi
      have := ih2 i hi
      refine ⟨?_, ?_, trivial⟩
      · show m3.rd (b + 8 + 32 * i + 8) = 0
        rw [hrd3 _ (by omega) (by omega)]; exact this.2.2.2.2.1
      · show m3.rd (b + 8 + 32 * i + 8 + 8) = 0
        have e : b + 8 + 32 * i + 8 + 8 = b + 8 + 32 * i + 16 := by omega
        rw [e, hrd3 _ (by omega) (by omega)]; exact this.2.2.2.2.2
    · intro i _; exact List.nodup_nil
    · intro i _ x; simp
    · intro x hx; exact absurd hx id
    · intro x y hx; exact absurd hx id
  have hm : mm_init_calls grant h = [Call.insertBlock (b + 8) m3 (b + 200)] := by
    unfold mm_init_calls
    simp only [mem_sbrk, CHUNKSIZE, hb, if_pos hg, SBRK_FAIL, if_neg hne, HSIZE, ALLOC, FREE, HDRP,
      OVERHEAD, MIN_BLOCK_SIZE, LISTMAX, e2, hmh, e3, e5]
  rw [hm]
  intro c hc
  rw [List.mem_singleton.1 hc]
  exact insert_call_ok hL3 (b + 200)

/-- The calls made by `mm_free` on a live payload. -/
theorem mm_free_calls_ok {h : Heap} {live : List Nat} {bs : List Blk} (hI : Inv h live bs)
    {p : Nat} (hp : p ∈ live) (hbig : mem_heapsize h < 2 ^ 31 + 208) :
    ∀ c, c ∈ mm_free_calls h p → c.ok ∧ c.error = none := by
  obtain ⟨b, hbm, hba, hpb⟩ := (hI.live_iff p).1 hp
  subst hpb
  obtain ⟨l1, l2, hsplit⟩ := List.append_of_mem hbm
  subst hsplit
  obtain ⟨_, H⟩ := free_coalin hI hba hbig
  obtain ⟨hT1, hbok, hT2⟩ := Tiled_split hI.tiled
  obtain ⟨hs1, hal1, hs2, hal2, h32, h8⟩ := hbok
  have hlt := GET_SIZE_lt h.mem b.addr
  rw [hs1] at hlt
  have hmod : b.size % 2 ^ 31 = b.size := Nat.mod_eq_of_lt hlt
  have hm : mm_free_calls h (b.addr + 8) = coalesce_calls h.segList
      (PACK (PACK h.mem b.addr b.size 0) (b.addr + b.size - 8) b.size 0) b.addr := by
    unfold mm_free_calls
    have e0 : b.addr + 8 - HSIZE = b.addr := by show b.addr + 8 - 8 = b.addr; omega
    simp only [e0, HDRP, hs1, FREE]
    have e1 : GET_SIZE (PACK h.mem b.addr b.size 0) b.addr = b.size := by
      rw [GET_SIZE_PACK, if_pos rfl, hmod]
    rw [PACK_FTRP_eq _ _ _ _ (Or.inl (by rw [e1]; omega)), e1]
  rw [hm]
  exact coalesce_calls_ok H (Or.inl h32)

/-- The calls made by `extend_heap`. -/
theorem extend_heap_calls_ok {h : Heap} {live : List Nat} {bs : List Blk} (hI : Inv h live bs)
    (grant : Bool) (words : Nat)
    (hbig : mem_heapsize (extend_heap grant h words).2 < 2 ^ 31 + 208) :
    ∀ c, c ∈ extend_heap_calls grant h words → c.ok ∧ c.error = none := by
  generalize hszdef : words * 8 % 2 ^ 32 = sz
  have hsz8 : sz % 8 = 0 := by omega
  by_cases hz : sz = 0
  · have e : extend_heap_calls grant h words = [] := by
      unfold extend_heap_calls
      simp only [hszdef, if_pos hz]
    rw [e]
    intro c hc
    cases hc
  by_cases hg : grant = true ∧ h.mem_brk + sz < 2 ^ 64
  swap
  · have e : extend_heap_calls grant h words = [] := by
      unfold extend_heap_calls
      simp only [hszdef, if_neg hz, mem_sbrk, if_neg hg, SBRK_FAIL, if_true]
    rw [e]
    intro c hc
    cases hc
  have hbe := hI.brk
  have hpro := hI.pro
  have hseg := hI.seg
  have hTb := Tiled_bounds _ _ _ hI.tiled
  have h8s := hI.sent.2.2.2
  have hne : h.mem_brk ≠ 2 ^ 64 - 1 := by omega
  have e0 : (extend_heap grant h words).2.mem_brk = h.mem_brk + sz ∧
      (extend_heap grant h words).2.mem_start_brk = h.mem_start_brk := by
    unfold extend_heap
    simp only [hszdef, if_neg hz, mem_sbrk, if_pos hg, SBRK_FAIL, if_neg hne]
    refine ⟨?_, ?_⟩ <;> first | rfl | trivial
  have hsz31 : sz < 2 ^ 31 := by
    unfold mem_heapsize at hbig
    rw [e0.1, e0.2] at hbig
    omega
  have hm : extend_heap_calls grant h words =
      coalesce_calls h.segList (PACK (PACK (PACK h.mem h.epilogue sz 0) (h.epilogue + sz - 8) sz 0)
          (h.epilogue + sz) 0 1) h.epilogue := by
    have e1 : h.mem_brk - 8 = h.epilogue := by omega
    have hmod : sz % 2 ^ 31 = sz := Nat.mod_eq_of_lt hsz31
    have e2 : GET_SIZE (PACK h.mem h.epilogue sz 0) h.epilogue = sz := by
      rw [GET_SIZE_PACK, if_pos rfl, hmod]
    have e3 : PACK_FTRP (PACK h.mem h.epilogue sz 0) h.epilogue sz 0 =
        PACK (PACK h.mem h.epilogue sz 0) (h.epilogue + sz - 8) sz 0 := by
      rw [PACK_FTRP_eq _ _ _ _ (Or.inr (by rw [e2, hmod])), e2]
    have e4 : NEXT_BLKP (PACK (PACK h.mem h.epilogue sz 0) (h.epilogue + sz - 8) sz 0)
        h.epilogue = h.epilogue + sz := by
      unfold NEXT_BLKP
      rw [GET_SIZE_PACK]
      split_ifs
      · rw [hmod]
      · rw [e2]
    unfold extend_heap_calls
    simp only [hszdef, if_neg hz, mem_sbrk, if_pos hg, SBRK_FAIL, if_neg hne, HSIZE, HDRP, FREE,
      ALLOC, e1, e3, e4]
  rw [hm]
  generalize hm3def : PACK (PACK (PACK h.mem h.epilogue sz 0) (h.epilogue + sz - 8) sz 0)
      (h.epilogue + sz) 0 1 = m3
  have hmod : sz % 2 ^ 31 = sz := Nat.mod_eq_of_lt hsz31
  have hrd : ∀ x, x < h.epilogue → m3.rd x = h.mem.rd x := by
    intro x hx
    rw [← hm3def, rd_PACK _ _ _ _ _ (by omega), rd_PACK _ _ _ _ _ (by omega),
      rd_PACK _ _ _ _ _ (by omega)]
  have htags : GET_SIZE m3 h.epilogue = sz ∧ GET_ALLOC m3 h.epilogue = 0 ∧
      GET_SIZE m3 (h.epilogue + sz - 8) = sz ∧ GET_ALLOC m3 (h.epilogue + sz - 8) = 0 ∧
      GET_SIZE m3 (h.epilogue + sz) = 0 ∧ GET_ALLOC m3 (h.epilogue + sz) = 1 := by
    rw [← hm3def]
    simp only [GET_SIZE_PACK, GET_ALLOC_PACK, hmod]
    refine ⟨?_, ?_, ?_, ?_, ?_, ?_⟩ <;> split_ifs <;> first | rfl | omega
  have H : CoalIn h.segList m3 bs h.epilogue sz [] (h.epilogue + sz)
      (fun x => FreeIn bs x ∨ FreeIn [] x) := by
    refine ⟨?_, htags.1, htags.2.1, htags.2.2.1, htags.2.2.2.1, by omega, hsz8, rfl, ?_, ?_,
      fun y hy => hy, ?_⟩
    · refine Tiled_congr bs _ _ ?_ hI.tiled
      intro c hc
      have := hTb.2 c hc
      have := (Tiled_mem_ok _ _ _ hI.tiled c hc).2.2.2.2.1
      exact ⟨hrd _ (by omega), hrd _ (by omega)⟩
    · have hS := hI.sent
      refine ⟨?_, ?_, ⟨htags.2.2.2.2.1, htags.2.2.2.2.2⟩, hS.2.2.2⟩
      · rw [GET_SIZE_congr (hrd _ (by omega)), GET_ALLOC_congr (hrd _ (by omega))]
        exact hS.1
      · intro i hi
        rw [GET_SIZE_congr (hrd _ (by omega)), GET_ALLOC_congr (hrd _ (by omega)),
          GET_SIZE_congr (hrd _ (by omega)), GET_ALLOC_congr (hrd _ (by omega))]
        exact hS.2.1 i hi
    · have hL0 : Lists h.segList h.mem (fun x => FreeIn bs x ∨ FreeIn [] x) := by
        refine Lists_pred ?_ hI.lists
        intro x
        rw [FreeIn_nil]; simp
      refine Lists_congr ?_ ?_ hL0
      · intro x hx
        have : x + 32 ≤ h.epilogue := by
          rcases hx with hx | hx
          · exact (FreeIn_left hI.tiled hx).2
          · exact absurd hx (by rw [FreeIn_nil]; exact id)
        exact ⟨GET_SIZE_congr (hrd _ (by omega)), hrd _ (by omega), hrd _ (by omega)⟩
      · intro i hi
        exact ⟨hrd _ (by omega), hrd _ (by omega)⟩
    · unfold mem_heapsize at hbig
      rw [e0.1, e0.2] at hbig
      omega
  exact coalesce_calls_ok H (Or.inr rfl)

/-- The calls made by `mm_malloc`. -/
theorem mm_malloc_calls_ok {h : Heap} {live : List Nat} {bs : List Blk} (hI : Inv h live bs)
    (grant : Bool) (size : Nat)
    (hbig : mem_heapsize (mm_malloc grant h size).2 < 2 ^ 31 + 208) :
    ∀ c, c ∈ mm_malloc_calls grant h size → c.ok ∧ c.error = none := by
  by_cases hsz : size = 0
  · have e : mm_malloc_calls grant h size = [] := by
      unfold mm_malloc_calls
      rw [if_pos hsz]
    rw [e]
    intro c hc
    cases hc
  obtain ⟨a1, a2, a3⟩ := adjust_size_spec size
  by_cases hfit : find_fit h.segList h.mem (adjust_size size) = 0
  swap
  · obtain ⟨r, hr, hra, hr0, hge⟩ := hI.fit_block _ hfit
    have e : mm_malloc_calls grant h size =
        place_calls h.segList h.mem r.addr (adjust_size size) := by
      unfold mm_malloc_calls
      rw [if_neg hsz]
      simp only []
      rw [if_pos hfit, hra]
    rw [e]
    exact place_calls_ok hI.tiled hI.sent hI.lists hr hr0 a1 a2 hge
  generalize hextdef : (if endFree h = true then
      (adjust_size size + 2 ^ 64 - lastSize h) % 2 ^ 64 % 2 ^ 32 else adjust_size size) = ext
  have hm := mm_malloc_nofit_eq grant h size hsz hfit ext hextdef.symm
  have hmc : mm_malloc_calls grant h size =
      extend_heap_calls grant h (ext / 8) ++
        (if (extend_heap grant h (ext / 8)).1 ≠ 0 then
          place_calls (extend_heap grant h (ext / 8)).2.segList
            (extend_heap grant h (ext / 8)).2.mem (extend_heap grant h (ext / 8)).1
            (adjust_size size)
        else []) := by
    unfold mm_malloc_calls
    rw [if_neg hsz]
    simp only [hfit, ne_eq, NULL, not_true_eq_false, if_false, hextdef]
  have hshape : (ext = adjust_size size ∧ (∀ l p, bs = l ++ [p] → p.alloc = 1)) ∨
      (∃ l p, bs = l ++ [p] ∧ p.alloc = 0 ∧
        ext = (adjust_size size + 2 ^ 64 - p.size) % 2 ^ 64 % 2 ^ 32 ∧ p.size % 8 = 0) := by
    rcases snoc_cases bs with hb | ⟨l, p, hb⟩
    · subst hb
      left
      rw [hI.endFree_nil] at hextdef
      exact ⟨hextdef.symm, fun l p hl => by simp at hl⟩
    · subst hb
      obtain ⟨e1, e2⟩ := hI.endFree_snoc
      have hpok := Tiled_mem_ok _ _ _ hI.tiled p (by simp)
      rcases alloc_cases hpok with h0 | h1
      · right
        refine ⟨l, p, rfl, h0, ?_, hpok.2.2.2.2.2⟩
        rw [e1, e2] at hextdef
        simp only [h0, decide_True, if_true] at hextdef
        exact hextdef.symm
      · left
        rw [e1] at hextdef
        simp only [h1] at hextdef
        refine ⟨by simpa using hextdef.symm, ?_⟩
        intro l2 p2 hl
        rw [← (snoc_inj hl).2]; exact h1
  have hext8 : ext / 8 * 8 % 2 ^ 32 = ext := by
    rcases hshape with ⟨h1, _⟩ | ⟨_, p, _, _, h1, h2⟩
    · omega
    · omega
  have hbig2 : mem_heapsize (extend_heap grant h (ext / 8)).2 < 2 ^ 31 + 208 := by
    rw [hm] at hbig
    split_ifs at hbig
    · exact hbig
    · exact hbig
  have hsmall : 32 ≤ ext / 8 * 8 % 2 ^ 32 ∨ ∃ l p, bs = l ++ [p] ∧ p.alloc = 0 := by
    rcases hshape with ⟨h1, _⟩ | ⟨l, p, h1, h2, _⟩
    · left; omega
    · right; exact ⟨l, p, h1, h2⟩
  have hext := extend_heap_calls_ok hI grant (ext / 8) hbig2
  rw [hmc]
  intro c hc
  rcases List.mem_append.1 hc with hc1 | hc2
  · exact hext c hc1
  rcases extend_heap_full hI grant (ext / 8) hsmall hbig2 with ⟨r1, r2⟩ | ⟨bs2, r, r1, hI2, hr, hr0,
    hseg, hra, hrs, hsub, hfr⟩
  · rw [r1] at hc2
    simp at hc2
  · have hrok := Tiled_mem_ok _ _ _ hI2.tiled r hr
    have hrb := (Tiled_bounds _ _ _ hI2.tiled).2 r hr
    have hrlt := GET_SIZE_lt (extend_heap grant h (ext / 8)).2.mem r.addr
    rw [hrok.1] at hrlt
    have hrsz : r.size = adjust_size size := by
      rcases hshape with ⟨h1, hall⟩ | ⟨l, p, hb, hp0, h1, _⟩
      · have := (absorbPrev_alloc bs hall).1; omega
      · have e1 : absorbPrev bs = p.size := by rw [hb, absorbPrev_snoc, if_pos hp0]
        have hpok := Tiled_mem_ok _ _ _ hI.tiled p (by rw [hb]; simp)
        have hplt := GET_SIZE_lt h.mem p.addr
        rw [hpok.1] at hplt
        omega
    have h8s := hI2.sent.2.2.2
    have hr0' : r.addr ≠ 0 := by omega
    rw [r1, if_pos hr0'] at hc2
    exact place_calls_ok hI2.tiled hI2.sent hI2.lists hr hr0 a1 a2 (le_of_eq hrsz.symm) c hc2

theorem reach_stLarge : Reachable stLarge :=
  Reachable.malloc true _ _ reach_stInit (by decide)

/-- C33: the printing early returns are not taken while the arena is smaller
than `2^31 + 208` bytes.  For every call of `removeBlock`, `insertBlock` and
`coalesce` made during `mm_init` (in any heap), during `mm_malloc` in a
reachable state (the arena after the call smaller than `2^31 + 208` bytes),
and during `mm_free` of a live payload in a reachable state (the arena
smaller than `2^31 + 208` bytes): the block passed to `removeBlock` is not
null and is a member of the list of class `calcList` of its current size, the
list that `insertBlock` changes has a null head exactly when it has a null
tail, the block passed to `coalesce` is not null, and the call takes none of
the five early returns. -/
theorem error_branches_unreachable (s : St) (hr : Reachable s) :
    (∀ (grant : Bool) (h : Heap) (c : Call),
      c ∈ mm_init_calls grant h → c.ok ∧ c.error = none) ∧
    (∀ (grant : Bool) (size : Nat),
      mem_heapsize (mm_malloc grant s.heap size).2 < 2 ^ 31 + 208 →
      ∀ c, c ∈ mm_malloc_calls grant s.heap size → c.ok ∧ c.error = none) ∧
    (mem_heapsize s.heap < 2 ^ 31 + 208 →
      ∀ p, p ∈ s.live → ∀ c, c ∈ mm_free_calls s.heap p → c.ok ∧ c.error = none) := by
  refine ⟨fun grant h c hc => mm_init_calls_ok grant h c hc, ?_, ?_⟩
  · intro grant size hbig c hc
    have hle := mm_malloc_heapsize grant s.heap size
    obtain ⟨bs, hI⟩ := reachable_inv hr (by omega)
    exact mm_malloc_calls_ok hI grant size hbig c hc
  · intro hbig p hp c hc
    obtain ⟨bs, hI⟩ := reachable_inv hr hbig
    exact mm_free_calls_ok hI hp hbig c hc

/-- The theorem in the state `stFrag`: `mm_init` makes one call, a request of
5000 bytes makes four (the arena grows, the new block is merged with the free
last block, and the merged block is placed), the release of the payload
`4296016392`, whose block lies between two free blocks, makes four, and none
of the calls takes an early return. -/
theorem error_branches_unreachable_witness :
    ((mm_init_calls true (fresh_heap zeroMem 4296015872)).length = 1 ∧
      (mm_malloc_calls true stFrag.heap 5000).length = 4 ∧
      4296016392 ∈ stFrag.live ∧
      (mm_free_calls stFrag.heap 4296016392).length = 4) ∧
    (∀ c, c ∈ mm_init_calls true (fresh_heap zeroMem 4296015872) → c.ok ∧ c.error = none) ∧
    (∀ c, c ∈ mm_malloc_calls true stFrag.heap 5000 → c.ok ∧ c.error = none) ∧
    (∀ c, c ∈ mm_free_calls stFrag.heap 4296016392 → c.ok ∧ c.error = none) :=
  ⟨⟨by decide, by decide, by decide, by decide⟩,
    (error_branches_unreachable stFrag reach_stFrag).1 true (fresh_heap zeroMem 4296015872),
    (error_branches_unreachable stFrag reach_stFrag).2.1 true 5000 (by decide),
    (error_branches_unreachable stFrag reach_stFrag).2.2 (by decide) 4296016392 (by decide)⟩

/-- In an arena of `2^31 + 216` bytes an early return is taken.  The state
`stLarge` is reached by `mm_init` and `mm_malloc(2^31 - 8)`, which returns
`4296016080`; the size fields have wrapped: the block `4296016072` of the live
payload has the size field 0, and list 0 holds `4296016080` alone.
`mm_free(4296016080)` calls `coalesce`, which calls `removeBlock` twice on the
block `4296016072`; both calls take the early return
`block not in one-element list`. -/
theorem error_branches_counterexample :
    Reachable stLarge ∧ stLarge.live = [4296016080] ∧
    mem_heapsize stLarge.heap = 2 ^ 31 + 216 ∧
    GET_SIZE stLarge.heap.mem 4296016072 = 0 ∧
    getNext stLarge.heap.mem (stLarge.heap.segList + MIN_BLOCK_SIZE * 0) = 4296016080 ∧
    getPrev stLarge.heap.mem (stLarge.heap.segList + MIN_BLOCK_SIZE * 0) = 4296016080 ∧
    (mm_free_calls stLarge.heap 4296016080).map Call.error =
      [none, some ErrMsg.notInList, some ErrMsg.notInList, none] :=
  ⟨reach_stLarge, by decide, by decide, by decide, by decide, by decide, by decide⟩

/-- C14: `mm_malloc` returns `NULL` for a size that is not 0 although no grow
call fails.  In the reachable state `stFrag`, an arena of 8192 bytes that
`mem_sbrk` would grow, `mm_malloc(480)` returns `NULL` and leaves the break
where it was.  The adjusted size is 496.  The free block `4296023560` of 496
bytes, the last block of the arena, is the 13th entry of list 0, after 12 free
blocks of 312 bytes, and `find_fit` does not reach it.  The last block being
free, the number of bytes to extend by is `asize - lastSize() = 0`, and
`extend_heap(0)` returns `NULL` at its test `size == 0`, before it calls
`mem_sbrk`.  So `NULL` is returned where the size is not 0, the grow call is
never made, a free block that fits is in the list of the class of the request,
and the arena is able to grow by the 496 bytes of the request. -/
theorem malloc_null_growth_skipped :
    Reachable stFrag ∧ mem_heapsize stFrag.heap = 8192 ∧
      adjust_size 480 = 496 ∧
      (mm_malloc true stFrag.heap 480).1 = NULL ∧
      (mm_malloc true stFrag.heap 480).2.mem_brk = stFrag.heap.mem_brk ∧
      find_fit stFrag.heap.segList stFrag.heap.mem (adjust_size 480) = NULL ∧
      (IsPath stFrag.heap.mem (listHead stFrag.heap 0) (flFrag 0) NULL ∧
        flFrag 0 = (flFrag 0).take 12 ++ [4296023560] ∧
        (∀ x, x ∈ (flFrag 0).take 12 → GET_SIZE stFrag.heap.mem x = 312) ∧
        calcList (adjust_size 480) = 0) ∧
      (GET_SIZE stFrag.heap.mem 4296023560 = 496 ∧
        GET_ALLOC stFrag.heap.mem 4296023560 = 0 ∧
        PREV_BLKP stFrag.heap.mem stFrag.heap.epilogue = 4296023560) ∧
      (endFree stFrag.heap = true ∧ lastSize stFrag.heap = adjust_size 480 ∧
        extend_request stFrag.heap 480 = 0 ∧
        extend_heap true stFrag.heap (extend_request stFrag.heap 480 / 8) =
          (NULL, stFrag.heap)) ∧
      (mem_sbrk true stFrag.heap 496).1 ≠ SBRK_FAIL ∧
      ¬ GrowFails true stFrag.heap 480 ∧
      ¬ ((mm_malloc true stFrag.heap 480).1 = NULL ↔
        (480 = 0 ∨ GrowFails true stFrag.heap 480)) :=
  have hn : (mm_malloc true stFrag.heap 480).1 = NULL := by decide
  have hreq : extend_request stFrag.heap 480 = 0 := by decide
  have hg : ¬ GrowFails true stFrag.heap 480 := fun h => h.1.2.2 hreq
  have hx : extend_heap true stFrag.heap (extend_request stFrag.heap 480 / 8) =
      (NULL, stFrag.heap) := by
    rw [hreq]; rfl
  ⟨reach_stFrag, by decide, by decide, hn, by decide, by decide,
    ⟨by decide, by decide, by decide, by decide⟩,
    ⟨by decide, by decide, by decide⟩,
    ⟨by decide, by decide, hreq, hx⟩,
    by decide, hg, fun h => by
      rcases h.1 hn with h1 | h1
      · exact absurd h1 (by decide)
      · exact hg h1⟩

end MallocV3
